import Mathlib

/-!
Athena Paxos: replica (`Server.hxx`) and coordinator (`Client.hxx`)

A shallow embedding of `athena::paxos::Server` and `athena::paxos::Client`,
instantiated as in `tests/paxos.cc` (`T = Version = ClientId = ServerId = int`).
Integers are unbounded (`Int`): signed overflow of a round or a version is
undefined behaviour in the source and is left out.

* A replica is a value of `Server`; each RPC is a function returning the
  replica as the call leaves it together with what the call returned or threw.
* The coordinator is a program (`Prog`) that issues peer calls one at a time;
  `Prog.run` executes it against a `World` of replicas, and `System.run`
  interleaves several coordinators, one atomic RPC per step.
-/

namespace Athena

/-! ## Shared data model -/

/-- The set of server ids allowed to vote (`Server::Quorum`). -/
abbrev Quorum := Finset Int

/-- The wire-format level, `elle::Version(major, minor, subminor)`. -/
structure ElleVersion where
  major : Nat
  minor : Nat
  subminor : Nat
  deriving DecidableEq, Repr

/-- Modelled from the spec: `elle::Version::operator <` (declared in
`elle/Version.hh`, its body is not among the sources) is the lexicographic
order on `(major, minor, subminor)`. -/
def ElleVersion.lt (a b : ElleVersion) : Bool :=
  if a.major ≠ b.major then decide (a.major < b.major)
  else if a.minor ≠ b.minor then decide (a.minor < b.minor)
  else decide (a.subminor < b.subminor)

/-- The payload of a slot, `elle::Option<T, Quorum>`: application data or a
new quorum. -/
inductive Value where
  | data (t : Int)
  | quorum (q : Quorum)
  deriving DecidableEq

/-- The proposal `Server::Proposal`: `(version, round, sender)`. -/
structure Proposal where
  version : Int
  round : Int
  sender : Int
  deriving DecidableEq, Repr

/-- The comparison `Proposal::operator <` (Server.hxx:48-60). -/
def Proposal.lt (self rhs : Proposal) : Bool :=
  if self.version ≠ rhs.version then decide (self.version < rhs.version)
  else if self.round ≠ rhs.round then decide (self.round < rhs.round)
  else decide (self.sender < rhs.sender)

/-- The record `Server::Accepted`. -/
structure Accepted where
  proposal : Proposal
  value : Value
  confirmed : Bool

/-- Equality of entries can be decided field by field. -/
instance Accepted.decEq : DecidableEq Accepted :=
  fun a b =>
    decidable_of_iff (a.proposal = b.proposal ∧ a.value = b.value ∧ a.confirmed = b.confirmed)
      (by cases a; cases b; simp)

/-- The record `Server::VersionState`: the live slot of a replica. -/
structure VersionState where
  proposal : Proposal
  accepted : Option Accepted
  deriving DecidableEq

/-- The accessor `VersionState::version()` (Server.hxx:485-491). -/
def VersionState.version (self : VersionState) : Int :=
  self.proposal.version

/-- Everything the replica and the coordinator throw. `WrongQuorum` and
`TooFewPeers` are the source's classes; the two protocol violations are the
`elle::Error`s thrown by `accept` and `confirm`; `AssertionFailed` is a failed
`ELLE_ASSERT`; `BadAccess` is `elle::Option::get<T>` on a value that holds a
quorum; `Unavailable` is `Peer::Unavailable`. -/
inductive Error where
  | WrongQuorum (expected effective : Quorum)
  | ProposeBeforeAccepting
  | ProposeAndAcceptBeforeConfirming
  | AssertionFailed
  | BadAccess
  | Unavailable
  | TooFewPeers (effective total : Int)

/-- Equality of errors can be decided, constructor by constructor. -/
instance Error.decEq : DecidableEq Error
  | .WrongQuorum e1 f1, .WrongQuorum e2 f2 =>
    decidable_of_iff (e1 = e2 ∧ f1 = f2) (by simp)
  | .TooFewPeers e1 t1, .TooFewPeers e2 t2 =>
    decidable_of_iff (e1 = e2 ∧ t1 = t2) (by simp)
  | .ProposeBeforeAccepting, .ProposeBeforeAccepting => isTrue rfl
  | .ProposeAndAcceptBeforeConfirming, .ProposeAndAcceptBeforeConfirming => isTrue rfl
  | .AssertionFailed, .AssertionFailed => isTrue rfl
  | .BadAccess, .BadAccess => isTrue rfl
  | .Unavailable, .Unavailable => isTrue rfl
  | .WrongQuorum _ _, .ProposeBeforeAccepting => isFalse (by simp)
  | .WrongQuorum _ _, .ProposeAndAcceptBeforeConfirming => isFalse (by simp)
  | .WrongQuorum _ _, .AssertionFailed => isFalse (by simp)
  | .WrongQuorum _ _, .BadAccess => isFalse (by simp)
  | .WrongQuorum _ _, .Unavailable => isFalse (by simp)
  | .WrongQuorum _ _, .TooFewPeers _ _ => isFalse (by simp)
  | .ProposeBeforeAccepting, .WrongQuorum _ _ => isFalse (by simp)
  | .ProposeBeforeAccepting, .ProposeAndAcceptBeforeConfirming => isFalse (by simp)
  | .ProposeBeforeAccepting, .AssertionFailed => isFalse (by simp)
  | .ProposeBeforeAccepting, .BadAccess => isFalse (by simp)
  | .ProposeBeforeAccepting, .Unavailable => isFalse (by simp)
  | .ProposeBeforeAccepting, .TooFewPeers _ _ => isFalse (by simp)
  | .ProposeAndAcceptBeforeConfirming, .WrongQuorum _ _ => isFalse (by simp)
  | .ProposeAndAcceptBeforeConfirming, .ProposeBeforeAccepting => isFalse (by simp)
  | .ProposeAndAcceptBeforeConfirming, .AssertionFailed => isFalse (by simp)
  | .ProposeAndAcceptBeforeConfirming, .BadAccess => isFalse (by simp)
  | .ProposeAndAcceptBeforeConfirming, .Unavailable => isFalse (by simp)
  | .ProposeAndAcceptBeforeConfirming, .TooFewPeers _ _ => isFalse (by simp)
  | .AssertionFailed, .WrongQuorum _ _ => isFalse (by simp)
  | .AssertionFailed, .ProposeBeforeAccepting => isFalse (by simp)
  | .AssertionFailed, .ProposeAndAcceptBeforeConfirming => isFalse (by simp)
  | .AssertionFailed, .BadAccess => isFalse (by simp)
  | .AssertionFailed, .Unavailable => isFalse (by simp)
  | .AssertionFailed, .TooFewPeers _ _ => isFalse (by simp)
  | .BadAccess, .WrongQuorum _ _ => isFalse (by simp)
  | .BadAccess, .ProposeBeforeAccepting => isFalse (by simp)
  | .BadAccess, .ProposeAndAcceptBeforeConfirming => isFalse (by simp)
  | .BadAccess, .AssertionFailed => isFalse (by simp)
  | .BadAccess, .Unavailable => isFalse (by simp)
  | .BadAccess, .TooFewPeers _ _ => isFalse (by simp)
  | .Unavailable, .WrongQuorum _ _ => isFalse (by simp)
  | .Unavailable, .ProposeBeforeAccepting => isFalse (by simp)
  | .Unavailable, .ProposeAndAcceptBeforeConfirming => isFalse (by simp)
  | .Unavailable, .AssertionFailed => isFalse (by simp)
  | .Unavailable, .BadAccess => isFalse (by simp)
  | .Unavailable, .TooFewPeers _ _ => isFalse (by simp)
  | .TooFewPeers _ _, .WrongQuorum _ _ => isFalse (by simp)
  | .TooFewPeers _ _, .ProposeBeforeAccepting => isFalse (by simp)
  | .TooFewPeers _ _, .ProposeAndAcceptBeforeConfirming => isFalse (by simp)
  | .TooFewPeers _ _, .AssertionFailed => isFalse (by simp)
  | .TooFewPeers _ _, .BadAccess => isFalse (by simp)
  | .TooFewPeers _ _, .Unavailable => isFalse (by simp)

/-- Equality of call results can be decided. -/
instance decEqExcept {ε α : Type} [DecidableEq ε] [DecidableEq α] : DecidableEq (Except ε α)
  | .ok a, .ok b =>
    if h : a = b then isTrue (by rw [h]) else isFalse (fun h' => h (by cases h'; rfl))
  | .error a, .error b =>
    if h : a = b then isTrue (by rw [h]) else isFalse (fun h' => h (by cases h'; rfl))
  | .ok _, .error _ => isFalse (fun h => by cases h)
  | .error _, .ok _ => isFalse (fun h => by cases h)

/-! ## The replica (`Server.hxx`) -/

/-- The replica `athena::paxos::Server`. -/
structure Server where
  id : Int
  quorum_initial : Quorum
  value : Option Int
  version : ElleVersion
  state : Option VersionState

/-- Equality of replicas can be decided field by field. -/
instance Server.decEq : DecidableEq Server :=
  fun a b =>
    decidable_of_iff
      (a.id = b.id ∧ a.quorum_initial = b.quorum_initial ∧ a.value = b.value ∧
        a.version = b.version ∧ a.state = b.state)
      (by cases a; cases b; simp)

/-- The member initialisers of `Server::Server(id, quorum, version)`
(Server.hxx:228-237). -/
def Server.fresh (id : Int) (quorum : Quorum) (version : ElleVersion) : Server :=
  { id := id, quorum_initial := quorum, value := none, version := version, state := none }

/-- The constructor `Server::Server(id, quorum, version)` with its
`ELLE_ASSERT_CONTAINS(quorum_initial, id)` (Server.hxx:228-241). -/
def Server.new (id : Int) (quorum : Quorum) (version : ElleVersion) : Except Error Server :=
  if id ∈ quorum then .ok (Server.fresh id quorum version) else .error .AssertionFailed

/-- The check `_Details::check_quorum` (Server.hxx:250-261). -/
def check_quorum (self : Server) (q : Quorum) : Except Error Unit :=
  if q ≠ self.quorum_initial then .error (.WrongQuorum self.quorum_initial q) else .ok ()

/-- The check `_Details::check_confirmed` (Server.hxx:265-281). -/
def check_confirmed (self : Server) (p : Proposal) : Bool :=
  if self.version.lt ⟨0, 1, 0⟩ then true
  else
    match self.state with
    | none => true
    | some st =>
      let version := st.proposal.version
      if version ≥ p.version then true
      else if decide (version = p.version - 1) &&
          (match st.accepted with
           | some a => a.confirmed
           | none => false) then true
      else false

/-- The RPC `Server::propose` (Server.hxx:288-339). The first component is
the replica as the call leaves it, also when it throws. -/
def Server.propose (self : Server) (q : Quorum) (p : Proposal) :
    Server × Except Error (Option Accepted) :=
  let behind : Bool :=
    match self.state with
    | some st =>
      (match st.accepted with
       | some a => decide (a.proposal.version > p.version)
       | none => false)
    | none => false
  if behind then (self, .ok (self.state.bind VersionState.accepted))
  else
    let checked : Server × Except Error Unit :=
      if check_confirmed self p then
        let advanced : Except Error Server :=
          match self.state with
          | some st =>
            if p.version > st.proposal.version then
              match st.accepted with
              | none => .error .AssertionFailed
              | some accepted =>
                (match accepted.value with
                 | .data t => .ok { self with value := some t, state := none }
                 | .quorum q' => .ok { self with quorum_initial := q', state := none })
            else .ok self
          | none => .ok self
        match advanced with
        | .error e => (self, .error e)
        | .ok s => (s, check_quorum s q)
      else ({ self with state := none }, .ok ())
    match checked with
    | (s, .error e) => (s, .error e)
    | (s, .ok _) =>
      match s.state with
      | none => ({ s with state := some ⟨p, none⟩ }, .ok none)
      | some st =>
        if st.proposal.lt p then
          ({ s with state := some { st with proposal := p } }, .ok st.accepted)
        else (s, .ok st.accepted)

/-- The RPC `Server::accept` (Server.hxx:341-374). -/
def Server.accept (self : Server) (q : Quorum) (p : Proposal) (value : Value) :
    Server × Except Error Proposal :=
  match check_quorum self q with
  | .error e => (self, .error e)
  | .ok _ =>
    match self.state with
    | none => (self, .error .ProposeBeforeAccepting)
    | some version =>
      if version.proposal.lt p then (self, .error .ProposeBeforeAccepting)
      else if p.lt version.proposal then (self, .ok version.proposal)
      else if !(p.lt version.proposal) then
        let accepted : Accepted :=
          match version.accepted with
          | none => ⟨p, value, false⟩
          | some a => { a with proposal := p, value := value }
        ({ self with state := some { version with accepted := some accepted } },
          .ok version.proposal)
      else (self, .ok version.proposal)

/-- The RPC `Server::confirm` (Server.hxx:376-401). -/
def Server.confirm (self : Server) (q : Quorum) (p : Proposal) :
    Server × Except Error Unit :=
  match check_quorum self q with
  | .error e => (self, .error e)
  | .ok _ =>
    match self.state with
    | none => (self, .error .ProposeAndAcceptBeforeConfirming)
    | some st =>
      if st.proposal.lt p then (self, .error .ProposeAndAcceptBeforeConfirming)
      else
        match st.accepted with
        | none => (self, .error .ProposeAndAcceptBeforeConfirming)
        | some accepted =>
          if p.lt st.proposal then (self, .ok ())
          else if !accepted.confirmed then
            ({ self with
                state := some { st with accepted := some { accepted with confirmed := true } } },
              .ok ())
          else (self, .ok ())

/-- The accessor `Server::current_quorum` (Server.hxx:403-414). -/
def Server.current_quorum (self : Server) : Quorum :=
  match self.state with
  | some ⟨_, some ⟨_, .quorum q, true⟩⟩ => q
  | _ => self.quorum_initial

/-- The accessor `Server::current_value` (Server.hxx:416-431). -/
def Server.current_value (self : Server) : Option Accepted :=
  match self.state with
  | none => none
  | some st =>
    match st.accepted with
    | some ⟨pr, .data t, true⟩ => some ⟨pr, .data t, true⟩
    | _ =>
      match self.value with
      | some v => some ⟨st.proposal, .data v, true⟩
      | none => none

/-- The accessor `Server::current_version` (Server.hxx:433-447);
`Version()` is `0`. -/
def Server.current_version (self : Server) : Int :=
  match self.state with
  | some st =>
    (match st.accepted with
     | some ⟨_, _, true⟩ => st.version
     | _ => st.version - 1)
  | none => 0

/-- The RPC `Server::get` (Server.hxx:449-457). -/
def Server.get (self : Server) (q : Quorum) : Server × Except Error (Option Accepted) :=
  match check_quorum self q with
  | .error e => (self, .error e)
  | .ok _ => (self, .ok self.current_value)

/-! ## Peer handles and coordinator programs -/

/-- The peer handles of `tests/paxos.cc`, subclasses of `Client::Peer`:
`Peer` forwards every call to a replica, `UnavailablePeer` throws
`Unavailable` on every call, `ProposeOnlyPeer` forwards every call but
`accept`, which throws `Unavailable`. A replica is named by its place in the
`World`. -/
inductive PeerKind where
  | replica (server : Nat)
  | unavailable
  | proposeOnly (server : Nat)
  deriving DecidableEq

/-- A peer handle: the id it reports (`Peer::id()`) and what answers. -/
structure Peer where
  id : Int
  kind : PeerKind
  deriving DecidableEq

/-- What a coordinator asks of its environment: the four calls of the peer
handle contract, the random draw `random::generate<uint8_t>(lo, hi)` and
`reactor::sleep(delay)`; the index is the type of the answer. -/
inductive Req : Type → Type where
  | propose (peer : Peer) (q : Quorum) (p : Proposal) : Req (Except Error (Option Accepted))
  | accept (peer : Peer) (q : Quorum) (p : Proposal) (value : Value) : Req (Except Error Proposal)
  | confirm (peer : Peer) (q : Quorum) (p : Proposal) : Req (Except Error Unit)
  | get (peer : Peer) (q : Quorum) : Req (Except Error (Option Accepted))
  | random (lo hi : Nat) : Req Nat
  | sleep (delay : Int) : Req Unit

/-- A coordinator computation: it either is finished with a result or issues
one request and goes on with the answer. -/
inductive Prog (α : Type) : Type 1 where
  | ret (a : α) : Prog α
  | call {β : Type} (r : Req β) (k : β → Prog α) : Prog α

/-- Sequencing of coordinator computations. -/
def Prog.bind {α β : Type} : Prog α → (α → Prog β) → Prog β
  | .ret a, f => f a
  | .call r k, f => .call r (fun b => (k b).bind f)

/-- The replicas, and the source of the random draws (`draws n` is the n-th
draw). -/
structure World where
  servers : Nat → Server
  draws : Nat → Nat
  drawn : Nat

/-- The world with replica `i` replaced. -/
def World.set (w : World) (i : Nat) (s : Server) : World :=
  { w with servers := Function.update w.servers i s }

/-- The call `peer->propose(q, p)` for the three kinds of handle. -/
def Peer.propose (peer : Peer) (q : Quorum) (p : Proposal) (w : World) :
    Except Error (Option Accepted) × World :=
  match peer.kind with
  | .replica i => (((w.servers i).propose q p).2, w.set i ((w.servers i).propose q p).1)
  | .unavailable => (.error .Unavailable, w)
  | .proposeOnly i => (((w.servers i).propose q p).2, w.set i ((w.servers i).propose q p).1)

/-- The call `peer->accept(q, p, value)` for the three kinds of handle. -/
def Peer.accept (peer : Peer) (q : Quorum) (p : Proposal) (value : Value) (w : World) :
    Except Error Proposal × World :=
  match peer.kind with
  | .replica i =>
    (((w.servers i).accept q p value).2, w.set i ((w.servers i).accept q p value).1)
  | .unavailable => (.error .Unavailable, w)
  | .proposeOnly _ => (.error .Unavailable, w)

/-- The call `peer->confirm(q, p)` for the three kinds of handle. -/
def Peer.confirm (peer : Peer) (q : Quorum) (p : Proposal) (w : World) :
    Except Error Unit × World :=
  match peer.kind with
  | .replica i => (((w.servers i).confirm q p).2, w.set i ((w.servers i).confirm q p).1)
  | .unavailable => (.error .Unavailable, w)
  | .proposeOnly i => (((w.servers i).confirm q p).2, w.set i ((w.servers i).confirm q p).1)

/-- The call `peer->get(q)` for the three kinds of handle. -/
def Peer.get (peer : Peer) (q : Quorum) (w : World) :
    Except Error (Option Accepted) × World :=
  match peer.kind with
  | .replica i => (((w.servers i).get q).2, w.set i ((w.servers i).get q).1)
  | .unavailable => (.error .Unavailable, w)
  | .proposeOnly i => (((w.servers i).get q).2, w.set i ((w.servers i).get q).1)

/-- One request answered by the world: a peer call runs the replica's RPC
atomically, a draw takes the next number, a sleep only passes time. -/
def exec : {β : Type} → Req β → World → β × World
  | _, .propose peer q p, w => peer.propose q p w
  | _, .accept peer q p value, w => peer.accept q p value w
  | _, .confirm peer q p, w => peer.confirm q p w
  | _, .get peer q, w => peer.get q w
  | _, .random _ _, w => (w.draws w.drawn, { w with drawn := w.drawn + 1 })
  | _, .sleep _, w => ((), w)

/-- A coordinator computation run to its end, alone, against the world. -/
def Prog.run {α : Type} : Prog α → World → α × World
  | .ret a, w => (a, w)
  | .call r k, w => (k (exec r w).1).run (exec r w).2

/-! ## The coordinator (`Client.hxx`) -/

/-- The coordinator `athena::paxos::Client`. -/
structure Client where
  id : Int
  peers : List Peer
  conflict_backoff : Bool
  round : Int
  deriving DecidableEq

/-- The constructor `Client::Client(id, peers)` (Client.hxx:35-43); it asserts
that `peers` is not empty. -/
def Client.new (id : Int) (peers : List Peer) : Client :=
  { id := id, peers := peers, conflict_backoff := true, round := 0 }

/-- How a call of the coordinator ends: it returns, it throws, or the budget
of loop iterations given to the embedding ran out first. -/
inductive Outcome (α : Type) where
  | returned (a : α)
  | raised (e : Error)
  | unfinished
  deriving DecidableEq

/-- How one task of a `for_each_parallel` ends: normally, after calling
`scope.terminate_now()`, or with an exception that escapes it. -/
inductive Task (σ : Type) where
  | done (s : σ)
  | terminated (s : σ)
  | threw (e : Error)

/-- The check `Client::_check_headcount` (Client.hxx:72-86); the division is
that of C++ `int`. -/
def Client._check_headcount (q : Quorum) (reached : Int) (reading : Bool) : Except Error Unit :=
  let size : Int := q.card
  if reached ≤ Int.tdiv (size - (if reading then 1 else 0)) 2 then
    .error (.TooFewPeers reached size)
  else .ok ()

/-- The helper `for_each_parallel(c, f)` (Client.hxx:88-102) for peers that
answer without suspending: the tasks run one after another in the order of
`c`, sharing the variables `s` that `f` captures by reference; a task that
terminates the scope or throws keeps the later ones from running. -/
def for_each_parallel {σ : Type} (f : Peer → σ → Prog (Task σ)) :
    List Peer → σ → Prog (Except Error σ)
  | [], s => .ret (.ok s)
  | elt :: c, s =>
    (f elt s).bind fun t =>
      match t with
      | .done s' => for_each_parallel f c s'
      | .terminated s' => .ret (.ok s')
      | .threw e => .ret (.error e)

/-- The quorum `q` that `choose` and `get_quorum` build from the peer list
(Client.hxx:113-115, 258-260). -/
def Client.quorum (peers : List Peer) : Quorum :=
  peers.foldl (fun q peer => insert peer.id q) ∅

/-- The task of the propose phase (Client.hxx:127-149) on the shared
variables `(previous, reached)`. -/
def Client.propose_task (q : Quorum) (proposal : Proposal) (peer : Peer)
    (s : Option Accepted × Int) : Prog (Task (Option Accepted × Int)) :=
  .call (.propose peer q proposal) fun r =>
    match r with
    | .ok (some p) =>
      (match s.1 with
       | none => .ret (.done (some p, s.2 + 1))
       | some previous =>
         if previous.proposal.lt p.proposal then .ret (.done (some p, s.2 + 1))
         else .ret (.done (s.1, s.2 + 1)))
    | .ok none => .ret (.done (s.1, s.2 + 1))
    | .error .Unavailable => .ret (.done s)
    | .error e => .ret (.threw e)

/-- The task of the accept phase (Client.hxx:171-198) on the shared variables
`(conflict, reached)`: `conflict` holds the `minimum` that set `conflicted`,
`version` and `_round`. -/
def Client.accept_task (q : Quorum) (proposal : Proposal) (value : Value) (peer : Peer)
    (s : Option Proposal × Int) : Prog (Task (Option Proposal × Int)) :=
  .call (.accept peer q proposal value) fun r =>
    match r with
    | .ok minimum =>
      if proposal.lt minimum then .ret (.terminated (some minimum, s.2 + 1))
      else .ret (.done (s.1, s.2 + 1))
    | .error .Unavailable => .ret (.done s)
    | .error e => .ret (.threw e)

/-- The task of the confirm phase (Client.hxx:222-237) on the shared variable
`reached`. -/
def Client.confirm_task (q : Quorum) (proposal : Proposal) (peer : Peer) (reached : Int) :
    Prog (Task Int) :=
  .call (.confirm peer q proposal) fun r =>
    match r with
    | .ok _ => .ret (.done (reached + 1))
    | .error .Unavailable => .ret (.done reached)
    | .error e => .ret (.threw e)

/-- The value that the accept phase of `choose` sends (Client.hxx:179):
`previous ? previous->value : value`. -/
def Client.sent (value : Value) (previous : Option Accepted) : Value :=
  match previous with
  | some a => a.value
  | none => value

/-- The confirm phase of an iteration of `Client::choose` and the final
`return previous` (Client.hxx:216-242). -/
def Client.choose_confirm (q : Quorum) (self : Client) (proposal : Proposal)
    (previous : Option Accepted) : Prog (Client × Outcome (Option Accepted)) :=
  (for_each_parallel (Client.confirm_task q proposal) self.peers 0).bind fun r =>
    match r with
    | .error e => .ret (self, .raised e)
    | .ok reached =>
      match Client._check_headcount q reached false with
      | .error e => .ret (self, .raised e)
      | .ok _ => .ret (self, .returned previous)

/-- The accept phase of an iteration of `Client::choose` (Client.hxx:165-215)
followed by the confirm phase; `retry self version backoff previous` is the
`continue` of the enclosing loop. -/
def Client.choose_accept (q : Quorum) (value : Value)
    (retry : Client → Int → Int → Option Accepted → Prog (Client × Outcome (Option Accepted)))
    (self : Client) (proposal : Proposal) (backoff : Int) (previous : Option Accepted) :
    Prog (Client × Outcome (Option Accepted)) :=
  (for_each_parallel (Client.accept_task q proposal (Client.sent value previous))
      self.peers (none, 0)).bind fun r =>
    match r with
    | .error e => .ret (self, .raised e)
    | .ok (some minimum, _) =>
      .call (.random 1 8) fun rn =>
        let delay : Int := 100 * rn * backoff
        if self.conflict_backoff then
          .call (.sleep delay) fun _ =>
            retry { self with round := minimum.round } minimum.version
              (min (backoff * 2) 64) previous
        else
          retry { self with round := minimum.round } minimum.version
            (min (backoff * 2) 64) previous
    | .ok (none, reached) =>
      match Client._check_headcount q reached false with
      | .error e => .ret (self, .raised e)
      | .ok _ => Client.choose_confirm q self proposal previous

/-- The loop of `Client::choose` (Client.hxx:118-241): `fuel` bounds the
number of iterations, `self.round` is `_round`, and `version`, `backoff`,
`previous` are the locals that live across iterations. -/
def Client.choose_loop (q : Quorum) (value : Value) :
    Nat → Client → Int → Int → Option Accepted → Prog (Client × Outcome (Option Accepted))
  | 0, self, _, _, _ => .ret (self, .unfinished)
  | fuel + 1, self, version, backoff, previous =>
    let self : Client := { self with round := self.round + 1 }
    let proposal : Proposal := ⟨version, self.round, self.id⟩
    (for_each_parallel (Client.propose_task q proposal) self.peers (previous, 0)).bind fun r =>
      match r with
      | .error e => .ret (self, .raised e)
      | .ok (previous, reached) =>
        if (match previous with
            | some a => a.confirmed
            | none => false) then .ret (self, .returned previous)
        else
          match Client._check_headcount q reached false with
          | .error e => .ret (self, .raised e)
          | .ok _ =>
            match previous with
            | some a =>
              if proposal.lt a.proposal then
                Client.choose_loop q value fuel { self with round := a.proposal.round }
                  a.proposal.version backoff previous
              else
                Client.choose_accept q value (Client.choose_loop q value fuel)
                  self proposal backoff previous
            | none =>
              Client.choose_accept q value (Client.choose_loop q value fuel)
                self proposal backoff previous

/-- The call `Client::choose(version, value)` (Client.hxx:104-243); the
coordinator comes back with its `_round` as the call left it. -/
def Client.choose (fuel : Nat) (self : Client) (version : Int) (value : Value) :
    Prog (Client × Outcome (Option Accepted)) :=
  Client.choose_loop (Client.quorum self.peers) value fuel self version 1 none

/-- The task of `get_quorum` (Client.hxx:266-283) on the shared variables
`(res, reached)`. -/
def Client.get_task (q : Quorum) (peer : Peer) (s : Option Accepted × Int) :
    Prog (Task (Option Accepted × Int)) :=
  .call (.get peer q) fun r =>
    match r with
    | .ok (some accepted) =>
      (match s.1 with
       | none => .ret (.done (some accepted, s.2 + 1))
       | some res =>
         if res.proposal.lt accepted.proposal then .ret (.done (some accepted, s.2 + 1))
         else .ret (.done (s.1, s.2 + 1)))
    | .ok none => .ret (.done (s.1, s.2 + 1))
    | .error .Unavailable => .ret (.done s)
    | .error e => .ret (.threw e)

/-- The call `Client::get_quorum()` (Client.hxx:252-290). -/
def Client.get_quorum (self : Client) : Prog (Outcome (Option Int × Quorum)) :=
  let q := Client.quorum self.peers
  (for_each_parallel (Client.get_task q) self.peers (none, 0)).bind fun r =>
    match r with
    | .error e => .ret (.raised e)
    | .ok (res, reached) =>
      match Client._check_headcount q reached true with
      | .error e => .ret (.raised e)
      | .ok _ =>
        match res with
        | some a =>
          (match a.value with
           | .data t => .ret (.returned (some t, q))
           | .quorum _ => .ret (.raised .BadAccess))
        | none => .ret (.returned (none, q))

/-- The call `Client::get()` (Client.hxx:245-250): the first component of
`get_quorum()`. -/
def Client.get (self : Client) : Prog (Outcome (Option Int)) :=
  self.get_quorum.bind fun r =>
    match r with
    | .returned (v, _) => .ret (.returned v)
    | .raised e => .ret (.raised e)
    | .unfinished => .ret .unfinished

/-! ## Several coordinators against the same replicas -/

/-- The answer to a peer call that does not get through: `Unavailable`. A
draw or a sleep cannot be lost. -/
def Req.lost : {β : Type} → Req β → Option β
  | _, .propose _ _ _ => some (.error .Unavailable)
  | _, .accept _ _ _ _ => some (.error .Unavailable)
  | _, .confirm _ _ _ => some (.error .Unavailable)
  | _, .get _ _ => some (.error .Unavailable)
  | _, .random _ _ => none
  | _, .sleep _ => none

/-- One step of a coordinator: its pending request is answered, atomically,
by the world, or, when `lost`, by `Unavailable`. A finished coordinator stays
as it is. -/
def Prog.step {α : Type} (lost : Bool) : Prog α → World → Prog α × World
  | .ret a, w => (.ret a, w)
  | .call r k, w =>
    match (if lost then r.lost else none) with
    | some b => (k b, w)
    | none => (k (exec r w).1, (exec r w).2)

/-- The result of a coordinator that has finished. -/
def Prog.result {α : Type} : Prog α → Option α
  | .ret a => some a
  | .call _ _ => none

/-- One invocation `client.choose(version, value)`. -/
structure Call where
  client : Client
  fuel : Nat
  version : Int
  value : Value

/-- The program of an invocation. -/
def Call.prog (c : Call) : Prog (Client × Outcome (Option Accepted)) :=
  c.client.choose c.fuel c.version c.value

/-- Coordinators in the middle of their calls, and the replicas they share. -/
structure System where
  coordinators : List (Prog (Client × Outcome (Option Accepted)))
  world : World

/-- Coordinator `i` makes one step. -/
def System.step (sys : System) (i : Nat) (lost : Bool) : System :=
  match sys.coordinators[i]? with
  | none => sys
  | some prog =>
    { coordinators := sys.coordinators.set i (prog.step lost sys.world).1,
      world := (prog.step lost sys.world).2 }

/-- A history: at each step one coordinator has one RPC answered (`false`)
or lost (`true`). -/
def System.run (sys : System) : List (Nat × Bool) → System
  | [] => sys
  | (i, lost) :: rest => (sys.step i lost).run rest

/-- The outcome of coordinator `i`, once it has finished. -/
def System.outcome (sys : System) (i : Nat) : Option (Outcome (Option Accepted)) :=
  match sys.coordinators[i]? with
  | none => none
  | some prog => prog.result.map Prod.snd

/-! ## Vocabulary of the statements -/

/-- The peer handle answers every call or none: it is a `Peer` on a replica
or an `UnavailablePeer`. -/
def Peer.steady (peer : Peer) : Prop :=
  peer.kind = .unavailable ∨ ∃ i, peer.kind = .replica i

/-- The number of handles of the list that forward every call to a replica. -/
def available : List Peer → Nat
  | [] => 0
  | peer :: peers =>
    match peer.kind with
    | .replica _ => available peers + 1
    | _ => available peers

/-- The replica has promised `p` under the quorum `q` and accepted nothing. -/
def Server.promised (q : Quorum) (p : Proposal) (s : Server) : Prop :=
  s.quorum_initial = q ∧ s.state = some ⟨p, none⟩

/-- The replica, under the quorum `q`, has promised `p` and holds the entry
`(p, value, confirmed)`. -/
def Server.holds (q : Quorum) (p : Proposal) (value : Value) (confirmed : Bool)
    (s : Server) : Prop :=
  s.quorum_initial = q ∧ s.state = some ⟨p, some ⟨p, value, confirmed⟩⟩

/-- The replica is ready to open `version` under the quorum `q`: either it
has no live slot and `quorum_initial = q`, or its live slot, of the version
before, holds a confirmed entry whose collapse leaves `quorum_initial = q`
(a quorum change to `q`, or data on a replica whose `quorum_initial` is
`q`). -/
def Server.ready (q : Quorum) (version : Int) (s : Server) : Prop :=
  (s.quorum_initial = q ∧ s.state = none) ∨
    ∃ st a, s.state = some st ∧ st.proposal.version = version - 1 ∧
      st.accepted = some a ∧ a.confirmed = true ∧ a.proposal.version ≤ version ∧
      (a.value = .quorum q ∨ ((∃ t, a.value = .data t) ∧ s.quorum_initial = q))

/-- What a phase whose every reached peer answers alike does to its shared
variables `(x, reached)`: a handle on a replica adds one to `reached`, an
unavailable one changes nothing. -/
def Client.counted {α : Type} (s : α × Int) (peer : Peer) : α × Int :=
  match peer.kind with
  | .replica _ => (s.1, s.2 + 1)
  | _ => s

/-- The same for the confirm phase, whose only shared variable is `reached`. -/
def Client.counted_confirm (reached : Int) (peer : Peer) : Int :=
  match peer.kind with
  | .replica _ => reached + 1
  | _ => reached

/-- The same for `get_quorum` when every reached replica answers `a`: the
result is `a` unless a greater entry is already held. -/
def Client.counted_get (a : Accepted) (s : Option Accepted × Int) (peer : Peer) :
    Option Accepted × Int :=
  match peer.kind with
  | .replica _ =>
    (match s.1 with
     | none => (some a, s.2 + 1)
     | some res => if res.proposal.lt a.proposal then (some a, s.2 + 1) else (s.1, s.2 + 1))
  | _ => s

/-- The quorum change to `Q'` was chosen and confirmed on the replica at
version `v` under the quorum `Q`: the live slot is of version `v` and holds
the confirmed entry `QuorumChange(Q')`, and `quorum_initial` is still `Q`. -/
def Server.quorum_changed (Q Q' : Quorum) (v : Int) (s : Server) : Prop :=
  s.quorum_initial = Q ∧
    ∃ st a, s.state = some st ∧ st.proposal.version = v ∧ st.accepted = some a ∧
      a.proposal.version = v ∧ a.value = .quorum Q' ∧ a.confirmed = true

/-- The replica, under the quorum `q`, has promised `p` and holds the entry
`(p, value, _)`, confirmed or not. -/
def Server.holding (q : Quorum) (p : Proposal) (value : Value) (s : Server) : Prop :=
  ∃ confirmed, s.holds q p value confirmed

/-- What a `choose(version, value)` that returned `res` has settled, for a
coordinator `sender` with the peer list `peers` and the quorum `q`: either
`res` is an entry that was already confirmed, or the call got the value it
sent (`res`'s value if there is one, the caller's otherwise) accepted and
confirmed, under one proposal of its own at a version no lower than asked,
by every replica behind a `Peer` handle, and these are a strict majority of
`q`. -/
def Client.settled (q : Quorum) (peers : List Peer) (version sender : Int) (value : Value)
    (res : Option Accepted) (w : World) : Prop :=
  (∃ a, res = some a ∧ a.confirmed = true) ∨
    ∃ p : Proposal, version ≤ p.version ∧ p.sender = sender ∧
      (q.card : Int) < 2 * available peers ∧
      ∀ peer ∈ peers, ∀ i, peer.kind = .replica i →
        (w.servers i).holds q p (Client.sent value res) true

/-- The replica, under the quorum `q`, holds the entry `a` in a live slot of
the entry's version. -/
def Server.keeps (q : Quorum) (a : Accepted) (s : Server) : Prop :=
  s.quorum_initial = q ∧
    ∃ st, s.state = some st ∧ st.accepted = some a ∧
      st.proposal.version = a.proposal.version

/-- The value `value` is justified at `version` by the calls made: some call
`choose(v, value)` with `v <= version` is among them. -/
def Call.justifies (calls : List Call) (version : Int) (value : Value) : Prop :=
  ∃ c ∈ calls, c.value = value ∧ c.version ≤ version

/-- The request carries only what `J` allows: the value of an `accept` is
allowed at the version of its proposal. -/
def Req.allowed (J : Int → Value → Prop) : {β : Type} → Req β → Prop
  | _, .accept _ _ p value => J p.version value
  | _, _ => True

/-- The answer carries only what `J` allows: the entry returned by a
`propose` is allowed at the version of its proposal. -/
def Req.answer_allowed (J : Int → Value → Prop) : {β : Type} → Req β → β → Prop
  | _, .propose _ _ _, .ok (some a) => J a.proposal.version a.value
  | _, _, _ => True

/-- Whatever allowed answers the coordinator gets, every request it issues
is allowed, and if it finishes its result satisfies `post`. -/
def Prog.safe (J : Int → Value → Prop) {α : Type} (post : α → Prop) : Prog α → Prop
  | .ret a => post a
  | .call r k => Req.allowed J r ∧ ∀ b, Req.answer_allowed J r b → (k b).safe J post

/-- The shared variables a task leaves behind satisfy `I`. -/
def Task.all {σ : Type} (I : σ → Prop) : Task σ → Prop
  | .done s => I s
  | .terminated s => I s
  | .threw _ => True

/-- The shared variables a phase leaves behind satisfy `I`. -/
def Task.all_phase {σ : Type} (I : σ → Prop) : Except Error σ → Prop
  | .ok s => I s
  | .error _ => True

/-- Every entry held by a replica of the world is allowed by `J`. -/
def World.allowed (J : Int → Value → Prop) (w : World) : Prop :=
  ∀ i st a, (w.servers i).state = some st → st.accepted = some a →
    J a.proposal.version a.value

/-- The entry of the live slot is no newer than the slot's promise:
`accepted.proposal <= state.proposal`. -/
def Server.ordered (s : Server) : Prop :=
  ∀ st a, s.state = some st → st.accepted = some a → st.proposal.lt a.proposal = false

/-! ## Scenarios -/

/-- The wire version 0.1.0. -/
def v010 : ElleVersion := ⟨0, 1, 0⟩

/-- The quorum `{11, 12, 13}` of the tests. -/
def q123 : Quorum := {11, 12, 13}

/-- Replica 13 of the quorum `{11, 12, 13}` after `propose`, `accept` and
`confirm` of the quorum change `{11, 12}` under proposal `3:1:1`. -/
def replica_ahead : Server :=
  let s0 := Server.fresh 13 q123 v010
  let s1 := (s0.propose q123 ⟨3, 1, 1⟩).1
  let s2 := (s1.accept q123 ⟨3, 1, 1⟩ (.quorum {11, 12})).1
  (s2.confirm q123 ⟨3, 1, 1⟩).1

/-- Replica 11 of the quorum `{11, 12, 13}` after `propose` and `accept` of
the data `42` under proposal `0:1:1`. -/
def replica_accepted : Server :=
  let s0 := Server.fresh 11 q123 v010
  let s1 := (s0.propose q123 ⟨0, 1, 1⟩).1
  (s1.accept q123 ⟨0, 1, 1⟩ (.data 42)).1

/-- Replica 11 of the quorum `{11, 12, 13}` after `propose`, `accept` and
`confirm` of the data `42` under proposal `0:1:1`. -/
def replica_confirmed : Server :=
  (replica_accepted.confirm q123 ⟨0, 1, 1⟩).1

/-- Three fresh replicas 11, 12, 13 of the quorum `{11, 12, 13}` at wire
version 0.1.0 (replica `i` has id `11 + i`). -/
def world_fresh : World :=
  { servers := fun i => Server.fresh (11 + i) q123 v010, draws := fun _ => 1, drawn := 0 }

/-- The peer list of the tests: handles on the replicas 11, 12, 13, each
either a `Peer` (`true`) or an `UnavailablePeer` (`false`). -/
def make_peers (a b c : Bool) : List Peer :=
  [⟨11, if a then .replica 0 else .unavailable⟩,
   ⟨12, if b then .replica 1 else .unavailable⟩,
   ⟨13, if c then .replica 2 else .unavailable⟩]

/-- The start of the test `elect_extend`: replica 11 created with the quorum
`{11}` (place 0) and replica 12 created with the quorum `{11, 12}` (place 1). -/
def extend_start : World :=
  { servers := fun i =>
      if i = 0 then Server.fresh 11 {11} v010 else Server.fresh 12 {11, 12} v010,
    draws := fun _ => 1, drawn := 0 }

/-- The test `elect_extend` after `choose(0, 0)` on the peer list `[11]`. -/
def extend_chosen : (Client × Outcome (Option Accepted)) × World :=
  ((Client.new 1 [⟨11, .replica 0⟩]).choose 1 0 (.data 0)).run extend_start

/-- The test `elect_extend` after `choose(1, {11, 12})` by the same
coordinator. -/
def extend_changed : (Client × Outcome (Option Accepted)) × World :=
  (extend_chosen.1.1.choose 1 1 (.quorum {11, 12})).run extend_chosen.2

/-- The peer list of coordinator 1 in the test `versions_partial` while its
`accept` is blocked on 12 and 13: a `Peer` on replica 11 and handles on 12
and 13 that answer `propose` only. -/
def peers_accept_blocked : List Peer :=
  [⟨11, .replica 0⟩, ⟨12, .proposeOnly 1⟩, ⟨13, .proposeOnly 2⟩]

/-- The world of the test `versions_partial` when coordinator 3 starts:
coordinator 2 has chosen `1` for version 1 on the three replicas, and
coordinator 1, running `choose(2, 2)`, has got its `accept` through to
replica 11 only. -/
def world_midway : World :=
  (((Client.new 1 peers_accept_blocked).choose 1 2 (.data 2)).run
    (((Client.new 2 (make_peers true true true)).choose 1 1 (.data 1)).run world_fresh).2).2

/-- Three coordinators on the fresh replicas 11, 12, 13: coordinator 1
proposes the quorum change `{11}` for version 0 to all three; coordinator 2
knows only replica 11 and proposes `1` for version 1; coordinator 3 cannot
reach 11 and proposes `2` for version 1 to 12 and 13. -/
def system_diverging : System :=
  { coordinators :=
      [(Client.new 1 (make_peers true true true)).choose 1 0 (.quorum {11}),
       (Client.new 2 [⟨11, .replica 0⟩]).choose 1 1 (.data 1),
       (Client.new 3 (make_peers false true true)).choose 1 1 (.data 2)],
    world := world_fresh }

/-- A history of `system_diverging` in which no call is lost: coordinator 1
gets its three `propose`, its three `accept` and its `confirm` to replica 11
answered; coordinator 2 runs its whole `choose`; coordinator 3 runs its whole
`choose`; coordinator 1 gets its last two `confirm` answered. -/
def history_diverging : List (Nat × Bool) :=
  List.replicate 7 (0, false) ++ List.replicate 3 (1, false) ++
    List.replicate 9 (2, false) ++ List.replicate 2 (0, false)

/-- The calls of the test `partial_state`, the last one with the value `7`:
`choose(0, 0)` on 11, 12, 13; `choose(1, 1)` with 13 unavailable;
`choose(2, 2)` with only 11 reachable; `choose(1, 7)` with 12 unavailable.
Each is made by a new coordinator with id 1. -/
def calls_recovery : List Call :=
  [⟨Client.new 1 (make_peers true true true), 1, 0, .data 0⟩,
   ⟨Client.new 1 (make_peers true true false), 1, 1, .data 1⟩,
   ⟨Client.new 1 (make_peers true false false), 1, 2, .data 2⟩,
   ⟨Client.new 1 (make_peers true false true), 2, 1, .data 7⟩]

/-- The history in which the calls of `calls_recovery` run one after the
other, each to its end, no call lost: 9, 9, 3 and 15 steps. -/
def history_recovery : List (Nat × Bool) :=
  List.replicate 9 (0, false) ++ List.replicate 9 (1, false) ++
    List.replicate 3 (2, false) ++ List.replicate 15 (3, false)

/-- Two coordinators with the same id 1, as in the test `already_chosen`, on
the fresh replicas 11, 12, 13: one calls `choose(0, 42)`, the other
`choose(0, 43)`. -/
def system_same_id : System :=
  { coordinators :=
      [(Client.new 1 (make_peers true true true)).choose 1 0 (.data 42),
       (Client.new 1 (make_peers true true true)).choose 1 0 (.data 43)],
    world := world_fresh }

/-- A history of `system_same_id` in which no call is lost: both coordinators
get their three `propose` answered, then the first its `accept` and `confirm`,
then the second its `accept` and `confirm`. -/
def history_same_id : List (Nat × Bool) :=
  List.replicate 3 (0, false) ++ List.replicate 3 (1, false) ++
    List.replicate 6 (0, false) ++ List.replicate 6 (1, false)

/-! ## Reachable replica states -/

/-- The replica states the code produces: a replica as its constructor
leaves it, and what any RPC leaves of such a state, whether the call returns
or raises. -/
inductive Server.Reachable : Server → Prop where
  | new (id : Int) (quorum : Quorum) (version : ElleVersion) (s : Server) :
      Server.new id quorum version = .ok s → Server.Reachable s
  | propose (s : Server) (q : Quorum) (p : Proposal) :
      Server.Reachable s → Server.Reachable (s.propose q p).1
  | accept (s : Server) (q : Quorum) (p : Proposal) (value : Value) :
      Server.Reachable s → Server.Reachable (s.accept q p value).1
  | confirm (s : Server) (q : Quorum) (p : Proposal) :
      Server.Reachable s → Server.Reachable (s.confirm q p).1
  | get (s : Server) (q : Quorum) :
      Server.Reachable s → Server.Reachable (s.get q).1

/-! ## The scenario of the test `partial_state` -/

/-- The replicas 11, 12, 13 of the quorum `{11, 12, 13}` as constructed, at
the wire version `version`, with `draws` the numbers the backoff will draw. -/
def recovery_start (version : ElleVersion) (draws : Nat → Nat) : World :=
  { servers := fun i => Server.fresh (11 + i) q123 version, draws := draws, drawn := 0 }

/-- The test `partial_state` after `choose(0, 0)` with all peers. -/
def recovery_first (version : ElleVersion) (draws : Nat → Nat) :
    (Client × Outcome (Option Accepted)) × World :=
  ((Client.new 1 (make_peers true true true)).choose 1 0 (.data 0)).run
    (recovery_start version draws)

/-- The test `partial_state` after `choose(1, 1)` with peer 13 unavailable. -/
def recovery_second (version : ElleVersion) (draws : Nat → Nat) :
    (Client × Outcome (Option Accepted)) × World :=
  ((Client.new 1 (make_peers true true false)).choose 1 1 (.data 1)).run
    (recovery_first version draws).2

/-- The test `partial_state` after `choose(2, 2)` with only peer 11
available. -/
def recovery_third (version : ElleVersion) (draws : Nat → Nat) :
    (Client × Outcome (Option Accepted)) × World :=
  ((Client.new 1 (make_peers true false false)).choose 1 2 (.data 2)).run
    (recovery_second version draws).2

/-- The test `partial_state` after `choose(1, 2)` with peer 12 unavailable;
the call needs a second attempt, so the loop is given two iterations. -/
def recovery_fourth (version : ElleVersion) (draws : Nat → Nat) :
    (Client × Outcome (Option Accepted)) × World :=
  ((Client.new 1 (make_peers true false true)).choose 2 1 (.data 2)).run
    (recovery_third version draws).2


/-! ## Serialization of the replica (Server.hxx:99-126, 475-543) -/

/-- Modelled from the spec: the serialization framework is an external
collaborator with the contract that what is written under a key is read back
under that key, so the image of an `Accepted` is the record of the fields
that `Accepted::serialize` writes: `proposal`, under `value` either the
tagged union (`Sum.inr`) or a plain `T` (`Sum.inl`), and `confirmed` when it
is written. -/
structure WireAccepted where
  proposal : Proposal
  value : Int ⊕ Value
  confirmed : Option Bool

/-- The fields that `VersionState::serialize` writes. -/
structure WireState where
  proposal : Proposal
  accepted : Option WireAccepted

/-- The fields that `Server::serialize` writes: `id`, `quorum`, `value`, a
`boost::optional` that is on the wire only when it is written and holds a
value, and the container `state`. -/
structure WireServer where
  id : Int
  quorum : Quorum
  value : Option Int
  state : List WireState

/-- Writing with `Accepted::serialize` (Server.hxx:99-117) at the wire version
`version`; `none` is the `ELLE_ABORT` on a quorum change before 0.1.0. -/
def Accepted.serialize (self : Accepted) (version : ElleVersion) : Option WireAccepted :=
  if !(version.lt ⟨0, 1, 0⟩) then
    some ⟨self.proposal, .inr self.value, some self.confirmed⟩
  else
    match self.value with
    | .data t => some ⟨self.proposal, .inl t, none⟩
    | .quorum _ => none

/-- Reading with `Accepted::Accepted(SerializerIn&, Version)` and
`Accepted::serialize` (Server.hxx:88-96, 99-126); `none` is the failure of the
framework on a field that is not there. -/
def Accepted.deserialize (wire : WireAccepted) (version : ElleVersion) : Option Accepted :=
  if !(version.lt ⟨0, 1, 0⟩) then
    match wire.value, wire.confirmed with
    | .inr value, some confirmed => some ⟨wire.proposal, value, confirmed⟩
    | _, _ => none
  else
    match wire.value with
    | .inl t => some ⟨wire.proposal, .data t, true⟩
    | .inr _ => none

/-- Writing with `VersionState::serialize` (Server.hxx:475-483); the entry is
written at the same wire version. -/
def VersionState.serialize (self : VersionState) (version : ElleVersion) : Option WireState :=
  match self.accepted with
  | none => some ⟨self.proposal, none⟩
  | some a => (a.serialize version).map fun wa => ⟨self.proposal, some wa⟩

/-- Reading with `VersionState::VersionState(SerializerIn&, Version)`
(Server.hxx:468-473). -/
def VersionState.deserialize (wire : WireState) (version : ElleVersion) :
    Option VersionState :=
  match wire.accepted with
  | none => some ⟨wire.proposal, none⟩
  | some wa => (Accepted.deserialize wa version).map fun a => ⟨wire.proposal, some a⟩

/-- Writing with `Server::serialize` (Server.hxx:510-533): `value` is written
from 0.1.0 on, and the container holds the live slot if there is one. -/
def Server.serialize (self : Server) (v : ElleVersion) : Option WireServer :=
  let value : Option Int := if !(v.lt ⟨0, 1, 0⟩) then self.value else none
  match self.state with
  | none => some ⟨self.id, self.quorum_initial, value, []⟩
  | some st =>
    (st.serialize v).map fun ws => ⟨self.id, self.quorum_initial, value, [ws]⟩

/-- The slots read into the container `VersionsState`, which is ordered by
version and keeps one slot for each version, the first one inserted. -/
def read_states (v : ElleVersion) : List WireState → Option (List VersionState)
  | [] => some []
  | ws :: rest =>
    match VersionState.deserialize ws v, read_states v rest with
    | some st, some sts => some (st :: sts)
    | _, _ => none

/-- The slot at `rbegin()` of the container: the one of the greatest version,
and among slots of one version the first inserted. -/
def latest_state : List VersionState → Option VersionState
  | [] => none
  | st :: rest =>
    match latest_state rest with
    | none => some st
    | some st' => if st.version < st'.version then some st' else some st

/-- Reading with `Server::Server(SerializerIn&, Version)` and
`Server::serialize` (Server.hxx:497-543): `value` is read from 0.1.0 on and
is empty otherwise, and of the container only the slot of the greatest
version is kept. The constructor does not set the member `_version`: what it
holds afterwards is the parameter `unset`. -/
def Server.deserialize (wire : WireServer) (v : ElleVersion) (unset : ElleVersion) :
    Option Server :=
  let value : Option Int := if !(v.lt ⟨0, 1, 0⟩) then wire.value else none
  match read_states v wire.state with
  | some states =>
    some { id := wire.id, quorum_initial := wire.quorum, value := value, version := unset,
           state := latest_state states }
  | none => none

/-- A replica written at the wire version `v` and read back at `v`. -/
def Server.round_trip (self : Server) (v : ElleVersion) (unset : ElleVersion) : Option Server :=
  (self.serialize v).bind fun wire => Server.deserialize wire v unset

/-- Replica 11 of the quorum `{11, 12, 13}` holding the collapsed value `42`
of version 0 and the data `1` accepted, not confirmed, for version 1. -/
def replica_midway : Server :=
  let s1 := (replica_confirmed.propose q123 ⟨1, 1, 1⟩).1
  (s1.accept q123 ⟨1, 1, 1⟩ (.data 1)).1


/-! ## Runs that differ in the wire version and in the draws -/

/-- Two replicas that differ at most in their wire version, both of 0.1.0 or
later. -/
def Server.alike (s s' : Server) : Prop :=
  s.id = s'.id ∧ s.quorum_initial = s'.quorum_initial ∧ s.value = s'.value ∧
    s.state = s'.state ∧ s.version.lt ⟨0, 1, 0⟩ = false ∧ s'.version.lt ⟨0, 1, 0⟩ = false

/-- Two worlds whose replicas are alike; the draws may differ. -/
def World.alike (w w' : World) : Prop :=
  ∀ i, (w.servers i).alike (w'.servers i)

/-- Two coordinator computations that issue the same peer calls and, on the
same answers, go on alike; they may sleep for different delays, and what they
do after a draw does not depend on the number drawn. -/
inductive Prog.alike {α : Type} : Prog α → Prog α → Prop where
  | ret (a : α) : Prog.alike (.ret a) (.ret a)
  | propose (peer : Peer) (q : Quorum) (p : Proposal)
      (k k' : Except Error (Option Accepted) → Prog α) :
      (∀ b, Prog.alike (k b) (k' b)) →
      Prog.alike (.call (.propose peer q p) k) (.call (.propose peer q p) k')
  | accept (peer : Peer) (q : Quorum) (p : Proposal) (value : Value)
      (k k' : Except Error Proposal → Prog α) :
      (∀ b, Prog.alike (k b) (k' b)) →
      Prog.alike (.call (.accept peer q p value) k) (.call (.accept peer q p value) k')
  | confirm (peer : Peer) (q : Quorum) (p : Proposal) (k k' : Except Error Unit → Prog α) :
      (∀ b, Prog.alike (k b) (k' b)) →
      Prog.alike (.call (.confirm peer q p) k) (.call (.confirm peer q p) k')
  | get (peer : Peer) (q : Quorum) (k k' : Except Error (Option Accepted) → Prog α) :
      (∀ b, Prog.alike (k b) (k' b)) →
      Prog.alike (.call (.get peer q) k) (.call (.get peer q) k')
  | random (lo hi : Nat) (k k' : Nat → Prog α) :
      (∀ b b', Prog.alike (k b) (k' b')) →
      Prog.alike (.call (.random lo hi) k) (.call (.random lo hi) k')
  | sleep (delay delay' : Int) (k k' : Unit → Prog α) :
      (∀ b, Prog.alike (k b) (k' b)) →
      Prog.alike (.call (.sleep delay) k) (.call (.sleep delay') k')


/-! ## Equality of proposals, sequences of calls, and what a coordinator issues -/

/-- The comparison `Proposal::operator ==` (Server.hxx:37-46). -/
def Proposal.eq (self rhs : Proposal) : Bool :=
  decide (self.version = rhs.version) && decide (self.round = rhs.round) &&
    decide (self.sender = rhs.sender)

/-- One call of an RPC of the replica, with its arguments. -/
inductive Rpc where
  | propose (q : Quorum) (p : Proposal)
  | accept (q : Quorum) (p : Proposal) (value : Value)
  | confirm (q : Quorum) (p : Proposal)
  | get (q : Quorum)

/-- The replica as one call leaves it, whether the call returns or raises. -/
def Server.call (s : Server) : Rpc → Server
  | .propose q p => (s.propose q p).1
  | .accept q p value => (s.accept q p value).1
  | .confirm q p => (s.confirm q p).1
  | .get q => (s.get q).1

/-- The replica after a sequence of calls. -/
def Server.calls (s : Server) (calls : List Rpc) : Server :=
  calls.foldl Server.call s

/-- A request of a coordinator together with the answer it got. -/
inductive Event where
  | propose (peer : Peer) (q : Quorum) (p : Proposal)
      (answer : Except Error (Option Accepted))
  | accept (peer : Peer) (q : Quorum) (p : Proposal) (value : Value)
      (answer : Except Error Proposal)
  | confirm (peer : Peer) (q : Quorum) (p : Proposal) (answer : Except Error Unit)
  | get (peer : Peer) (q : Quorum) (answer : Except Error (Option Accepted))
  | random (lo hi : Nat) (answer : Nat)
  | sleep (delay : Int)

/-- The event of a request answered by `b`. -/
def Req.event : {β : Type} → Req β → β → Event
  | _, .propose peer q p, b => .propose peer q p b
  | _, .accept peer q p value, b => .accept peer q p value b
  | _, .confirm peer q p, b => .confirm peer q p b
  | _, .get peer q, b => .get peer q b
  | _, .random lo hi, b => .random lo hi b
  | _, .sleep delay, _ => .sleep delay

/-- The proposal that a `propose`, `accept` or `confirm` carries. -/
def Event.proposal : Event → Option Proposal
  | .propose _ _ p _ => some p
  | .accept _ _ p _ _ => some p
  | .confirm _ _ p _ => some p
  | _ => none

/-- The delay of a `sleep`, in milliseconds. -/
def Event.delay : Event → Option Int
  | .sleep delay => some delay
  | _ => none

/-- The number that a draw gave. -/
def Event.draw : Event → Option Nat
  | .random _ _ answer => some answer
  | _ => none

/-- The requests that a coordinator computation issues, in order, each with
its answer, when `env` answers: `env` is any environment with a state of its
own, such as `exec` on a `World` (the coordinator alone with the replicas) or
one in which other coordinators act between two requests. -/
def Prog.observe {σ α : Type} (env : {β : Type} → Req β → σ → β × σ) :
    Prog α → σ → List Event
  | .ret _, _ => []
  | .call r k, s => Req.event r (env r s).1 :: (k (env r s).1).observe env (env r s).2

/-- The result of a coordinator computation, and the state of the
environment, when `env` answers. -/
def Prog.finish {σ α : Type} (env : {β : Type} → Req β → σ → β × σ) :
    Prog α → σ → α × σ
  | .ret a, s => (a, s)
  | .call r k, s => (k (env r s).1).finish env (env r s).2

/-- The proposals carried by the requests of a list of events. -/
def proposals_of (events : List Event) : List Proposal :=
  events.filterMap Event.proposal

/-- The delays slept in a list of events. -/
def delays_of (events : List Event) : List Int :=
  events.filterMap Event.delay

/-- The numbers drawn in a list of events. -/
def draws_of (events : List Event) : List Nat :=
  events.filterMap Event.draw

/-- The calls that the coordinator of the test `elect_shrink` sends to a
replica of the quorum `{11, 12}`: the data `0` is chosen for version 0, the
quorum `{11}` for version 1, and then a proposal for version 2 comes with the
quorum `{11, 12}` (the test sends it to the first peer of its list). -/
def calls_shrink : List Rpc :=
  [.propose {11, 12} ⟨0, 1, 1⟩, .accept {11, 12} ⟨0, 1, 1⟩ (.data 0),
   .confirm {11, 12} ⟨0, 1, 1⟩,
   .propose {11, 12} ⟨1, 1, 1⟩, .accept {11, 12} ⟨1, 1, 1⟩ (.quorum {11}),
   .confirm {11, 12} ⟨1, 1, 1⟩,
   .propose {11, 12} ⟨2, 1, 1⟩]

/-- The proposal `b` is of a later version than `a`, or of the same version
and of a round that is not smaller. -/
def Proposal.precedes (a b : Proposal) : Prop :=
  a.version < b.version ∨ (a.version = b.version ∧ a.round ≤ b.round)

/-- The proposals of `l` come in the order of `precedes`, none of them
before `p`, all of them sent by `id`. -/
def climbs (p : Proposal) (id : Int) (l : List Proposal) : Prop :=
  List.Pairwise Proposal.precedes l ∧ ∀ x ∈ l, p.precedes x ∧ x.sender = id

/-- The replicas 11, 12, 13 after coordinator 1 has chosen `0` for version 0
and `1` for version 1 with all peers: the coordinator comes back with its
round counter at 2. -/
def rounds_reused : (Client × Outcome (Option Accepted)) × World :=
  (((Client.new 1 (make_peers true true true)).choose 1 0 (.data 0)).run
      world_fresh).1.1.choose 1 1 (.data 1) |>.run
    (((Client.new 1 (make_peers true true true)).choose 1 0 (.data 0)).run world_fresh).2

/-- The world in which coordinator 1 makes its third call: coordinator 2,
reaching replica 11 only, has called `choose(3, 9)`, which left the promise
`3:1:2` on replica 11 and raised `TooFewPeers`. -/
def rounds_world : World :=
  (((Client.new 2 (make_peers true false false)).choose 1 3 (.data 9)).run rounds_reused.2).2

/-- The `k`-th sleep of `events` lasts 100 ms times the `k`-th number drawn
times the factor `backoff` doubled `k` times under the cap of 64
(Client.hxx:201-210). -/
def paced (backoff : Int) (events : List Event) : Prop :=
  ∀ k, (delays_of events)[k]? =
    ((draws_of events)[k]?).map fun rn =>
      100 * (rn : Int) * ((fun b : Int => min (b * 2) 64)^[k] backoff)

/-- Handles on six replicas 11, ..., 16 (replica `i` has id `11 + i`), each
either a `Peer` or an `UnavailablePeer`. -/
def peers_six (available : Nat → Bool) : List Peer :=
  (List.range 6).map fun (i : Nat) =>
    ⟨11 + Int.ofNat i, if available i then .replica i else .unavailable⟩

/-- Six replicas as constructed with the quorum `{11, ..., 16}`; every draw
gives 8. -/
def six_fresh : World :=
  { servers := fun i => Server.fresh (11 + i) {11, 12, 13, 14, 15, 16} v010,
    draws := fun _ => 8, drawn := 0 }

/-- The six replicas after five calls of coordinator 9: for `i = 1, ..., 5`
it called `choose(i, 9)` reaching only replica `11 + i`, which left the
promise `i:1:9` there and raised `TooFewPeers`. -/
def six_promised : World :=
  (List.range 5).foldl
    (fun w i =>
      (((Client.new 9 (peers_six fun j => j == i + 1)).choose 1 (i + 1) (.data 9)).run w).2)
    six_fresh


/-! ## Scenarios of calls on one replica -/

/-- Calls on replica 11 of the quorum `{11, 12, 13}`: the data `5` is
proposed, accepted and confirmed for version 5; a proposal for version 6
comes with the quorum `{11}`; then a proposal for version 0 comes with the
quorum `{11, 12, 13}`. -/
def calls_regress : List Rpc :=
  [.propose q123 ⟨5, 1, 1⟩, .accept q123 ⟨5, 1, 1⟩ (.data 5), .confirm q123 ⟨5, 1, 1⟩,
   .propose {11} ⟨6, 1, 1⟩, .propose q123 ⟨0, 1, 1⟩]

/-- Calls on replica 12 of the quorum `{11, 12, 13}`: coordinator 1 gets the
data `7` accepted under `0:1:1`; coordinator 3 then proposes `0:3:3` and sends
its confirm without its accept having reached the replica. -/
def calls_confirm_other : List Rpc :=
  [.propose q123 ⟨0, 1, 1⟩, .accept q123 ⟨0, 1, 1⟩ (.data 7), .propose q123 ⟨0, 3, 3⟩,
   .confirm q123 ⟨0, 3, 3⟩]

/-- Three coordinators on the replicas 11, 12, 13 as constructed, all calling
`choose` for version 0: coordinator 1 with the data `7`, coordinator 2, which
has an `UnavailablePeer` for 12, with the data `8`, coordinator 3 with the
data `9`. -/
def system_confirm_other : System :=
  { coordinators :=
      [(Client.new 1 (make_peers true true true)).choose 1 0 (.data 7),
       (Client.new 2 (make_peers true false true)).choose 1 0 (.data 8),
       (Client.new 3 (make_peers true true true)).choose 1 0 (.data 9)],
    world := world_fresh }

/-- A history of `system_confirm_other`: coordinator 1 gets its three
`propose` answered, loses its `accept` to 11, gets its `accept` to 12 answered
and stops; coordinator 2 gets its `propose` answered, loses its `accept` to 11,
gets its `accept` to 13 answered and stops; coordinator 3 runs its whole
`choose`, of which only the `accept` to 12 is lost. -/
def history_confirm_other : List (Nat × Bool) :=
  [(0, false), (0, false), (0, false), (0, true), (0, false),
   (1, false), (1, false), (1, false), (1, true), (1, false), (1, false),
   (2, false), (2, false), (2, false), (2, false), (2, true), (2, false),
   (2, false), (2, false), (2, false)]

/-- Whether the event is a `propose` request. -/
def Event.is_propose : Event → Bool
  | .propose _ _ _ _ => true
  | _ => false

/-! ## The channel ids of `elle::protocol::ChanneledStream` -/

/-- The value that a C++ `int` of 32 bits in two's complement holds after an
operation whose result in the integers is `x`. -/
def int32 (x : Int) : Int :=
  (x + 2147483648) % 4294967296 - 2147483648

/-- The members `_master` and `_id_current` of `ChanneledStream`. -/
structure ChanneledStream where
  master : Bool
  id_current : Int
  deriving DecidableEq

/-- The constructor `ChanneledStream::ChanneledStream`
(ChanneledStream.cc:23-34): `_master` is what the handshake gave and
`_id_current` is 0. -/
def ChanneledStream.new (master : Bool) : ChanneledStream :=
  { master := master, id_current := 0 }

/-- The allocator `ChanneledStream::_id_generate` (ChanneledStream.cc:75-92):
the id it returns and the stream as it leaves it. -/
def ChanneledStream._id_generate (self : ChanneledStream) : Int × ChanneledStream :=
  let res := self.id_current
  if self.master then
    let next := int32 (self.id_current + 1)
    (res, { self with id_current := if next < 0 then 1 else next })
  else
    let next := int32 (self.id_current - 1)
    (res, { self with id_current := if next > 0 then -1 else next })

/-- The ids that the first `n` calls of `_id_generate` return, in order. -/
def ChanneledStream.ids : Nat → ChanneledStream → List Int
  | 0, _ => []
  | n + 1, self => self._id_generate.1 :: ChanneledStream.ids n self._id_generate.2


/-! ## Facts about proposals -/

theorem Proposal.lt_irrefl (p : Proposal) : p.lt p = false := by
  simp [Proposal.lt]

theorem Proposal.eq_of_not_lt {a b : Proposal} (h1 : a.lt b = false) (h2 : b.lt a = false) :
    a = b := by
  obtain ⟨av, ar, as⟩ := a
  obtain ⟨bv, br, bs⟩ := b
  simp only [Proposal.lt] at h1 h2
  by_cases hv : av = bv
  · by_cases hr : ar = br
    · subst hv hr
      simp at h1 h2
      have : as = bs := le_antisymm h2 h1
      simp [this]
    · subst hv
      have hr' : ¬ br = ar := fun h => hr h.symm
      simp [hr, hr'] at h1 h2
      omega
  · have hv' : ¬ bv = av := fun h => hv h.symm
    simp [hv, hv'] at h1 h2
    omega

theorem Proposal.version_le_of_lt {a b : Proposal} (h : a.lt b = true) :
    a.version ≤ b.version := by
  simp only [Proposal.lt] at h
  by_cases hv : a.version = b.version
  · omega
  · simp [hv] at h
    omega

theorem Proposal.version_le_of_not_lt {a b : Proposal} (h : a.lt b = false) :
    b.version ≤ a.version := by
  simp only [Proposal.lt] at h
  by_cases hv : a.version = b.version
  · omega
  · simp [hv] at h
    omega

/-! ## The replica: quorum check (C2) -/

theorem check_quorum_ok {self : Server} {q : Quorum} (h : q = self.quorum_initial) :
    check_quorum self q = .ok () := by
  simp [check_quorum, h]

theorem check_quorum_error {self : Server} {q : Quorum} (h : q ≠ self.quorum_initial) :
    check_quorum self q = .error (.WrongQuorum self.quorum_initial q) := by
  simp [check_quorum, h]

/-- C2, the claim as stated fails: replica 13, which holds the confirmed
quorum change of version 3, answers a `propose` for version 2 that carries
the quorum `{11, 12}` normally, although its `quorum_initial` is
`{11, 12, 13}` when the call returns. -/
theorem propose_behind_ignores_quorum :
    (replica_ahead.propose {11, 12} ⟨2, 1, 1⟩).2
        = .ok (some ⟨⟨3, 1, 1⟩, .quorum {11, 12}, true⟩) ∧
      (replica_ahead.propose {11, 12} ⟨2, 1, 1⟩).1.quorum_initial = {11, 12, 13} ∧
      ({11, 12} : Quorum) ≠ {11, 12, 13} := by
  decide

theorem accept_wrong_quorum (self : Server) (q : Quorum) (p : Proposal) (value : Value)
    (h : q ≠ self.quorum_initial) :
    self.accept q p value = (self, .error (.WrongQuorum self.quorum_initial q)) := by
  simp [Server.accept, check_quorum_error h]

theorem accept_quorum_initial (self : Server) (q : Quorum) (p : Proposal) (value : Value) :
    (self.accept q p value).1.quorum_initial = self.quorum_initial := by
  unfold Server.accept
  repeat' split
  all_goals rfl

theorem accept_ok_quorum (self : Server) (q : Quorum) (p : Proposal) (value : Value)
    (r : Proposal) (h : (self.accept q p value).2 = .ok r) : q = self.quorum_initial := by
  by_contra hq
  rw [accept_wrong_quorum self q p value hq] at h
  cases h

theorem confirm_wrong_quorum (self : Server) (q : Quorum) (p : Proposal)
    (h : q ≠ self.quorum_initial) :
    self.confirm q p = (self, .error (.WrongQuorum self.quorum_initial q)) := by
  simp [Server.confirm, check_quorum_error h]

theorem confirm_quorum_initial (self : Server) (q : Quorum) (p : Proposal) :
    (self.confirm q p).1.quorum_initial = self.quorum_initial := by
  unfold Server.confirm
  repeat' split
  all_goals rfl

theorem confirm_ok_quorum (self : Server) (q : Quorum) (p : Proposal)
    (r : Unit) (h : (self.confirm q p).2 = .ok r) : q = self.quorum_initial := by
  by_contra hq
  rw [confirm_wrong_quorum self q p hq] at h
  cases h

theorem get_wrong_quorum (self : Server) (q : Quorum) (h : q ≠ self.quorum_initial) :
    self.get q = (self, .error (.WrongQuorum self.quorum_initial q)) := by
  simp [Server.get, check_quorum_error h]

theorem get_unchanged (self : Server) (q : Quorum) : (self.get q).1 = self := by
  unfold Server.get
  split <;> rfl

theorem get_ok_quorum (self : Server) (q : Quorum)
    (r : Option Accepted) (h : (self.get q).2 = .ok r) : q = self.quorum_initial := by
  by_contra hq
  rw [get_wrong_quorum self q hq] at h
  cases h

theorem propose_checked (self : Server) (q : Quorum) (p : Proposal)
    (hbehind : ∀ st a, self.state = some st → st.accepted = some a →
      a.proposal.version ≤ p.version)
    (hconf : check_confirmed self p = true) :
    (∀ r, (self.propose q p).2 = .ok r → q = (self.propose q p).1.quorum_initial) ∧
      (q ≠ (self.propose q p).1.quorum_initial →
        (self.propose q p).2 = .error (.WrongQuorum (self.propose q p).1.quorum_initial q) ∨
          (self.propose q p).2 = .error .AssertionFailed) := by
  obtain ⟨id, qi, val, ver, state⟩ := self
  unfold Server.propose
  simp only [hconf]
  rcases state with _ | ⟨sp, _ | ⟨ap, av, ac⟩⟩
  · by_cases hq : q = qi
    · subst hq; simp [check_quorum]
    · simp [check_quorum, hq]
  · by_cases hv : p.version > sp.version
    · simp [hv]
    · by_cases hq : q = qi
      · subst hq
        by_cases hl : sp.lt p <;> simp [check_quorum, hv, hl]
      · simp [check_quorum, hv, hq]
  · have hb : ¬ ap.version > p.version := by
      have := hbehind ⟨sp, some ⟨ap, av, ac⟩⟩ ⟨ap, av, ac⟩ rfl rfl
      simpa using this
    by_cases hv : p.version > sp.version
    · cases av with
      | data t =>
        by_cases hq : q = qi
        · subst hq; simp [check_quorum, hv, hb]
        · simp [check_quorum, hv, hb, hq]
      | quorum q' =>
        by_cases hq : q = q'
        · subst hq; simp [check_quorum, hv, hb]
        · simp [check_quorum, hv, hb, hq]
    · by_cases hq : q = qi
      · subst hq
        by_cases hl : sp.lt p <;> simp [check_quorum, hv, hb, hl]
      · simp [check_quorum, hv, hb, hq]

/-- C2, amended: `accept`, `confirm` and `get` return normally only with
`q == quorum_initial` (which they leave as it is) and raise `WrongQuorum`
for any other `q`; `propose`, when the caller is not behind and the previous
version is judged confirmed, returns normally only if `q` equals the
`quorum_initial` the call leaves behind, and for any other `q` raises
`WrongQuorum` carrying both (or fails the assertion of the advance step). -/
theorem quorum_conservation (self : Server) (q : Quorum) (p : Proposal) (value : Value) :
    ((∀ r, (self.accept q p value).2 = .ok r → q = (self.accept q p value).1.quorum_initial) ∧
        (q ≠ self.quorum_initial →
          self.accept q p value = (self, .error (.WrongQuorum self.quorum_initial q)))) ∧
      ((∀ r, (self.confirm q p).2 = .ok r → q = (self.confirm q p).1.quorum_initial) ∧
        (q ≠ self.quorum_initial →
          self.confirm q p = (self, .error (.WrongQuorum self.quorum_initial q)))) ∧
      ((∀ r, (self.get q).2 = .ok r → q = (self.get q).1.quorum_initial) ∧
        (q ≠ self.quorum_initial →
          self.get q = (self, .error (.WrongQuorum self.quorum_initial q)))) ∧
      ((∀ st a, self.state = some st → st.accepted = some a →
            a.proposal.version ≤ p.version) →
        check_confirmed self p = true →
        (∀ r, (self.propose q p).2 = .ok r → q = (self.propose q p).1.quorum_initial) ∧
          (q ≠ (self.propose q p).1.quorum_initial →
            (self.propose q p).2
                = .error (.WrongQuorum (self.propose q p).1.quorum_initial q) ∨
              (self.propose q p).2 = .error .AssertionFailed)) := by
  refine ⟨⟨?_, accept_wrong_quorum self q p value⟩, ⟨?_, confirm_wrong_quorum self q p⟩,
    ⟨?_, get_wrong_quorum self q⟩, propose_checked self q p⟩
  · intro r h
    rw [accept_quorum_initial]
    exact accept_ok_quorum self q p value r h
  · intro r h
    rw [confirm_quorum_initial]
    exact confirm_ok_quorum self q p r h
  · intro r h
    rw [get_unchanged]
    exact get_ok_quorum self q r h

theorem replica_confirmed_state :
    replica_confirmed.state = some ⟨⟨0, 1, 1⟩, some ⟨⟨0, 1, 1⟩, .data 42, true⟩⟩ := by
  decide

/-- The theorem `quorum_conservation` at work: replica 11, holding the
confirmed data of version 0, is asked to open version 1 with the quorum
`{11, 12}`; the caller is not behind, the previous version is confirmed, and
the call raises `WrongQuorum`. -/
theorem quorum_conservation_witness :
    (replica_confirmed.propose {11, 12} ⟨1, 1, 1⟩).2
        = .error (.WrongQuorum (replica_confirmed.propose {11, 12} ⟨1, 1, 1⟩).1.quorum_initial
            {11, 12}) ∨
      (replica_confirmed.propose {11, 12} ⟨1, 1, 1⟩).2 = .error .AssertionFailed :=
  ((quorum_conservation replica_confirmed {11, 12} ⟨1, 1, 1⟩ (.data 0)).2.2.2
    (by
      intro st a hs ha
      rw [replica_confirmed_state] at hs
      cases hs
      cases ha
      decide)
    (by decide)).2 (by decide)

/-! ## The replica: `accept` and what it overwrites (C3, C4) -/

theorem Proposal.lt_iff (a b : Proposal) :
    a.lt b = true ↔
      a.version < b.version ∨
        (a.version = b.version ∧
          (a.round < b.round ∨ (a.round = b.round ∧ a.sender < b.sender))) := by
  simp only [Proposal.lt]
  by_cases hv : a.version = b.version
  · by_cases hr : a.round = b.round
    · simp [hv, hr]
    · simp [hv, hr]
  · simp [hv]

theorem Proposal.lt_false_iff (a b : Proposal) :
    a.lt b = false ↔
      b.version < a.version ∨
        (a.version = b.version ∧
          (b.round < a.round ∨ (a.round = b.round ∧ b.sender ≤ a.sender))) := by
  have h := Proposal.lt_iff a b
  cases hl : a.lt b
  · simp only [hl, true_iff] at h ⊢
    simp only [Bool.false_eq_true, false_iff] at h
    omega
  · simp only [hl, true_iff] at h
    simp only [Bool.true_eq_false, false_iff]
    omega

theorem Proposal.lt_trans_le {a b c : Proposal} (h1 : a.lt b = true) (h2 : c.lt b = false) :
    c.lt a = false := by
  rw [Proposal.lt_iff] at h1
  rw [Proposal.lt_false_iff] at h2 ⊢
  omega

/-- C3, the claim as stated fails: replica 11 holds the accepted entry
`(0:1:1, 42, unconfirmed)`; an `accept` under the same proposal `0:1:1`
(so `p' >= p`) with the value `43` replaces the entry's value. -/
theorem accept_same_proposal_overwrites :
    replica_accepted.state = some ⟨⟨0, 1, 1⟩, some ⟨⟨0, 1, 1⟩, .data 42, false⟩⟩ ∧
      (replica_accepted.accept q123 ⟨0, 1, 1⟩ (.data 43)).1.state
        = some ⟨⟨0, 1, 1⟩, some ⟨⟨0, 1, 1⟩, .data 43, false⟩⟩ := by
  decide

/-- C3, amended: if the replica already holds an accepted entry whose
proposal `p'` is strictly greater than `p` (the entry being no newer than the
slot's promise, as in every state the RPCs produce), `accept(q, p, value)`
leaves the replica as it is; if `p'` equals `p`, the entry keeps its proposal
and its confirmed flag, and its value is the old one or `value`. -/
theorem accept_keeps_newer_entry (self : Server) (q : Quorum) (p : Proposal) (value : Value)
    (st : VersionState) (a : Accepted)
    (hs : self.state = some st) (ha : st.accepted = some a) :
    (st.proposal.lt a.proposal = false → p.lt a.proposal = true →
        (self.accept q p value).1 = self) ∧
      (a.proposal = p →
        ∃ st' a', (self.accept q p value).1.state = some st' ∧ st'.accepted = some a' ∧
          a'.proposal = a.proposal ∧ a'.confirmed = a.confirmed ∧
          (a'.value = a.value ∨ a'.value = value)) := by
  obtain ⟨id, qi, val, ver, state⟩ := self
  obtain ⟨sp, sa⟩ := st
  simp only at hs ha
  subst hs ha
  unfold Server.accept
  constructor
  · intro h1 h2
    dsimp only at h1
    have h3 : p.lt sp = true := by
      rw [Proposal.lt_iff] at h2 ⊢
      rw [Proposal.lt_false_iff] at h1
      omega
    have h4 : sp.lt p = false := by
      rw [Proposal.lt_iff] at h3
      rw [Proposal.lt_false_iff]
      omega
    cases check_quorum ⟨id, qi, val, ver, some ⟨sp, some a⟩⟩ q <;> simp [h3, h4]
  · intro hp
    subst hp
    cases check_quorum ⟨id, qi, val, ver, some ⟨sp, some a⟩⟩ q
    · exact ⟨_, _, rfl, rfl, rfl, rfl, Or.inl rfl⟩
    · by_cases h1 : sp.lt a.proposal = true
      · simp only [h1, if_true]
        exact ⟨_, _, rfl, rfl, rfl, rfl, Or.inl rfl⟩
      · by_cases h2 : a.proposal.lt sp = true
        · simp only [h1, h2, if_true, if_false]
          exact ⟨_, _, rfl, rfl, rfl, rfl, Or.inl rfl⟩
        · simp only [h1, h2, if_false, Bool.not_false, if_true, Bool.false_eq_true,
            Bool.not_eq_true]
          exact ⟨_, _, rfl, rfl, rfl, rfl, Or.inr rfl⟩

/-- The theorem `accept_keeps_newer_entry` at work on the replica that holds
`(0:1:1, 42, confirmed)`: an `accept` under the older proposal `0:0:1`
changes nothing. -/
theorem accept_keeps_newer_entry_witness :
    (replica_confirmed.accept q123 ⟨0, 0, 1⟩ (.data 43)).1 = replica_confirmed :=
  (accept_keeps_newer_entry replica_confirmed q123 ⟨0, 0, 1⟩ (.data 43)
    ⟨⟨0, 1, 1⟩, some ⟨⟨0, 1, 1⟩, .data 42, true⟩⟩ ⟨⟨0, 1, 1⟩, .data 42, true⟩
    replica_confirmed_state rfl).1 (by decide) (by decide)

/-- C4, the code against the claim: replica 11 holds the entry
`(0:1:1, 42)` with `confirmed = true`; an `accept` under the same proposal
with the value `43` stays on version 0, keeps `confirmed = true` and replaces
the confirmed value by `43`. -/
theorem accept_overwrites_confirmed_value :
    replica_confirmed.state = some ⟨⟨0, 1, 1⟩, some ⟨⟨0, 1, 1⟩, .data 42, true⟩⟩ ∧
      replica_confirmed.accept q123 ⟨0, 1, 1⟩ (.data 43)
        = ({ replica_confirmed with
              state := some ⟨⟨0, 1, 1⟩, some ⟨⟨0, 1, 1⟩, .data 43, true⟩⟩ },
            .ok ⟨0, 1, 1⟩) := by
  decide

/-- The confirmed value of C4 is also overwritten by whole `choose` calls:
two coordinators with the same id propose `0:1:1` before either sends its
`accept`; the first gets `42` confirmed on the three replicas and returns
`None`, then the `accept` of the second replaces it by `43`, and the second
returns `None` as well. -/
theorem confirmed_value_overwritten_in_history :
    ((system_same_id.run (history_same_id.take 12)).world.servers 0).state
        = some ⟨⟨0, 1, 1⟩, some ⟨⟨0, 1, 1⟩, .data 42, true⟩⟩ ∧
      (system_same_id.run (history_same_id.take 12)).outcome 0 = some (.returned none) ∧
      ((system_same_id.run history_same_id).world.servers 0).state
        = some ⟨⟨0, 1, 1⟩, some ⟨⟨0, 1, 1⟩, .data 43, true⟩⟩ ∧
      (system_same_id.run history_same_id).outcome 1 = some (.returned none) := by
  decide

/-! ## The entry of a slot is never newer than the slot's promise -/

theorem ordered_fresh (id : Int) (q : Quorum) (ver : ElleVersion) :
    (Server.fresh id q ver).ordered := by
  intro st a h
  cases h

theorem ordered_accept (s : Server) (q : Quorum) (p : Proposal) (value : Value)
    (h : s.ordered) : (s.accept q p value).1.ordered := by
  obtain ⟨id, qi, val, ver, state⟩ := s
  by_cases hq : q = qi
  · subst hq
    rcases state with _ | ⟨sp, sa⟩
    · simpa [Server.accept, check_quorum] using h
    · by_cases hl1 : sp.lt p = true
      · simpa [Server.accept, check_quorum, hl1] using h
      · by_cases hl2 : p.lt sp = true
        · simpa [Server.accept, check_quorum, hl1, hl2] using h
        · have hl1' : sp.lt p = false := by simpa using hl1
          intro st a hs ha
          simp only [Server.accept, check_quorum, hl1, hl2] at hs
          simp at hs
          subst hs
          simp only [Option.some.injEq] at ha
          subst ha
          cases sa <;> exact hl1'
  · rw [accept_wrong_quorum _ q p value (by simpa using hq)]
    exact h

theorem ordered_confirm (s : Server) (q : Quorum) (p : Proposal)
    (h : s.ordered) : (s.confirm q p).1.ordered := by
  obtain ⟨id, qi, val, ver, state⟩ := s
  by_cases hq : q = qi
  · subst hq
    rcases state with _ | ⟨sp, _ | sa⟩
    · simpa [Server.confirm, check_quorum] using h
    · by_cases hl1 : sp.lt p = true <;> simpa [Server.confirm, check_quorum, hl1] using h
    · by_cases hl1 : sp.lt p = true
      · simpa [Server.confirm, check_quorum, hl1] using h
      · by_cases hl2 : p.lt sp = true
        · simpa [Server.confirm, check_quorum, hl1, hl2] using h
        · by_cases hc : sa.confirmed = true
          · simpa [Server.confirm, check_quorum, hl1, hl2, hc] using h
          · intro st a hs ha
            simp only [Server.confirm, check_quorum, hl1, hl2, hc] at hs
            simp at hs
            subst hs
            simp only [Option.some.injEq] at ha
            subst ha
            exact h ⟨sp, some sa⟩ sa rfl rfl
  · rw [confirm_wrong_quorum _ q p (by simpa using hq)]
    exact h

theorem ordered_get (s : Server) (q : Quorum) (h : s.ordered) : (s.get q).1.ordered := by
  rw [get_unchanged]
  exact h

/-- What `propose` leaves as live slot: the old one, none, a new one without
entry, or the old one with the promise raised to `p`. -/
theorem propose_state (s : Server) (q : Quorum) (p : Proposal) :
    (s.propose q p).1.state = s.state ∨ (s.propose q p).1.state = none ∨
      (s.propose q p).1.state = some ⟨p, none⟩ ∨
      ∃ st, s.state = some st ∧ st.proposal.lt p = true ∧
        (s.propose q p).1.state = some ⟨p, st.accepted⟩ := by
  obtain ⟨id, qi, val, ver, state⟩ := s
  unfold Server.propose
  generalize check_confirmed ⟨id, qi, val, ver, state⟩ p = cc
  rcases state with _ | ⟨sp, _ | ⟨ap, av, ac⟩⟩
  · cases cc
    · simp
    · by_cases hq : q = qi <;> simp [check_quorum, hq]
  · cases cc
    · simp
    · by_cases hv : p.version > sp.version
      · simp [hv]
      · by_cases hq : q = qi
        · by_cases hl : sp.lt p = true <;> simp [check_quorum, hv, hq, hl]
        · simp [check_quorum, hv, hq]
  · by_cases hb : ap.version > p.version
    · simp [hb]
    · cases cc
      · simp [hb]
      · by_cases hv : p.version > sp.version
        · cases av with
          | data t => by_cases hq : q = qi <;> simp [check_quorum, hb, hv, hq]
          | quorum q' => by_cases hq : q = q' <;> simp [check_quorum, hb, hv, hq]
        · by_cases hq : q = qi
          · by_cases hl : sp.lt p = true <;> simp [check_quorum, hb, hv, hq, hl]
          · simp [check_quorum, hb, hv, hq]

theorem ordered_propose (s : Server) (q : Quorum) (p : Proposal)
    (h : s.ordered) : (s.propose q p).1.ordered := by
  intro st' a hs ha
  rcases propose_state s q p with h1 | h1 | h1 | ⟨st, h1, h2, h3⟩
  · rw [h1] at hs
    exact h st' a hs ha
  · rw [h1] at hs
    cases hs
  · rw [h1] at hs
    cases hs
    cases ha
  · rw [h3] at hs
    cases hs
    have h0 := h st a h1 ha
    rw [Proposal.lt_iff] at h2
    rw [Proposal.lt_false_iff] at h0 ⊢
    simp only
    omega

/-! ## Running coordinator programs -/

theorem Prog.run_bind {α β : Type} (m : Prog α) (f : α → Prog β) (w : World) :
    (m.bind f).run w = (f (m.run w).1).run (m.run w).2 := by
  induction m generalizing w with
  | ret a => rfl
  | call r k ih => simp only [Prog.bind, Prog.run, ih]

theorem Prog.run_ret {α : Type} (a : α) (w : World) : (Prog.ret a).run w = (a, w) := rfl

theorem Prog.run_call {α β : Type} (r : Req β) (k : β → Prog α) (w : World) :
    (Prog.call r k).run w = (k (exec r w).1).run (exec r w).2 := rfl

theorem for_each_parallel_nil {σ : Type} (f : Peer → σ → Prog (Task σ)) (s : σ) (w : World) :
    (for_each_parallel f [] s).run w = (.ok s, w) := rfl

theorem for_each_parallel_cons {σ : Type} (f : Peer → σ → Prog (Task σ)) (elt : Peer)
    (c : List Peer) (s : σ) (w : World) :
    (for_each_parallel f (elt :: c) s).run w =
      match ((f elt s).run w).1 with
      | .done s' => (for_each_parallel f c s').run ((f elt s).run w).2
      | .terminated s' => (.ok s', ((f elt s).run w).2)
      | .threw e => (.error e, ((f elt s).run w).2) := by
  rw [for_each_parallel, Prog.run_bind]
  cases ((f elt s).run w).1 <;> rfl

/-- A phase in which every task ends normally: if each replica behind a steady
handle satisfies `P`, a task on it leaves it in `B` (which implies `P`) and
touches nothing else, then the phase ends normally, every replica behind a
handle of the list is in `B`, and the others are as before. -/
theorem for_each_parallel_forward {σ : Type} (f : Peer → σ → Prog (Task σ))
    (P B : Server → Prop) (φ : σ → Peer → σ)
    (hB : ∀ s, B s → P s)
    (hstep : ∀ peer s w, peer.steady → (∀ i, peer.kind = .replica i → P (w.servers i)) →
      ((f peer s).run w).1 = .done (φ s peer) ∧
      (∀ i, peer.kind = .replica i → B (((f peer s).run w).2.servers i)) ∧
      (∀ j, peer.kind ≠ .replica j → ((f peer s).run w).2.servers j = w.servers j)) :
    ∀ (ps : List Peer) (s : σ) (w : World), (∀ peer ∈ ps, peer.steady) →
      (∀ peer ∈ ps, ∀ i, peer.kind = .replica i → P (w.servers i)) →
      ((for_each_parallel f ps s).run w).1 = .ok (ps.foldl φ s) ∧
      (∀ peer ∈ ps, ∀ i, peer.kind = .replica i →
        B (((for_each_parallel f ps s).run w).2.servers i)) ∧
      (∀ j, (∀ peer ∈ ps, peer.kind ≠ .replica j) →
        ((for_each_parallel f ps s).run w).2.servers j = w.servers j) := by
  intro ps
  induction ps with
  | nil =>
    intro s w _ _
    refine ⟨rfl, ?_, fun _ _ => rfl⟩
    intro peer hp
    cases hp
  | cons elt c ih =>
    intro s w hsteady hP
    have h1 := hstep elt s w (hsteady elt (List.mem_cons_self _ _))
      (hP elt (List.mem_cons_self _ _))
    obtain ⟨hdone, hB1, hframe1⟩ := h1
    have hP1 : ∀ peer ∈ c, ∀ i, peer.kind = .replica i →
        P (((f elt s).run w).2.servers i) := by
      intro peer hp i hi
      by_cases he : elt.kind = .replica i
      · exact hB _ (hB1 i he)
      · rw [hframe1 i he]
        exact hP peer (List.mem_cons_of_mem _ hp) i hi
    have h2 := ih (φ s elt) ((f elt s).run w).2
      (fun peer hp => hsteady peer (List.mem_cons_of_mem _ hp)) hP1
    obtain ⟨hok, hB2, hframe2⟩ := h2
    rw [for_each_parallel_cons, hdone]
    refine ⟨hok, ?_, ?_⟩
    · intro peer hp i hi
      rcases List.mem_cons.mp hp with rfl | hp
      · by_cases hc : ∀ peer' ∈ c, peer'.kind ≠ .replica i
        · rw [hframe2 i hc]
          exact hB1 i hi
        · push_neg at hc
          obtain ⟨peer', hp', hk⟩ := hc
          exact hB2 peer' hp' i hk
      · exact hB2 peer hp i hi
    · intro j hj
      rw [hframe2 j (fun peer hp => hj peer (List.mem_cons_of_mem _ hp))]
      exact hframe1 j (hj elt (List.mem_cons_self _ _))

/-! ## The RPCs on a replica that is where the coordinator expects it -/

theorem propose_of_promised (s : Server) (q : Quorum) (p : Proposal)
    (h : s.promised q p) : s.propose q p = (s, .ok none) := by
  obtain ⟨id, qi, val, ver, state⟩ := s
  obtain ⟨hq, hs⟩ := h
  simp only at hq hs
  subst hq hs
  simp [Server.propose, check_confirmed, check_quorum, Proposal.lt_irrefl]

theorem propose_of_ready (s : Server) (q : Quorum) (p : Proposal)
    (h : s.ready q p.version) :
    (s.propose q p).2 = .ok none ∧ (s.propose q p).1.promised q p := by
  obtain ⟨id, qi, val, ver, state⟩ := s
  rcases h with ⟨hq, hs⟩ | ⟨st, a, hs, hv, ha, hc, hle, hval⟩
  · simp only at hq hs
    subst hq hs
    simp [Server.propose, check_confirmed, check_quorum, Server.promised]
  · obtain ⟨sp, sa⟩ := st
    obtain ⟨ap, av, ac⟩ := a
    simp only at hs hv ha hc hle hval
    subst hs ha hc
    have h1 : ¬ ap.version > p.version := by omega
    have h2 : ¬ sp.version ≥ p.version := by omega
    have h3 : p.version > sp.version := by omega
    have h4 : sp.version = p.version - 1 := hv
    rcases hval with hval | ⟨⟨t, hval⟩, hq⟩
    · subst hval
      simp [Server.propose, check_confirmed, check_quorum, Server.promised, h1, h2, h3, h4]
    · subst hval hq
      simp [Server.propose, check_confirmed, check_quorum, Server.promised, h1, h2, h3, h4]

theorem accept_of_promised (s : Server) (q : Quorum) (p : Proposal) (value : Value)
    (h : s.promised q p) :
    (s.accept q p value).2 = .ok p ∧ (s.accept q p value).1.holds q p value false := by
  obtain ⟨id, qi, val, ver, state⟩ := s
  obtain ⟨hq, hs⟩ := h
  simp only at hq hs
  subst hq hs
  simp [Server.accept, check_quorum, Proposal.lt_irrefl, Server.holds]

theorem accept_of_holds (s : Server) (q : Quorum) (p : Proposal) (value : Value) (c : Bool)
    (h : s.holds q p value c) : s.accept q p value = (s, .ok p) := by
  obtain ⟨id, qi, val, ver, state⟩ := s
  obtain ⟨hq, hs⟩ := h
  simp only at hq hs
  subst hq hs
  simp [Server.accept, check_quorum, Proposal.lt_irrefl]

theorem confirm_of_holds (s : Server) (q : Quorum) (p : Proposal) (value : Value) (c : Bool)
    (h : s.holds q p value c) :
    (s.confirm q p).2 = .ok () ∧ (s.confirm q p).1.holds q p value true := by
  obtain ⟨id, qi, val, ver, state⟩ := s
  obtain ⟨hq, hs⟩ := h
  simp only at hq hs
  subst hq hs
  cases c <;> simp [Server.confirm, check_quorum, Proposal.lt_irrefl, Server.holds]

theorem get_of_holds (s : Server) (q : Quorum) (p : Proposal) (x : Int)
    (h : s.holds q p (.data x) true) : s.get q = (s, .ok (some ⟨p, .data x, true⟩)) := by
  obtain ⟨id, qi, val, ver, state⟩ := s
  obtain ⟨hq, hs⟩ := h
  simp only at hq hs
  subst hq hs
  simp [Server.get, check_quorum, Server.current_value]

/-! ## The world after a peer call -/

theorem World.set_servers_same (w : World) (i : Nat) (s : Server) :
    (w.set i s).servers i = s := by
  simp [World.set]

theorem World.set_servers_other (w : World) (i j : Nat) (s : Server) (h : j ≠ i) :
    (w.set i s).servers j = w.servers j := by
  simp [World.set, Function.update_noteq h]

theorem World.set_servers_self (w : World) (i : Nat) :
    (w.set i (w.servers i)).servers = w.servers := by
  simp [World.set]

/-! ## The quorum built from the peer list, and the headcount -/

theorem Client.quorum_foldl (ps : List Peer) (acc : Quorum) :
    ps.foldl (fun q peer => insert peer.id q) acc = acc ∪ (ps.map Peer.id).toFinset := by
  induction ps generalizing acc with
  | nil => simp
  | cons peer ps ih =>
    simp only [List.foldl_cons, ih, List.map_cons, List.toFinset_cons]
    ext a
    simp only [Finset.mem_union, Finset.mem_insert]
    tauto

theorem Client.quorum_eq (ps : List Peer) :
    Client.quorum ps = (ps.map Peer.id).toFinset := by
  simp [Client.quorum, Client.quorum_foldl]

theorem Client.quorum_card_le (ps : List Peer) : (Client.quorum ps).card ≤ ps.length := by
  rw [Client.quorum_eq]
  simpa using List.toFinset_card_le (ps.map Peer.id)

theorem Client.quorum_card_nodup (ps : List Peer) (h : (ps.map Peer.id).Nodup) :
    (Client.quorum ps).card = ps.length := by
  rw [Client.quorum_eq, List.toFinset_card_of_nodup h, List.length_map]

theorem available_le_length (ps : List Peer) : available ps ≤ ps.length := by
  induction ps with
  | nil => simp [available]
  | cons peer ps ih =>
    simp only [available, List.length_cons]
    split <;> omega

theorem check_headcount_eq (q : Quorum) (reached : Int) (reading : Bool) (hq : 1 ≤ q.card) :
    Client._check_headcount q reached reading =
      if reached ≤ ((q.card : Int) - (if reading then 1 else 0)) / 2 then
        .error (.TooFewPeers reached q.card)
      else .ok () := by
  have hc : (1 : Int) ≤ q.card := by exact_mod_cast hq
  cases reading
  · have h0 : Int.tdiv (q.card : Int) 2 = (q.card : Int) / 2 :=
      Int.tdiv_eq_ediv (by omega) (by norm_num)
    simp [Client._check_headcount, h0]
  · have h0 : Int.tdiv ((q.card : Int) - 1) 2 = ((q.card : Int) - 1) / 2 :=
      Int.tdiv_eq_ediv (by omega) (by norm_num)
    simp [Client._check_headcount, h0]

theorem check_headcount_pass (q : Quorum) (reached : Int) (reading : Bool)
    (h : (q.card : Int) < 2 * reached) :
    Client._check_headcount q reached reading = .ok () := by
  by_cases hq : 1 ≤ q.card
  · have hc : (1 : Int) ≤ q.card := by exact_mod_cast hq
    rw [check_headcount_eq q reached reading hq]
    cases reading
    · rw [if_neg]
      simp only [Bool.false_eq_true, if_false]
      omega
    · rw [if_neg]
      simp only [if_true]
      omega
  · have h0 : q.card = 0 := by omega
    have h1 : 0 < reached := by
      rw [h0] at h
      simp at h
      exact h
    have h2 : Int.tdiv (0 - 1) 2 = 0 := by decide
    have h3 : Int.tdiv (0 - 0) 2 = 0 := by decide
    cases reading
    · simp only [Client._check_headcount, h0, Nat.cast_zero, Bool.false_eq_true, if_false, h3]
      rw [if_neg (by omega)]
    · simp only [Client._check_headcount, h0, Nat.cast_zero, if_true, h2]
      rw [if_neg (by omega)]

theorem check_headcount_fail (q : Quorum) (reached : Int) (reading : Bool)
    (hq : 1 ≤ q.card)
    (h : reached ≤ ((q.card : Int) - (if reading then 1 else 0)) / 2) :
    Client._check_headcount q reached reading
      = .error (.TooFewPeers reached q.card) := by
  rw [check_headcount_eq q reached reading hq, if_pos h]

/-! ## The phases of `choose` on replicas that are where the coordinator expects them -/

theorem foldl_counted {α : Type} (ps : List Peer) (a : α) (n : Int) :
    ps.foldl Client.counted (a, n) = (a, n + available ps) := by
  induction ps generalizing n with
  | nil => simp [available]
  | cons peer ps ih =>
    obtain ⟨pid, kind⟩ := peer
    cases kind with
    | replica i =>
      simp only [List.foldl_cons, available, Client.counted, ih]
      congr 1
      push_cast
      ring
    | unavailable => simp only [List.foldl_cons, available, Client.counted, ih]
    | proposeOnly i => simp only [List.foldl_cons, available, Client.counted, ih]

theorem foldl_counted_confirm (ps : List Peer) (n : Int) :
    ps.foldl Client.counted_confirm n = n + available ps := by
  induction ps generalizing n with
  | nil => simp [available]
  | cons peer ps ih =>
    obtain ⟨pid, kind⟩ := peer
    cases kind with
    | replica i =>
      simp only [List.foldl_cons, available, Client.counted_confirm, ih]
      push_cast
      ring
    | unavailable => simp only [List.foldl_cons, available, Client.counted_confirm, ih]
    | proposeOnly i => simp only [List.foldl_cons, available, Client.counted_confirm, ih]

theorem foldl_counted_get (a : Accepted) (ps : List Peer) (r : Option Accepted) (n : Int)
    (hr : r = none ∨ r = some a) :
    ps.foldl (Client.counted_get a) (r, n)
      = (if available ps = 0 then r else some a, n + available ps) := by
  induction ps generalizing r n with
  | nil => simp [available]
  | cons peer ps ih =>
    obtain ⟨pid, kind⟩ := peer
    cases kind with
    | replica i =>
      have hstep : Client.counted_get a (r, n) ⟨pid, .replica i⟩ = (some a, n + 1) := by
        rcases hr with rfl | rfl
        · rfl
        · simp [Client.counted_get, Proposal.lt_irrefl]
      simp only [List.foldl_cons, available, hstep]
      rw [ih (some a) (n + 1) (Or.inr rfl)]
      simp only [Nat.add_one_ne_zero, if_false, ite_self]
      congr 1
      push_cast
      ring
    | unavailable =>
      simp only [List.foldl_cons, available, Client.counted_get]
      exact ih r n hr
    | proposeOnly i =>
      simp only [List.foldl_cons, available, Client.counted_get]
      exact ih r n hr

theorem propose_task_forward (q : Quorum) (p : Proposal) (peer : Peer)
    (s : Option Accepted × Int) (w : World) (hst : peer.steady)
    (hP : ∀ i, peer.kind = .replica i →
      (w.servers i).ready q p.version ∨ (w.servers i).promised q p) :
    ((Client.propose_task q p peer s).run w).1 = .done (Client.counted s peer) ∧
      (∀ i, peer.kind = .replica i →
        (((Client.propose_task q p peer s).run w).2.servers i).promised q p) ∧
      (∀ j, peer.kind ≠ .replica j →
        ((Client.propose_task q p peer s).run w).2.servers j = w.servers j) := by
  obtain ⟨pid, kind⟩ := peer
  rcases hst with hk | ⟨i, hk⟩
  · simp only at hk
    subst hk
    simp [Client.propose_task, Prog.run, exec, Peer.propose, Client.counted]
  · simp only at hk
    subst hk
    have h := hP i rfl
    have hres : ((w.servers i).propose q p).2 = .ok none ∧
        ((w.servers i).propose q p).1.promised q p := by
      rcases h with h | h
      · exact propose_of_ready _ _ _ h
      · rw [propose_of_promised _ _ _ h]
        exact ⟨rfl, h⟩
    refine ⟨?_, ?_, ?_⟩
    · simp [Client.propose_task, Prog.run, exec, Peer.propose, Client.counted, hres.1]
    · intro j hj
      cases hj
      simp only [Client.propose_task, Prog.run, exec, Peer.propose, hres.1,
        World.set_servers_same]
      exact hres.2
    · intro j hj
      have hji : j ≠ i := fun h => hj (by rw [h])
      simp only [Client.propose_task, Prog.run, exec, Peer.propose, hres.1]
      exact World.set_servers_other _ _ _ _ hji

theorem accept_task_forward (q : Quorum) (p : Proposal) (value : Value) (peer : Peer)
    (s : Option Proposal × Int) (w : World) (hst : peer.steady)
    (hP : ∀ i, peer.kind = .replica i →
      (w.servers i).promised q p ∨ (w.servers i).holds q p value false) :
    ((Client.accept_task q p value peer s).run w).1 = .done (Client.counted s peer) ∧
      (∀ i, peer.kind = .replica i →
        (((Client.accept_task q p value peer s).run w).2.servers i).holds q p value false) ∧
      (∀ j, peer.kind ≠ .replica j →
        ((Client.accept_task q p value peer s).run w).2.servers j = w.servers j) := by
  obtain ⟨pid, kind⟩ := peer
  rcases hst with hk | ⟨i, hk⟩
  · simp only at hk
    subst hk
    simp [Client.accept_task, Prog.run, exec, Peer.accept, Client.counted]
  · simp only at hk
    subst hk
    have h := hP i rfl
    have hres : ((w.servers i).accept q p value).2 = .ok p ∧
        ((w.servers i).accept q p value).1.holds q p value false := by
      rcases h with h | h
      · exact accept_of_promised _ _ _ _ h
      · rw [accept_of_holds _ _ _ _ _ h]
        exact ⟨rfl, h⟩
    refine ⟨?_, ?_, ?_⟩
    · simp [Client.accept_task, Prog.run, exec, Peer.accept, Client.counted, hres.1,
        Proposal.lt_irrefl]
    · intro j hj
      cases hj
      simp only [Client.accept_task, Prog.run, exec, Peer.accept, hres.1,
        Proposal.lt_irrefl, World.set_servers_same]
      exact hres.2
    · intro j hj
      have hji : j ≠ i := fun h => hj (by rw [h])
      simp only [Client.accept_task, Prog.run, exec, Peer.accept, hres.1, Proposal.lt_irrefl]
      exact World.set_servers_other _ _ _ _ hji

theorem confirm_task_forward (q : Quorum) (p : Proposal) (value : Value) (peer : Peer)
    (s : Int) (w : World) (hst : peer.steady)
    (hP : ∀ i, peer.kind = .replica i →
      (w.servers i).holds q p value false ∨ (w.servers i).holds q p value true) :
    ((Client.confirm_task q p peer s).run w).1 = .done (Client.counted_confirm s peer) ∧
      (∀ i, peer.kind = .replica i →
        (((Client.confirm_task q p peer s).run w).2.servers i).holds q p value true) ∧
      (∀ j, peer.kind ≠ .replica j →
        ((Client.confirm_task q p peer s).run w).2.servers j = w.servers j) := by
  obtain ⟨pid, kind⟩ := peer
  rcases hst with hk | ⟨i, hk⟩
  · simp only at hk
    subst hk
    simp [Client.confirm_task, Prog.run, exec, Peer.confirm, Client.counted_confirm]
  · simp only at hk
    subst hk
    have h := hP i rfl
    have hres : ((w.servers i).confirm q p).2 = .ok () ∧
        ((w.servers i).confirm q p).1.holds q p value true := by
      rcases h with h | h
      · exact confirm_of_holds _ _ _ _ _ h
      · exact confirm_of_holds _ _ _ _ _ h
    refine ⟨?_, ?_, ?_⟩
    · simp [Client.confirm_task, Prog.run, exec, Peer.confirm, Client.counted_confirm, hres.1]
    · intro j hj
      cases hj
      simp only [Client.confirm_task, Prog.run, exec, Peer.confirm, hres.1,
        World.set_servers_same]
      exact hres.2
    · intro j hj
      have hji : j ≠ i := fun h => hj (by rw [h])
      simp only [Client.confirm_task, Prog.run, exec, Peer.confirm, hres.1]
      exact World.set_servers_other _ _ _ _ hji

theorem get_task_forward (q : Quorum) (p : Proposal) (x : Int) (peer : Peer)
    (s : Option Accepted × Int) (w : World) (hst : peer.steady)
    (hP : ∀ i, peer.kind = .replica i → (w.servers i).holds q p (.data x) true) :
    ((Client.get_task q peer s).run w).1
        = .done (Client.counted_get ⟨p, .data x, true⟩ s peer) ∧
      (∀ i, peer.kind = .replica i →
        (((Client.get_task q peer s).run w).2.servers i).holds q p (.data x) true) ∧
      (∀ j, peer.kind ≠ .replica j →
        ((Client.get_task q peer s).run w).2.servers j = w.servers j) := by
  obtain ⟨pid, kind⟩ := peer
  obtain ⟨r, n⟩ := s
  rcases hst with hk | ⟨i, hk⟩
  · simp only at hk
    subst hk
    simp [Client.get_task, Prog.run, exec, Peer.get, Client.counted_get]
  · simp only at hk
    subst hk
    have h := hP i rfl
    have hres := get_of_holds _ _ _ _ h
    have hrun : (Client.get_task q ⟨pid, .replica i⟩ (r, n)).run w
        = (.done (Client.counted_get ⟨p, .data x, true⟩ (r, n) ⟨pid, .replica i⟩),
            w.set i (w.servers i)) := by
      cases r with
      | none => simp [Client.get_task, Prog.run, exec, Peer.get, Client.counted_get, hres]
      | some res =>
        by_cases hl : res.proposal.lt p = true <;>
          simp [Client.get_task, Prog.run, exec, Peer.get, Client.counted_get, hres, hl]
    rw [hrun]
    refine ⟨rfl, ?_, ?_⟩
    · intro j hj
      cases hj
      rw [World.set_servers_same]
      exact h
    · intro j hj
      have hji : j ≠ i := fun h => hj (by rw [h])
      exact World.set_servers_other _ _ _ _ hji

/-! ## A whole `choose` on replicas ready for the version -/

theorem choose_confirm_forward (q : Quorum) (c : Client) (p : Proposal) (value : Value)
    (previous : Option Accepted) (w : World)
    (hst : ∀ peer ∈ c.peers, peer.steady)
    (hP : ∀ peer ∈ c.peers, ∀ i, peer.kind = .replica i →
      (w.servers i).holds q p value false ∨ (w.servers i).holds q p value true)
    (hmaj : (q.card : Int) < 2 * available c.peers) :
    ((Client.choose_confirm q c p previous).run w).1 = (c, .returned previous) ∧
      (∀ peer ∈ c.peers, ∀ i, peer.kind = .replica i →
        (((Client.choose_confirm q c p previous).run w).2.servers i).holds q p value true) ∧
      (∀ j, (∀ peer ∈ c.peers, peer.kind ≠ .replica j) →
        ((Client.choose_confirm q c p previous).run w).2.servers j = w.servers j) := by
  have h := for_each_parallel_forward (Client.confirm_task q p)
    (fun s => s.holds q p value false ∨ s.holds q p value true)
    (fun s => s.holds q p value true) Client.counted_confirm
    (fun s hs => Or.inr hs)
    (fun peer s w hs hp => confirm_task_forward q p value peer s w hs hp)
    c.peers 0 w hst hP
  obtain ⟨hok, hB, hframe⟩ := h
  rw [foldl_counted_confirm] at hok
  have hhead : Client._check_headcount q (0 + (available c.peers : Int)) false = .ok () :=
    check_headcount_pass _ _ _ (by omega)
  unfold Client.choose_confirm
  rw [Prog.run_bind, hok]
  simp only [hhead, Prog.run_ret, true_and]
  exact ⟨hB, hframe⟩

theorem choose_accept_forward (q : Quorum) (value : Value)
    (retry : Client → Int → Int → Option Accepted → Prog (Client × Outcome (Option Accepted)))
    (c : Client) (p : Proposal) (backoff : Int) (previous : Option Accepted) (sent : Value)
    (w : World)
    (hsent : sent = Client.sent value previous)
    (hst : ∀ peer ∈ c.peers, peer.steady)
    (hP : ∀ peer ∈ c.peers, ∀ i, peer.kind = .replica i →
      (w.servers i).promised q p ∨ (w.servers i).holds q p sent false)
    (hmaj : (q.card : Int) < 2 * available c.peers) :
    ((Client.choose_accept q value retry c p backoff previous).run w).1
        = (c, .returned previous) ∧
      (∀ peer ∈ c.peers, ∀ i, peer.kind = .replica i →
        (((Client.choose_accept q value retry c p backoff previous).run w).2.servers i).holds
          q p sent true) ∧
      (∀ j, (∀ peer ∈ c.peers, peer.kind ≠ .replica j) →
        ((Client.choose_accept q value retry c p backoff previous).run w).2.servers j
          = w.servers j) := by
  have h := for_each_parallel_forward (Client.accept_task q p sent)
    (fun s => s.promised q p ∨ s.holds q p sent false)
    (fun s => s.holds q p sent false) Client.counted
    (fun s hs => Or.inr hs)
    (fun peer s w hs hp => accept_task_forward q p sent peer s w hs hp)
    c.peers (none, 0) w hst hP
  obtain ⟨hok, hB, hframe⟩ := h
  rw [foldl_counted] at hok
  have hhead : Client._check_headcount q (0 + (available c.peers : Int)) false = .ok () :=
    check_headcount_pass _ _ _ (by omega)
  have hc := choose_confirm_forward q c p sent previous
    ((for_each_parallel (Client.accept_task q p sent) c.peers (none, 0)).run w).2 hst
    (fun peer hp i hi => Or.inl (hB peer hp i hi)) hmaj
  obtain ⟨hc1, hc2, hc3⟩ := hc
  unfold Client.choose_accept
  rw [Prog.run_bind, ← hsent, hok]
  simp only [hhead]
  refine ⟨hc1, hc2, ?_⟩
  intro j hj
  rw [hc3 j hj, hframe j hj]

/-- One iteration of `choose` on ready replicas, a strict majority of the
peers being reachable and no entry being held from before: the call returns
`None`, the round has moved by one, and every reached replica holds the
value, confirmed, under the proposal of the call. -/
theorem choose_loop_ready (q : Quorum) (value : Value) (fuel : Nat) (c : Client)
    (version backoff : Int) (w : World)
    (hst : ∀ peer ∈ c.peers, peer.steady)
    (hP : ∀ peer ∈ c.peers, ∀ i, peer.kind = .replica i → (w.servers i).ready q version)
    (hmaj : (q.card : Int) < 2 * available c.peers) :
    ((Client.choose_loop q value (fuel + 1) c version backoff none).run w).1
        = ({ c with round := c.round + 1 }, .returned none) ∧
      (∀ peer ∈ c.peers, ∀ i, peer.kind = .replica i →
        (((Client.choose_loop q value (fuel + 1) c version backoff none).run w).2.servers i).holds
          q ⟨version, c.round + 1, c.id⟩ value true) ∧
      (∀ j, (∀ peer ∈ c.peers, peer.kind ≠ .replica j) →
        ((Client.choose_loop q value (fuel + 1) c version backoff none).run w).2.servers j
          = w.servers j) := by
  have h := for_each_parallel_forward (Client.propose_task q ⟨version, c.round + 1, c.id⟩)
    (fun s => s.ready q version ∨ s.promised q ⟨version, c.round + 1, c.id⟩)
    (fun s => s.promised q ⟨version, c.round + 1, c.id⟩) Client.counted
    (fun s hs => Or.inr hs)
    (fun peer s w hs hp =>
      propose_task_forward q ⟨version, c.round + 1, c.id⟩ peer s w hs hp)
    c.peers (none, 0) w hst (fun peer hp i hi => Or.inl (hP peer hp i hi))
  obtain ⟨hok, hB, hframe⟩ := h
  rw [foldl_counted] at hok
  have hhead : Client._check_headcount q (0 + (available c.peers : Int)) false = .ok () :=
    check_headcount_pass _ _ _ (by omega)
  have ha := choose_accept_forward q value (Client.choose_loop q value fuel)
    { c with round := c.round + 1 } ⟨version, c.round + 1, c.id⟩ backoff none value
    ((for_each_parallel (Client.propose_task q ⟨version, c.round + 1, c.id⟩) c.peers
      (none, 0)).run w).2 rfl hst
    (fun peer hp i hi => Or.inl (hB peer hp i hi)) hmaj
  obtain ⟨ha1, ha2, ha3⟩ := ha
  unfold Client.choose_loop
  simp only
  rw [Prog.run_bind, hok]
  simp only [hhead, Bool.false_eq_true, if_false]
  refine ⟨ha1, ha2, ?_⟩
  intro j hj
  rw [ha3 j hj, hframe j hj]

theorem get_quorum_forward (c : Client) (p : Proposal) (x : Int) (w : World)
    (hst : ∀ peer ∈ c.peers, peer.steady)
    (hP : ∀ peer ∈ c.peers, ∀ i, peer.kind = .replica i →
      (w.servers i).holds (Client.quorum c.peers) p (.data x) true)
    (hmaj : ((Client.quorum c.peers).card : Int) < 2 * available c.peers) :
    (c.get_quorum.run w).1 = .returned (some x, Client.quorum c.peers) := by
  have h := for_each_parallel_forward (Client.get_task (Client.quorum c.peers))
    (fun s => s.holds (Client.quorum c.peers) p (.data x) true)
    (fun s => s.holds (Client.quorum c.peers) p (.data x) true)
    (Client.counted_get ⟨p, .data x, true⟩)
    (fun s hs => hs)
    (fun peer s w hs hp => get_task_forward (Client.quorum c.peers) p x peer s w hs hp)
    c.peers (none, 0) w hst hP
  obtain ⟨hok, -, -⟩ := h
  rw [foldl_counted_get _ _ _ _ (Or.inl rfl)] at hok
  have hpos : available c.peers ≠ 0 := by
    intro h0
    rw [h0] at hmaj
    have : (0 : Int) ≤ (Client.quorum c.peers).card := Int.natCast_nonneg _
    omega
  rw [if_neg hpos] at hok
  have hhead : Client._check_headcount (Client.quorum c.peers)
      (0 + (available c.peers : Int)) true = .ok () :=
    check_headcount_pass _ _ _ (by omega)
  unfold Client.get_quorum
  simp only
  rw [Prog.run_bind, hok]
  simp only [hhead, Prog.run_ret]

theorem get_forward (c : Client) (p : Proposal) (x : Int) (w : World)
    (hst : ∀ peer ∈ c.peers, peer.steady)
    (hP : ∀ peer ∈ c.peers, ∀ i, peer.kind = .replica i →
      (w.servers i).holds (Client.quorum c.peers) p (.data x) true)
    (hmaj : ((Client.quorum c.peers).card : Int) < 2 * available c.peers) :
    (c.get.run w).1 = .returned (some x) := by
  unfold Client.get
  rw [Prog.run_bind, get_quorum_forward c p x w hst hP hmaj]
  rfl

/-! ## C5: a majority of fresh replicas chooses and reads back -/

theorem ready_of_new {id : Int} {q : Quorum} {ver : ElleVersion} {s : Server} {version : Int}
    (h : Server.new id q ver = .ok s) : s.ready q version := by
  unfold Server.new at h
  split at h
  · cases h
    exact Or.inl ⟨rfl, rfl⟩
  · cases h

theorem steady_of_fresh {peers : List Peer} {w : World} {q : Quorum}
    (h : ∀ peer ∈ peers, peer.kind = .unavailable ∨
      ∃ i id ver, peer.kind = .replica i ∧ Server.new id q ver = .ok (w.servers i)) :
    ∀ peer ∈ peers, peer.steady := by
  intro peer hp
  rcases h peer hp with hk | ⟨i, _, _, hk, _⟩
  · exact Or.inl hk
  · exact Or.inr ⟨i, hk⟩

theorem ready_of_fresh {peers : List Peer} {w : World} {q : Quorum} (version : Int)
    (h : ∀ peer ∈ peers, peer.kind = .unavailable ∨
      ∃ i id ver, peer.kind = .replica i ∧ Server.new id q ver = .ok (w.servers i)) :
    ∀ peer ∈ peers, ∀ i, peer.kind = .replica i → (w.servers i).ready q version := by
  intro peer hp i hi
  rcases h peer hp with hk | ⟨j, id, ver, hk, hnew⟩
  · rw [hk] at hi
    cases hi
  · rw [hk] at hi
    cases hi
    exact ready_of_new hnew

theorem majority_of_quorum (peers : List Peer) (h : peers.length < 2 * available peers) :
    ((Client.quorum peers).card : Int) < 2 * available peers := by
  have := Client.quorum_card_le peers
  omega

/-- C5: a coordinator (any id, any round) whose peers are fresh replicas
created with the quorum formed by the peer ids, or unavailable handles, with
strictly more than half of the peers on a replica: `choose(version, x)`
returns `None` and the `get()` that follows returns `Some(x)`. -/
theorem choose_then_get_on_fresh_replicas (c : Client) (w : World) (version x : Int)
    (fuel : Nat)
    (hpeers : ∀ peer ∈ c.peers, peer.kind = .unavailable ∨
      ∃ i id ver, peer.kind = .replica i ∧
        Server.new id (Client.quorum c.peers) ver = .ok (w.servers i))
    (hmaj : c.peers.length < 2 * available c.peers) :
    ((c.choose (fuel + 1) version (.data x)).run w).1.2 = .returned none ∧
      (((c.choose (fuel + 1) version (.data x)).run w).1.1.get.run
        ((c.choose (fuel + 1) version (.data x)).run w).2).1 = .returned (some x) := by
  have h := choose_loop_ready (Client.quorum c.peers) (.data x) fuel c version 1 w
    (steady_of_fresh hpeers) (ready_of_fresh version hpeers) (majority_of_quorum _ hmaj)
  obtain ⟨h1, h2, -⟩ := h
  unfold Client.choose
  rw [h1]
  refine ⟨rfl, ?_⟩
  exact get_forward { c with round := c.round + 1 } ⟨version, c.round + 1, c.id⟩ x _
    (steady_of_fresh hpeers) h2 (majority_of_quorum _ hmaj)

theorem make_peers_fresh (a b c : Bool) :
    ∀ peer ∈ make_peers a b c, peer.kind = .unavailable ∨
      ∃ i id ver, peer.kind = .replica i ∧
        Server.new id (Client.quorum (make_peers a b c)) ver = .ok (world_fresh.servers i) := by
  intro peer hp
  simp only [make_peers, List.mem_cons, List.mem_singleton, List.not_mem_nil, or_false] at hp
  rcases hp with rfl | rfl | rfl
  · cases a
    · exact Or.inl rfl
    · exact Or.inr ⟨0, 11, v010, rfl, by revert b c; decide⟩
  · cases b
    · exact Or.inl rfl
    · exact Or.inr ⟨1, 12, v010, rfl, by revert a c; decide⟩
  · cases c
    · exact Or.inl rfl
    · exact Or.inr ⟨2, 13, v010, rfl, by revert a b; decide⟩

/-- The theorem `choose_then_get_on_fresh_replicas` on the test `two_of_three`:
replicas 11 and 12, peer 13 unavailable, `choose(42)` then `get()`. -/
theorem choose_then_get_on_fresh_replicas_witness :
    (((Client.new 1 (make_peers true true false)).choose 1 0 (.data 42)).run world_fresh).1.2
        = .returned none ∧
      ((((Client.new 1 (make_peers true true false)).choose 1 0 (.data 42)).run
          world_fresh).1.1.get.run
        (((Client.new 1 (make_peers true true false)).choose 1 0 (.data 42)).run
          world_fresh).2).1 = .returned (some 42) :=
  choose_then_get_on_fresh_replicas (Client.new 1 (make_peers true true false)) world_fresh 0 42 0
    (make_peers_fresh true true false) (by decide)

/-! ## C7: too few reachable peers -/

theorem get_of_idle (s : Server) (q : Quorum) (h : s.quorum_initial = q ∧ s.state = none) :
    s.get q = (s, .ok none) := by
  obtain ⟨id, qi, val, ver, state⟩ := s
  obtain ⟨hq, hs⟩ := h
  simp only at hq hs
  subst hq hs
  simp [Server.get, check_quorum, Server.current_value]

theorem get_task_idle (q : Quorum) (peer : Peer) (s : Option Accepted × Int) (w : World)
    (hst : peer.steady)
    (hP : ∀ i, peer.kind = .replica i →
      (w.servers i).quorum_initial = q ∧ (w.servers i).state = none) :
    ((Client.get_task q peer s).run w).1 = .done (Client.counted s peer) ∧
      (∀ i, peer.kind = .replica i →
        (((Client.get_task q peer s).run w).2.servers i).quorum_initial = q ∧
          (((Client.get_task q peer s).run w).2.servers i).state = none) ∧
      (∀ j, peer.kind ≠ .replica j →
        ((Client.get_task q peer s).run w).2.servers j = w.servers j) := by
  obtain ⟨pid, kind⟩ := peer
  rcases hst with hk | ⟨i, hk⟩
  · simp only at hk
    subst hk
    simp [Client.get_task, Prog.run, exec, Peer.get, Client.counted]
  · simp only at hk
    subst hk
    have h := hP i rfl
    have hres := get_of_idle _ _ h
    have hrun : (Client.get_task q ⟨pid, .replica i⟩ s).run w
        = (.done (Client.counted s ⟨pid, .replica i⟩), w.set i (w.servers i)) := by
      simp [Client.get_task, Prog.run, exec, Peer.get, Client.counted, hres]
    rw [hrun]
    refine ⟨rfl, ?_, ?_⟩
    · intro j hj
      cases hj
      rw [World.set_servers_same]
      exact h
    · intro j hj
      have hji : j ≠ i := fun h => hj (by rw [h])
      exact World.set_servers_other _ _ _ _ hji

theorem idle_of_fresh {peers : List Peer} {w : World} {q : Quorum}
    (h : ∀ peer ∈ peers, peer.kind = .unavailable ∨
      ∃ i id ver, peer.kind = .replica i ∧ Server.new id q ver = .ok (w.servers i)) :
    ∀ peer ∈ peers, ∀ i, peer.kind = .replica i →
      (w.servers i).quorum_initial = q ∧ (w.servers i).state = none := by
  intro peer hp i hi
  rcases h peer hp with hk | ⟨j, id, ver, hk, hnew⟩
  · rw [hk] at hi
    cases hi
  · rw [hk] at hi
    cases hi
    unfold Server.new at hnew
    split at hnew
    · have h := Except.ok.inj hnew
      rw [← h]
      exact ⟨rfl, rfl⟩
    · cases hnew

/-- The propose phase of `choose` on ready replicas when the headcount that
follows fails: the call raises `TooFewPeers(reached, |q|)`. -/
theorem choose_loop_too_few (q : Quorum) (value : Value) (fuel : Nat) (c : Client)
    (version backoff : Int) (w : World)
    (hst : ∀ peer ∈ c.peers, peer.steady)
    (hP : ∀ peer ∈ c.peers, ∀ i, peer.kind = .replica i → (w.servers i).ready q version)
    (hfew : Client._check_headcount q (available c.peers) false
      = .error (.TooFewPeers (available c.peers) q.card)) :
    ((Client.choose_loop q value (fuel + 1) c version backoff none).run w).1.2
      = .raised (.TooFewPeers (available c.peers) q.card) := by
  have h := for_each_parallel_forward (Client.propose_task q ⟨version, c.round + 1, c.id⟩)
    (fun s => s.ready q version ∨ s.promised q ⟨version, c.round + 1, c.id⟩)
    (fun s => s.promised q ⟨version, c.round + 1, c.id⟩) Client.counted
    (fun s hs => Or.inr hs)
    (fun peer s w hs hp =>
      propose_task_forward q ⟨version, c.round + 1, c.id⟩ peer s w hs hp)
    c.peers (none, 0) w hst (fun peer hp i hi => Or.inl (hP peer hp i hi))
  obtain ⟨hok, -, -⟩ := h
  rw [foldl_counted, zero_add] at hok
  unfold Client.choose_loop
  simp only
  rw [Prog.run_bind, hok]
  simp only [hfew, Bool.false_eq_true, if_false, Prog.run_ret]

/-- C7: a coordinator over fresh replicas with distinct ids, created with the
quorum formed by the peer ids, of which only `k` are reachable (the other
handles raise `Unavailable` on every call): `choose` raises
`TooFewPeers(k, n)` when `k <= n / 2`, and `get` raises `TooFewPeers(k, n)`
when `k <= (n - 1) / 2`; what the caller sees is `TooFewPeers`, never the
`Unavailable` of a peer. -/
theorem too_few_peers_on_minority (c : Client) (w : World) (version : Int) (value : Value)
    (fuel : Nat)
    (hpeers : ∀ peer ∈ c.peers, peer.kind = .unavailable ∨
      ∃ i id ver, peer.kind = .replica i ∧
        Server.new id (Client.quorum c.peers) ver = .ok (w.servers i))
    (hnodup : (c.peers.map Peer.id).Nodup) :
    (available c.peers ≤ c.peers.length / 2 →
        ((c.choose (fuel + 1) version value).run w).1.2
          = .raised (.TooFewPeers (available c.peers) c.peers.length)) ∧
      (available c.peers ≤ (c.peers.length - 1) / 2 →
        (c.get.run w).1 = .raised (.TooFewPeers (available c.peers) c.peers.length)) := by
  have hcard := Client.quorum_card_nodup c.peers hnodup
  by_cases hnil : c.peers = []
  · constructor
    · intro _
      simp [Client.choose, Client.choose_loop, hnil, for_each_parallel, Prog.bind, Prog.run,
        Client._check_headcount, Client.quorum, available]
    · intro _
      simp [Client.get, Client.get_quorum, hnil, for_each_parallel, Prog.bind, Prog.run,
        Client._check_headcount, Client.quorum, available]
  · have hlen : 1 ≤ c.peers.length := by
      cases hp : c.peers with
      | nil => exact absurd hp hnil
      | cons a l => simp
    have hq1 : 1 ≤ (Client.quorum c.peers).card := by omega
    constructor
    · intro hk
      have hfew := check_headcount_fail (Client.quorum c.peers) (available c.peers) false hq1
        (by
          simp only [Bool.false_eq_true, if_false, sub_zero]
          rw [hcard]
          omega)
      have h := choose_loop_too_few (Client.quorum c.peers) value fuel c version 1 w
        (steady_of_fresh hpeers) (ready_of_fresh version hpeers) hfew
      unfold Client.choose
      rw [h, hcard]
    · intro hk
      have hfew := check_headcount_fail (Client.quorum c.peers) (available c.peers) true hq1
        (by
          simp only [if_true]
          rw [hcard]
          omega)
      have h := for_each_parallel_forward (Client.get_task (Client.quorum c.peers))
        (fun s => s.quorum_initial = Client.quorum c.peers ∧ s.state = none)
        (fun s => s.quorum_initial = Client.quorum c.peers ∧ s.state = none)
        Client.counted (fun s hs => hs)
        (fun peer s w hs hp => get_task_idle (Client.quorum c.peers) peer s w hs hp)
        c.peers (none, 0) w (steady_of_fresh hpeers) (idle_of_fresh hpeers)
      obtain ⟨hok, -, -⟩ := h
      rw [foldl_counted, zero_add] at hok
      unfold Client.get Client.get_quorum
      simp only
      rw [Prog.run_bind, Prog.run_bind, hok]
      simp only [hfew, Prog.run_ret, hcard]

/-- The theorem `too_few_peers_on_minority` on the test `one_of_three`:
replica 11 up, peers 12 and 13 unavailable, `choose(42)` raises
`TooFewPeers(1, 3)`. -/
theorem too_few_peers_on_minority_witness :
    (((Client.new 1 (make_peers true false false)).choose 1 0 (.data 42)).run
      world_fresh).1.2 = .raised (.TooFewPeers 1 3) :=
  (too_few_peers_on_minority (Client.new 1 (make_peers true false false)) world_fresh 0
    (.data 42) 0 (make_peers_fresh true false false) (by decide)).1 (by decide)

/-! ## C8: a confirmed quorum change and the coordinator's peer list -/

theorem propose_of_quorum_changed (s : Server) (Q Q' : Quorum) (v : Int) (p : Proposal)
    (hne : Q' ≠ Q) (hp : p.version = v + 1) (h : s.quorum_changed Q Q' v) :
    (s.propose Q p).2 = .error (.WrongQuorum Q' Q) ∧
      (s.propose Q p).1.quorum_initial = Q' ∧ (s.propose Q p).1.state = none := by
  obtain ⟨id, qi, val, ver, state⟩ := s
  obtain ⟨hq, st, a, hs, hv, ha, hav, hval, hc⟩ := h
  obtain ⟨sp, sa⟩ := st
  obtain ⟨ap, av, ac⟩ := a
  simp only at hq hs hv ha hav hval hc
  subst hq hs ha hval hc
  have h1 : ¬ ap.version > p.version := by omega
  have h2 : ¬ sp.version ≥ p.version := by omega
  have h3 : p.version > sp.version := by omega
  have h4 : sp.version = p.version - 1 := by omega
  have h5 : ¬ qi = Q' := fun h => hne h.symm
  simp [Server.propose, check_confirmed, check_quorum, h1, h2, h3, h4, h5]

theorem ready_of_quorum_changed {s : Server} {Q Q' : Quorum} {v : Int}
    (h : s.quorum_changed Q Q' v) : s.ready Q' (v + 1) := by
  obtain ⟨_, st, a, hs, hv, ha, hav, hval, hc⟩ := h
  exact Or.inr ⟨st, a, hs, by omega, ha, hc, by omega, Or.inl hval⟩

/-- The propose phase against the old quorum `Q` on replicas that hold the
confirmed change to `Q'`: the first reachable replica collapses the change
and throws `WrongQuorum(Q', Q)`; every replica is afterwards as before or
has `quorum_initial = Q'` and no live slot. -/
theorem propose_phase_wrong_quorum (Q Q' : Quorum) (v : Int) (p : Proposal)
    (hne : Q' ≠ Q) (hp : p.version = v + 1) :
    ∀ (ps : List Peer) (s : Option Accepted × Int) (w : World),
      (∀ peer ∈ ps, peer.steady) → 0 < available ps →
      (∀ peer ∈ ps, ∀ i, peer.kind = .replica i → (w.servers i).quorum_changed Q Q' v) →
      ((for_each_parallel (Client.propose_task Q p) ps s).run w).1
          = .error (.WrongQuorum Q' Q) ∧
        ∀ j, ((for_each_parallel (Client.propose_task Q p) ps s).run w).2.servers j
              = w.servers j ∨
            ((((for_each_parallel (Client.propose_task Q p) ps s).run w).2.servers j).quorum_initial
                = Q' ∧
              (((for_each_parallel (Client.propose_task Q p) ps s).run w).2.servers j).state
                = none) := by
  intro ps
  induction ps with
  | nil =>
    intro s w _ hup _
    simp [available] at hup
  | cons elt c ih =>
    intro s w hst hup hold
    obtain ⟨pid, kind⟩ := elt
    rcases hst ⟨pid, kind⟩ (List.mem_cons_self _ _) with hk | ⟨i, hk⟩
    · simp only at hk
      subst hk
      have hrun : (Client.propose_task Q p ⟨pid, .unavailable⟩ s).run w = (.done s, w) := by
        simp [Client.propose_task, Prog.run, exec, Peer.propose]
      rw [for_each_parallel_cons, hrun]
      exact ih s w (fun peer hp => hst peer (List.mem_cons_of_mem _ hp))
        (by simpa [available] using hup)
        (fun peer hp => hold peer (List.mem_cons_of_mem _ hp))
    · simp only at hk
      subst hk
      have h := propose_of_quorum_changed _ Q Q' v p hne hp
        (hold ⟨pid, .replica i⟩ (List.mem_cons_self _ _) i rfl)
      obtain ⟨h1, h2, h3⟩ := h
      have hrun : (Client.propose_task Q p ⟨pid, .replica i⟩ s).run w
          = (.threw (.WrongQuorum Q' Q), w.set i ((w.servers i).propose Q p).1) := by
        simp [Client.propose_task, Prog.run, exec, Peer.propose, h1]
      rw [for_each_parallel_cons, hrun]
      refine ⟨rfl, ?_⟩
      intro j
      by_cases hj : j = i
      · subst hj
        right
        simp only [World.set_servers_same]
        exact ⟨h2, h3⟩
      · left
        exact World.set_servers_other _ _ _ _ hj

/-- C8: on replicas that hold the quorum change to `Q'`, confirmed at
version `v` under the quorum `Q` (`Q' ≠ Q`), `choose(v + 1, x)` from a
coordinator whose peer ids form `Q` raises `WrongQuorum(Q', Q)`; once the
peer list is changed to one whose ids form `Q'` (each handle on one of the
old replicas or on a fresh replica created with the quorum `Q'`, a strict
majority reachable), `choose(v + 1, x)` returns `None` and `get()` returns
`Some(x)`. -/
theorem choose_after_quorum_change (Q Q' : Quorum) (c : Client) (w : World) (v x : Int)
    (fuel : Nat) (hne : Q' ≠ Q) (hQ : Client.quorum c.peers = Q)
    (hst : ∀ peer ∈ c.peers, peer.steady) (hup : 0 < available c.peers)
    (hold : ∀ peer ∈ c.peers, ∀ i, peer.kind = .replica i →
      (w.servers i).quorum_changed Q Q' v) :
    ((c.choose (fuel + 1) (v + 1) (.data x)).run w).1.2 = .raised (.WrongQuorum Q' Q) ∧
      ∀ (peers' : List Peer) (fuel' : Nat), Client.quorum peers' = Q' →
        peers'.length < 2 * available peers' →
        (∀ peer ∈ peers', peer.kind = .unavailable ∨
          ∃ i, peer.kind = .replica i ∧
            ((∃ old ∈ c.peers, old.kind = .replica i) ∨
              ∃ id ver, Server.new id Q' ver
                = .ok (((c.choose (fuel + 1) (v + 1) (.data x)).run w).2.servers i))) →
        (({ ((c.choose (fuel + 1) (v + 1) (.data x)).run w).1.1 with peers := peers' }.choose
              (fuel' + 1) (v + 1) (.data x)).run
            ((c.choose (fuel + 1) (v + 1) (.data x)).run w).2).1.2 = .returned none ∧
          ((({ ((c.choose (fuel + 1) (v + 1) (.data x)).run w).1.1 with peers := peers' }.choose
                (fuel' + 1) (v + 1) (.data x)).run
              ((c.choose (fuel + 1) (v + 1) (.data x)).run w).2).1.1.get.run
            (({ ((c.choose (fuel + 1) (v + 1) (.data x)).run w).1.1 with peers := peers' }.choose
                (fuel' + 1) (v + 1) (.data x)).run
              ((c.choose (fuel + 1) (v + 1) (.data x)).run w).2).2).1
            = .returned (some x) := by
  have hphase := propose_phase_wrong_quorum Q Q' v ⟨v + 1, c.round + 1, c.id⟩ hne rfl
    c.peers (none, 0) w hst hup hold
  obtain ⟨herr, hworld⟩ := hphase
  have hrun : (c.choose (fuel + 1) (v + 1) (.data x)).run w
      = (({ c with round := c.round + 1 }, .raised (.WrongQuorum Q' Q)),
          ((for_each_parallel (Client.propose_task Q ⟨v + 1, c.round + 1, c.id⟩) c.peers
            (none, 0)).run w).2) := by
    unfold Client.choose Client.choose_loop
    simp only [hQ]
    rw [Prog.run_bind]
    rw [show (for_each_parallel (Client.propose_task Q ⟨v + 1, c.round + 1, c.id⟩) c.peers
          (none, 0)).run w
        = (((for_each_parallel (Client.propose_task Q ⟨v + 1, c.round + 1, c.id⟩) c.peers
            (none, 0)).run w).1,
          ((for_each_parallel (Client.propose_task Q ⟨v + 1, c.round + 1, c.id⟩) c.peers
            (none, 0)).run w).2) from rfl, herr]
    rfl
  rw [hrun]
  refine ⟨rfl, ?_⟩
  intro peers' fuel' hQ' hmaj hnew
  simp only
  have hst' : ∀ peer ∈ peers', peer.steady := by
    intro peer hp
    rcases hnew peer hp with hk | ⟨i, hk, _⟩
    · exact Or.inl hk
    · exact Or.inr ⟨i, hk⟩
  have hready : ∀ peer ∈ peers', ∀ i, peer.kind = .replica i →
      (((for_each_parallel (Client.propose_task Q ⟨v + 1, c.round + 1, c.id⟩) c.peers
        (none, 0)).run w).2.servers i).ready (Client.quorum peers') (v + 1) := by
    intro peer hp i hi
    rw [hQ']
    rcases hnew peer hp with hk | ⟨j, hk, hor⟩
    · rw [hk] at hi
      cases hi
    · rw [hk] at hi
      cases hi
      rcases hor with ⟨old, hold', hko⟩ | ⟨id, ver, hfresh⟩
      · rcases hworld i with hsame | ⟨h1, h2⟩
        · rw [hsame]
          exact ready_of_quorum_changed (hold old hold' i hko)
        · exact Or.inl ⟨h1, h2⟩
      · exact ready_of_new hfresh
  have h := choose_loop_ready (Client.quorum peers') (.data x) fuel'
    { c with round := c.round + 1, peers := peers' } (v + 1) 1 _ hst' hready
    (majority_of_quorum _ hmaj)
  obtain ⟨h1, h2, -⟩ := h
  unfold Client.choose
  simp only
  rw [h1]
  refine ⟨rfl, ?_⟩
  exact get_forward { c with round := c.round + 1 + 1, peers := peers' }
    ⟨v + 1, c.round + 1 + 1, c.id⟩ x _ hst' h2 (majority_of_quorum _ hmaj)

theorem extend_changed_quorum_changed :
    ∀ peer ∈ extend_changed.1.1.peers, ∀ i, peer.kind = .replica i →
      (extend_changed.2.servers i).quorum_changed {11} {11, 12} 1 := by
  intro peer hp i hi
  have hpeers : extend_changed.1.1.peers = [⟨11, .replica 0⟩] := by decide
  rw [hpeers] at hp
  simp only [List.mem_singleton] at hp
  subst hp
  cases hi
  exact ⟨by decide, ⟨⟨1, 2, 1⟩, some ⟨⟨1, 2, 1⟩, .quorum {11, 12}, true⟩⟩,
    ⟨⟨1, 2, 1⟩, .quorum {11, 12}, true⟩, by decide, rfl, rfl, rfl, rfl, rfl⟩

/-- The theorem `choose_after_quorum_change` on the test `elect_extend`:
after `choose(0, 0)` and `choose(1, {11, 12})` on the quorum `{11}`,
`choose(2, 2)` raises `WrongQuorum({11, 12}, {11})`; with peer 12 added it
returns `None`. -/
theorem choose_after_quorum_change_witness :
    ((extend_changed.1.1.choose 1 2 (.data 2)).run extend_changed.2).1.2
        = .raised (.WrongQuorum {11, 12} {11}) ∧
      (({ ((extend_changed.1.1.choose 1 2 (.data 2)).run extend_changed.2).1.1 with
            peers := [⟨11, .replica 0⟩, ⟨12, .replica 1⟩] }.choose 1 2 (.data 2)).run
          ((extend_changed.1.1.choose 1 2 (.data 2)).run extend_changed.2).2).1.2
        = .returned none :=
  ⟨(choose_after_quorum_change {11} {11, 12} extend_changed.1.1 extend_changed.2 1 2 0
      (by decide) (by decide) (fun _ hp => Or.inr ⟨0, by
        have hpeers : extend_changed.1.1.peers = [⟨11, .replica 0⟩] := by decide
        rw [hpeers] at hp
        simp only [List.mem_singleton] at hp
        rw [hp]⟩)
      (by decide) extend_changed_quorum_changed).1,
    ((choose_after_quorum_change {11} {11, 12} extend_changed.1.1 extend_changed.2 1 2 0
      (by decide) (by decide) (fun _ hp => Or.inr ⟨0, by
        have hpeers : extend_changed.1.1.peers = [⟨11, .replica 0⟩] := by decide
        rw [hpeers] at hp
        simp only [List.mem_singleton] at hp
        rw [hp]⟩)
      (by decide) extend_changed_quorum_changed).2
      [⟨11, .replica 0⟩, ⟨12, .replica 1⟩] 0 (by decide) (by decide)
      (by
        intro peer hp
        simp only [List.mem_cons, List.mem_singleton, List.not_mem_nil, or_false] at hp
        rcases hp with rfl | rfl
        · exact Or.inr ⟨0, rfl, Or.inl ⟨⟨11, .replica 0⟩, by decide, rfl⟩⟩
        · exact Or.inr ⟨1, rfl, Or.inr ⟨12, v010, by decide⟩⟩)).1⟩

/-! ## What a `choose` that returned has done -/

theorem accept_not_unavailable (s : Server) (q : Quorum) (p : Proposal) (value : Value) :
    (s.accept q p value).2 ≠ .error .Unavailable := by
  by_cases hq : q = s.quorum_initial
  · simp only [Server.accept, check_quorum_ok hq]
    repeat' split
    all_goals simp
  · simp [accept_wrong_quorum s q p value hq]

theorem confirm_not_unavailable (s : Server) (q : Quorum) (p : Proposal) :
    (s.confirm q p).2 ≠ .error .Unavailable := by
  by_cases hq : q = s.quorum_initial
  · simp only [Server.confirm, check_quorum_ok hq]
    repeat' split
    all_goals simp
  · simp [confirm_wrong_quorum s q p hq]

theorem accept_ok_holding (s : Server) (q : Quorum) (p m : Proposal) (value : Value)
    (h : (s.accept q p value).2 = .ok m) (hm : p.lt m = false) :
    (s.accept q p value).1.holding q p value := by
  have hq := accept_ok_quorum s q p value m h
  obtain ⟨id, qi, val, ver, state⟩ := s
  simp only at hq
  subst hq
  cases state with
  | none => simp [Server.accept, check_quorum] at h
  | some st =>
    obtain ⟨sp, sa⟩ := st
    by_cases h1 : sp.lt p = true
    · simp [Server.accept, check_quorum, h1] at h
    · by_cases h2 : p.lt sp = true
      · simp [Server.accept, check_quorum, h1, h2] at h
        rw [h] at h2
        rw [h2] at hm
        cases hm
      · have heq : sp = p :=
          Proposal.eq_of_not_lt (by simpa using h1) (by simpa using h2)
        subst heq
        cases sa with
        | none =>
          exact ⟨false, by simp [Server.accept, check_quorum, Proposal.lt_irrefl, Server.holds]⟩
        | some a =>
          exact ⟨a.confirmed, by
            simp [Server.accept, check_quorum, Proposal.lt_irrefl, Server.holds]⟩

theorem accept_keeps_holding (s : Server) (q : Quorum) (p : Proposal) (value : Value)
    (h : s.holding q p value) : (s.accept q p value).1.holding q p value := by
  obtain ⟨c, hc⟩ := h
  rw [accept_of_holds s q p value c hc]
  exact ⟨c, hc⟩

theorem confirm_keeps_holding (s : Server) (q : Quorum) (p : Proposal) (value : Value)
    (h : s.holding q p value) : (s.confirm q p).1.holds q p value true := by
  obtain ⟨c, hc⟩ := h
  exact (confirm_of_holds s q p value c hc).2

/-- The accept phase that ended without conflict and without exception:
every replica behind a `Peer` handle holds `(p, value)`, and `reached` has
grown by the number of those handles. -/
theorem accept_phase_backward (q : Quorum) (p : Proposal) (value : Value) :
    ∀ (ps : List Peer) (n r : Int) (w : World),
      ((for_each_parallel (Client.accept_task q p value) ps (none, n)).run w).1
          = .ok (none, r) →
      r = n + available ps ∧
        (∀ peer ∈ ps, ∀ i, peer.kind = .replica i →
          (((for_each_parallel (Client.accept_task q p value) ps (none, n)).run w).2.servers
            i).holding q p value) ∧
        (∀ j, (w.servers j).holding q p value →
          (((for_each_parallel (Client.accept_task q p value) ps (none, n)).run w).2.servers
            j).holding q p value) := by
  intro ps
  induction ps with
  | nil =>
    intro n r w h
    simp only [for_each_parallel_nil, Except.ok.injEq, Prod.mk.injEq, true_and] at h
    refine ⟨by simp [available, h], ?_, fun j hj => hj⟩
    intro peer hp
    cases hp
  | cons elt c ih =>
    intro n r w h
    obtain ⟨pid, kind⟩ := elt
    cases kind with
    | unavailable =>
      have hrun : (Client.accept_task q p value ⟨pid, .unavailable⟩ (none, n)).run w
          = (.done (none, n), w) := by
        simp [Client.accept_task, Prog.run, exec, Peer.accept]
      rw [for_each_parallel_cons, hrun] at h ⊢
      simp only at h ⊢
      obtain ⟨h1, h2, h3⟩ := ih n r w h
      refine ⟨by simpa [available] using h1, ?_, h3⟩
      intro peer hp i hi
      rcases List.mem_cons.mp hp with rfl | hp
      · cases hi
      · exact h2 peer hp i hi
    | proposeOnly k =>
      have hrun : (Client.accept_task q p value ⟨pid, .proposeOnly k⟩ (none, n)).run w
          = (.done (none, n), w) := by
        simp [Client.accept_task, Prog.run, exec, Peer.accept]
      rw [for_each_parallel_cons, hrun] at h ⊢
      simp only at h ⊢
      obtain ⟨h1, h2, h3⟩ := ih n r w h
      refine ⟨by simpa [available] using h1, ?_, h3⟩
      intro peer hp i hi
      rcases List.mem_cons.mp hp with rfl | hp
      · cases hi
      · exact h2 peer hp i hi
    | replica k =>
      have hrun : (Client.accept_task q p value ⟨pid, .replica k⟩ (none, n)).run w
          = ((match ((w.servers k).accept q p value).2 with
              | .ok minimum =>
                if p.lt minimum then Task.terminated (some minimum, n + 1)
                else Task.done (none, n + 1)
              | .error .Unavailable => Task.done (none, n)
              | .error e => Task.threw e),
            w.set k ((w.servers k).accept q p value).1) := by
        simp only [Client.accept_task, Prog.run, exec, Peer.accept]
        cases hres : ((w.servers k).accept q p value).2 with
        | ok m => by_cases hm : p.lt m = true <;> simp [hm, Prog.run]
        | error e => cases e <;> simp [Prog.run]
      rw [for_each_parallel_cons, hrun] at h ⊢
      generalize hres : ((w.servers k).accept q p value).2 = res at h ⊢
      cases res with
      | error e =>
        have hne : e ≠ .Unavailable := fun he =>
          accept_not_unavailable (w.servers k) q p value (by rw [hres, he])
        cases e <;> simp at h hne
      | ok m =>
        by_cases hm : p.lt m = true
        · simp [hm] at h
        · simp only [hm, Bool.false_eq_true, if_false] at h ⊢
          obtain ⟨h1, h2, h3⟩ := ih (n + 1) r (w.set k ((w.servers k).accept q p value).1) h
          have hk : ((w.set k ((w.servers k).accept q p value).1).servers k).holding q p value := by
            rw [World.set_servers_same]
            exact accept_ok_holding _ _ _ m _ hres (by simpa using hm)
          refine ⟨?_, ?_, ?_⟩
          · rw [h1]
            simp only [available]
            push_cast
            ring
          · intro peer hp i hi
            rcases List.mem_cons.mp hp with rfl | hp
            · cases hi
              exact h3 k hk
            · exact h2 peer hp i hi
          · intro j hj
            apply h3
            by_cases hjk : j = k
            · subst hjk
              exact hk
            · rw [World.set_servers_other _ _ _ _ hjk]
              exact hj

theorem confirm_task_run_delivered (q : Quorum) (p : Proposal) (peer : Peer) (k : Nat)
    (n : Int) (w : World) (hk : peer.kind = .replica k ∨ peer.kind = .proposeOnly k) :
    (Client.confirm_task q p peer n).run w
      = ((match ((w.servers k).confirm q p).2 with
          | .ok _ => Task.done (n + 1)
          | .error .Unavailable => Task.done n
          | .error e => Task.threw e),
        w.set k ((w.servers k).confirm q p).1) := by
  obtain ⟨pid, kind⟩ := peer
  simp only at hk
  rcases hk with rfl | rfl
  · simp only [Client.confirm_task, Prog.run, exec, Peer.confirm]
    cases hres : ((w.servers k).confirm q p).2 with
    | ok m => simp [Prog.run]
    | error e => cases e <;> simp [Prog.run]
  · simp only [Client.confirm_task, Prog.run, exec, Peer.confirm]
    cases hres : ((w.servers k).confirm q p).2 with
    | ok m => simp [Prog.run]
    | error e => cases e <;> simp [Prog.run]

/-- The confirm phase that ended without exception, on replicas that hold
`(p, value)` behind every `Peer` handle: all of them hold it confirmed. -/
theorem confirm_phase_backward (q : Quorum) (p : Proposal) (value : Value) :
    ∀ (ps : List Peer) (n r : Int) (w : World),
      ((for_each_parallel (Client.confirm_task q p) ps n).run w).1 = .ok r →
      (∀ peer ∈ ps, ∀ i, peer.kind = .replica i → (w.servers i).holding q p value) →
      (∀ peer ∈ ps, ∀ i, peer.kind = .replica i →
          (((for_each_parallel (Client.confirm_task q p) ps n).run w).2.servers i).holds
            q p value true) ∧
        (∀ j, (w.servers j).holds q p value true →
          (((for_each_parallel (Client.confirm_task q p) ps n).run w).2.servers j).holds
            q p value true) := by
  intro ps
  induction ps with
  | nil =>
    intro n r w _ _
    refine ⟨?_, fun j hj => hj⟩
    intro peer hp
    cases hp
  | cons elt c ih =>
    intro n r w h hH
    have hdeliver : ∀ k, (elt.kind = .replica k ∨ elt.kind = .proposeOnly k) →
        (∀ peer ∈ elt :: c, ∀ i, peer.kind = .replica i →
          (((for_each_parallel (Client.confirm_task q p) (elt :: c) n).run w).2.servers i).holds
            q p value true) ∧
        (∀ j, (w.servers j).holds q p value true →
          (((for_each_parallel (Client.confirm_task q p) (elt :: c) n).run w).2.servers j).holds
            q p value true) := by
      intro k hk
      have hrun := confirm_task_run_delivered q p elt k n w hk
      rw [for_each_parallel_cons, hrun] at h ⊢
      generalize hres : ((w.servers k).confirm q p).2 = res at h ⊢
      cases res with
      | error e =>
        have hne : e ≠ .Unavailable := fun he =>
          confirm_not_unavailable (w.servers k) q p (by rw [hres, he])
        cases e <;> simp at h hne
      | ok u =>
        simp only at h ⊢
        have hstep : ∀ j, (w.servers j).holding q p value →
            ((w.set k ((w.servers k).confirm q p).1).servers j).holds q p value true ∨
              (j ≠ k ∧ (w.set k ((w.servers k).confirm q p).1).servers j = w.servers j) := by
          intro j hj
          by_cases hjk : j = k
          · subst hjk
            left
            rw [World.set_servers_same]
            exact confirm_keeps_holding _ _ _ _ hj
          · right
            exact ⟨hjk, World.set_servers_other _ _ _ _ hjk⟩
        have hH1 : ∀ peer ∈ c, ∀ i, peer.kind = .replica i →
            ((w.set k ((w.servers k).confirm q p).1).servers i).holding q p value := by
          intro peer hp i hi
          have h0 := hH peer (List.mem_cons_of_mem _ hp) i hi
          rcases hstep i h0 with h1 | ⟨_, h1⟩
          · exact ⟨true, h1⟩
          · rw [h1]
            exact h0
        obtain ⟨h2, h3⟩ := ih (n + 1) r (w.set k ((w.servers k).confirm q p).1) h hH1
        refine ⟨?_, ?_⟩
        · intro peer hp i hi
          rcases List.mem_cons.mp hp with rfl | hp
          · have hik : i = k := by
              rcases hk with hk | hk
              · rw [hk] at hi
                cases hi
                rfl
              · rw [hk] at hi
                cases hi
            subst hik
            apply h3
            rw [World.set_servers_same]
            exact confirm_keeps_holding _ _ _ _ (hH _ (List.mem_cons_self _ _) i hi)
          · exact h2 peer hp i hi
        · intro j hj
          apply h3
          rcases hstep j ⟨true, hj⟩ with h1 | ⟨_, h1⟩
          · exact h1
          · rw [h1]
            exact hj
    obtain ⟨pid, kind⟩ := elt
    cases kind with
    | replica k => exact hdeliver k (Or.inl rfl)
    | proposeOnly k => exact hdeliver k (Or.inr rfl)
    | unavailable =>
      have hrun : (Client.confirm_task q p ⟨pid, .unavailable⟩ n).run w = (.done n, w) := by
        simp [Client.confirm_task, Prog.run, exec, Peer.confirm]
      rw [for_each_parallel_cons, hrun] at h ⊢
      simp only at h ⊢
      obtain ⟨h2, h3⟩ := ih n r w h (fun peer hp => hH peer (List.mem_cons_of_mem _ hp))
      refine ⟨?_, h3⟩
      intro peer hp i hi
      rcases List.mem_cons.mp hp with rfl | hp
      · cases hi
      · exact h2 peer hp i hi

theorem check_headcount_majority (q : Quorum) (reached : Int)
    (h : Client._check_headcount q reached false = .ok ()) : (q.card : Int) < 2 * reached := by
  unfold Client._check_headcount at h
  have hc : (0 : Int) ≤ q.card := Int.natCast_nonneg _
  simp only [Bool.false_eq_true, if_false, sub_zero] at h
  rw [Int.tdiv_eq_ediv hc (by norm_num)] at h
  split at h
  · cases h
  · omega

theorem Client.settled_mono {q : Quorum} {peers : List Peer} {v v' sender : Int}
    {value : Value} {res : Option Accepted} {w : World} (hv : v ≤ v')
    (h : Client.settled q peers v' sender value res w) :
    Client.settled q peers v sender value res w := by
  rcases h with h | ⟨p, h1, h2, h3, h4⟩
  · exact Or.inl h
  · exact Or.inr ⟨p, by omega, h2, h3, h4⟩

/-- The accept phase that ended on a conflict: the `minimum` it recorded is
greater than the proposal. -/
theorem accept_phase_conflict (q : Quorum) (p : Proposal) (value : Value) :
    ∀ (ps : List Peer) (n r : Int) (m : Proposal) (w : World),
      ((for_each_parallel (Client.accept_task q p value) ps (none, n)).run w).1
          = .ok (some m, r) → p.lt m = true := by
  intro ps
  induction ps with
  | nil =>
    intro n r m w h
    simp [for_each_parallel_nil] at h
  | cons elt c ih =>
    intro n r m w h
    rw [for_each_parallel_cons] at h
    simp only [Client.accept_task, Prog.run] at h
    generalize hres : (exec (Req.accept elt q p value) w).1 = res at h
    cases res with
    | error e =>
      cases e <;> simp only [Prog.run] at h
      all_goals first
        | exact ih n r m _ h
        | simp at h
    | ok m' =>
      by_cases hm : p.lt m' = true
      · simp only [hm, if_true, Prog.run, Except.ok.injEq, Prod.mk.injEq, Option.some.injEq] at h
        rw [← h.1]
        exact hm
      · simp only [hm, Bool.false_eq_true, if_false, Prog.run] at h
        exact ih (n + 1) r m _ h

theorem choose_confirm_backward (q : Quorum) (c c' : Client) (p : Proposal) (value : Value)
    (previous res : Option Accepted) (w : World)
    (h : ((Client.choose_confirm q c p previous).run w).1 = (c', .returned res))
    (hH : ∀ peer ∈ c.peers, ∀ i, peer.kind = .replica i → (w.servers i).holding q p value) :
    res = previous ∧
      ∀ peer ∈ c.peers, ∀ i, peer.kind = .replica i →
        (((Client.choose_confirm q c p previous).run w).2.servers i).holds q p value true := by
  unfold Client.choose_confirm at h ⊢
  rw [Prog.run_bind] at h ⊢
  have hb := fun r => confirm_phase_backward q p value c.peers 0 r w
  generalize (for_each_parallel (Client.confirm_task q p) c.peers 0).run w = r1 at h hb ⊢
  obtain ⟨res1, w1⟩ := r1
  cases res1 with
  | error e => simp [Prog.run] at h
  | ok reached =>
    simp only at h ⊢
    cases hhead : Client._check_headcount q reached false with
    | error e => simp [hhead, Prog.run] at h
    | ok u =>
      simp only [hhead, Prog.run, Prod.mk.injEq, Outcome.returned.injEq] at h ⊢
      exact ⟨h.2.symm, (hb reached rfl hH).1⟩

theorem choose_accept_backward (q : Quorum) (value : Value)
    (retry : Client → Int → Int → Option Accepted → Prog (Client × Outcome (Option Accepted)))
    (c c' : Client) (p : Proposal) (backoff : Int) (previous res : Option Accepted) (w : World)
    (hp : p.sender = c.id)
    (hretry : ∀ (c2 : Client) (v2 b2 : Int) (w2 : World), c2.peers = c.peers → c2.id = c.id →
      p.version ≤ v2 → ((retry c2 v2 b2 previous).run w2).1 = (c', .returned res) →
      Client.settled q c.peers v2 c.id value res ((retry c2 v2 b2 previous).run w2).2)
    (h : ((Client.choose_accept q value retry c p backoff previous).run w).1
      = (c', .returned res)) :
    Client.settled q c.peers p.version c.id value res
      ((Client.choose_accept q value retry c p backoff previous).run w).2 := by
  unfold Client.choose_accept at h ⊢
  rw [Prog.run_bind] at h ⊢
  have hb := fun r => accept_phase_backward q p (Client.sent value previous) c.peers 0 r w
  have hconf := fun r m =>
    accept_phase_conflict q p (Client.sent value previous) c.peers 0 r m w
  generalize hrun : (for_each_parallel (Client.accept_task q p (Client.sent value previous))
    c.peers (none, 0)).run w = r1 at h hb hconf ⊢
  obtain ⟨res1, w1⟩ := r1
  cases res1 with
  | error e => simp [Prog.run] at h
  | ok s =>
    obtain ⟨conflict, reached⟩ := s
    cases conflict with
    | some minimum =>
      have hlt := hconf reached minimum rfl
      have hv : p.version ≤ minimum.version := Proposal.version_le_of_lt hlt
      simp only [Prog.run] at h ⊢
      by_cases hcb : c.conflict_backoff = true
      · simp only [hcb, if_true, Prog.run] at h ⊢
        exact Client.settled_mono hv (hretry _ _ _ _ rfl rfl hv h)
      · simp only [hcb, Bool.false_eq_true, if_false] at h ⊢
        exact Client.settled_mono hv (hretry _ _ _ _ rfl rfl hv h)
    | none =>
      simp only at h ⊢
      obtain ⟨hr, hhold, -⟩ := hb reached rfl
      cases hhead : Client._check_headcount q reached false with
      | error e => simp [hhead, Prog.run] at h
      | ok u =>
        simp only [hhead] at h ⊢
        have hmaj := check_headcount_majority q reached hhead
        have hc := choose_confirm_backward q c c' p (Client.sent value previous) previous res
          w1 h hhold
        obtain ⟨hres, hall⟩ := hc
        refine Or.inr ⟨p, le_refl _, hp, by omega, ?_⟩
        rw [hres]
        exact hall

/-- Whatever the replicas held, a run of the loop of `choose` that returns
`res` has settled `res` in the sense of `Client.settled`. -/
theorem choose_loop_backward (q : Quorum) (value : Value) :
    ∀ (fuel : Nat) (c c' : Client) (version backoff : Int) (previous res : Option Accepted)
      (w : World),
      ((Client.choose_loop q value fuel c version backoff previous).run w).1
          = (c', .returned res) →
      Client.settled q c.peers version c.id value res
        ((Client.choose_loop q value fuel c version backoff previous).run w).2 := by
  intro fuel
  induction fuel with
  | zero =>
    intro c c' version backoff previous res w h
    simp [Client.choose_loop, Prog.run] at h
  | succ fuel ih =>
    intro c c' version backoff previous res w h
    unfold Client.choose_loop at h ⊢
    simp only at h ⊢
    rw [Prog.run_bind] at h ⊢
    generalize (for_each_parallel
      (Client.propose_task q ⟨version, c.round + 1, c.id⟩) c.peers (previous, 0)).run w
      = r1 at h ⊢
    obtain ⟨res1, w1⟩ := r1
    cases res1 with
    | error e => simp [Prog.run] at h
    | ok s =>
      obtain ⟨prev, reached⟩ := s
      simp only at h ⊢
      have haccept : ∀ (pv : Option Accepted),
          ((Client.choose_accept q value (Client.choose_loop q value fuel)
            { c with round := c.round + 1 } ⟨version, c.round + 1, c.id⟩ backoff pv).run w1).1
            = (c', .returned res) →
          Client.settled q c.peers version c.id value res
            ((Client.choose_accept q value (Client.choose_loop q value fuel)
              { c with round := c.round + 1 } ⟨version, c.round + 1, c.id⟩ backoff pv).run
                w1).2 := by
        intro pv hpv
        exact choose_accept_backward q value (Client.choose_loop q value fuel)
          { c with round := c.round + 1 } c' ⟨version, c.round + 1, c.id⟩ backoff pv res w1 rfl
          (fun c2 v2 b2 w2 hpeers hid _ hrun => by
            have := ih c2 c' v2 b2 pv res w2 hrun
            rw [hpeers, hid] at this
            exact this) hpv
      cases prev with
      | none =>
        simp only [Bool.false_eq_true, if_false] at h ⊢
        cases hhead : Client._check_headcount q reached false with
        | error e => simp [hhead, Prog.run] at h
        | ok u =>
          simp only [hhead] at h ⊢
          exact haccept none h
      | some a =>
        by_cases hconf : a.confirmed = true
        · simp only [hconf, if_true, Prog.run, Prod.mk.injEq, Outcome.returned.injEq] at h ⊢
          exact Or.inl ⟨a, h.2.symm, hconf⟩
        · simp only [hconf, Bool.false_eq_true, if_false] at h ⊢
          cases hhead : Client._check_headcount q reached false with
          | error e => simp [hhead, Prog.run] at h
          | ok u =>
            simp only [hhead] at h ⊢
            by_cases hlt : Proposal.lt ⟨version, c.round + 1, c.id⟩ a.proposal = true
            · simp only [hlt, if_true] at h ⊢
              have hv : version ≤ a.proposal.version := Proposal.version_le_of_lt hlt
              exact Client.settled_mono hv (ih _ c' _ _ _ _ _ h)
            · simp only [hlt, Bool.false_eq_true, if_false] at h ⊢
              exact haccept (some a) h

/-! ## C9: what the return value of `choose` tells -/

/-- C9, the claim as stated fails: when coordinator 3 calls `choose(2, 2)`,
the value `2` is held by replica 11 alone, unconfirmed, and by neither 12
nor 13, so it has not been chosen; the call returns `Some` of that entry, and
the value it got accepted and confirmed on the three replicas, under its own
proposal `2:1:3`, is `2`, the caller's value. -/
theorem choose_returns_unchosen_previous :
    (world_midway.servers 0).state = some ⟨⟨2, 1, 1⟩, some ⟨⟨2, 1, 1⟩, .data 2, false⟩⟩ ∧
      (world_midway.servers 1).state = some ⟨⟨2, 1, 1⟩, none⟩ ∧
      (world_midway.servers 2).state = some ⟨⟨2, 1, 1⟩, none⟩ ∧
      (((Client.new 3 (make_peers true true true)).choose 1 2 (.data 2)).run world_midway).1.2
        = .returned (some ⟨⟨2, 1, 1⟩, .data 2, false⟩) ∧
      ∀ i ∈ [0, 1, 2],
        ((((Client.new 3 (make_peers true true true)).choose 1 2 (.data 2)).run
          world_midway).2.servers i).state
          = some ⟨⟨2, 1, 3⟩, some ⟨⟨2, 1, 3⟩, .data 2, true⟩⟩ := by
  decide

/-- C9, amended: for every run of `choose(version, value)` that returns,
from any replica states: if it returns `None`, the caller's value was
accepted and confirmed, under one proposal of the caller at a version no
lower than `version`, by every replica behind a `Peer` handle, a strict
majority of the quorum; if it returns `Some(prev)`, either `prev` is an entry
that was already confirmed, or `prev.value` is the value the call got
accepted and confirmed in that way (whether or not it had been chosen
before). -/
theorem choose_returned_settles (c c' : Client) (fuel : Nat) (version : Int) (value : Value)
    (res : Option Accepted) (w : World)
    (h : ((c.choose fuel version value).run w).1 = (c', .returned res)) :
    (res = none →
        ∃ p : Proposal, version ≤ p.version ∧ p.sender = c.id ∧
          ((Client.quorum c.peers).card : Int) < 2 * available c.peers ∧
          ∀ peer ∈ c.peers, ∀ i, peer.kind = .replica i →
            (((c.choose fuel version value).run w).2.servers i).holds
              (Client.quorum c.peers) p value true) ∧
      (∀ prev, res = some prev →
        prev.confirmed = true ∨
          ∃ p : Proposal, version ≤ p.version ∧ p.sender = c.id ∧
            ((Client.quorum c.peers).card : Int) < 2 * available c.peers ∧
            ∀ peer ∈ c.peers, ∀ i, peer.kind = .replica i →
              (((c.choose fuel version value).run w).2.servers i).holds
                (Client.quorum c.peers) p prev.value true) := by
  have hs := choose_loop_backward (Client.quorum c.peers) value fuel c c' version 1 none res w h
  constructor
  · intro hres
    subst hres
    rcases hs with ⟨a, ha, _⟩ | hs
    · cases ha
    · exact hs
  · intro prev hres
    subst hres
    rcases hs with ⟨a, ha, hc⟩ | hs
    · cases ha
      exact Or.inl hc
    · exact Or.inr hs

/-- The theorem `choose_returned_settles` on the test `all_is_well`: the
`choose(42)` that returned `None` left `42` confirmed on the replicas. -/
theorem choose_returned_settles_witness :
    ∃ p : Proposal, (0 : Int) ≤ p.version ∧ p.sender = 1 ∧
      ((Client.quorum (make_peers true true true)).card : Int)
        < 2 * available (make_peers true true true) ∧
      ∀ peer ∈ make_peers true true true, ∀ i, peer.kind = .replica i →
        ((((Client.new 1 (make_peers true true true)).choose 1 0 (.data 42)).run
          world_fresh).2.servers i).holds
            (Client.quorum (make_peers true true true)) p (.data 42) true :=
  (choose_returned_settles (Client.new 1 (make_peers true true true))
    ({ Client.new 1 (make_peers true true true) with round := 1 }) 1 0 (.data 42) none
    world_fresh (by decide)).1 rfl

/-! ## C6: a second `choose` at a version that is settled -/

theorem propose_of_keeps (s : Server) (q : Quorum) (a : Accepted) (p : Proposal)
    (hv : p.version ≤ a.proposal.version) (h : s.keeps q a) :
    (s.propose q p).2 = .ok (some a) ∧ (s.propose q p).1.keeps q a := by
  obtain ⟨id, qi, val, ver, state⟩ := s
  obtain ⟨hq, st, hs, ha, hsv⟩ := h
  obtain ⟨sp, sa⟩ := st
  simp only at hq hs ha hsv
  subst hq hs ha
  by_cases hb : a.proposal.version > p.version
  · have hrun : Server.propose ⟨id, qi, val, ver, some ⟨sp, some a⟩⟩ qi p
        = (⟨id, qi, val, ver, some ⟨sp, some a⟩⟩, .ok (some a)) := by
      simp [Server.propose, hb]
    rw [hrun]
    exact ⟨rfl, rfl, _, rfl, rfl, hsv⟩
  · have h1 : sp.version ≥ p.version := by omega
    have h2 : ¬ p.version > sp.version := by omega
    by_cases hl : sp.lt p = true
    · have hrun : Server.propose ⟨id, qi, val, ver, some ⟨sp, some a⟩⟩ qi p
          = (⟨id, qi, val, ver, some ⟨p, some a⟩⟩, .ok (some a)) := by
        simp [Server.propose, hb, check_confirmed, h1, h2, check_quorum, hl]
      rw [hrun]
      have := Proposal.version_le_of_lt hl
      exact ⟨rfl, rfl, _, rfl, rfl, by simp only; omega⟩
    · have hrun : Server.propose ⟨id, qi, val, ver, some ⟨sp, some a⟩⟩ qi p
          = (⟨id, qi, val, ver, some ⟨sp, some a⟩⟩, .ok (some a)) := by
        simp [Server.propose, hb, check_confirmed, h1, h2, check_quorum, hl]
      rw [hrun]
      exact ⟨rfl, rfl, _, rfl, rfl, hsv⟩

theorem propose_task_keeps (q : Quorum) (a : Accepted) (p : Proposal) (peer : Peer)
    (s : Option Accepted × Int) (w : World) (hv : p.version ≤ a.proposal.version)
    (hst : peer.steady)
    (hP : ∀ i, peer.kind = .replica i → (w.servers i).keeps q a) :
    ((Client.propose_task q p peer s).run w).1 = .done (Client.counted_get a s peer) ∧
      (∀ i, peer.kind = .replica i →
        (((Client.propose_task q p peer s).run w).2.servers i).keeps q a) ∧
      (∀ j, peer.kind ≠ .replica j →
        ((Client.propose_task q p peer s).run w).2.servers j = w.servers j) := by
  obtain ⟨pid, kind⟩ := peer
  obtain ⟨r, n⟩ := s
  rcases hst with hk | ⟨i, hk⟩
  · simp only at hk
    subst hk
    simp [Client.propose_task, Prog.run, exec, Peer.propose, Client.counted_get]
  · simp only at hk
    subst hk
    obtain ⟨hres, hkeep⟩ := propose_of_keeps _ q a p hv (hP i rfl)
    have hrun : (Client.propose_task q p ⟨pid, .replica i⟩ (r, n)).run w
        = (.done (Client.counted_get a (r, n) ⟨pid, .replica i⟩),
            w.set i ((w.servers i).propose q p).1) := by
      cases r with
      | none =>
        simp [Client.propose_task, Prog.run, exec, Peer.propose, Client.counted_get, hres]
      | some res =>
        by_cases hl : res.proposal.lt a.proposal = true <;>
          simp [Client.propose_task, Prog.run, exec, Peer.propose, Client.counted_get, hres, hl]
    rw [hrun]
    refine ⟨rfl, ?_, ?_⟩
    · intro j hj
      cases hj
      rw [World.set_servers_same]
      exact hkeep
    · intro j hj
      have hji : j ≠ i := fun h => hj (by rw [h])
      exact World.set_servers_other _ _ _ _ hji

theorem keeps_of_holds {s : Server} {q : Quorum} {p : Proposal} {value : Value} {c : Bool}
    (h : s.holds q p value c) : s.keeps q ⟨p, value, c⟩ :=
  ⟨h.1, _, h.2, rfl, rfl⟩

theorem choose_on_kept (B : Client) (a : Accepted) (version : Int) (y : Value) (fuel : Nat)
    (w : World) (hv : version ≤ a.proposal.version) (hc : a.confirmed = true)
    (hst : ∀ peer ∈ B.peers, peer.steady) (hpos : available B.peers ≠ 0)
    (hkeep : ∀ peer ∈ B.peers, ∀ i, peer.kind = .replica i →
      (w.servers i).keeps (Client.quorum B.peers) a) :
    ((B.choose (fuel + 1) version y).run w).1.2 = .returned (some a) := by
  have h := for_each_parallel_forward
    (Client.propose_task (Client.quorum B.peers) ⟨version, B.round + 1, B.id⟩)
    (fun s => s.keeps (Client.quorum B.peers) a)
    (fun s => s.keeps (Client.quorum B.peers) a)
    (Client.counted_get a) (fun s hs => hs)
    (fun peer s w hs hp =>
      propose_task_keeps (Client.quorum B.peers) a
        ⟨version, B.round + 1, B.id⟩ peer s w hv hs hp)
    B.peers (none, 0) w hst hkeep
  obtain ⟨hok, -, -⟩ := h
  rw [foldl_counted_get _ _ _ _ (Or.inl rfl), if_neg hpos] at hok
  unfold Client.choose Client.choose_loop
  simp only
  rw [Prog.run_bind, hok]
  simp only [hc, if_true, Prog.run_ret]

/-- C6: after a `choose(version, x)` that returned `None` with all peers
available (whatever the replicas held before), a later `choose` at the same
version, with any value, by any coordinator with the same peer list, returns
`Some(a)` with `a.value = Data(x)`. -/
theorem choose_again_returns_chosen (A A' B : Client) (w : World) (version x : Int)
    (y : Value) (fuelA fuelB : Nat)
    (hall : ∀ peer ∈ A.peers, ∃ i, peer.kind = .replica i)
    (hB : B.peers = A.peers)
    (hA : ((A.choose fuelA version (.data x)).run w).1 = (A', .returned none)) :
    ∃ a, ((B.choose (fuelB + 1) version y).run
        ((A.choose fuelA version (.data x)).run w).2).1.2 = .returned (some a) ∧
      a.value = .data x := by
  have hs := choose_loop_backward (Client.quorum A.peers) (.data x) fuelA A A' version 1
    none none w hA
  rcases hs with ⟨a, ha, _⟩ | ⟨p, hv, _, hmaj, hhold⟩
  · cases ha
  · refine ⟨⟨p, .data x, true⟩, ?_, rfl⟩
    have hst : ∀ peer ∈ B.peers, peer.steady := by
      intro peer hp
      rw [hB] at hp
      exact Or.inr (hall peer hp)
    have hpos : available B.peers ≠ 0 := by
      rw [hB]
      intro h0
      rw [h0] at hmaj
      have : (0 : Int) ≤ (Client.quorum A.peers).card := Int.natCast_nonneg _
      omega
    have hkeep : ∀ peer ∈ B.peers, ∀ i, peer.kind = .replica i →
        (((A.choose fuelA version (.data x)).run w).2.servers i).keeps
          (Client.quorum B.peers) ⟨p, .data x, true⟩ := by
      intro peer hp i hi
      rw [hB] at hp ⊢
      exact keeps_of_holds (hhold peer hp i hi)
    exact choose_on_kept B ⟨p, .data x, true⟩ version y fuelB _ hv rfl hst hpos hkeep

/-- The theorem `choose_again_returns_chosen` on the test `already_chosen`:
coordinator 1 has chosen `42`; the `choose(43)` of a second coordinator
returns an entry whose value is `42`. -/
theorem choose_again_returns_chosen_witness :
    ∃ a, (((Client.new 1 (make_peers true true true)).choose 1 0 (.data 43)).run
        (((Client.new 1 (make_peers true true true)).choose 1 0 (.data 42)).run
          world_fresh).2).1.2 = .returned (some a) ∧
      a.value = .data 42 :=
  choose_again_returns_chosen (Client.new 1 (make_peers true true true))
    ({ Client.new 1 (make_peers true true true) with round := 1 })
    (Client.new 1 (make_peers true true true)) world_fresh 0 42 (.data 43) 1 0
    (by
      intro peer hp
      simp only [Client.new, make_peers, List.mem_cons, List.mem_singleton, List.not_mem_nil,
        or_false] at hp
      rcases hp with rfl | rfl | rfl
      · exact ⟨0, rfl⟩
      · exact ⟨1, rfl⟩
      · exact ⟨2, rfl⟩)
    rfl (by decide)

/-! ## C1: agreement -/

/-- C1, the code against the claim: in the history `history_diverging`, made
of whole `choose` calls with every RPC answered, the three calls return
`None`, and at the end replica 11 holds `1` confirmed for version 1 while
replica 12 holds `2` confirmed for version 1. Replica 11 collapsed the
confirmed quorum change `{11}`; replicas 12 and 13, which held it
unconfirmed, dropped it when version 1 was proposed. -/
theorem agreement_broken_by_dropped_quorum_change :
    (system_diverging.run history_diverging).outcome 0 = some (.returned none) ∧
      (system_diverging.run history_diverging).outcome 1 = some (.returned none) ∧
      (system_diverging.run history_diverging).outcome 2 = some (.returned none) ∧
      ((system_diverging.run history_diverging).world.servers 0).state
        = some ⟨⟨1, 1, 2⟩, some ⟨⟨1, 1, 2⟩, .data 1, true⟩⟩ ∧
      ((system_diverging.run history_diverging).world.servers 1).state
        = some ⟨⟨1, 1, 3⟩, some ⟨⟨1, 1, 3⟩, .data 2, true⟩⟩ := by
  decide

/-! ## C10: validity -/

set_option maxRecDepth 8000 in
/-- C10, the claim as stated fails: after the calls `choose(0, 0)`,
`choose(1, 1)`, `choose(2, 2)` and `choose(1, 7)` of `calls_recovery`, run
one after the other, the last one has returned `None` and replica 11 holds
`7` confirmed for version 2, yet no call `choose(2, 7)` was made. -/
theorem confirmed_version_not_the_callers :
    (System.run ⟨calls_recovery.map Call.prog, world_fresh⟩ history_recovery).outcome 3
        = some (.returned none) ∧
      ((System.run ⟨calls_recovery.map Call.prog, world_fresh⟩ history_recovery).world.servers
          0).state = some ⟨⟨2, 2, 1⟩, some ⟨⟨2, 2, 1⟩, .data 7, true⟩⟩ ∧
      ¬ ∃ c ∈ calls_recovery, c.version = 2 ∧ c.value = .data 7 := by
  decide

theorem Prog.safe_bind {J : Int → Value → Prop} {α β : Type} {post : α → Prop}
    {post' : β → Prop} (m : Prog α) (f : α → Prog β)
    (hm : m.safe J post) (hf : ∀ a, post a → (f a).safe J post') :
    (m.bind f).safe J post' := by
  induction m with
  | ret a => exact hf a hm
  | call r k ih =>
    simp only [Prog.bind, Prog.safe] at hm ⊢
    exact ⟨hm.1, fun b hb => ih b (hm.2 b hb)⟩

theorem for_each_parallel_safe {σ : Type} (J : Int → Value → Prop)
    (f : Peer → σ → Prog (Task σ)) (I : σ → Prop)
    (hf : ∀ peer s, I s → (f peer s).safe J (Task.all I)) :
    ∀ (ps : List Peer) (s : σ), I s →
      (for_each_parallel f ps s).safe J (Task.all_phase I) := by
  intro ps
  induction ps with
  | nil =>
    intro s hs
    exact hs
  | cons elt c ih =>
    intro s hs
    rw [for_each_parallel]
    apply Prog.safe_bind _ _ (hf elt s hs)
    intro t ht
    cases t with
    | done s' => exact ih s' ht
    | terminated s' => exact ht
    | threw e => trivial

theorem propose_task_safe (J : Int → Value → Prop) (q : Quorum) (p : Proposal) (peer : Peer)
    (s : Option Accepted × Int) (hs : ∀ a, s.1 = some a → J a.proposal.version a.value) :
    (Client.propose_task q p peer s).safe J
      (Task.all (fun s => ∀ a, s.1 = some a → J a.proposal.version a.value)) := by
  obtain ⟨prev, n⟩ := s
  simp only [Client.propose_task, Prog.safe, Req.allowed, true_and]
  intro b hb
  cases b with
  | error e =>
    cases e <;> simp only [Prog.safe, Task.all]
    exact hs
  | ok o =>
    cases o with
    | none => exact hs
    | some a =>
      have ha : J a.proposal.version a.value := hb
      cases prev with
      | none =>
        simp only [Prog.safe, Task.all]
        intro a' ha'
        cases ha'
        exact ha
      | some pv =>
        by_cases hl : pv.proposal.lt a.proposal = true
        · simp only [hl, if_true, Prog.safe, Task.all]
          intro a' ha'
          cases ha'
          exact ha
        · simp only [hl, Bool.false_eq_true, if_false, Prog.safe, Task.all]
          exact hs

theorem accept_task_safe (J : Int → Value → Prop) (q : Quorum) (p : Proposal) (value : Value)
    (peer : Peer) (s : Option Proposal × Int) (hv : J p.version value)
    (hs : ∀ m, s.1 = some m → p.lt m = true) :
    (Client.accept_task q p value peer s).safe J
      (Task.all (fun s => ∀ m, s.1 = some m → p.lt m = true)) := by
  obtain ⟨conflict, n⟩ := s
  simp only [Client.accept_task, Prog.safe, Req.allowed, hv, true_and]
  intro b _
  cases b with
  | error e =>
    cases e <;> simp only [Prog.safe, Task.all]
    exact hs
  | ok m =>
    by_cases hl : p.lt m = true
    · simp only [hl, if_true, Prog.safe, Task.all]
      intro m' hm'
      cases hm'
      exact hl
    · simp only [hl, Bool.false_eq_true, if_false, Prog.safe, Task.all]
      exact hs

theorem confirm_task_safe (J : Int → Value → Prop) (q : Quorum) (p : Proposal) (peer : Peer)
    (n : Int) :
    (Client.confirm_task q p peer n).safe J (Task.all (fun _ => True)) := by
  simp only [Client.confirm_task, Prog.safe, Req.allowed, true_and]
  intro b _
  cases b with
  | error e => cases e <;> simp only [Prog.safe, Task.all]
  | ok u => simp only [Prog.safe, Task.all]

theorem choose_confirm_safe (J : Int → Value → Prop) (q : Quorum) (c : Client) (p : Proposal)
    (previous : Option Accepted) :
    (Client.choose_confirm q c p previous).safe J (fun _ => True) := by
  unfold Client.choose_confirm
  apply Prog.safe_bind _ _
    (for_each_parallel_safe J (Client.confirm_task q p) (fun _ => True)
      (fun peer s _ => confirm_task_safe J q p peer s) c.peers 0 trivial)
  intro r _
  cases r with
  | error e => trivial
  | ok reached =>
    simp only
    cases Client._check_headcount q reached false <;> trivial

theorem choose_accept_safe (J : Int → Value → Prop) (q : Quorum) (value : Value)
    (retry : Client → Int → Int → Option Accepted → Prog (Client × Outcome (Option Accepted)))
    (c : Client) (p : Proposal) (backoff : Int) (previous : Option Accepted)
    (hv : J p.version (Client.sent value previous))
    (hretry : ∀ (c2 : Client) (v2 b2 : Int), p.version ≤ v2 →
      (retry c2 v2 b2 previous).safe J (fun _ => True)) :
    (Client.choose_accept q value retry c p backoff previous).safe J (fun _ => True) := by
  unfold Client.choose_accept
  apply Prog.safe_bind _ _
    (for_each_parallel_safe J (Client.accept_task q p (Client.sent value previous))
      (fun s => ∀ m, s.1 = some m → p.lt m = true)
      (fun peer s hs => accept_task_safe J q p _ peer s hv hs) c.peers (none, 0)
      (fun m hm => by cases hm))
  intro r hr
  cases r with
  | error e => trivial
  | ok s =>
    obtain ⟨conflict, reached⟩ := s
    cases conflict with
    | some minimum =>
      have hle : p.version ≤ minimum.version := Proposal.version_le_of_lt (hr minimum rfl)
      simp only [Prog.safe, Req.allowed, true_and]
      intro rn _
      by_cases hcb : c.conflict_backoff = true
      · simp only [hcb, if_true, Prog.safe, Req.allowed, true_and]
        intro _ _
        exact hretry _ _ _ hle
      · simp only [hcb, Bool.false_eq_true, if_false]
        exact hretry _ _ _ hle
    | none =>
      simp only
      cases Client._check_headcount q reached false with
      | error e => trivial
      | ok u => exact choose_confirm_safe J q c p previous

/-- Every `accept` that the loop of `choose` sends carries a value allowed at
the version of its proposal, provided the caller's value is allowed at the
caller's version, the entry held from before is allowed, the entries that
`propose` returns are, and what is allowed at a version is allowed later. -/
theorem choose_loop_safe (J : Int → Value → Prop) (q : Quorum) (value : Value)
    (hJ : ∀ v v' x, J v x → v ≤ v' → J v' x) :
    ∀ (fuel : Nat) (c : Client) (version backoff : Int) (previous : Option Accepted),
      J version value → (∀ a, previous = some a → J a.proposal.version a.value) →
      (Client.choose_loop q value fuel c version backoff previous).safe J (fun _ => True) := by
  intro fuel
  induction fuel with
  | zero =>
    intro c version backoff previous _ _
    trivial
  | succ fuel ih =>
    intro c version backoff previous hv hprev
    unfold Client.choose_loop
    simp only
    apply Prog.safe_bind _ _
      (for_each_parallel_safe J (Client.propose_task q ⟨version, c.round + 1, c.id⟩)
        (fun s => ∀ a, s.1 = some a → J a.proposal.version a.value)
        (fun peer s hs => propose_task_safe J q _ peer s hs) c.peers (previous, 0) hprev)
    intro r hr
    cases r with
    | error e => trivial
    | ok s =>
      obtain ⟨prev, reached⟩ := s
      simp only at hr ⊢
      cases prev with
      | none =>
        simp only [Bool.false_eq_true, if_false]
        cases Client._check_headcount q reached false with
        | error e => trivial
        | ok u =>
          exact choose_accept_safe J q value _ _ _ backoff none hv
            (fun c2 v2 b2 hle => ih c2 v2 b2 none (hJ _ _ _ hv hle) (fun a ha => by cases ha))
      | some a =>
        have ha : J a.proposal.version a.value := hr a rfl
        by_cases hconf : a.confirmed = true
        · simp only [hconf, if_true]
          trivial
        · simp only [hconf, Bool.false_eq_true, if_false]
          cases Client._check_headcount q reached false with
          | error e => trivial
          | ok u =>
            simp only
            by_cases hlt : Proposal.lt ⟨version, c.round + 1, c.id⟩ a.proposal = true
            · simp only [hlt, if_true]
              have hle : version ≤ a.proposal.version := Proposal.version_le_of_lt hlt
              exact ih _ _ _ _ (hJ _ _ _ hv hle) (fun a' ha' => by cases ha'; exact ha)
            · simp only [hlt, Bool.false_eq_true, if_false]
              have hle : a.proposal.version ≤ version :=
                Proposal.version_le_of_not_lt (by simpa using hlt)
              exact choose_accept_safe J q value _ _ _ backoff (some a)
                (hJ _ _ _ ha hle)
                (fun c2 v2 b2 hle2 =>
                  ih c2 v2 b2 (some a) (hJ _ _ _ hv hle2)
                    (fun a' ha' => by cases ha'; exact ha))

/-- `propose` returns, and leaves on the replica, only an entry that the
replica held. -/
theorem propose_entries (s : Server) (q : Quorum) (p : Proposal) :
    (∀ a, (s.propose q p).2 = .ok (some a) →
        ∃ st, s.state = some st ∧ st.accepted = some a) ∧
      (∀ st' a, (s.propose q p).1.state = some st' → st'.accepted = some a →
        ∃ st, s.state = some st ∧ st.accepted = some a) := by
  obtain ⟨id, qi, val, ver, state⟩ := s
  unfold Server.propose
  generalize check_confirmed ⟨id, qi, val, ver, state⟩ p = cc
  rcases state with _ | ⟨sp, _ | ⟨ap, av, ac⟩⟩
  · cases cc
    · constructor
      · intro a h
        simp at h
      · intro st' a h1 h2
        simp at h1
        subst h1
        cases h2
    · by_cases hq : q = qi
      · constructor
        · intro a h
          simp [check_quorum, hq] at h
        · intro st' a h1 h2
          simp [check_quorum, hq] at h1
          subst h1
          cases h2
      · constructor
        · intro a h
          simp [check_quorum, hq] at h
        · intro st' a h1 h2
          simp [check_quorum, hq] at h1
  · have hkey : ∀ (r : Server × Except Error (Option Accepted)),
        (r.2 = .ok none ∨ ∃ e, r.2 = .error e) →
        (r.1.state = none ∨ ∃ pr, r.1.state = some ⟨pr, none⟩) →
        (∀ a, r.2 = .ok (some a) →
          ∃ st, (some ⟨sp, none⟩ : Option VersionState) = some st ∧ st.accepted = some a) ∧
        (∀ st' a, r.1.state = some st' → st'.accepted = some a →
          ∃ st, (some ⟨sp, none⟩ : Option VersionState) = some st ∧ st.accepted = some a) := by
      intro r h1 h2
      constructor
      · intro a ha
        rcases h1 with h1 | ⟨e, h1⟩ <;> rw [h1] at ha <;> cases ha
      · intro st' a hs ha
        rcases h2 with h2 | ⟨pr, h2⟩
        · rw [h2] at hs
          cases hs
        · rw [h2] at hs
          cases hs
          cases ha
    apply hkey
    · cases cc
      · simp
      · by_cases hv : p.version > sp.version
        · simp [hv]
        · by_cases hq : q = qi
          · by_cases hl : sp.lt p = true <;> simp [check_quorum, hv, hq, hl]
          · simp [check_quorum, hv, hq]
    · cases cc
      · simp
      · by_cases hv : p.version > sp.version
        · simp [hv]
        · by_cases hq : q = qi
          · by_cases hl : sp.lt p = true <;> simp [check_quorum, hv, hq, hl]
          · simp [check_quorum, hv, hq]
  · have hkey : ∀ (r : Server × Except Error (Option Accepted)),
        (r.2 = .ok none ∨ r.2 = .ok (some ⟨ap, av, ac⟩) ∨ ∃ e, r.2 = .error e) →
        (r.1.state = none ∨ (∃ pr, r.1.state = some ⟨pr, none⟩) ∨
          ∃ pr, r.1.state = some ⟨pr, some ⟨ap, av, ac⟩⟩) →
        (∀ a, r.2 = .ok (some a) →
          ∃ st, (some ⟨sp, some ⟨ap, av, ac⟩⟩ : Option VersionState) = some st ∧
            st.accepted = some a) ∧
        (∀ st' a, r.1.state = some st' → st'.accepted = some a →
          ∃ st, (some ⟨sp, some ⟨ap, av, ac⟩⟩ : Option VersionState) = some st ∧
            st.accepted = some a) := by
      intro r h1 h2
      constructor
      · intro a ha
        rcases h1 with h1 | h1 | ⟨e, h1⟩ <;> rw [h1] at ha <;> cases ha
        exact ⟨_, rfl, rfl⟩
      · intro st' a hs ha
        rcases h2 with h2 | ⟨pr, h2⟩ | ⟨pr, h2⟩
        · rw [h2] at hs
          cases hs
        · rw [h2] at hs
          cases hs
          cases ha
        · rw [h2] at hs
          cases hs
          cases ha
          exact ⟨_, rfl, rfl⟩
    apply hkey
    · by_cases hb : ap.version > p.version
      · simp [hb]
      · cases cc
        · simp [hb]
        · by_cases hv : p.version > sp.version
          · cases av with
            | data t => by_cases hq : q = qi <;> simp [check_quorum, hb, hv, hq]
            | quorum q' => by_cases hq : q = q' <;> simp [check_quorum, hb, hv, hq]
          · by_cases hq : q = qi
            · by_cases hl : sp.lt p = true <;> simp [check_quorum, hb, hv, hq, hl]
            · simp [check_quorum, hb, hv, hq]
    · by_cases hb : ap.version > p.version
      · simp [hb]
      · cases cc
        · simp [hb]
        · by_cases hv : p.version > sp.version
          · cases av with
            | data t => by_cases hq : q = qi <;> simp [check_quorum, hb, hv, hq]
            | quorum q' => by_cases hq : q = q' <;> simp [check_quorum, hb, hv, hq]
          · by_cases hq : q = qi
            · by_cases hl : sp.lt p = true <;> simp [check_quorum, hb, hv, hq, hl]
            · simp [check_quorum, hb, hv, hq]

/-- After `accept(q, p, value)` the replica's entry is an old one or
carries `p` and `value`. -/
theorem accept_entries (s : Server) (q : Quorum) (p : Proposal) (value : Value) :
    ∀ st' a, (s.accept q p value).1.state = some st' → st'.accepted = some a →
      (a.proposal = p ∧ a.value = value) ∨
        ∃ st, s.state = some st ∧ st.accepted = some a := by
  obtain ⟨id, qi, val, ver, state⟩ := s
  intro st' a h1 h2
  by_cases hq : q = qi
  · subst hq
    rcases state with _ | ⟨sp, sa⟩
    · simp [Server.accept, check_quorum] at h1
    · by_cases hl1 : sp.lt p = true
      · simp only [Server.accept, check_quorum, hl1] at h1
        simp at h1
        exact Or.inr ⟨st', by rw [h1], h2⟩
      · by_cases hl2 : p.lt sp = true
        · simp only [Server.accept, check_quorum, hl1, hl2] at h1
          simp at h1
          exact Or.inr ⟨st', by rw [h1], h2⟩
        · simp only [Server.accept, check_quorum, hl1, hl2] at h1
          simp at h1
          subst h1
          simp only [Option.some.injEq] at h2
          subst h2
          cases sa <;> exact Or.inl ⟨rfl, rfl⟩
  · rw [accept_wrong_quorum _ q p value (by simpa using hq)] at h1
    exact Or.inr ⟨st', h1, h2⟩

/-- After `confirm` the replica's entry has the proposal and the value of an
entry it held. -/
theorem confirm_entries (s : Server) (q : Quorum) (p : Proposal) :
    ∀ st' a, (s.confirm q p).1.state = some st' → st'.accepted = some a →
      ∃ st a0, s.state = some st ∧ st.accepted = some a0 ∧
        a0.proposal = a.proposal ∧ a0.value = a.value := by
  obtain ⟨id, qi, val, ver, state⟩ := s
  intro st' a h1 h2
  by_cases hq : q = qi
  · subst hq
    rcases state with _ | ⟨sp, _ | sa⟩
    · simp [Server.confirm, check_quorum] at h1
    · by_cases hl1 : sp.lt p = true <;>
        simp only [Server.confirm, check_quorum, hl1] at h1 <;> simp at h1 <;>
        subst h1 <;> cases h2
    · by_cases hl1 : sp.lt p = true
      · simp only [Server.confirm, check_quorum, hl1] at h1
        simp at h1
        exact ⟨st', a, by rw [h1], h2, rfl, rfl⟩
      · by_cases hl2 : p.lt sp = true
        · simp only [Server.confirm, check_quorum, hl1, hl2] at h1
          simp at h1
          exact ⟨st', a, by rw [h1], h2, rfl, rfl⟩
        · by_cases hc : sa.confirmed = true
          · simp only [Server.confirm, check_quorum, hl1, hl2, hc] at h1
            simp at h1
            exact ⟨st', a, by rw [h1], h2, rfl, rfl⟩
          · simp only [Server.confirm, check_quorum, hl1, hl2, hc] at h1
            simp at h1
            subst h1
            simp only [Option.some.injEq] at h2
            subst h2
            exact ⟨_, sa, rfl, rfl, rfl, rfl⟩
  · rw [confirm_wrong_quorum _ q p (by simpa using hq)] at h1
    exact ⟨st', a, h1, h2, rfl, rfl⟩

theorem World.allowed_set (J : Int → Value → Prop) (w : World) (i : Nat) (s : Server)
    (hw : w.allowed J)
    (hs : ∀ st a, s.state = some st → st.accepted = some a → J a.proposal.version a.value) :
    (w.set i s).allowed J := by
  intro j st a h1 h2
  by_cases hj : j = i
  · subst hj
    rw [World.set_servers_same] at h1
    exact hs st a h1 h2
  · rw [World.set_servers_other _ _ _ _ hj] at h1
    exact hw j st a h1 h2

theorem propose_allowed (J : Int → Value → Prop) (w : World) (i : Nat) (q : Quorum)
    (p : Proposal) (hw : w.allowed J) :
    Req.answer_allowed J (Req.propose ⟨0, .replica i⟩ q p) ((w.servers i).propose q p).2 ∧
      (w.set i ((w.servers i).propose q p).1).allowed J := by
  obtain ⟨h1, h2⟩ := propose_entries (w.servers i) q p
  constructor
  · generalize hres : ((w.servers i).propose q p).2 = res at h1
    cases res with
    | error e => trivial
    | ok o =>
      cases o with
      | none => trivial
      | some a =>
        obtain ⟨st, hs, ha⟩ := h1 a rfl
        exact hw i st a hs ha
  · apply World.allowed_set J w i _ hw
    intro st' a hs ha
    obtain ⟨st, hs0, ha0⟩ := h2 st' a hs ha
    exact hw i st a hs0 ha0

theorem answer_allowed_propose (J : Int → Value → Prop) (peer peer' : Peer) (q : Quorum)
    (p : Proposal) (b : Except Error (Option Accepted))
    (h : Req.answer_allowed J (Req.propose peer q p) b) :
    Req.answer_allowed J (Req.propose peer' q p) b := by
  cases b with
  | error e => trivial
  | ok o =>
    cases o with
    | none => trivial
    | some a => exact h

/-- A request that carries only allowed values, answered by a world that
holds only allowed entries: the answer is allowed and so is the world. -/
theorem exec_allowed (J : Int → Value → Prop) {β : Type} (r : Req β) (w : World)
    (hw : w.allowed J) (hr : Req.allowed J r) :
    Req.answer_allowed J r (exec r w).1 ∧ (exec r w).2.allowed J := by
  cases r with
  | propose peer q p =>
    obtain ⟨pid, kind⟩ := peer
    cases kind with
    | unavailable => exact ⟨trivial, hw⟩
    | replica i =>
      obtain ⟨h1, h2⟩ := propose_allowed J w i q p hw
      exact ⟨answer_allowed_propose J _ _ q p _ h1, h2⟩
    | proposeOnly i =>
      obtain ⟨h1, h2⟩ := propose_allowed J w i q p hw
      exact ⟨answer_allowed_propose J _ _ q p _ h1, h2⟩
  | accept peer q p value =>
    obtain ⟨pid, kind⟩ := peer
    cases kind with
    | unavailable => exact ⟨trivial, hw⟩
    | proposeOnly i => exact ⟨trivial, hw⟩
    | replica i =>
      refine ⟨trivial, ?_⟩
      apply World.allowed_set J w i _ hw
      intro st' a hs ha
      rcases accept_entries (w.servers i) q p value st' a hs ha with ⟨h1, h2⟩ | ⟨st, h1, h2⟩
      · rw [h1, h2]
        exact hr
      · exact hw i st a h1 h2
  | confirm peer q p =>
    have hconf : ∀ i, (w.set i ((w.servers i).confirm q p).1).allowed J := by
      intro i
      apply World.allowed_set J w i _ hw
      intro st' a hs ha
      obtain ⟨st, a0, h1, h2, h3, h4⟩ := confirm_entries (w.servers i) q p st' a hs ha
      rw [← h3, ← h4]
      exact hw i st a0 h1 h2
    obtain ⟨pid, kind⟩ := peer
    cases kind with
    | unavailable => exact ⟨trivial, hw⟩
    | proposeOnly i => exact ⟨trivial, hconf i⟩
    | replica i => exact ⟨trivial, hconf i⟩
  | get peer q =>
    have hget : ∀ i, (w.set i ((w.servers i).get q).1).allowed J := by
      intro i
      apply World.allowed_set J w i _ hw
      intro st' a hs ha
      rw [get_unchanged] at hs
      exact hw i st' a hs ha
    obtain ⟨pid, kind⟩ := peer
    cases kind with
    | unavailable => exact ⟨trivial, hw⟩
    | proposeOnly i => exact ⟨trivial, hget i⟩
    | replica i => exact ⟨trivial, hget i⟩
  | random lo hi => exact ⟨trivial, hw⟩
  | sleep delay => exact ⟨trivial, hw⟩

theorem lost_allowed (J : Int → Value → Prop) {β : Type} (r : Req β) (b : β)
    (h : r.lost = some b) : Req.answer_allowed J r b := by
  cases r with
  | propose peer q p =>
    simp only [Req.lost, Option.some.injEq] at h
    subst h
    trivial
  | accept peer q p value => trivial
  | confirm peer q p => trivial
  | get peer q => trivial
  | random lo hi => trivial
  | sleep delay => trivial

theorem Prog.step_keeps_safe (J : Int → Value → Prop) {α : Type} (post : α → Prop) (lost : Bool)
    (prog : Prog α) (w : World) (hp : prog.safe J post) (hw : w.allowed J) :
    (prog.step lost w).1.safe J post ∧ (prog.step lost w).2.allowed J := by
  cases prog with
  | ret a => exact ⟨hp, hw⟩
  | call r k =>
    simp only [Prog.safe] at hp
    simp only [Prog.step]
    generalize hl : (if lost = true then r.lost else none) = l
    cases l with
    | some b =>
      have hb : r.lost = some b := by
        cases lost
        · simp at hl
        · simpa using hl
      exact ⟨hp.2 b (lost_allowed J r b hb), hw⟩
    | none =>
      obtain ⟨h1, h2⟩ := exec_allowed J r w hw hp.1
      exact ⟨hp.2 _ h1, h2⟩

theorem System.step_keeps_allowed (J : Int → Value → Prop) (sys : System) (i : Nat) (lost : Bool)
    (hc : ∀ prog ∈ sys.coordinators, prog.safe J (fun _ => True))
    (hw : sys.world.allowed J) :
    (∀ prog ∈ (sys.step i lost).coordinators, prog.safe J (fun _ => True)) ∧
      (sys.step i lost).world.allowed J := by
  unfold System.step
  cases hget : sys.coordinators[i]? with
  | none => exact ⟨hc, hw⟩
  | some prog =>
    have hmem : prog ∈ sys.coordinators := List.getElem?_mem hget
    obtain ⟨h1, h2⟩ := Prog.step_keeps_safe J _ lost prog sys.world (hc prog hmem) hw
    refine ⟨?_, h2⟩
    intro prog' hp'
    rcases List.mem_or_eq_of_mem_set hp' with h | h
    · exact hc prog' h
    · rw [h]
      exact h1

theorem System.run_safe (J : Int → Value → Prop) (history : List (Nat × Bool)) :
    ∀ (sys : System), (∀ prog ∈ sys.coordinators, prog.safe J (fun _ => True)) →
      sys.world.allowed J → (sys.run history).world.allowed J := by
  induction history with
  | nil =>
    intro sys _ hw
    exact hw
  | cons e rest ih =>
    intro sys hc hw
    obtain ⟨i, lost⟩ := e
    obtain ⟨h1, h2⟩ := System.step_keeps_allowed J sys i lost hc hw
    exact ih _ h1 h2

/-- C10, amended: in every history of RPCs, answered or lost in any
interleaving, issued by coordinators running the given `choose` calls against
replicas that start without a live slot, if a replica holds an accepted entry
(confirmed or not) with value `x` at version `v`, then some call
`choose(v', x)` with `v' <= v` is among the calls. -/
theorem accepted_value_was_proposed (calls : List Call) (w : World)
    (history : List (Nat × Bool)) (i : Nat) (st : VersionState) (a : Accepted)
    (hw : ∀ j, (w.servers j).state = none)
    (hs : ((System.run ⟨calls.map Call.prog, w⟩ history).world.servers i).state = some st)
    (ha : st.accepted = some a) :
    ∃ c ∈ calls, c.value = a.value ∧ c.version ≤ a.proposal.version := by
  have hJ : ∀ v v' x, Call.justifies calls v x → v ≤ v' → Call.justifies calls v' x := by
    intro v v' x ⟨c, hc, h1, h2⟩ hle
    exact ⟨c, hc, h1, by omega⟩
  have hsafe : ∀ prog ∈ (System.mk (calls.map Call.prog) w).coordinators,
      prog.safe (Call.justifies calls) (fun _ => True) := by
    intro prog hp
    simp only [List.mem_map] at hp
    obtain ⟨c, hc, rfl⟩ := hp
    exact choose_loop_safe (Call.justifies calls) _ c.value hJ c.fuel c.client c.version 1
      none ⟨c, hc, rfl, le_refl _⟩ (fun a ha => by cases ha)
  have hworld : (System.mk (calls.map Call.prog) w).world.allowed (Call.justifies calls) := by
    intro j st a h1 _
    rw [hw j] at h1
    cases h1
  exact System.run_safe (Call.justifies calls) history _ hsafe hworld i st a hs ha

set_option maxRecDepth 8000 in
theorem history_recovery_state :
    ((System.run ⟨calls_recovery.map Call.prog, world_fresh⟩ history_recovery).world.servers
        0).state = some ⟨⟨2, 2, 1⟩, some ⟨⟨2, 2, 1⟩, .data 7, true⟩⟩ := by
  decide

/-- The theorem `accepted_value_was_proposed` on the history
`history_recovery`: the value `7` that replica 11 holds
for version 2 was the argument of a `choose` at a version at most 2. -/
theorem accepted_value_was_proposed_witness :
    ∃ c ∈ calls_recovery, c.value = .data 7 ∧ c.version ≤ 2 :=
  accepted_value_was_proposed calls_recovery world_fresh history_recovery 0
    ⟨⟨2, 2, 1⟩, some ⟨⟨2, 2, 1⟩, .data 7, true⟩⟩ ⟨⟨2, 2, 1⟩, .data 7, true⟩
    (fun _ => rfl) history_recovery_state rfl

/-! ## The branches of `propose` -/

/-- The caller is behind: the entry of the live slot is of a later version
than `p` (Server.hxx:295-303). -/
theorem propose_behind (s : Server) (q : Quorum) (p : Proposal) (st : VersionState)
    (a : Accepted) (hs : s.state = some st) (ha : st.accepted = some a)
    (hb : a.proposal.version > p.version) : s.propose q p = (s, .ok (some a)) := by
  obtain ⟨id, qi, val, ver, state⟩ := s
  obtain ⟨sp, sa⟩ := st
  simp only at hs ha
  subst hs ha
  simp [Server.propose, hb]

theorem check_confirmed_no_slot (s : Server) (p : Proposal) (hs : s.state = none) :
    check_confirmed s p = true := by
  simp [check_confirmed, hs]

theorem check_confirmed_same_slot (s : Server) (p : Proposal) (st : VersionState)
    (hs : s.state = some st) (hv : p.version ≤ st.proposal.version) :
    check_confirmed s p = true := by
  simp only [check_confirmed, hs]
  split
  · rfl
  · simp [hv]

/-- No live slot: only the quorum is checked. -/
theorem propose_no_slot (s : Server) (q : Quorum) (p : Proposal) (hs : s.state = none) :
    s.propose q p =
      if q = s.quorum_initial then ({ s with state := some ⟨p, none⟩ }, .ok none)
      else (s, .error (.WrongQuorum s.quorum_initial q)) := by
  have hcc := check_confirmed_no_slot s p hs
  obtain ⟨id, qi, val, ver, state⟩ := s
  simp only at hs
  subst hs
  unfold Server.propose
  rw [hcc]
  by_cases hq : q = qi <;> simp [check_quorum, hq]

/-- A live slot of the version of `p` or a later one, the caller not behind:
the quorum is checked and the promise raised to `p` when `p` is greater. -/
theorem propose_same_slot (s : Server) (q : Quorum) (p : Proposal) (st : VersionState)
    (hs : s.state = some st)
    (hb : ∀ a, st.accepted = some a → a.proposal.version ≤ p.version)
    (hv : p.version ≤ st.proposal.version) :
    s.propose q p =
      if q = s.quorum_initial then
        if st.proposal.lt p then
          ({ s with state := some { st with proposal := p } }, .ok st.accepted)
        else (s, .ok st.accepted)
      else (s, .error (.WrongQuorum s.quorum_initial q)) := by
  have hcc := check_confirmed_same_slot s p st hs hv
  obtain ⟨id, qi, val, ver, state⟩ := s
  obtain ⟨sp, sa⟩ := st
  simp only at hs hv
  subst hs
  unfold Server.propose
  rw [hcc]
  have hv' : ¬ p.version > sp.version := by omega
  rcases sa with _ | ⟨ap, av, ac⟩
  · by_cases hq : q = qi
    · by_cases hl : sp.lt p = true <;> simp [check_quorum, hv', hq, hl]
    · simp [check_quorum, hv', hq]
  · have hb' : ¬ ap.version > p.version := by
      have := hb ⟨ap, av, ac⟩ rfl
      simpa using this
    by_cases hq : q = qi
    · by_cases hl : sp.lt p = true <;> simp [check_quorum, hv', hb', hq, hl]
    · simp [check_quorum, hv', hb', hq]

/-- The replica with the entry `a` collapsed into it, as the advance step of
`propose` leaves it (Server.hxx:308-318). -/
theorem propose_advance (s : Server) (q : Quorum) (p : Proposal) (st : VersionState)
    (a : Accepted) (hs : s.state = some st) (ha : st.accepted = some a)
    (hb : a.proposal.version ≤ p.version) (hcc : check_confirmed s p = true)
    (hv : st.proposal.version < p.version) :
    s.propose q p =
      match a.value with
      | .data t =>
        if q = s.quorum_initial then
          ({ s with value := some t, state := some ⟨p, none⟩ }, .ok none)
        else ({ s with value := some t, state := none },
          .error (.WrongQuorum s.quorum_initial q))
      | .quorum q' =>
        if q = q' then ({ s with quorum_initial := q', state := some ⟨p, none⟩ }, .ok none)
        else ({ s with quorum_initial := q', state := none }, .error (.WrongQuorum q' q)) := by
  obtain ⟨id, qi, val, ver, state⟩ := s
  obtain ⟨sp, sa⟩ := st
  obtain ⟨ap, av, ac⟩ := a
  simp only at hs ha hb hv
  subst hs ha
  unfold Server.propose
  rw [hcc]
  have hb' : ¬ ap.version > p.version := by omega
  have hv' : p.version > sp.version := by omega
  cases av with
  | data t => by_cases hq : q = qi <;> simp [check_quorum, hb', hv', hq]
  | quorum q' => by_cases hq : q = q' <;> simp [check_quorum, hb', hv', hq]

/-- The slot is abandoned: `check_confirmed` fails (Server.hxx:320-324). -/
theorem propose_abandon (s : Server) (q : Quorum) (p : Proposal)
    (hb : ∀ st a, s.state = some st → st.accepted = some a → a.proposal.version ≤ p.version)
    (hcc : check_confirmed s p = false) :
    s.propose q p = ({ s with state := some ⟨p, none⟩ }, .ok none) := by
  obtain ⟨id, qi, val, ver, state⟩ := s
  unfold Server.propose
  rw [hcc]
  rcases state with _ | ⟨sp, _ | ⟨ap, av, ac⟩⟩
  · simp
  · simp
  · have hb' : ¬ ap.version > p.version := by
      have := hb ⟨sp, some ⟨ap, av, ac⟩⟩ ⟨ap, av, ac⟩ rfl rfl
      simpa using this
    simp [hb']

/-- The advance step on a slot without entry, which only a legacy replica
reaches: the assertion fails. -/
theorem propose_advance_no_entry (s : Server) (q : Quorum) (p : Proposal) (st : VersionState)
    (hs : s.state = some st) (ha : st.accepted = none) (hcc : check_confirmed s p = true)
    (hv : st.proposal.version < p.version) :
    s.propose q p = (s, .error .AssertionFailed) := by
  obtain ⟨id, qi, val, ver, state⟩ := s
  obtain ⟨sp, sa⟩ := st
  simp only at hs ha hv
  subst hs ha
  unfold Server.propose
  rw [hcc]
  have hv' : p.version > sp.version := by omega
  simp [hv']

theorem check_confirmed_eq (s : Server) (p : Proposal) (st : VersionState)
    (hs : s.state = some st) (hv : st.proposal.version < p.version) :
    check_confirmed s p =
      (s.version.lt ⟨0, 1, 0⟩ ||
        (decide (st.proposal.version = p.version - 1) &&
          (match st.accepted with
           | some a => a.confirmed
           | none => false))) := by
  have hv' : ¬ st.proposal.version ≥ p.version := by omega
  simp only [check_confirmed, hs]
  cases s.version.lt ⟨0, 1, 0⟩
  · simp only [hv', Bool.false_eq_true, if_false, Bool.false_or]
    split
    · next h => exact h.symm
    · next h => exact (Bool.eq_false_iff.mpr h).symm
  · simp

/-! ## `confirm` twice (C13), `propose` without advance (C15, C16) -/

/-- C13 (idempotent confirm): on every replica state, if `confirm(q, p)`
returns normally, the same call repeated at once returns normally too and
leaves the replica exactly as the first call left it. -/
theorem confirm_idempotent (s : Server) (q : Quorum) (p : Proposal)
    (h : (s.confirm q p).2 = .ok ()) :
    (s.confirm q p).1.confirm q p = ((s.confirm q p).1, .ok ()) := by
  obtain ⟨id, qi, val, ver, state⟩ := s
  revert h
  unfold Server.confirm
  by_cases hq : q = qi
  · rcases state with _ | ⟨sp, _ | ⟨ap, av, ac⟩⟩
    · simp [check_quorum, hq]
    · by_cases hl : sp.lt p = true <;> simp [check_quorum, hq, hl]
    · by_cases hl : sp.lt p = true
      · simp [check_quorum, hq, hl]
      · by_cases hl2 : p.lt sp = true
        · simp [check_quorum, hq, hl, hl2]
        · cases ac <;> simp [check_quorum, hq, hl, hl2]
  · simp [check_quorum, hq]

/-- The theorem `confirm_idempotent` at work: replica 11 holds the data `42`
accepted under `0:1:1`; the first `confirm` marks it confirmed, the second
changes nothing. -/
theorem confirm_idempotent_witness :
    (replica_accepted.confirm q123 ⟨0, 1, 1⟩).2 = .ok () ∧
      (replica_accepted.confirm q123 ⟨0, 1, 1⟩).1.confirm q123 ⟨0, 1, 1⟩
        = ((replica_accepted.confirm q123 ⟨0, 1, 1⟩).1, .ok ()) :=
  ⟨by decide, confirm_idempotent replica_accepted q123 ⟨0, 1, 1⟩ (by decide)⟩

/-- C15 (propose without advance): for `propose(q, p)` with
`q == quorum_initial`, a replica with no live slot gets the slot
`(proposal = p, no accepted)` and returns `None`; a replica whose live slot is
of a version `>= p.version`, with no entry of a version greater than
`p.version`, gets as promise the greater of its old promise and `p`, keeps its
entry, and returns that entry. Nothing else of the replica changes. -/
theorem propose_without_advance (s : Server) (p : Proposal) :
    (s.state = none →
      s.propose s.quorum_initial p = ({ s with state := some ⟨p, none⟩ }, .ok none)) ∧
    (∀ st, s.state = some st → p.version ≤ st.proposal.version →
      (∀ a, st.accepted = some a → a.proposal.version ≤ p.version) →
      s.propose s.quorum_initial p =
        ({ s with
            state := some ⟨if st.proposal.lt p then p else st.proposal, st.accepted⟩ },
          .ok st.accepted)) := by
  constructor
  · intro hs
    rw [propose_no_slot s _ p hs]
    simp
  · intro st hs hv hb
    rw [propose_same_slot s _ p st hs hb hv]
    obtain ⟨id, qi, val, ver, state⟩ := s
    simp only at hs
    subst hs
    by_cases hl : st.proposal.lt p = true
    · simp [hl]
    · simp [hl]

theorem replica_accepted_state :
    replica_accepted.state = some ⟨⟨0, 1, 1⟩, some ⟨⟨0, 1, 1⟩, .data 42, false⟩⟩ := by
  decide

/-- The theorem `propose_without_advance` at work: the first proposal on the
fresh replica 11 opens the slot, and `0:2:1` on replica 11 holding the data
`42` accepted under `0:1:1` raises the promise and returns the entry. -/
theorem propose_without_advance_witness :
    (Server.fresh 11 q123 v010).propose (Server.fresh 11 q123 v010).quorum_initial ⟨0, 1, 1⟩
        = ({ Server.fresh 11 q123 v010 with state := some ⟨⟨0, 1, 1⟩, none⟩ }, .ok none) ∧
      replica_accepted.propose replica_accepted.quorum_initial ⟨0, 2, 1⟩
        = ({ replica_accepted with
              state := some ⟨if (⟨0, 1, 1⟩ : Proposal).lt ⟨0, 2, 1⟩ then ⟨0, 2, 1⟩
                else ⟨0, 1, 1⟩, some ⟨⟨0, 1, 1⟩, .data 42, false⟩⟩ },
            .ok (some ⟨⟨0, 1, 1⟩, .data 42, false⟩)) :=
  ⟨(propose_without_advance (Server.fresh 11 q123 v010) ⟨0, 1, 1⟩).1 rfl,
    (propose_without_advance replica_accepted ⟨0, 2, 1⟩).2
      ⟨⟨0, 1, 1⟩, some ⟨⟨0, 1, 1⟩, .data 42, false⟩⟩ replica_accepted_state (by decide)
      (by
        intro a ha
        cases ha
        decide)⟩

/-- C16 (propose for a caller that is behind): whenever the entry of the
live slot is of a version greater than `p.version`, `propose(q, p)` returns
exactly that entry and leaves the whole replica (state, value,
quorum_initial) as it was, whatever `q` is. -/
theorem propose_caller_behind (s : Server) (q : Quorum) (p : Proposal) (st : VersionState)
    (a : Accepted) (hs : s.state = some st) (ha : st.accepted = some a)
    (hb : a.proposal.version > p.version) :
    (s.propose q p).2 = .ok (some a) ∧ (s.propose q p).1 = s := by
  rw [propose_behind s q p st a hs ha hb]
  exact ⟨rfl, rfl⟩

theorem replica_ahead_state :
    replica_ahead.state = some ⟨⟨3, 1, 1⟩, some ⟨⟨3, 1, 1⟩, .quorum {11, 12}, true⟩⟩ := by
  decide

/-- The theorem `propose_caller_behind` at work, as in the test
`evict_down_lag_behind`: replica 13 holds version 3 confirmed and is asked for
version 2. -/
theorem propose_caller_behind_witness :
    (replica_ahead.propose q123 ⟨2, 1, 1⟩).2
        = .ok (some ⟨⟨3, 1, 1⟩, .quorum {11, 12}, true⟩) ∧
      (replica_ahead.propose q123 ⟨2, 1, 1⟩).1 = replica_ahead :=
  propose_caller_behind replica_ahead q123 ⟨2, 1, 1⟩ _ _ replica_ahead_state rfl (by decide)

/-! ## `propose` moving to a later version (C17, C19) -/

/-- Every reachable replica state is ordered: the entry of the live slot is
no newer than the slot's promise. -/
theorem ordered_of_reachable (s : Server) (h : s.Reachable) : s.ordered := by
  induction h with
  | new id quorum version s hnew =>
    unfold Server.new at hnew
    split at hnew
    · cases hnew
      exact ordered_fresh id quorum version
    · cases hnew
  | propose s q p _ ih => exact ordered_propose s q p ih
  | accept s q p value _ ih => exact ordered_accept s q p value ih
  | confirm s q p _ ih => exact ordered_confirm s q p ih
  | get s q _ ih => exact ordered_get s q ih

theorem not_behind_of_ordered (s : Server) (p : Proposal) (st : VersionState) (a : Accepted)
    (ho : s.ordered) (hs : s.state = some st) (ha : st.accepted = some a)
    (hv : st.proposal.version ≤ p.version) : a.proposal.version ≤ p.version := by
  have h := Proposal.version_le_of_not_lt (ho st a hs ha)
  omega

theorem reachable_replica_confirmed : replica_confirmed.Reachable :=
  Server.Reachable.confirm _ _ _
    (Server.Reachable.accept _ _ _ _
      (Server.Reachable.propose _ _ _
        (Server.Reachable.new 11 q123 v010 _ (by decide))))

theorem reachable_replica_accepted : replica_accepted.Reachable :=
  Server.Reachable.accept _ _ _ _
    (Server.Reachable.propose _ _ _
      (Server.Reachable.new 11 q123 v010 _ (by decide)))

theorem reachable_replica_ahead : replica_ahead.Reachable :=
  Server.Reachable.confirm _ _ _
    (Server.Reachable.accept _ _ _ _
      (Server.Reachable.propose _ _ _
        (Server.Reachable.new 13 q123 v010 _ (by decide))))

/-- C17 (propose advancing by one version): on a replica whose live slot at
version `v` holds a confirmed entry no newer than the slot's promise (as in
every reachable state), `propose(q, p)` with `p.version = v + 1` first
collapses the entry (`Data(t)`: `value` becomes `Some(t)`, `quorum_initial`
stays; `QuorumChange(Q')`: `quorum_initial` becomes `Q'`, `value` stays), then
compares `q` with the resulting `quorum_initial`: if they are equal the state
becomes `(proposal = p, no accepted)` and `None` is returned, otherwise
`WrongQuorum(expected = resulting quorum_initial, effective = q)` is raised.
This holds at every wire version, 0.1.0 and later included. -/
theorem propose_advance_by_one (s : Server) (q : Quorum) (p : Proposal) (st : VersionState)
    (a : Accepted) (ho : s.ordered) (hs : s.state = some st) (ha : st.accepted = some a)
    (hc : a.confirmed = true) (hv : p.version = st.proposal.version + 1) :
    match a.value with
    | .data t =>
      (q = s.quorum_initial →
        s.propose q p = ({ s with value := some t, state := some ⟨p, none⟩ }, .ok none)) ∧
      (q ≠ s.quorum_initial →
        (s.propose q p).2 = .error (.WrongQuorum s.quorum_initial q) ∧
          (s.propose q p).1.value = some t ∧
          (s.propose q p).1.quorum_initial = s.quorum_initial)
    | .quorum q' =>
      (q = q' →
        s.propose q p = ({ s with quorum_initial := q', state := some ⟨p, none⟩ }, .ok none)) ∧
      (q ≠ q' →
        (s.propose q p).2 = .error (.WrongQuorum q' q) ∧
          (s.propose q p).1.value = s.value ∧
          (s.propose q p).1.quorum_initial = q') := by
  have hlt : st.proposal.version < p.version := by omega
  have hb := not_behind_of_ordered s p st a ho hs ha (by omega)
  have hcc : check_confirmed s p = true := by
    rw [check_confirmed_eq s p st hs hlt, ha]
    have : st.proposal.version = p.version - 1 := by omega
    simp [this, hc]
  have h := propose_advance s q p st a hs ha hb hcc hlt
  rw [h]
  cases hval : a.value with
  | data t =>
    simp only
    by_cases hq : q = s.quorum_initial
    · simp [hq]
    · simp [hq]
  | quorum q' =>
    simp only
    by_cases hq : q = q'
    · simp [hq]
    · simp [hq]

/-- The theorem `propose_advance_by_one` at work, as in the test
`elect_extend`: replica 11 holds the data `42` confirmed for version 0 and is
asked to open version 1, with its quorum and with another one. -/
theorem propose_advance_by_one_witness :
    (q123 = replica_confirmed.quorum_initial →
      replica_confirmed.propose q123 ⟨1, 1, 1⟩
        = ({ replica_confirmed with value := some 42, state := some ⟨⟨1, 1, 1⟩, none⟩ },
            .ok none)) ∧
    (({11, 12} : Quorum) ≠ replica_confirmed.quorum_initial →
      (replica_confirmed.propose {11, 12} ⟨1, 1, 1⟩).2
          = .error (.WrongQuorum replica_confirmed.quorum_initial {11, 12}) ∧
        (replica_confirmed.propose {11, 12} ⟨1, 1, 1⟩).1.value = some 42 ∧
        (replica_confirmed.propose {11, 12} ⟨1, 1, 1⟩).1.quorum_initial
          = replica_confirmed.quorum_initial) :=
  ⟨(propose_advance_by_one replica_confirmed q123 ⟨1, 1, 1⟩ _ ⟨⟨0, 1, 1⟩, .data 42, true⟩
      (ordered_of_reachable _ reachable_replica_confirmed) replica_confirmed_state rfl rfl
      (by decide)).1,
    (propose_advance_by_one replica_confirmed {11, 12} ⟨1, 1, 1⟩ _ ⟨⟨0, 1, 1⟩, .data 42, true⟩
      (ordered_of_reachable _ reachable_replica_confirmed) replica_confirmed_state rfl rfl
      (by decide)).2⟩

/-- C19 (propose abandoning a slot): on a replica at wire version 0.1.0 or
later whose live slot is of a version `v < p.version`, is not a confirmed
slot of version `p.version - 1`, and holds no entry newer than its promise (as
in every reachable state), `propose(q, p)` discards the slot: the state
becomes `(proposal = p, no accepted)`, `value` and `quorum_initial` stay, and
`None` is returned. The quorum `q` is not looked at, so this holds with
`q == quorum_initial` in particular. -/
theorem propose_abandons_slot (s : Server) (q : Quorum) (p : Proposal) (st : VersionState)
    (hver : s.version.lt ⟨0, 1, 0⟩ = false) (ho : s.ordered) (hs : s.state = some st)
    (hv : st.proposal.version < p.version)
    (hn : ¬ (st.proposal.version = p.version - 1 ∧
      ∃ a, st.accepted = some a ∧ a.confirmed = true)) :
    s.propose q p = ({ s with state := some ⟨p, none⟩ }, .ok none) := by
  have hcc : check_confirmed s p = false := by
    rw [check_confirmed_eq s p st hs hv, hver]
    by_cases h1 : st.proposal.version = p.version - 1
    · cases hacc : st.accepted with
      | none => simp
      | some a =>
        cases hconf : a.confirmed with
        | false => simp [hconf]
        | true => exact absurd ⟨h1, a, hacc, hconf⟩ hn
    · simp [h1]
  apply propose_abandon s q p _ hcc
  intro st' a hs' ha
  rw [hs] at hs'
  cases hs'
  exact not_behind_of_ordered s p st a ho hs ha (by omega)

/-- The theorem `propose_abandons_slot` at work: replica 11 holds the data
`42` accepted but not confirmed for version 0 and is asked to open version 1;
and replica 11 holding it confirmed for version 0 is asked to open version
2. -/
theorem propose_abandons_slot_witness :
    replica_accepted.propose replica_accepted.quorum_initial ⟨1, 1, 1⟩
        = ({ replica_accepted with state := some ⟨⟨1, 1, 1⟩, none⟩ }, .ok none) ∧
      replica_confirmed.propose replica_confirmed.quorum_initial ⟨2, 1, 1⟩
        = ({ replica_confirmed with state := some ⟨⟨2, 1, 1⟩, none⟩ }, .ok none) :=
  ⟨propose_abandons_slot replica_accepted _ ⟨1, 1, 1⟩ _ (by decide)
      (ordered_of_reachable _ reachable_replica_accepted) replica_accepted_state (by decide)
      (by
        rintro ⟨_, a, ha, hc⟩
        cases ha
        cases hc),
    propose_abandons_slot replica_confirmed _ ⟨2, 1, 1⟩ _ (by decide)
      (ordered_of_reachable _ reachable_replica_confirmed) replica_confirmed_state (by decide)
      (by
        rintro ⟨h, _⟩
        revert h
        decide)⟩

/-! ## Failures of `accept` (C20) -/

/-- C20 (accept failure conditions): `accept(q, p, value)` raises
`WrongQuorum`, and then `WrongQuorum(expected = quorum_initial, effective = q)`,
if and only if `q != quorum_initial`; with `q == quorum_initial` it raises the
protocol violation "propose before accepting" if and only if the replica has
no live slot or `state.proposal < p`; it raises nothing else, and whenever it
raises the replica is left unchanged. -/
theorem accept_failure_conditions (s : Server) (q : Quorum) (p : Proposal) (value : Value) :
    (q ≠ s.quorum_initial →
      (s.accept q p value).2 = .error (.WrongQuorum s.quorum_initial q)) ∧
    (∀ expected effective,
      (s.accept q p value).2 = .error (.WrongQuorum expected effective) →
        q ≠ s.quorum_initial) ∧
    (q = s.quorum_initial →
      ((s.accept q p value).2 = .error .ProposeBeforeAccepting ↔
        (s.state = none ∨ ∃ st, s.state = some st ∧ st.proposal.lt p = true))) ∧
    (∀ e, (s.accept q p value).2 = .error e →
      (e = .WrongQuorum s.quorum_initial q ∨ e = .ProposeBeforeAccepting) ∧
        (s.accept q p value).1 = s) := by
  obtain ⟨id, qi, val, ver, state⟩ := s
  unfold Server.accept
  by_cases hq : q = qi
  · subst hq
    rcases state with _ | ⟨sp, sa⟩
    · simp [check_quorum]
    · by_cases hl : sp.lt p = true
      · simp [check_quorum, hl]
      · by_cases hl2 : p.lt sp = true
        · simp [check_quorum, hl, hl2]
        · simp [check_quorum, hl, hl2]
  · simp [check_quorum, hq]

/-- The theorem `accept_failure_conditions` at work on replica 11 holding
the promise `0:1:1`: an `accept` with the quorum `{11, 12}` raises
`WrongQuorum`, and an `accept` under `0:2:1`, which was not proposed, raises the
protocol violation. -/
theorem accept_failure_conditions_witness :
    (replica_accepted.accept {11, 12} ⟨0, 1, 1⟩ (.data 1)).2
        = .error (.WrongQuorum replica_accepted.quorum_initial {11, 12}) ∧
      (replica_accepted.accept q123 ⟨0, 2, 1⟩ (.data 1)).2
        = .error .ProposeBeforeAccepting ∧
      (replica_accepted.accept q123 ⟨0, 2, 1⟩ (.data 1)).1 = replica_accepted :=
  ⟨(accept_failure_conditions replica_accepted {11, 12} ⟨0, 1, 1⟩ (.data 1)).1 (by decide),
    ((accept_failure_conditions replica_accepted q123 ⟨0, 2, 1⟩ (.data 1)).2.2.1
      (by decide)).mpr (Or.inr ⟨_, replica_accepted_state, by decide⟩),
    ((accept_failure_conditions replica_accepted q123 ⟨0, 2, 1⟩ (.data 1)).2.2.2
      .ProposeBeforeAccepting (by decide)).2⟩

/-! ## `current_version()` from call to call (C11) -/

theorem current_version_le_slot (s : Server) (st : VersionState) (h : s.state = some st) :
    s.current_version ≤ st.proposal.version := by
  obtain ⟨id, qi, val, ver, state⟩ := s
  simp only at h
  subst h
  obtain ⟨sp, sa⟩ := st
  rcases sa with _ | ⟨ap, av, ac⟩
  · simp [Server.current_version, VersionState.version]
  · cases ac <;> simp [Server.current_version, VersionState.version]

theorem current_version_new_slot (s : Server) (p : Proposal) (h : s.state = some ⟨p, none⟩) :
    s.current_version = p.version - 1 := by
  obtain ⟨id, qi, val, ver, state⟩ := s
  simp only at h
  subst h
  simp [Server.current_version, VersionState.version]

theorem current_version_raised (s s' : Server) (st : VersionState) (p : Proposal)
    (h : s.state = some st) (h' : s'.state = some { st with proposal := p })
    (hv : st.proposal.version ≤ p.version) : s.current_version ≤ s'.current_version := by
  obtain ⟨id, qi, val, ver, state⟩ := s
  obtain ⟨id', qi', val', ver', state'⟩ := s'
  obtain ⟨sp, sa⟩ := st
  simp only at h h' hv
  subst h h'
  rcases sa with _ | ⟨ap, av, ac⟩
  · simp only [Server.current_version, VersionState.version]
    omega
  · cases ac <;> simp only [Server.current_version, VersionState.version] <;> omega

theorem current_version_accept (s : Server) (q : Quorum) (p : Proposal) (value : Value) :
    (s.accept q p value).1.current_version = s.current_version := by
  obtain ⟨id, qi, val, ver, state⟩ := s
  unfold Server.accept
  by_cases hq : q = qi
  · rcases state with _ | ⟨sp, _ | ⟨ap, av, ac⟩⟩
    · simp [check_quorum, hq]
    · by_cases hl : sp.lt p = true
      · simp [check_quorum, hq, hl]
      · by_cases hl2 : p.lt sp = true
        · simp [check_quorum, hq, hl, hl2]
        · simp [check_quorum, hq, hl, hl2, Server.current_version, VersionState.version]
    · by_cases hl : sp.lt p = true
      · simp [check_quorum, hq, hl]
      · by_cases hl2 : p.lt sp = true
        · simp [check_quorum, hq, hl, hl2]
        · cases ac <;>
            simp [check_quorum, hq, hl, hl2, Server.current_version, VersionState.version]
  · simp [check_quorum, hq]

theorem current_version_confirm (s : Server) (q : Quorum) (p : Proposal) :
    s.current_version ≤ (s.confirm q p).1.current_version := by
  obtain ⟨id, qi, val, ver, state⟩ := s
  unfold Server.confirm
  by_cases hq : q = qi
  · rcases state with _ | ⟨sp, _ | ⟨ap, av, ac⟩⟩
    · simp [check_quorum, hq]
    · by_cases hl : sp.lt p = true <;> simp [check_quorum, hq, hl]
    · by_cases hl : sp.lt p = true
      · simp [check_quorum, hq, hl]
      · by_cases hl2 : p.lt sp = true
        · simp [check_quorum, hq, hl, hl2]
        · cases ac <;>
            simp [check_quorum, hq, hl, hl2, Server.current_version, VersionState.version]
  · simp [check_quorum, hq]

/-- A `propose` that returns normally on a replica with a live slot does not
lower `current_version()`. -/
theorem current_version_propose_slot (s : Server) (q : Quorum) (p : Proposal)
    (st : VersionState) (r : Option Accepted) (hs : s.state = some st)
    (hok : (s.propose q p).2 = .ok r) :
    s.current_version ≤ (s.propose q p).1.current_version := by
  by_cases hb : ∀ a, st.accepted = some a → a.proposal.version ≤ p.version
  · by_cases hv : p.version ≤ st.proposal.version
    · have h := propose_same_slot s q p st hs hb hv
      rw [h] at hok ⊢
      by_cases hq : q = s.quorum_initial
      · by_cases hl : st.proposal.lt p = true
        · simp only [hq, hl, if_true]
          exact current_version_raised s _ st p hs rfl (Proposal.version_le_of_lt hl)
        · simp [hq, hl]
      · simp [hq] at hok
    · have hlt : st.proposal.version < p.version := by omega
      have hle := current_version_le_slot s st hs
      have hnew : (s.propose q p).1.state = some ⟨p, none⟩ := by
        cases hcc : check_confirmed s p with
        | false =>
          rw [propose_abandon s q p ?_ hcc]
          intro st' a hs' ha
          rw [hs] at hs'
          cases hs'
          exact hb a ha
        | true =>
          cases hacc : st.accepted with
          | none =>
            rw [propose_advance_no_entry s q p st hs hacc hcc hlt] at hok
            cases hok
          | some a =>
            have h := propose_advance s q p st a hs hacc (hb a hacc) hcc hlt
            rw [h] at hok ⊢
            cases hval : a.value with
            | data t =>
              rw [hval] at hok
              by_cases hq : q = s.quorum_initial
              · simp [hq]
              · simp [hq] at hok
            | quorum q' =>
              rw [hval] at hok
              by_cases hq : q = q'
              · simp [hq]
              · simp [hq] at hok
      rw [current_version_new_slot _ p hnew]
      omega
  · have hb' : ∃ a, st.accepted = some a ∧ a.proposal.version > p.version := by
      by_contra hcon
      apply hb
      intro a ha
      by_contra hgt
      exact hcon ⟨a, ha, by omega⟩
    obtain ⟨a, ha, hgt⟩ := hb'
    rw [propose_behind s q p st a hs ha hgt]

/-- A `propose` that raises without having advanced leaves the replica as it
was. -/
theorem propose_error_unchanged (s : Server) (q : Quorum) (p : Proposal) (e : Error)
    (herr : (s.propose q p).2 = .error e)
    (h : s.state = none ∨ (∃ st, s.state = some st ∧ p.version ≤ st.proposal.version) ∨
      e = .AssertionFailed) :
    (s.propose q p).1 = s := by
  rcases h with h | ⟨st, hs, hv⟩ | h
  · rw [propose_no_slot s q p h] at herr ⊢
    by_cases hq : q = s.quorum_initial
    · simp [hq] at herr
    · simp [hq]
  · by_cases hb : ∀ a, st.accepted = some a → a.proposal.version ≤ p.version
    · rw [propose_same_slot s q p st hs hb hv] at herr ⊢
      by_cases hq : q = s.quorum_initial
      · by_cases hl : st.proposal.lt p = true
        · simp [hq, hl] at herr
        · simp [hq, hl] at herr
      · simp [hq]
    · have hb' : ∃ a, st.accepted = some a ∧ a.proposal.version > p.version := by
        by_contra hcon
        apply hb
        intro a ha
        by_contra hgt
        exact hcon ⟨a, ha, by omega⟩
      obtain ⟨a, ha, hgt⟩ := hb'
      rw [propose_behind s q p st a hs ha hgt]
  · subst h
    obtain ⟨id, qi, val, ver, state⟩ := s
    revert herr
    unfold Server.propose
    generalize check_confirmed ⟨id, qi, val, ver, state⟩ p = cc
    rcases state with _ | ⟨sp, _ | ⟨ap, av, ac⟩⟩
    · cases cc
      · simp
      · by_cases hq : q = qi <;> simp [check_quorum, hq]
    · cases cc
      · simp
      · by_cases hv : p.version > sp.version
        · simp [hv]
        · by_cases hq : q = qi
          · by_cases hl : sp.lt p = true <;> simp [check_quorum, hv, hq, hl]
          · simp [check_quorum, hv, hq]
    · by_cases hb : ap.version > p.version
      · simp [hb]
      · cases cc
        · simp [hb]
        · by_cases hv : p.version > sp.version
          · cases av with
            | data t => by_cases hq : q = qi <;> simp [check_quorum, hb, hv, hq]
            | quorum q' => by_cases hq : q = q' <;> simp [check_quorum, hb, hv, hq]
          · by_cases hq : q = qi
            · by_cases hl : sp.lt p = true <;> simp [check_quorum, hb, hv, hq, hl]
            · simp [check_quorum, hb, hv, hq]

/-- C11, the claim as stated fails: the replica 11 as constructed has
`current_version() = 0`; the first proposal for version 0, `0:1:1`, as in the
test `all_is_well`, returns normally and leaves `current_version() = -1`. -/
theorem current_version_drops_on_first_propose :
    (Server.fresh 11 q123 v010).Reachable ∧
      (Server.fresh 11 q123 v010).current_version = 0 ∧
      ((Server.fresh 11 q123 v010).propose q123 ⟨0, 1, 1⟩).2 = .ok none ∧
      ((Server.fresh 11 q123 v010).propose q123 ⟨0, 1, 1⟩).1.current_version = -1 :=
  ⟨Server.Reachable.new 11 q123 v010 _ (by decide), by decide, by decide, by decide⟩

/-- C11, amended: on every replica state, `accept`, `confirm` and `get`,
returning or raising, never lower `current_version()`; a `propose(q, p)` that
returns normally never lowers it on a replica with a live slot, and on a
replica without live slot leaves `current_version() = p.version - 1`; a
`propose` that raises on a replica without live slot, or with a live slot of a
version `>= p.version`, or by the failed assertion, leaves the replica and so
`current_version()` unchanged. -/
theorem current_version_steps (s : Server) (q : Quorum) (p : Proposal) (value : Value) :
    s.current_version ≤ (s.accept q p value).1.current_version ∧
    s.current_version ≤ (s.confirm q p).1.current_version ∧
    s.current_version ≤ (s.get q).1.current_version ∧
    (∀ r, (s.propose q p).2 = .ok r →
      (s.state ≠ none → s.current_version ≤ (s.propose q p).1.current_version) ∧
      (s.state = none → (s.propose q p).1.current_version = p.version - 1)) ∧
    (∀ e, (s.propose q p).2 = .error e →
      (s.state = none ∨ (∃ st, s.state = some st ∧ p.version ≤ st.proposal.version) ∨
        e = .AssertionFailed) →
      (s.propose q p).1.current_version = s.current_version) := by
  refine ⟨?_, current_version_confirm s q p, ?_, ?_, ?_⟩
  · rw [current_version_accept]
  · rw [get_unchanged]
  · intro r hok
    constructor
    · intro hs
      cases hst : s.state with
      | none => exact absurd hst hs
      | some st => exact current_version_propose_slot s q p st r hst hok
    · intro hs
      apply current_version_new_slot
      rw [propose_no_slot s q p hs] at hok ⊢
      by_cases hq : q = s.quorum_initial
      · simp [hq]
      · simp [hq] at hok
  · intro e herr h
    rw [propose_error_unchanged s q p e herr h]

/-- The theorem `current_version_steps` at work: on replica 11 holding the
data `42` confirmed for version 0, the proposal `1:1:1` returns normally and
does not lower `current_version()`; on the replica 11 as constructed the
proposal `3:1:1` leaves it at 2, and the same proposal with the quorum `{11}`
raises and leaves it as it was. -/
theorem current_version_steps_witness :
    replica_confirmed.current_version
        ≤ (replica_confirmed.propose q123 ⟨1, 1, 1⟩).1.current_version ∧
      ((Server.fresh 11 q123 v010).propose q123 ⟨3, 1, 1⟩).1.current_version = 3 - 1 ∧
      ((Server.fresh 11 q123 v010).propose {11} ⟨3, 1, 1⟩).1.current_version
        = (Server.fresh 11 q123 v010).current_version :=
  ⟨((current_version_steps replica_confirmed q123 ⟨1, 1, 1⟩ (.data 0)).2.2.2.1 none
      (by decide)).1 (by decide),
    ((current_version_steps (Server.fresh 11 q123 v010) q123 ⟨3, 1, 1⟩ (.data 0)).2.2.2.1 none
      (by decide)).2 rfl,
    (current_version_steps (Server.fresh 11 q123 v010) {11} ⟨3, 1, 1⟩ (.data 0)).2.2.2.2
      (.WrongQuorum q123 {11}) (by decide) (Or.inl rfl)⟩

/-! ## What becomes of a confirmed entry when the replica moves on (C18) -/

/-- C18, the claim as stated fails: replica 11, at wire version 0.1.0, holds
the data `42` confirmed for version 0 and has no collapsed value; the
proposal `2:1:1`, which skips version 1, returns normally and leaves the
replica on version 2 with the slot `(2:1:1, no accepted)`, and its `value` is
still `None`, not `Some(42)`. -/
theorem confirmed_data_dropped_on_skip :
    replica_confirmed.state = some ⟨⟨0, 1, 1⟩, some ⟨⟨0, 1, 1⟩, .data 42, true⟩⟩ ∧
      (replica_confirmed.propose q123 ⟨2, 1, 1⟩).2 = .ok none ∧
      (replica_confirmed.propose q123 ⟨2, 1, 1⟩).1.state = some ⟨⟨2, 1, 1⟩, none⟩ ∧
      (replica_confirmed.propose q123 ⟨2, 1, 1⟩).1.value = none := by
  decide

/-- C18, amended: whenever `propose(q, p)` returns normally and leaves the
replica on a later version than its live slot, whose entry was confirmed, the
state has been reset to `(proposal = p, no accepted)` and `None` is returned;
if `p.version` is the next version after the slot's, or the replica is at a
legacy wire version, the confirmed entry has been collapsed into the replica
(`Data(t)`: `value = Some(t)`, `quorum_initial` unchanged; `QuorumChange(Q')`:
`quorum_initial = Q'`, `value` unchanged); if the replica is at wire version
0.1.0 or later, `p.version` skips a version and the entry is `Data(t)`, the
slot is discarded without collapse: `value` and `quorum_initial` are
unchanged. -/
theorem confirmed_outcome_on_moving_on (s : Server) (q : Quorum) (p : Proposal)
    (st : VersionState) (a : Accepted) (r : Option Accepted)
    (hs : s.state = some st) (ha : st.accepted = some a) (hc : a.confirmed = true)
    (hok : (s.propose q p).2 = .ok r)
    (hup : ∃ st', (s.propose q p).1.state = some st' ∧
      st.proposal.version < st'.proposal.version) :
    (s.propose q p).1.state = some ⟨p, none⟩ ∧ r = none ∧
    ((s.version.lt ⟨0, 1, 0⟩ = true ∨ p.version = st.proposal.version + 1) →
      match a.value with
      | .data t =>
        (s.propose q p).1.value = some t ∧
          (s.propose q p).1.quorum_initial = s.quorum_initial
      | .quorum q' =>
        (s.propose q p).1.quorum_initial = q' ∧ (s.propose q p).1.value = s.value) ∧
    (s.version.lt ⟨0, 1, 0⟩ = false → p.version ≠ st.proposal.version + 1 →
      ∀ t, a.value = .data t →
        (s.propose q p).1.value = s.value ∧
          (s.propose q p).1.quorum_initial = s.quorum_initial) := by
  obtain ⟨st', hst', hlt'⟩ := hup
  -- the caller is not behind, or the slot would be the old one
  have hb : a.proposal.version ≤ p.version := by
    by_contra hgt
    rw [propose_behind s q p st a hs ha (by omega)] at hst'
    simp only [hs] at hst'
    cases hst'
    omega
  have hb' : ∀ a', st.accepted = some a' → a'.proposal.version ≤ p.version := by
    intro a' ha'
    rw [ha] at ha'
    cases ha'
    exact hb
  -- the proposal is of a later version, or the slot would keep its version
  have hv : st.proposal.version < p.version := by
    by_contra hle
    have hle' : p.version ≤ st.proposal.version := by omega
    rw [propose_same_slot s q p st hs hb' hle'] at hst' hok
    by_cases hq : q = s.quorum_initial
    · by_cases hl : st.proposal.lt p = true
      · simp only [hq, hl, if_true] at hst'
        cases hst'
        simp only at hlt'
        omega
      · simp only [hq, hl, if_true, Bool.false_eq_true, if_false] at hst'
        rw [hs] at hst'
        cases hst'
        omega
    · simp [hq] at hok
  have hcceq := check_confirmed_eq s p st hs hv
  rw [ha] at hcceq
  simp only [hc, Bool.and_true] at hcceq
  cases hcc : check_confirmed s p with
  | true =>
    have h := propose_advance s q p st a hs ha hb hcc hv
    cases hval : a.value with
    | data t =>
      simp only [hval] at h
      by_cases hq : q = s.quorum_initial
      · rw [if_pos hq] at h
        rw [h] at hok ⊢
        cases hok
        refine ⟨rfl, rfl, fun _ => ⟨rfl, rfl⟩, ?_⟩
        intro hver hne
        rw [hcc, hver] at hcceq
        simp at hcceq
        omega
      · rw [if_neg hq] at h
        rw [h] at hok
        cases hok
    | quorum q' =>
      simp only [hval] at h
      by_cases hq : q = q'
      · rw [if_pos hq] at h
        rw [h] at hok ⊢
        cases hok
        refine ⟨rfl, rfl, fun _ => ⟨rfl, rfl⟩, ?_⟩
        intro _ _ t ht
        cases ht
      · rw [if_neg hq] at h
        rw [h] at hok
        cases hok
  | false =>
    have h := propose_abandon s q p
      (by
        intro st'' a'' hs'' ha''
        rw [hs] at hs''
        cases hs''
        exact hb' a'' ha'')
      hcc
    rw [h] at hok ⊢
    cases hok
    refine ⟨rfl, rfl, ?_, fun _ _ _ _ => ⟨rfl, rfl⟩⟩
    intro hnext
    rw [hcc] at hcceq
    rcases hnext with hleg | hnext
    · rw [hleg] at hcceq
      simp at hcceq
    · have : st.proposal.version = p.version - 1 := by omega
      simp [this] at hcceq

/-- The theorem `confirmed_outcome_on_moving_on` at work on replica 11
holding the data `42` confirmed for version 0: the proposal `1:1:1` collapses
it into `value`. -/
theorem confirmed_outcome_on_moving_on_witness :
    (replica_confirmed.propose q123 ⟨1, 1, 1⟩).1.state = some ⟨⟨1, 1, 1⟩, none⟩ ∧
      (replica_confirmed.propose q123 ⟨1, 1, 1⟩).1.value = some 42 ∧
      (replica_confirmed.propose q123 ⟨1, 1, 1⟩).1.quorum_initial
        = replica_confirmed.quorum_initial :=
  have h := confirmed_outcome_on_moving_on replica_confirmed q123 ⟨1, 1, 1⟩ _
    ⟨⟨0, 1, 1⟩, .data 42, true⟩ none replica_confirmed_state rfl rfl (by decide)
    ⟨⟨⟨1, 1, 1⟩, none⟩, by decide, by decide⟩
  ⟨h.1, h.2.2.1 (Or.inr (by decide))⟩

/-! ## Serialization round trip (C12) -/

/-- C12, the claim as stated fails at a legacy wire version: replica 11 holds
the collapsed value `42` and the data `1` accepted but not confirmed for
version 1; written and read back at 0.0.1 it has no `value` and the entry is
confirmed. -/
theorem round_trip_legacy_loses_fields :
    replica_midway.value = some 42 ∧
      replica_midway.state = some ⟨⟨1, 1, 1⟩, some ⟨⟨1, 1, 1⟩, .data 1, false⟩⟩ ∧
      replica_midway.round_trip ⟨0, 0, 1⟩ v010 =
        some { id := 11, quorum_initial := q123, value := none, version := v010,
               state := some ⟨⟨1, 1, 1⟩, some ⟨⟨1, 1, 1⟩, .data 1, true⟩⟩ } := by
  decide

/-- C12, amended: for every replica state `s`, written and read back at a
wire version `v` of 0.1.0 or later the replica has the same id,
quorum_initial, value and state (proposal, accepted proposal, accepted value,
confirmed flag) as `s`; at a legacy wire version a replica whose entry is a
quorum change cannot be written, and any other replica comes back with the
same id, quorum_initial, state.proposal, accepted proposal and accepted value,
with no `value` and with its entry, if any, confirmed. -/
theorem serialization_round_trip (s : Server) (v unset : ElleVersion) :
    (v.lt ⟨0, 1, 0⟩ = false → s.round_trip v unset = some { s with version := unset }) ∧
    (v.lt ⟨0, 1, 0⟩ = true →
      ((∃ st a q', s.state = some st ∧ st.accepted = some a ∧ a.value = .quorum q') →
        s.round_trip v unset = none) ∧
      ((∀ st a q', s.state = some st → st.accepted = some a → a.value ≠ .quorum q') →
        s.round_trip v unset =
          some { s with
            value := none, version := unset,
            state := s.state.map fun st =>
              { st with accepted := st.accepted.map fun a => { a with confirmed := true } } })) := by
  obtain ⟨id, qi, val, ver, state⟩ := s
  refine ⟨?_, ?_⟩
  · intro hv
    rcases state with _ | ⟨sp, _ | ⟨ap, av, ac⟩⟩
    · simp [Server.round_trip, Server.serialize, Server.deserialize, read_states,
        latest_state, hv]
    · simp [Server.round_trip, Server.serialize, Server.deserialize, read_states,
        latest_state, VersionState.serialize, VersionState.deserialize, hv]
    · simp [Server.round_trip, Server.serialize, Server.deserialize, read_states,
        latest_state, VersionState.serialize, VersionState.deserialize,
        Accepted.serialize, Accepted.deserialize, hv]
  · intro hv
    rcases state with _ | ⟨sp, _ | ⟨ap, av, ac⟩⟩
    · simp [Server.round_trip, Server.serialize, Server.deserialize, read_states,
        latest_state, hv]
    · simp [Server.round_trip, Server.serialize, Server.deserialize, read_states,
        latest_state, VersionState.serialize, VersionState.deserialize, hv]
    · cases av with
      | data t =>
        simp [Server.round_trip, Server.serialize, Server.deserialize, read_states,
          latest_state, VersionState.serialize, VersionState.deserialize,
          Accepted.serialize, Accepted.deserialize, hv]
      | quorum q' =>
        simp [Server.round_trip, Server.serialize, Server.deserialize, read_states,
          latest_state, VersionState.serialize, VersionState.deserialize,
          Accepted.serialize, Accepted.deserialize, hv]

/-- The theorem `serialization_round_trip` at work on replica 11 holding the
collapsed value `42` and the data `1` accepted for version 1: at 0.1.0 it
comes back as it was, at 0.0.1 without `value` and with the entry confirmed. -/
theorem serialization_round_trip_witness :
    replica_midway.round_trip v010 v010 = some { replica_midway with version := v010 } ∧
      replica_midway.round_trip ⟨0, 0, 1⟩ v010 =
        some { replica_midway with
          value := none, version := v010,
          state := replica_midway.state.map fun st =>
            { st with accepted := st.accepted.map fun a => { a with confirmed := true } } } :=
  ⟨(serialization_round_trip replica_midway v010 v010).1 (by decide),
    ((serialization_round_trip replica_midway ⟨0, 0, 1⟩ v010).2 (by decide)).2
      (by
        intro st a q' hs ha hval
        have h : replica_midway.state
            = some ⟨⟨1, 1, 1⟩, some ⟨⟨1, 1, 1⟩, .data 1, false⟩⟩ := by decide
        rw [h] at hs
        cases hs
        cases ha
        cases hval)⟩

/-! ## Independence of the wire version (0.1.0 or later) and of the draws -/

theorem Server.alike_refl (s : Server) (h : s.version.lt ⟨0, 1, 0⟩ = false) : s.alike s :=
  ⟨rfl, rfl, rfl, rfl, h, h⟩

theorem check_confirmed_alike (s s' : Server) (p : Proposal) (h : s.alike s') :
    check_confirmed s p = check_confirmed s' p := by
  obtain ⟨_, _, _, h4, h5, h6⟩ := h
  simp only [check_confirmed, h4, h5, h6]

theorem propose_alike (s s' : Server) (q : Quorum) (p : Proposal) (h : s.alike s') :
    (s.propose q p).2 = (s'.propose q p).2 ∧ (s.propose q p).1.alike (s'.propose q p).1 := by
  have hcc := check_confirmed_alike s s' p h
  obtain ⟨id, qi, val, ver, state⟩ := s
  obtain ⟨id', qi', val', ver', state'⟩ := s'
  obtain ⟨h1, h2, h3, h4, h5, h6⟩ := h
  simp only at h1 h2 h3 h4 h5 h6
  subst h1 h2 h3 h4
  unfold Server.propose
  rw [hcc]
  generalize check_confirmed ⟨id, qi, val, ver', state⟩ p = cc
  rcases state with _ | ⟨sp, _ | ⟨ap, av, ac⟩⟩
  · cases cc
    · simp [Server.alike, h5, h6]
    · by_cases hq : q = qi <;> simp [check_quorum, hq, Server.alike, h5, h6]
  · cases cc
    · simp [Server.alike, h5, h6]
    · by_cases hv : p.version > sp.version
      · simp [hv, Server.alike, h5, h6]
      · by_cases hq : q = qi
        · by_cases hl : sp.lt p = true <;>
            simp [check_quorum, hv, hq, hl, Server.alike, h5, h6]
        · simp [check_quorum, hv, hq, Server.alike, h5, h6]
  · by_cases hb : ap.version > p.version
    · simp [hb, Server.alike, h5, h6]
    · cases cc
      · simp [hb, Server.alike, h5, h6]
      · by_cases hv : p.version > sp.version
        · cases av with
          | data t =>
            by_cases hq : q = qi <;> simp [check_quorum, hb, hv, hq, Server.alike, h5, h6]
          | quorum q' =>
            by_cases hq : q = q' <;> simp [check_quorum, hb, hv, hq, Server.alike, h5, h6]
        · by_cases hq : q = qi
          · by_cases hl : sp.lt p = true <;>
              simp [check_quorum, hb, hv, hq, hl, Server.alike, h5, h6]
          · simp [check_quorum, hb, hv, hq, Server.alike, h5, h6]

theorem accept_alike (s s' : Server) (q : Quorum) (p : Proposal) (value : Value)
    (h : s.alike s') :
    (s.accept q p value).2 = (s'.accept q p value).2 ∧
      (s.accept q p value).1.alike (s'.accept q p value).1 := by
  obtain ⟨id, qi, val, ver, state⟩ := s
  obtain ⟨id', qi', val', ver', state'⟩ := s'
  obtain ⟨h1, h2, h3, h4, h5, h6⟩ := h
  simp only at h1 h2 h3 h4 h5 h6
  subst h1 h2 h3 h4
  unfold Server.accept
  by_cases hq : q = qi
  · rcases state with _ | ⟨sp, sa⟩
    · simp [check_quorum, hq, Server.alike, h5, h6]
    · by_cases hl : sp.lt p = true
      · simp [check_quorum, hq, hl, Server.alike, h5, h6]
      · by_cases hl2 : p.lt sp = true
        · simp [check_quorum, hq, hl, hl2, Server.alike, h5, h6]
        · simp [check_quorum, hq, hl, hl2, Server.alike, h5, h6]
  · simp [check_quorum, hq, Server.alike, h5, h6]

theorem confirm_alike (s s' : Server) (q : Quorum) (p : Proposal) (h : s.alike s') :
    (s.confirm q p).2 = (s'.confirm q p).2 ∧ (s.confirm q p).1.alike (s'.confirm q p).1 := by
  obtain ⟨id, qi, val, ver, state⟩ := s
  obtain ⟨id', qi', val', ver', state'⟩ := s'
  obtain ⟨h1, h2, h3, h4, h5, h6⟩ := h
  simp only at h1 h2 h3 h4 h5 h6
  subst h1 h2 h3 h4
  unfold Server.confirm
  by_cases hq : q = qi
  · rcases state with _ | ⟨sp, _ | ⟨ap, av, ac⟩⟩
    · simp [check_quorum, hq, Server.alike, h5, h6]
    · by_cases hl : sp.lt p = true <;> simp [check_quorum, hq, hl, Server.alike, h5, h6]
    · by_cases hl : sp.lt p = true
      · simp [check_quorum, hq, hl, Server.alike, h5, h6]
      · by_cases hl2 : p.lt sp = true
        · simp [check_quorum, hq, hl, hl2, Server.alike, h5, h6]
        · cases ac <;> simp [check_quorum, hq, hl, hl2, Server.alike, h5, h6]
  · simp [check_quorum, hq, Server.alike, h5, h6]

theorem get_alike (s s' : Server) (q : Quorum) (h : s.alike s') :
    (s.get q).2 = (s'.get q).2 ∧ (s.get q).1.alike (s'.get q).1 := by
  obtain ⟨id, qi, val, ver, state⟩ := s
  obtain ⟨id', qi', val', ver', state'⟩ := s'
  obtain ⟨h1, h2, h3, h4, h5, h6⟩ := h
  simp only at h1 h2 h3 h4 h5 h6
  subst h1 h2 h3 h4
  unfold Server.get
  by_cases hq : q = qi
  · simp [check_quorum, hq, Server.alike, h5, h6, Server.current_value]
  · simp [check_quorum, hq, Server.alike, h5, h6]

theorem World.alike_set (w w' : World) (i : Nat) (s s' : Server) (h : w.alike w')
    (hs : s.alike s') : (w.set i s).alike (w'.set i s') := by
  intro j
  by_cases hj : j = i
  · subst hj
    simpa [World.set] using hs
  · simpa [World.set, Function.update, hj] using h j

/-- Alike computations run on alike worlds end with the same result on alike
worlds. -/
theorem Prog.run_alike {α : Type} {m m' : Prog α} (h : Prog.alike m m') :
    ∀ w w' : World, w.alike w' →
      (m.run w).1 = (m'.run w').1 ∧ (m.run w).2.alike (m'.run w').2 := by
  induction h with
  | ret a =>
    intro w w' hw
    exact ⟨rfl, hw⟩
  | propose peer q p k k' _ ih =>
    intro w w' hw
    obtain ⟨pid, kind⟩ := peer
    simp only [Prog.run, exec, Peer.propose]
    cases kind with
    | replica i =>
      have h := propose_alike _ _ q p (hw i)
      simp only
      rw [h.1]
      exact ih _ _ _ (World.alike_set w w' i _ _ hw h.2)
    | unavailable => exact ih _ _ _ hw
    | proposeOnly i =>
      have h := propose_alike _ _ q p (hw i)
      simp only
      rw [h.1]
      exact ih _ _ _ (World.alike_set w w' i _ _ hw h.2)
  | accept peer q p value k k' _ ih =>
    intro w w' hw
    obtain ⟨pid, kind⟩ := peer
    simp only [Prog.run, exec, Peer.accept]
    cases kind with
    | replica i =>
      have h := accept_alike _ _ q p value (hw i)
      simp only
      rw [h.1]
      exact ih _ _ _ (World.alike_set w w' i _ _ hw h.2)
    | unavailable => exact ih _ _ _ hw
    | proposeOnly i => exact ih _ _ _ hw
  | confirm peer q p k k' _ ih =>
    intro w w' hw
    obtain ⟨pid, kind⟩ := peer
    simp only [Prog.run, exec, Peer.confirm]
    cases kind with
    | replica i =>
      have h := confirm_alike _ _ q p (hw i)
      simp only
      rw [h.1]
      exact ih _ _ _ (World.alike_set w w' i _ _ hw h.2)
    | unavailable => exact ih _ _ _ hw
    | proposeOnly i =>
      have h := confirm_alike _ _ q p (hw i)
      simp only
      rw [h.1]
      exact ih _ _ _ (World.alike_set w w' i _ _ hw h.2)
  | get peer q k k' _ ih =>
    intro w w' hw
    obtain ⟨pid, kind⟩ := peer
    simp only [Prog.run, exec, Peer.get]
    cases kind with
    | replica i =>
      have h := get_alike _ _ q (hw i)
      simp only
      rw [h.1]
      exact ih _ _ _ (World.alike_set w w' i _ _ hw h.2)
    | unavailable => exact ih _ _ _ hw
    | proposeOnly i =>
      have h := get_alike _ _ q (hw i)
      simp only
      rw [h.1]
      exact ih _ _ _ (World.alike_set w w' i _ _ hw h.2)
  | random lo hi k k' _ ih =>
    intro w w' hw
    simp only [Prog.run, exec]
    exact ih _ _ _ _ (fun i => hw i)
  | sleep delay delay' k k' _ ih =>
    intro w w' hw
    simp only [Prog.run, exec]
    exact ih _ _ _ hw

theorem Prog.alike_bind {α β : Type} {m m' : Prog α} {f f' : α → Prog β}
    (h : Prog.alike m m') (hf : ∀ a, Prog.alike (f a) (f' a)) :
    Prog.alike (m.bind f) (m'.bind f') := by
  induction h with
  | ret a => exact hf a
  | propose peer q p k k' _ ih => exact Prog.alike.propose peer q p _ _ ih
  | accept peer q p value k k' _ ih => exact Prog.alike.accept peer q p value _ _ ih
  | confirm peer q p k k' _ ih => exact Prog.alike.confirm peer q p _ _ ih
  | get peer q k k' _ ih => exact Prog.alike.get peer q _ _ ih
  | random lo hi k k' _ ih => exact Prog.alike.random lo hi _ _ ih
  | sleep delay delay' k k' _ ih => exact Prog.alike.sleep delay delay' _ _ ih

theorem for_each_parallel_alike {σ : Type} (f : Peer → σ → Prog (Task σ))
    (hf : ∀ peer s, Prog.alike (f peer s) (f peer s)) :
    ∀ (ps : List Peer) (s : σ),
      Prog.alike (for_each_parallel f ps s) (for_each_parallel f ps s) := by
  intro ps
  induction ps with
  | nil =>
    intro s
    exact Prog.alike.ret _
  | cons elt c ih =>
    intro s
    rw [for_each_parallel]
    apply Prog.alike_bind (hf elt s)
    intro t
    cases t with
    | done s' => exact ih s'
    | terminated s' => exact Prog.alike.ret _
    | threw e => exact Prog.alike.ret _

theorem propose_task_alike (q : Quorum) (p : Proposal) (peer : Peer)
    (s : Option Accepted × Int) :
    Prog.alike (Client.propose_task q p peer s) (Client.propose_task q p peer s) := by
  obtain ⟨prev, n⟩ := s
  unfold Client.propose_task
  apply Prog.alike.propose
  intro b
  cases b with
  | error e => cases e <;> exact Prog.alike.ret _
  | ok o =>
    cases o with
    | none => exact Prog.alike.ret _
    | some a =>
      cases prev with
      | none => exact Prog.alike.ret _
      | some pv =>
        simp only
        split <;> exact Prog.alike.ret _

theorem accept_task_alike (q : Quorum) (p : Proposal) (value : Value) (peer : Peer)
    (s : Option Proposal × Int) :
    Prog.alike (Client.accept_task q p value peer s) (Client.accept_task q p value peer s) := by
  unfold Client.accept_task
  apply Prog.alike.accept
  intro b
  cases b with
  | error e => cases e <;> exact Prog.alike.ret _
  | ok m =>
    simp only
    split <;> exact Prog.alike.ret _

theorem confirm_task_alike (q : Quorum) (p : Proposal) (peer : Peer) (n : Int) :
    Prog.alike (Client.confirm_task q p peer n) (Client.confirm_task q p peer n) := by
  unfold Client.confirm_task
  apply Prog.alike.confirm
  intro b
  cases b with
  | error e => cases e <;> exact Prog.alike.ret _
  | ok u => exact Prog.alike.ret _

theorem choose_confirm_alike (q : Quorum) (c : Client) (p : Proposal)
    (previous : Option Accepted) :
    Prog.alike (Client.choose_confirm q c p previous) (Client.choose_confirm q c p previous) := by
  unfold Client.choose_confirm
  apply Prog.alike_bind
    (for_each_parallel_alike _ (fun peer s => confirm_task_alike q p peer s) c.peers 0)
  intro r
  cases r with
  | error e => exact Prog.alike.ret _
  | ok reached =>
    simp only
    cases Client._check_headcount q reached false <;> exact Prog.alike.ret _

theorem choose_accept_alike (q : Quorum) (value : Value)
    (retry : Client → Int → Int → Option Accepted → Prog (Client × Outcome (Option Accepted)))
    (c : Client) (p : Proposal) (backoff : Int) (previous : Option Accepted)
    (hretry : ∀ c2 v2 b2 pv, Prog.alike (retry c2 v2 b2 pv) (retry c2 v2 b2 pv)) :
    Prog.alike (Client.choose_accept q value retry c p backoff previous)
      (Client.choose_accept q value retry c p backoff previous) := by
  unfold Client.choose_accept
  apply Prog.alike_bind
    (for_each_parallel_alike _ (fun peer s => accept_task_alike q p _ peer s) c.peers (none, 0))
  intro r
  cases r with
  | error e => exact Prog.alike.ret _
  | ok s =>
    obtain ⟨conflict, reached⟩ := s
    cases conflict with
    | some minimum =>
      apply Prog.alike.random
      intro rn rn'
      by_cases hcb : c.conflict_backoff = true
      · simp only [hcb, if_true]
        apply Prog.alike.sleep
        intro _
        exact hretry _ _ _ _
      · simp only [hcb, Bool.false_eq_true, if_false]
        exact hretry _ _ _ _
    | none =>
      simp only
      cases Client._check_headcount q reached false with
      | error e => exact Prog.alike.ret _
      | ok u => exact choose_confirm_alike q c p previous

theorem choose_loop_alike (q : Quorum) (value : Value) :
    ∀ (fuel : Nat) (c : Client) (version backoff : Int) (previous : Option Accepted),
      Prog.alike (Client.choose_loop q value fuel c version backoff previous)
        (Client.choose_loop q value fuel c version backoff previous) := by
  intro fuel
  induction fuel with
  | zero =>
    intro c version backoff previous
    exact Prog.alike.ret _
  | succ fuel ih =>
    intro c version backoff previous
    unfold Client.choose_loop
    simp only
    apply Prog.alike_bind
      (for_each_parallel_alike _ (fun peer s => propose_task_alike q _ peer s) c.peers _)
    intro r
    cases r with
    | error e => exact Prog.alike.ret _
    | ok s =>
      obtain ⟨prev, reached⟩ := s
      simp only
      cases prev with
      | none =>
        simp only [Bool.false_eq_true, if_false]
        cases Client._check_headcount q reached false with
        | error e => exact Prog.alike.ret _
        | ok u => exact choose_accept_alike q value _ _ _ backoff none ih
      | some a =>
        by_cases hconf : a.confirmed = true
        · simp only [hconf, if_true]
          exact Prog.alike.ret _
        · simp only [hconf, Bool.false_eq_true, if_false]
          cases Client._check_headcount q reached false with
          | error e => exact Prog.alike.ret _
          | ok u =>
            simp only
            split
            · exact ih _ _ _ _
            · exact choose_accept_alike q value _ _ _ backoff (some a) ih

/-- A `choose` call ends with the same outcome, and leaves replicas with the
same id, quorum_initial, value and state, whatever the wire version of each
replica, 0.1.0 or later, and whatever numbers the backoff draws. -/
theorem choose_run_alike (fuel : Nat) (c : Client) (version : Int) (value : Value)
    (w w' : World) (h : w.alike w') :
    ((c.choose fuel version value).run w).1 = ((c.choose fuel version value).run w').1 ∧
      ((c.choose fuel version value).run w).2.alike ((c.choose fuel version value).run w').2 :=
  Prog.run_alike (choose_loop_alike _ value fuel c version 1 none) w w' h

/-! ## The scenario of the test `partial_state` (C14) -/

set_option maxRecDepth 8000 in
/-- The scenario at wire version 0.1.0 with every draw equal to 1. -/
theorem recovery_at_v010 :
    (recovery_first v010 (fun _ => 1)).1.2 = .returned none ∧
    (recovery_second v010 (fun _ => 1)).1.2 = .returned none ∧
    (recovery_third v010 (fun _ => 1)).1.2 = .raised (.TooFewPeers 1 3) ∧
    (recovery_fourth v010 (fun _ => 1)).1.2 = .returned none ∧
    ((recovery_fourth v010 (fun _ => 1)).2.servers 0).state
      = some ⟨⟨2, 2, 1⟩, some ⟨⟨2, 2, 1⟩, .data 2, true⟩⟩ ∧
    ((recovery_fourth v010 (fun _ => 1)).2.servers 2).state
      = some ⟨⟨2, 2, 1⟩, some ⟨⟨2, 2, 1⟩, .data 2, true⟩⟩ := by
  decide

/-- C14 (partial-state recovery): on the replicas 11, 12, 13 constructed with
the quorum `{11, 12, 13}` at any wire version of 0.1.0 or later, with each
step run by a new coordinator of id 1 and whatever the backoff draws:
`choose(0, 0)` with all peers returns `None`; `choose(1, 1)` with peer 13
unavailable returns `None`; `choose(2, 2)` with only peer 11 available raises
`TooFewPeers(1, 3)`; then `choose(1, 2)` with peer 12 unavailable returns
`None` (within two iterations of its loop), and afterwards the replicas 11 and
13 both hold the value `2` confirmed, under the proposal `2:2:1`. -/
theorem partial_state_recovery (version : ElleVersion) (draws : Nat → Nat)
    (hver : version.lt ⟨0, 1, 0⟩ = false) :
    (recovery_first version draws).1.2 = .returned none ∧
    (recovery_second version draws).1.2 = .returned none ∧
    (recovery_third version draws).1.2 = .raised (.TooFewPeers 1 3) ∧
    (recovery_fourth version draws).1.2 = .returned none ∧
    ((recovery_fourth version draws).2.servers 0).state
      = some ⟨⟨2, 2, 1⟩, some ⟨⟨2, 2, 1⟩, .data 2, true⟩⟩ ∧
    ((recovery_fourth version draws).2.servers 2).state
      = some ⟨⟨2, 2, 1⟩, some ⟨⟨2, 2, 1⟩, .data 2, true⟩⟩ := by
  have h0 : (recovery_start version draws).alike (recovery_start v010 (fun _ => 1)) :=
    fun _ => ⟨rfl, rfl, rfl, rfl, hver, rfl⟩
  have h1 : (recovery_first version draws).1 = (recovery_first v010 (fun _ => 1)).1 ∧
      (recovery_first version draws).2.alike (recovery_first v010 (fun _ => 1)).2 :=
    choose_run_alike 1 _ 0 (.data 0) _ _ h0
  have h2 : (recovery_second version draws).1 = (recovery_second v010 (fun _ => 1)).1 ∧
      (recovery_second version draws).2.alike (recovery_second v010 (fun _ => 1)).2 :=
    choose_run_alike 1 _ 1 (.data 1) _ _ h1.2
  have h3 : (recovery_third version draws).1 = (recovery_third v010 (fun _ => 1)).1 ∧
      (recovery_third version draws).2.alike (recovery_third v010 (fun _ => 1)).2 :=
    choose_run_alike 1 _ 2 (.data 2) _ _ h2.2
  have h4 : (recovery_fourth version draws).1 = (recovery_fourth v010 (fun _ => 1)).1 ∧
      (recovery_fourth version draws).2.alike (recovery_fourth v010 (fun _ => 1)).2 :=
    choose_run_alike 2 _ 1 (.data 2) _ _ h3.2
  obtain ⟨c1, c2, c3, c4, c5, c6⟩ := recovery_at_v010
  rw [h1.1, h2.1, h3.1, h4.1, (h4.2 0).2.2.2.1, (h4.2 2).2.2.2.1]
  exact ⟨c1, c2, c3, c4, c5, c6⟩

/-- The theorem `partial_state_recovery` at work at wire version 0.2.0 with
the draws 1, 2, 3, ... -/
theorem partial_state_recovery_witness :
    (recovery_first ⟨0, 2, 0⟩ (fun n => n + 1)).1.2 = .returned none ∧
    (recovery_second ⟨0, 2, 0⟩ (fun n => n + 1)).1.2 = .returned none ∧
    (recovery_third ⟨0, 2, 0⟩ (fun n => n + 1)).1.2 = .raised (.TooFewPeers 1 3) ∧
    (recovery_fourth ⟨0, 2, 0⟩ (fun n => n + 1)).1.2 = .returned none ∧
    ((recovery_fourth ⟨0, 2, 0⟩ (fun n => n + 1)).2.servers 0).state
      = some ⟨⟨2, 2, 1⟩, some ⟨⟨2, 2, 1⟩, .data 2, true⟩⟩ ∧
    ((recovery_fourth ⟨0, 2, 0⟩ (fun n => n + 1)).2.servers 2).state
      = some ⟨⟨2, 2, 1⟩, some ⟨⟨2, 2, 1⟩, .data 2, true⟩⟩ :=
  partial_state_recovery ⟨0, 2, 0⟩ (fun n => n + 1) (by decide)

/-! ## The branches of `accept` and `confirm` -/

/-- When `accept` returns, the quorum matched and the live slot's promise is
not smaller than `p`. -/
theorem accept_returned (s : Server) (q : Quorum) (p : Proposal) (value : Value) (r : Proposal)
    (h : (s.accept q p value).2 = .ok r) :
    q = s.quorum_initial ∧ ∃ st, s.state = some st ∧ st.proposal.lt p = false := by
  obtain ⟨id, qi, val, ver, state⟩ := s
  revert h
  unfold Server.accept
  by_cases hq : q = qi
  · rcases state with _ | ⟨sp, sa⟩
    · simp [check_quorum, hq]
    · by_cases hl : sp.lt p = true
      · simp [check_quorum, hq, hl]
      · intro _
        exact ⟨hq, _, rfl, by simpa using hl⟩
  · simp [check_quorum, hq]

/-- A stale accept: `p < state.proposal` (Server.hxx:355-360). -/
theorem accept_stale (s : Server) (p : Proposal) (value : Value) (st : VersionState)
    (hs : s.state = some st) (hl : p.lt st.proposal = true) :
    s.accept s.quorum_initial p value = (s, .ok st.proposal) := by
  obtain ⟨id, qi, val, ver, state⟩ := s
  obtain ⟨sp, sa⟩ := st
  simp only at hs hl
  subst hs
  have h2 : sp.lt p = false := by
    rw [Proposal.lt_iff] at hl
    rw [Proposal.lt_false_iff]
    omega
  simp [Server.accept, check_quorum, h2, hl]

/-- An accept under the promise of the live slot (Server.hxx:361-373). -/
theorem accept_current (s : Server) (p : Proposal) (value : Value) (st : VersionState)
    (hs : s.state = some st) (h1 : st.proposal.lt p = false) (h2 : p.lt st.proposal = false) :
    s.accept s.quorum_initial p value =
      ({ s with
          state := some { st with
            accepted := some
              (match st.accepted with
               | none => ⟨p, value, false⟩
               | some a => { a with proposal := p, value := value }) } },
        .ok st.proposal) := by
  obtain ⟨id, qi, val, ver, state⟩ := s
  obtain ⟨sp, sa⟩ := st
  simp only at hs h1 h2
  subst hs
  cases sa <;> simp [Server.accept, check_quorum, h1, h2]

/-- When `confirm` returns, the quorum matched, there is a live slot with an
entry, and the slot's promise is not smaller than `p`. -/
theorem confirm_returned (s : Server) (q : Quorum) (p : Proposal)
    (h : (s.confirm q p).2 = .ok ()) :
    q = s.quorum_initial ∧
      ∃ st a, s.state = some st ∧ st.accepted = some a ∧ st.proposal.lt p = false := by
  obtain ⟨id, qi, val, ver, state⟩ := s
  revert h
  unfold Server.confirm
  by_cases hq : q = qi
  · rcases state with _ | ⟨sp, _ | ⟨ap, av, ac⟩⟩
    · simp [check_quorum, hq]
    · by_cases hl : sp.lt p = true <;> simp [check_quorum, hq, hl]
    · by_cases hl : sp.lt p = true
      · simp [check_quorum, hq, hl]
      · intro _
        exact ⟨hq, _, _, rfl, rfl, by simpa using hl⟩
  · simp [check_quorum, hq]

/-- A stale confirm: `p < state.proposal` (Server.hxx:392-397). -/
theorem confirm_stale (s : Server) (p : Proposal) (st : VersionState) (a : Accepted)
    (hs : s.state = some st) (ha : st.accepted = some a) (hl : p.lt st.proposal = true) :
    s.confirm s.quorum_initial p = (s, .ok ()) := by
  obtain ⟨id, qi, val, ver, state⟩ := s
  obtain ⟨sp, sa⟩ := st
  simp only at hs ha hl
  subst hs ha
  have h2 : sp.lt p = false := by
    rw [Proposal.lt_iff] at hl
    rw [Proposal.lt_false_iff]
    omega
  simp [Server.confirm, check_quorum, h2, hl]

/-- A confirm under the promise of the live slot (Server.hxx:398-400). -/
theorem confirm_current (s : Server) (p : Proposal) (st : VersionState) (a : Accepted)
    (hs : s.state = some st) (ha : st.accepted = some a)
    (h1 : st.proposal.lt p = false) (h2 : p.lt st.proposal = false) :
    s.confirm s.quorum_initial p =
      ({ s with state := some { st with accepted := some { a with confirmed := true } } },
        .ok ()) := by
  obtain ⟨id, qi, val, ver, state⟩ := s
  obtain ⟨sp, sa⟩ := st
  obtain ⟨ap, av, ac⟩ := a
  simp only at hs ha h1 h2
  subst hs ha
  cases ac <;> simp [Server.confirm, check_quorum, h1, h2]

/-- The protocol violation of `confirm` (Server.hxx:383-391). -/
theorem confirm_violation (s : Server) (p : Proposal)
    (h : s.state = none ∨ ∃ st, s.state = some st ∧
      (st.proposal.lt p = true ∨ st.accepted = none)) :
    s.confirm s.quorum_initial p = (s, .error .ProposeAndAcceptBeforeConfirming) := by
  obtain ⟨id, qi, val, ver, state⟩ := s
  rcases h with h | ⟨st, hs, h⟩
  · simp only at h
    subst h
    simp [Server.confirm, check_quorum]
  · obtain ⟨sp, sa⟩ := st
    simp only at hs h
    subst hs
    rcases h with h | h
    · simp [Server.confirm, check_quorum, h]
    · subst h
      by_cases hl : sp.lt p = true <;> simp [Server.confirm, check_quorum, hl]

/-! ## Results and effects of `accept`, `confirm` and `get` (C21-C25) -/

/-- C21 (accept result): whenever `accept(q, p, value)` returns, the replica
has a live slot, the returned proposal is that slot's `state.proposal`, before
and after the call, and is not smaller than `p`; if `p < state.proposal` (a
stale accept) the returned proposal is strictly greater than `p` and the
replica is left unchanged. -/
theorem accept_result (s : Server) (q : Quorum) (p : Proposal) (value : Value) (r : Proposal)
    (h : (s.accept q p value).2 = .ok r) :
    ∃ st, s.state = some st ∧ r = st.proposal ∧
      (∃ st', (s.accept q p value).1.state = some st' ∧ st'.proposal = r) ∧
      r.lt p = false ∧
      (p.lt st.proposal = true → p.lt r = true ∧ (s.accept q p value).1 = s) := by
  obtain ⟨hq, st, hs, hl⟩ := accept_returned s q p value r h
  subst hq
  refine ⟨st, hs, ?_⟩
  cases hl2 : p.lt st.proposal with
  | true =>
    rw [accept_stale s p value st hs hl2] at h ⊢
    simp only [Except.ok.injEq] at h
    subst h
    exact ⟨rfl, ⟨st, hs, rfl⟩, hl, fun _ => ⟨hl2, rfl⟩⟩
  | false =>
    rw [accept_current s p value st hs hl hl2] at h ⊢
    simp only [Except.ok.injEq] at h
    subst h
    exact ⟨rfl, ⟨_, rfl, rfl⟩, hl, fun h' => by cases h'⟩

/-- The theorem `accept_result` at work: replica 11 holds the promise `0:1:1`;
the accept under `0:1:1` returns `0:1:1`. -/
theorem accept_result_witness :
    ∃ st, replica_accepted.state = some st ∧ (⟨0, 1, 1⟩ : Proposal) = st.proposal ∧
      (∃ st', (replica_accepted.accept q123 ⟨0, 1, 1⟩ (.data 7)).1.state = some st' ∧
        st'.proposal = ⟨0, 1, 1⟩) ∧
      Proposal.lt ⟨0, 1, 1⟩ ⟨0, 1, 1⟩ = false ∧
      (Proposal.lt ⟨0, 1, 1⟩ st.proposal = true →
        Proposal.lt ⟨0, 1, 1⟩ ⟨0, 1, 1⟩ = true ∧
          (replica_accepted.accept q123 ⟨0, 1, 1⟩ (.data 7)).1 = replica_accepted) :=
  accept_result replica_accepted q123 ⟨0, 1, 1⟩ (.data 7) ⟨0, 1, 1⟩ (by decide)

/-- C22, the claim as stated fails: replica 11 holds the data `42` confirmed
under `0:1:1`, with `state.proposal = 0:1:1`; after `accept(q, 0:1:1, 42)`
with `q == quorum_initial`, which returns `0:1:1`, the entry is still
confirmed. -/
theorem accept_keeps_confirmed_flag :
    replica_confirmed.state = some ⟨⟨0, 1, 1⟩, some ⟨⟨0, 1, 1⟩, .data 42, true⟩⟩ ∧
      q123 = replica_confirmed.quorum_initial ∧
      (replica_confirmed.accept q123 ⟨0, 1, 1⟩ (.data 42)).2 = .ok ⟨0, 1, 1⟩ ∧
      (replica_confirmed.accept q123 ⟨0, 1, 1⟩ (.data 42)).1.state
        = some ⟨⟨0, 1, 1⟩, some ⟨⟨0, 1, 1⟩, .data 42, true⟩⟩ := by
  decide

/-- C22, amended: on every replica with a live slot whose `state.proposal` is
`p`, `accept(q, p, value)` with `q == quorum_initial` returns `p` and leaves
`state.proposal` unchanged; if the slot had no entry or an unconfirmed one, it
then holds `state.accepted = (proposal = p, value = value, confirmed = false)`
and nothing else of the replica has changed; if the slot had a confirmed entry
of that same value, it holds `(proposal = p, value = value, confirmed =
true)`. -/
theorem accept_records (s : Server) (p : Proposal) (value : Value) (st : VersionState)
    (hs : s.state = some st) (hp : st.proposal = p) :
    (s.accept s.quorum_initial p value).2 = .ok p ∧
    (∃ st', (s.accept s.quorum_initial p value).1.state = some st' ∧ st'.proposal = p) ∧
    ((∀ a, st.accepted = some a → a.confirmed = false) →
      (s.accept s.quorum_initial p value).1
        = { s with state := some ⟨p, some ⟨p, value, false⟩⟩ }) ∧
    (∀ a, st.accepted = some a → a.confirmed = true → a.value = value →
      (s.accept s.quorum_initial p value).1
        = { s with state := some ⟨p, some ⟨p, value, true⟩⟩ }) := by
  subst hp
  have hl := Proposal.lt_irrefl st.proposal
  rw [accept_current s st.proposal value st hs hl hl]
  refine ⟨rfl, ⟨_, rfl, rfl⟩, ?_, ?_⟩
  · intro h
    cases hacc : st.accepted with
    | none => rfl
    | some a =>
      have hc := h a hacc
      obtain ⟨ap, av, ac⟩ := a
      simp only at hc
      subst hc
      rfl
  · intro a hacc hc _
    obtain ⟨ap, av, ac⟩ := a
    simp only at hc
    subst hc
    rw [hacc]

/-- The theorem `accept_records` at work: replica 11 holding the data `42`
accepted, not confirmed, under `0:1:1` records the data `43` under `0:1:1`. -/
theorem accept_records_witness :
    (replica_accepted.accept replica_accepted.quorum_initial ⟨0, 1, 1⟩ (.data 43)).1
      = { replica_accepted with
          state := some ⟨⟨0, 1, 1⟩, some ⟨⟨0, 1, 1⟩, .data 43, false⟩⟩ } :=
  (accept_records replica_accepted ⟨0, 1, 1⟩ (.data 43) _ replica_accepted_state rfl).2.2.1
    (by
      intro a ha
      cases ha
      rfl)

/-- C23, the claim as stated fails: replica 11 has a live slot with the
promise `0:1:1` and an accepted entry; `confirm(q, 0:2:1)` with
`q == quorum_initial` and `0:2:1 >= 0:1:1` raises the protocol violation. -/
theorem confirm_above_promise_raises :
    replica_accepted.state = some ⟨⟨0, 1, 1⟩, some ⟨⟨0, 1, 1⟩, .data 42, false⟩⟩ ∧
      q123 = replica_accepted.quorum_initial ∧
      Proposal.lt ⟨0, 2, 1⟩ ⟨0, 1, 1⟩ = false ∧
      (replica_accepted.confirm q123 ⟨0, 2, 1⟩).2
        = .error .ProposeAndAcceptBeforeConfirming := by
  decide

/-- C23, amended: `confirm(q, p)` with `q == quorum_initial` raises the
protocol violation "propose and accept before confirming" if and only if the
replica has no live slot, or `state.proposal < p`, or `state.accepted` is
absent; so it does not raise when there is a live slot with an entry and
`p <= state.proposal`. When it raises, the replica is left unchanged. -/
theorem confirm_preconditions (s : Server) (p : Proposal) :
    ((s.confirm s.quorum_initial p).2 = .error .ProposeAndAcceptBeforeConfirming ↔
      (s.state = none ∨ ∃ st, s.state = some st ∧
        (st.proposal.lt p = true ∨ st.accepted = none))) ∧
    (∀ st a, s.state = some st → st.accepted = some a → st.proposal.lt p = false →
      (s.confirm s.quorum_initial p).2 = .ok ()) ∧
    (∀ e, (s.confirm s.quorum_initial p).2 = .error e →
      e = .ProposeAndAcceptBeforeConfirming ∧ (s.confirm s.quorum_initial p).1 = s) := by
  have hok : ∀ st a, s.state = some st → st.accepted = some a → st.proposal.lt p = false →
      (s.confirm s.quorum_initial p).2 = .ok () := by
    intro st a hs ha hl
    cases hl2 : p.lt st.proposal with
    | true => rw [confirm_stale s p st a hs ha hl2]
    | false => rw [confirm_current s p st a hs ha hl hl2]
  have hcases : (s.state = none ∨ ∃ st, s.state = some st ∧
      (st.proposal.lt p = true ∨ st.accepted = none)) ∨
      ∃ st a, s.state = some st ∧ st.accepted = some a ∧ st.proposal.lt p = false := by
    cases hs : s.state with
    | none => exact Or.inl (Or.inl rfl)
    | some st =>
      cases hl : st.proposal.lt p with
      | true => exact Or.inl (Or.inr ⟨st, rfl, Or.inl hl⟩)
      | false =>
        cases ha : st.accepted with
        | none => exact Or.inl (Or.inr ⟨st, rfl, Or.inr ha⟩)
        | some a => exact Or.inr ⟨st, a, rfl, ha, hl⟩
  refine ⟨⟨?_, ?_⟩, hok, ?_⟩
  · intro h
    rcases hcases with hbad | ⟨st, a, hs, ha, hl⟩
    · exact hbad
    · rw [hok st a hs ha hl] at h
      cases h
  · intro h
    rw [confirm_violation s p h]
  · intro e h
    rcases hcases with hbad | ⟨st, a, hs, ha, hl⟩
    · rw [confirm_violation s p hbad] at h ⊢
      simp only [Except.error.injEq] at h
      exact ⟨h.symm, rfl⟩
    · rw [hok st a hs ha hl] at h
      cases h

/-- The theorem `confirm_preconditions` at work on replica 11 holding the
promise `0:1:1` and an entry: the confirm under `0:2:1` raises, the confirm
under `0:1:1` does not. -/
theorem confirm_preconditions_witness :
    (replica_accepted.confirm replica_accepted.quorum_initial ⟨0, 2, 1⟩).2
        = .error .ProposeAndAcceptBeforeConfirming ∧
      (replica_accepted.confirm replica_accepted.quorum_initial ⟨0, 1, 1⟩).2 = .ok () :=
  ⟨(confirm_preconditions replica_accepted ⟨0, 2, 1⟩).1.mpr
      (Or.inr ⟨_, replica_accepted_state, Or.inl (by decide)⟩),
    (confirm_preconditions replica_accepted ⟨0, 1, 1⟩).2.1 _ _ replica_accepted_state rfl
      (by decide)⟩

/-- C24 (confirm effect): for `confirm(q, p)` with `q == quorum_initial` on a
live slot that has an accepted entry: if `p < state.proposal` the call returns
and nothing changes; if `p == state.proposal` the call returns and the only
change is that `accepted.confirmed` is true (`accepted.proposal`,
`accepted.value`, `state.proposal`, the replica's `value`, `quorum_initial`
and the rest are untouched). -/
theorem confirm_effect (s : Server) (p : Proposal) (st : VersionState) (a : Accepted)
    (hs : s.state = some st) (ha : st.accepted = some a) :
    (p.lt st.proposal = true → s.confirm s.quorum_initial p = (s, .ok ())) ∧
    (p = st.proposal →
      s.confirm s.quorum_initial p =
        ({ s with state := some { st with accepted := some { a with confirmed := true } } },
          .ok ())) := by
  constructor
  · intro hl
    exact confirm_stale s p st a hs ha hl
  · intro hp
    have hl : st.proposal.lt p = false := by
      rw [hp]
      exact Proposal.lt_irrefl _
    have hl2 : p.lt st.proposal = false := by
      rw [hp]
      exact Proposal.lt_irrefl _
    exact confirm_current s p st a hs ha hl hl2

/-- The theorem `confirm_effect` at work on replica 11 holding the data `42`
accepted under `0:1:1`: the confirm under `0:1:1` marks it confirmed, and the
stale confirm under `0:0:1` changes nothing. -/
theorem confirm_effect_witness :
    replica_accepted.confirm replica_accepted.quorum_initial ⟨0, 0, 1⟩
        = (replica_accepted, .ok ()) ∧
      replica_accepted.confirm replica_accepted.quorum_initial ⟨0, 1, 1⟩
        = ({ replica_accepted with
              state := some ⟨⟨0, 1, 1⟩, some ⟨⟨0, 1, 1⟩, .data 42, true⟩⟩ }, .ok ()) :=
  ⟨(confirm_effect replica_accepted ⟨0, 0, 1⟩ _ _ replica_accepted_state rfl).1 (by decide),
    (confirm_effect replica_accepted ⟨0, 1, 1⟩ _ _ replica_accepted_state rfl).2 rfl⟩

/-- C25, the claim as stated fails: replica 13 holds the quorum change
`{11, 12}` confirmed under `3:1:1` and no collapsed value; `get(q)` with
`q == quorum_initial` returns `None`, not that entry. -/
theorem get_skips_confirmed_quorum_change :
    replica_ahead.state = some ⟨⟨3, 1, 1⟩, some ⟨⟨3, 1, 1⟩, .quorum {11, 12}, true⟩⟩ ∧
      q123 = replica_ahead.quorum_initial ∧
      (replica_ahead.get q123).2 = .ok none := by
  decide

/-- C25, amended: for every replica state, `get(q)` with `q == quorum_initial`
leaves the replica unchanged and returns: the live slot's accepted entry when
that entry is confirmed and holds data; otherwise (no entry, an unconfirmed
entry, or a confirmed quorum change), when there is a live slot and the
replica's collapsed value exists, an `Accepted` made of the slot's
`state.proposal`, that value and `confirmed = true`; otherwise, and always
when there is no live slot, `None`. -/
theorem get_result (s : Server) :
    (s.get s.quorum_initial).1 = s ∧
    (∀ st a t, s.state = some st → st.accepted = some a → a.confirmed = true →
      a.value = .data t → (s.get s.quorum_initial).2 = .ok (some a)) ∧
    (∀ st, s.state = some st →
      (st.accepted = none ∨ ∃ a, st.accepted = some a ∧
        (a.confirmed = false ∨ ∃ q', a.value = .quorum q')) →
      (s.get s.quorum_initial).2
        = .ok (s.value.map fun v => ⟨st.proposal, .data v, true⟩)) ∧
    (s.state = none → (s.get s.quorum_initial).2 = .ok none) := by
  obtain ⟨id, qi, val, ver, state⟩ := s
  refine ⟨by simp [Server.get, check_quorum], ?_, ?_, ?_⟩
  · intro st a t hs ha hc hv
    obtain ⟨sp, sa⟩ := st
    obtain ⟨ap, av, ac⟩ := a
    simp only at hs ha hc hv
    subst hs ha hc hv
    simp [Server.get, check_quorum, Server.current_value]
  · intro st hs h
    obtain ⟨sp, sa⟩ := st
    simp only at hs h
    subst hs
    rcases h with h | ⟨a, ha, h⟩
    · subst h
      cases val <;> simp [Server.get, check_quorum, Server.current_value]
    · obtain ⟨ap, av, ac⟩ := a
      subst ha
      rcases h with h | ⟨q', h⟩
      · simp only at h
        subst h
        cases val <;> cases av <;> simp [Server.get, check_quorum, Server.current_value]
      · simp only at h
        subst h
        cases val <;> cases ac <;> simp [Server.get, check_quorum, Server.current_value]
  · intro hs
    simp only at hs
    subst hs
    simp [Server.get, check_quorum, Server.current_value]

/-- The theorem `get_result` at work: replica 11 holding the data `42`
confirmed under `0:1:1` returns that entry, and replica 11 holding the
collapsed value `42` and the data `1` accepted, not confirmed, under `1:1:1`
returns `(1:1:1, 42, confirmed)`. -/
theorem get_result_witness :
    (replica_confirmed.get replica_confirmed.quorum_initial).2
        = .ok (some ⟨⟨0, 1, 1⟩, .data 42, true⟩) ∧
      (replica_midway.get replica_midway.quorum_initial).2
        = .ok (replica_midway.value.map fun v => ⟨⟨1, 1, 1⟩, .data v, true⟩) :=
  ⟨(get_result replica_confirmed).2.1 _ ⟨⟨0, 1, 1⟩, .data 42, true⟩ 42
      replica_confirmed_state rfl rfl rfl,
    (get_result replica_midway).2.2.1 ⟨⟨1, 1, 1⟩, some ⟨⟨1, 1, 1⟩, .data 1, false⟩⟩
      (by decide) (Or.inr ⟨_, rfl, Or.inl rfl⟩)⟩

/-! ## The replica's own id and `quorum_initial` (C26) -/

theorem propose_id (s : Server) (q : Quorum) (p : Proposal) : (s.propose q p).1.id = s.id := by
  obtain ⟨id, qi, val, ver, state⟩ := s
  unfold Server.propose
  generalize check_confirmed ⟨id, qi, val, ver, state⟩ p = cc
  rcases state with _ | ⟨sp, _ | ⟨ap, av, ac⟩⟩
  · cases cc
    · simp
    · by_cases hq : q = qi <;> simp [check_quorum, hq]
  · cases cc
    · simp
    · by_cases hv : p.version > sp.version
      · simp [hv]
      · by_cases hq : q = qi
        · by_cases hl : sp.lt p = true <;> simp [check_quorum, hv, hq, hl]
        · simp [check_quorum, hv, hq]
  · by_cases hb : ap.version > p.version
    · simp [hb]
    · cases cc
      · simp [hb]
      · by_cases hv : p.version > sp.version
        · cases av with
          | data t => by_cases hq : q = qi <;> simp [check_quorum, hb, hv, hq]
          | quorum q' => by_cases hq : q = q' <;> simp [check_quorum, hb, hv, hq]
        · by_cases hq : q = qi
          · by_cases hl : sp.lt p = true <;> simp [check_quorum, hb, hv, hq, hl]
          · simp [check_quorum, hb, hv, hq]

theorem accept_id (s : Server) (q : Quorum) (p : Proposal) (value : Value) :
    (s.accept q p value).1.id = s.id := by
  unfold Server.accept
  repeat' split
  all_goals rfl

theorem confirm_id (s : Server) (q : Quorum) (p : Proposal) : (s.confirm q p).1.id = s.id := by
  unfold Server.confirm
  repeat' split
  all_goals rfl

/-- The only way `propose` changes `quorum_initial`: by collapsing a quorum
change held in the live slot. -/
theorem propose_quorum_initial (s : Server) (q : Quorum) (p : Proposal) :
    (s.propose q p).1.quorum_initial = s.quorum_initial ∨
      ∃ st a, s.state = some st ∧ st.accepted = some a ∧
        a.value = .quorum (s.propose q p).1.quorum_initial := by
  obtain ⟨id, qi, val, ver, state⟩ := s
  unfold Server.propose
  generalize check_confirmed ⟨id, qi, val, ver, state⟩ p = cc
  rcases state with _ | ⟨sp, _ | ⟨ap, av, ac⟩⟩
  · cases cc
    · simp
    · by_cases hq : q = qi <;> simp [check_quorum, hq]
  · cases cc
    · simp
    · by_cases hv : p.version > sp.version
      · simp [hv]
      · by_cases hq : q = qi
        · by_cases hl : sp.lt p = true <;> simp [check_quorum, hv, hq, hl]
        · simp [check_quorum, hv, hq]
  · by_cases hb : ap.version > p.version
    · simp [hb]
    · cases cc
      · simp [hb]
      · by_cases hv : p.version > sp.version
        · cases av with
          | data t => by_cases hq : q = qi <;> simp [check_quorum, hb, hv, hq]
          | quorum q' => by_cases hq : q = q' <;> simp [check_quorum, hb, hv, hq]
        · by_cases hq : q = qi
          · by_cases hl : sp.lt p = true <;> simp [check_quorum, hb, hv, hq, hl]
          · simp [check_quorum, hb, hv, hq]

/-- The replica `id` is in `quorum_initial` and in every quorum change held
in the live slot. -/
theorem keeps_id_call (id : Int) (s : Server) (c : Rpc)
    (hc : ∀ q p Q', c = .accept q p (.quorum Q') → id ∈ Q')
    (h : s.id = id ∧ id ∈ s.quorum_initial ∧
      ∀ st a Q', s.state = some st → st.accepted = some a → a.value = .quorum Q' → id ∈ Q') :
    (s.call c).id = id ∧ id ∈ (s.call c).quorum_initial ∧
      ∀ st a Q', (s.call c).state = some st → st.accepted = some a →
        a.value = .quorum Q' → id ∈ Q' := by
  obtain ⟨h1, h2, h3⟩ := h
  cases c with
  | propose q p =>
    simp only [Server.call]
    refine ⟨by rw [propose_id, h1], ?_, ?_⟩
    · rcases propose_quorum_initial s q p with hq | ⟨st, a, hs, ha, hv⟩
      · rw [hq]
        exact h2
      · exact h3 st a _ hs ha hv
    · intro st' a Q' hs' ha' hv
      obtain ⟨st, hs, ha⟩ := (propose_entries s q p).2 st' a hs' ha'
      exact h3 st a Q' hs ha hv
  | accept q p value =>
    simp only [Server.call]
    refine ⟨by rw [accept_id, h1], by rw [accept_quorum_initial]; exact h2, ?_⟩
    intro st' a Q' hs' ha' hv
    rcases accept_entries s q p value st' a hs' ha' with ⟨_, hval⟩ | ⟨st, hs, ha⟩
    · rw [hval] at hv
      exact hc q p Q' (by rw [hv])
    · exact h3 st a Q' hs ha hv
  | confirm q p =>
    simp only [Server.call]
    refine ⟨by rw [confirm_id, h1], by rw [confirm_quorum_initial]; exact h2, ?_⟩
    intro st' a Q' hs' ha' hv
    obtain ⟨st, a0, hs, ha, _, hval⟩ := confirm_entries s q p st' a hs' ha'
    exact h3 st a0 Q' hs ha (by rw [hval, hv])
  | get q =>
    simp only [Server.call, get_unchanged]
    exact ⟨h1, h2, h3⟩

theorem keeps_id_calls (id : Int) (calls : List Rpc) :
    ∀ s : Server, (∀ q p Q', Rpc.accept q p (.quorum Q') ∈ calls → id ∈ Q') →
      (s.id = id ∧ id ∈ s.quorum_initial ∧
        ∀ st a Q', s.state = some st → st.accepted = some a → a.value = .quorum Q' →
          id ∈ Q') →
      (s.calls calls).id = id ∧ id ∈ (s.calls calls).quorum_initial := by
  induction calls with
  | nil =>
    intro s _ h
    exact ⟨h.1, h.2.1⟩
  | cons c rest ih =>
    intro s hc h
    simp only [Server.calls, List.foldl_cons]
    apply ih (s.call c)
    · intro q p Q' hmem
      exact hc q p Q' (List.mem_cons_of_mem _ hmem)
    · apply keeps_id_call id s c _ h
      intro q p Q' heq
      exact hc q p Q' (by rw [heq]; exact List.mem_cons_self _ _)

/-- C26, the claim as stated fails: replica 12, constructed with the quorum
`{11, 12}`, gets the calls that the coordinator of the test `elect_shrink`
sends, as it does when it is the first peer of the list; the proposal for
version 2 makes it collapse the confirmed quorum change `{11}`, and its
`quorum_initial` is then `{11}`, without its own id. -/
theorem evicted_replica_drops_its_id :
    Server.new 12 {11, 12} v010 = .ok (Server.fresh 12 {11, 12} v010) ∧
      ((Server.fresh 12 {11, 12} v010).calls calls_shrink).id = 12 ∧
      ((Server.fresh 12 {11, 12} v010).calls calls_shrink).quorum_initial = {11} ∧
      ((Server.fresh 12 {11, 12} v010).calls calls_shrink).id
        ∉ ((Server.fresh 12 {11, 12} v010).calls calls_shrink).quorum_initial := by
  decide

/-- C26, amended: for every replica constructed with its id contained in its
initial quorum, after any sequence of propose, accept, confirm and get calls,
returning or raising, in which every quorum change passed to `accept`
contains the replica's id, the id is unchanged and `quorum_initial` still
contains it. (A quorum change without the replica's id, once accepted and
collapsed, becomes its `quorum_initial`.) -/
theorem quorum_keeps_id (id : Int) (quorum : Quorum) (version : ElleVersion) (s : Server)
    (calls : List Rpc) (hnew : Server.new id quorum version = .ok s)
    (hcalls : ∀ q p Q', Rpc.accept q p (.quorum Q') ∈ calls → id ∈ Q') :
    (s.calls calls).id = id ∧ id ∈ (s.calls calls).quorum_initial := by
  unfold Server.new at hnew
  split at hnew
  · next hmem =>
    cases hnew
    apply keeps_id_calls id calls _ hcalls
    refine ⟨rfl, hmem, ?_⟩
    intro st a Q' hs
    cases hs
  · cases hnew

/-- The theorem `quorum_keeps_id` at work: replica 11 of the quorum
`{11, 12}` gets the same calls, in which the quorum change `{11}` contains
its id. -/
theorem quorum_keeps_id_witness :
    ((Server.fresh 11 {11, 12} v010).calls calls_shrink).id = 11 ∧
      11 ∈ ((Server.fresh 11 {11, 12} v010).calls calls_shrink).quorum_initial :=
  quorum_keeps_id 11 {11, 12} v010 _ calls_shrink (by decide)
    (by
      intro q p Q' hmem
      simp only [calls_shrink, List.mem_cons, List.mem_singleton, reduceCtorEq,
        Rpc.accept.injEq, Value.quorum.injEq, false_or, or_false, List.not_mem_nil] at hmem
      rcases hmem with ⟨_, _, h⟩ | ⟨_, _, h⟩
      · cases h
      · rw [h]
        decide)

/-! ## The order of proposals (C27) and the headcount of `get` (C28) -/

theorem Proposal.eq_iff (a b : Proposal) : a.eq b = true ↔ a = b := by
  obtain ⟨av, ar, as⟩ := a
  obtain ⟨bv, br, bs⟩ := b
  simp [Proposal.eq, and_assoc]

/-- C27 (proposal ordering): `operator <` on `Proposal` is the lexicographic
order on `(version, round, sender)`; it is irreflexive, transitive and total,
for all `a`, `b` exactly one of `a < b`, `a == b`, `b < a` holds, and
`operator ==` holds exactly of equal proposals. -/
theorem proposal_order :
    (∀ a b : Proposal, a.lt b = true ↔
      a.version < b.version ∨
        (a.version = b.version ∧
          (a.round < b.round ∨ (a.round = b.round ∧ a.sender < b.sender)))) ∧
    (∀ a : Proposal, a.lt a = false) ∧
    (∀ a b c : Proposal, a.lt b = true → b.lt c = true → a.lt c = true) ∧
    (∀ a b : Proposal, a.lt b = true ∨ a.eq b = true ∨ b.lt a = true) ∧
    (∀ a b : Proposal,
      (a.lt b = true ∧ a.eq b = false ∧ b.lt a = false) ∨
        (a.lt b = false ∧ a.eq b = true ∧ b.lt a = false) ∨
        (a.lt b = false ∧ a.eq b = false ∧ b.lt a = true)) ∧
    (∀ a b : Proposal, a.eq b = true ↔ a = b) := by
  have htri : ∀ a b : Proposal,
      (a.lt b = true ∧ a.eq b = false ∧ b.lt a = false) ∨
        (a.lt b = false ∧ a.eq b = true ∧ b.lt a = false) ∨
        (a.lt b = false ∧ a.eq b = false ∧ b.lt a = true) := by
    intro a b
    have heq : a.eq b = false ↔ a ≠ b := by
      have h := Proposal.eq_iff a b
      cases hab : a.eq b
      · simp only [true_iff]
        intro hc
        rw [h.mpr hc] at hab
        cases hab
      · simp only [Bool.true_eq_false, false_iff, ne_eq, not_not]
        exact h.mp hab
    rw [heq, Proposal.eq_iff]
    obtain ⟨av, ar, as⟩ := a
    obtain ⟨bv, br, bs⟩ := b
    simp only [Proposal.lt_iff, Proposal.lt_false_iff, ne_eq, Proposal.mk.injEq]
    omega
  refine ⟨Proposal.lt_iff, Proposal.lt_irrefl, ?_, ?_, htri, Proposal.eq_iff⟩
  · intro a b c h1 h2
    rw [Proposal.lt_iff] at h1 h2 ⊢
    omega
  · intro a b
    rcases htri a b with h | h | h
    · exact Or.inl h.1
    · exact Or.inr (Or.inl h.2.1)
    · exact Or.inr (Or.inr h.2.2)

/-- The theorem `proposal_order` at work: `0:1:1 < 0:2:1 < 1:1:1`, so
`0:1:1 < 1:1:1`. -/
theorem proposal_order_witness : Proposal.lt ⟨0, 1, 1⟩ ⟨1, 1, 1⟩ = true :=
  proposal_order.2.2.1 ⟨0, 1, 1⟩ ⟨0, 2, 1⟩ ⟨1, 1, 1⟩ (by decide) (by decide)

/-- C28, the claim as stated fails: with the quorum `{11, 12, 13}` the
headcount check of `get` fails with one reachable peer and passes with two,
and so does the check of `choose`: the smallest passing number is 2 for both,
not one less for `get`. -/
theorem read_threshold_of_three_is_the_majority :
    Client._check_headcount q123 1 true = .error (.TooFewPeers 1 3) ∧
      Client._check_headcount q123 2 true = .ok () ∧
      Client._check_headcount q123 1 false = .error (.TooFewPeers 1 3) ∧
      Client._check_headcount q123 2 false = .ok () := by
  decide

/-- C28, amended: for every quorum of size `n >= 1`, `get` passes its
headcount check exactly when it reached at least `(n - 1) / 2 + 1` peers and
`choose` exactly when it reached at least `n / 2 + 1`, a strict majority; the
smallest passing number of `get` is one less than that of `choose` when `n` is
even and equal to it when `n` is odd. -/
theorem read_threshold (q : Quorum) (hq : 1 ≤ q.card) :
    (∀ reached, Client._check_headcount q reached true = .ok () ↔
      ((q.card : Int) - 1) / 2 + 1 ≤ reached) ∧
    (∀ reached, Client._check_headcount q reached false = .ok () ↔
      (q.card : Int) / 2 + 1 ≤ reached) ∧
    ((q.card : Int) % 2 = 0 → ((q.card : Int) - 1) / 2 + 1 = ((q.card : Int) / 2 + 1) - 1) ∧
    ((q.card : Int) % 2 = 1 → ((q.card : Int) - 1) / 2 + 1 = (q.card : Int) / 2 + 1) := by
  have hc : (1 : Int) ≤ q.card := by exact_mod_cast hq
  refine ⟨?_, ?_, ?_, ?_⟩
  · intro reached
    rw [check_headcount_eq q reached true hq]
    simp only [if_true]
    split
    · constructor
      · intro h
        cases h
      · intro h
        omega
    · constructor
      · intro _
        omega
      · intro _
        rfl
  · intro reached
    rw [check_headcount_eq q reached false hq]
    simp only [Bool.false_eq_true, if_false, sub_zero]
    split
    · constructor
      · intro h
        cases h
      · intro h
        omega
    · constructor
      · intro _
        omega
      · intro _
        rfl
  · intro h
    omega
  · intro h
    omega

/-- The theorem `read_threshold` at work on the quorum `{11, 12}`: `get`
passes with one reachable peer, `choose` does not. -/
theorem read_threshold_witness :
    Client._check_headcount {11, 12} 1 true = .ok () ∧
      ¬ Client._check_headcount {11, 12} 1 false = .ok () :=
  ⟨((read_threshold {11, 12} (by decide)).1 1).mpr (by decide),
    fun h => absurd (((read_threshold {11, 12} (by decide)).2.1 1).mp h) (by decide)⟩

/-! ## What a coordinator issues, whatever the environment answers -/

theorem Prog.observe_bind {σ α β : Type} (env : {β : Type} → Req β → σ → β × σ)
    (m : Prog α) (f : α → Prog β) (s : σ) :
    (m.bind f).observe env s =
      m.observe env s ++ (f (m.finish env s).1).observe env (m.finish env s).2 := by
  induction m generalizing s with
  | ret a => rfl
  | call r k ih => simp only [Prog.bind, Prog.observe, Prog.finish, ih, List.cons_append]

theorem Prog.finish_bind {σ α β : Type} (env : {β : Type} → Req β → σ → β × σ)
    (m : Prog α) (f : α → Prog β) (s : σ) :
    (m.bind f).finish env s = (f (m.finish env s).1).finish env (m.finish env s).2 := by
  induction m generalizing s with
  | ret a => rfl
  | call r k ih => simp only [Prog.bind, Prog.finish, ih]

/-- Alone with the replicas, a computation finishes as `Prog.run` says. -/
theorem Prog.finish_exec {α : Type} (m : Prog α) (w : World) :
    m.finish (fun r w => exec r w) w = m.run w := by
  induction m generalizing w with
  | ret a => rfl
  | call r k ih => simp only [Prog.finish, Prog.run, ih]

/-- Every event of a phase satisfies what every event of each of its tasks
satisfies. -/
theorem for_each_parallel_events {σ τ : Type} (env : {β : Type} → Req β → σ → β × σ)
    (Q : Event → Prop) (f : Peer → τ → Prog (Task τ))
    (hf : ∀ peer x s, ∀ e ∈ (f peer x).observe env s, Q e) :
    ∀ (ps : List Peer) (x : τ) (s : σ),
      ∀ e ∈ (for_each_parallel f ps x).observe env s, Q e := by
  intro ps
  induction ps with
  | nil =>
    intro x s e he
    simp [for_each_parallel, Prog.observe] at he
  | cons elt c ih =>
    intro x s e he
    rw [for_each_parallel, Prog.observe_bind, List.mem_append] at he
    rcases he with he | he
    · exact hf elt x s e he
    · generalize ((f elt x).finish env s).1 = t at he
      cases t with
      | done x' => exact ih x' _ e he
      | terminated x' => simp [Prog.observe] at he
      | threw err => simp [Prog.observe] at he

/-- An event that carries the proposal `p` and is neither a draw nor a
sleep. -/
theorem propose_task_events {σ : Type} (env : {β : Type} → Req β → σ → β × σ)
    (q : Quorum) (p : Proposal) (peer : Peer) (x : Option Accepted × Int) (s : σ) :
    ∀ e ∈ (Client.propose_task q p peer x).observe env s,
      e.proposal = some p ∧ e.delay = none ∧ e.draw = none := by
  intro e he
  simp only [Client.propose_task, Prog.observe, List.mem_cons] at he
  rcases he with he | he
  · subst he
    exact ⟨rfl, rfl, rfl⟩
  · generalize (env (Req.propose peer q p) s).1 = b at he
    obtain ⟨prev, n⟩ := x
    cases b with
    | error err => cases err <;> simp [Prog.observe] at he
    | ok o =>
      cases o with
      | none => simp [Prog.observe] at he
      | some a =>
        cases prev with
        | none => simp [Prog.observe] at he
        | some pv =>
          simp only at he
          split at he <;> simp [Prog.observe] at he

theorem accept_task_events {σ : Type} (env : {β : Type} → Req β → σ → β × σ)
    (q : Quorum) (p : Proposal) (value : Value) (peer : Peer) (x : Option Proposal × Int)
    (s : σ) :
    ∀ e ∈ (Client.accept_task q p value peer x).observe env s,
      e.proposal = some p ∧ e.delay = none ∧ e.draw = none := by
  intro e he
  simp only [Client.accept_task, Prog.observe, List.mem_cons] at he
  rcases he with he | he
  · subst he
    exact ⟨rfl, rfl, rfl⟩
  · generalize (env (Req.accept peer q p value) s).1 = b at he
    cases b with
    | error err => cases err <;> simp [Prog.observe] at he
    | ok m =>
      simp only at he
      split at he <;> simp [Prog.observe] at he

theorem confirm_task_events {σ : Type} (env : {β : Type} → Req β → σ → β × σ)
    (q : Quorum) (p : Proposal) (peer : Peer) (x : Int) (s : σ) :
    ∀ e ∈ (Client.confirm_task q p peer x).observe env s,
      e.proposal = some p ∧ e.delay = none ∧ e.draw = none := by
  intro e he
  simp only [Client.confirm_task, Prog.observe, List.mem_cons] at he
  rcases he with he | he
  · subst he
    exact ⟨rfl, rfl, rfl⟩
  · generalize (env (Req.confirm peer q p) s).1 = b at he
    cases b with
    | error err => cases err <;> simp [Prog.observe] at he
    | ok u => simp [Prog.observe] at he

/-- The accept phase reports a conflict only with a proposal greater than its
own, whatever the peers answer. -/
theorem accept_phase_conflict_env {σ : Type} (env : {β : Type} → Req β → σ → β × σ)
    (q : Quorum) (p : Proposal) (value : Value) :
    ∀ (ps : List Peer) (n r : Int) (m : Proposal) (s : σ),
      ((for_each_parallel (Client.accept_task q p value) ps (none, n)).finish env s).1
          = .ok (some m, r) → p.lt m = true := by
  intro ps
  induction ps with
  | nil =>
    intro n r m s h
    simp [for_each_parallel, Prog.finish] at h
  | cons elt c ih =>
    intro n r m s h
    rw [for_each_parallel, Prog.finish_bind] at h
    simp only [Client.accept_task, Prog.finish] at h
    generalize (env (Req.accept elt q p value) s).1 = res at h
    generalize (env (Req.accept elt q p value) s).2 = s1 at h
    cases res with
    | error e =>
      cases e <;> simp only [Prog.finish] at h
      all_goals first
        | exact ih n r m _ h
        | simp at h
    | ok m' =>
      by_cases hm : p.lt m' = true
      · simp only [hm, if_true, Prog.finish, Except.ok.injEq, Prod.mk.injEq,
          Option.some.injEq] at h
        rw [← h.1]
        exact hm
      · simp only [hm, Bool.false_eq_true, if_false, Prog.finish] at h
        exact ih _ r m _ h

theorem proposals_of_append (l1 l2 : List Event) :
    proposals_of (l1 ++ l2) = proposals_of l1 ++ proposals_of l2 := by
  simp [proposals_of, List.filterMap_append]

theorem delays_of_append (l1 l2 : List Event) :
    delays_of (l1 ++ l2) = delays_of l1 ++ delays_of l2 := by
  simp [delays_of, List.filterMap_append]

theorem draws_of_append (l1 l2 : List Event) :
    draws_of (l1 ++ l2) = draws_of l1 ++ draws_of l2 := by
  simp [draws_of, List.filterMap_append]

/-- A phase in which every event carries `p` and none is a draw or a sleep. -/
theorem phase_lists (p : Proposal) (l : List Event)
    (h : ∀ e ∈ l, e.proposal = some p ∧ e.delay = none ∧ e.draw = none) :
    (∀ x ∈ proposals_of l, x = p) ∧ delays_of l = [] ∧ draws_of l = [] := by
  induction l with
  | nil => simp [proposals_of, delays_of, draws_of]
  | cons e l ih =>
    obtain ⟨h1, h2, h3⟩ := h e (List.mem_cons_self _ _)
    obtain ⟨i1, i2, i3⟩ := ih (fun e' he' => h e' (List.mem_cons_of_mem _ he'))
    refine ⟨?_, ?_, ?_⟩
    · intro x hx
      simp only [proposals_of, List.filterMap_cons, h1, List.mem_cons] at hx
      rcases hx with hx | hx
      · exact hx
      · exact i1 x hx
    · simp only [delays_of, List.filterMap_cons, h2]
      exact i2
    · simp only [draws_of, List.filterMap_cons, h3]
      exact i3

/-! ## The rounds of the proposals of a `choose` call (C30) -/

theorem Proposal.precedes_refl (a : Proposal) : a.precedes a :=
  Or.inr ⟨rfl, le_refl _⟩

theorem Proposal.precedes_trans {a b c : Proposal} (h1 : a.precedes b) (h2 : b.precedes c) :
    a.precedes c := by
  unfold Proposal.precedes at h1 h2 ⊢
  omega

/-- A retry that adopts the version and the round of a greater proposal `m`
starts no earlier than `p`. -/
theorem Proposal.precedes_retry {p m : Proposal} (sender : Int) (h : p.lt m = true) :
    p.precedes ⟨m.version, m.round + 1, sender⟩ := by
  rw [Proposal.lt_iff] at h
  unfold Proposal.precedes
  simp only
  omega

theorem climbs_nil (p : Proposal) (id : Int) : climbs p id [] :=
  ⟨List.Pairwise.nil, fun _ h => by cases h⟩

theorem climbs_weaken {p p' : Proposal} {id : Int} {l : List Proposal}
    (hp : p.precedes p') (h : climbs p' id l) : climbs p id l :=
  ⟨h.1, fun x hx => ⟨Proposal.precedes_trans hp (h.2 x hx).1, (h.2 x hx).2⟩⟩

theorem climbs_phase {p : Proposal} {id : Int} {l1 l2 : List Proposal}
    (h1 : ∀ x ∈ l1, x = p) (hid : p.sender = id) (h2 : climbs p id l2) :
    climbs p id (l1 ++ l2) := by
  refine ⟨?_, ?_⟩
  · rw [List.pairwise_append]
    refine ⟨?_, h2.1, ?_⟩
    · rw [List.pairwise_iff_forall_sublist]
      intro a b hab
      have ha : a ∈ l1 := hab.subset (List.mem_cons_self _ _)
      have hb : b ∈ l1 := hab.subset (List.mem_cons_of_mem _ (List.mem_cons_self _ _))
      rw [h1 a ha, h1 b hb]
      exact Proposal.precedes_refl p
    · intro a ha b hb
      rw [h1 a ha]
      exact (h2.2 b hb).1
  · intro x hx
    rw [List.mem_append] at hx
    rcases hx with hx | hx
    · rw [h1 x hx]
      exact ⟨Proposal.precedes_refl p, hid⟩
    · exact h2.2 x hx

theorem proposals_of_random (lo hi answer : Nat) (l : List Event) :
    proposals_of (Event.random lo hi answer :: l) = proposals_of l := rfl

theorem proposals_of_sleep (delay : Int) (l : List Event) :
    proposals_of (Event.sleep delay :: l) = proposals_of l := rfl

theorem choose_confirm_climbs {σ : Type} (env : {β : Type} → Req β → σ → β × σ)
    (q : Quorum) (c : Client) (p : Proposal) (previous : Option Accepted) (s : σ)
    (hid : p.sender = c.id) :
    climbs p c.id (proposals_of ((Client.choose_confirm q c p previous).observe env s)) := by
  unfold Client.choose_confirm
  rw [Prog.observe_bind, proposals_of_append]
  apply climbs_phase _ hid
  · generalize ((for_each_parallel (Client.confirm_task q p) c.peers 0).finish env s) = r
    obtain ⟨res, s1⟩ := r
    cases res with
    | error e => exact climbs_nil p c.id
    | ok reached =>
      simp only
      cases Client._check_headcount q reached false <;> exact climbs_nil p c.id
  · exact (phase_lists p _ (for_each_parallel_events env _ _
      (fun peer x s => confirm_task_events env q p peer x s) c.peers 0 s)).1

theorem choose_accept_climbs {σ : Type} (env : {β : Type} → Req β → σ → β × σ)
    (q : Quorum) (value : Value)
    (retry : Client → Int → Int → Option Accepted → Prog (Client × Outcome (Option Accepted)))
    (c : Client) (p : Proposal) (backoff : Int) (previous : Option Accepted) (s : σ)
    (hid : p.sender = c.id)
    (hretry : ∀ (c2 : Client) (v2 b2 : Int) (s2 : σ), c2.id = c.id →
      climbs ⟨v2, c2.round + 1, c.id⟩ c.id
        (proposals_of ((retry c2 v2 b2 previous).observe env s2))) :
    climbs p c.id
      (proposals_of ((Client.choose_accept q value retry c p backoff previous).observe env s)) := by
  unfold Client.choose_accept
  rw [Prog.observe_bind, proposals_of_append]
  apply climbs_phase _ hid
  · have hconf := fun r m =>
      accept_phase_conflict_env env q p (Client.sent value previous) c.peers 0 r m s
    generalize ((for_each_parallel (Client.accept_task q p (Client.sent value previous))
      c.peers (none, 0)).finish env s) = r at hconf
    obtain ⟨res, s1⟩ := r
    cases res with
    | error e => exact climbs_nil p c.id
    | ok x =>
      obtain ⟨conflict, reached⟩ := x
      cases conflict with
      | some minimum =>
        have hlt := hconf reached minimum rfl
        simp only [Prog.observe, Req.event]
        rw [proposals_of_random]
        split
        · simp only [Prog.observe, Req.event]
          rw [proposals_of_sleep]
          exact climbs_weaken (Proposal.precedes_retry c.id hlt) (hretry _ _ _ _ rfl)
        · exact climbs_weaken (Proposal.precedes_retry c.id hlt) (hretry _ _ _ _ rfl)
      | none =>
        simp only
        cases Client._check_headcount q reached false with
        | error e => exact climbs_nil p c.id
        | ok u => exact choose_confirm_climbs env q c p previous s1 hid
  · exact (phase_lists p _ (for_each_parallel_events env _ _
      (fun peer x s => accept_task_events env q p _ peer x s) c.peers (none, 0) s)).1

theorem choose_loop_climbs {σ : Type} (env : {β : Type} → Req β → σ → β × σ)
    (q : Quorum) (value : Value) :
    ∀ (fuel : Nat) (c : Client) (version backoff : Int) (previous : Option Accepted) (s : σ),
      climbs ⟨version, c.round + 1, c.id⟩ c.id
        (proposals_of
          ((Client.choose_loop q value fuel c version backoff previous).observe env s)) := by
  intro fuel
  induction fuel with
  | zero =>
    intro c version backoff previous s
    exact climbs_nil _ _
  | succ fuel ih =>
    intro c version backoff previous s
    unfold Client.choose_loop
    simp only
    rw [Prog.observe_bind, proposals_of_append]
    apply climbs_phase _ rfl
    · generalize ((for_each_parallel (Client.propose_task q ⟨version, c.round + 1, c.id⟩)
        c.peers (previous, 0)).finish env s) = r
      obtain ⟨res, s1⟩ := r
      cases res with
      | error e => exact climbs_nil _ _
      | ok x =>
        obtain ⟨prev, reached⟩ := x
        simp only
        have hacc : ∀ pv : Option Accepted,
            climbs ⟨version, c.round + 1, c.id⟩ c.id
              (proposals_of
                ((Client.choose_accept q value (Client.choose_loop q value fuel)
                  { c with round := c.round + 1 } ⟨version, c.round + 1, c.id⟩
                  backoff pv).observe env s1)) := by
          intro pv
          exact choose_accept_climbs env q value _ { c with round := c.round + 1 } _ backoff pv
            s1 rfl
            (fun c2 v2 b2 s2 hc2 => by
              have h := ih c2 v2 b2 pv s2
              rw [hc2] at h
              exact h)
        cases prev with
        | none =>
          simp only [Bool.false_eq_true, if_false]
          cases Client._check_headcount q reached false with
          | error e => exact climbs_nil _ _
          | ok u => exact hacc none
        | some a =>
          by_cases hconf : a.confirmed = true
          · simp only [hconf, if_true]
            exact climbs_nil _ _
          · simp only [hconf, Bool.false_eq_true, if_false]
            cases Client._check_headcount q reached false with
            | error e => exact climbs_nil _ _
            | ok u =>
              simp only
              by_cases hlt : Proposal.lt ⟨version, c.round + 1, c.id⟩ a.proposal = true
              · simp only [hlt, if_true]
                exact climbs_weaken (Proposal.precedes_retry c.id hlt)
                  (ih { c with round := a.proposal.round } _ _ _ _)
              · simp only [hlt, Bool.false_eq_true, if_false]
                exact hacc (some a)
    · exact (phase_lists _ _ (for_each_parallel_events env _ _
        (fun peer x s => propose_task_events env q _ peer x s) c.peers (previous, 0) s)).1

set_option maxRecDepth 8000 in
/-- C30, the claim as stated fails: coordinator 1 has chosen versions 0 and 1
and its round counter is 2; replica 11 has meanwhile promised `3:1:2` to
coordinator 2. In its call `choose(2, 5)` coordinator 1 first issues `2:3:1`,
gets `3:1:2` back from the `accept` on replica 11, and goes on with `3:2:1`: a
round of 2 after a round of 3. -/
theorem round_drops_on_higher_version :
    rounds_reused.1.1.round = 2 ∧
      proposals_of ((rounds_reused.1.1.choose 2 2 (.data 5)).observe exec rounds_world) =
        [⟨2, 3, 1⟩, ⟨2, 3, 1⟩, ⟨2, 3, 1⟩, ⟨2, 3, 1⟩,
         ⟨3, 2, 1⟩, ⟨3, 2, 1⟩, ⟨3, 2, 1⟩, ⟨3, 2, 1⟩, ⟨3, 2, 1⟩, ⟨3, 2, 1⟩,
         ⟨3, 2, 1⟩, ⟨3, 2, 1⟩, ⟨3, 2, 1⟩] := by
  decide

/-- C30, amended: in every `choose` call, whatever the peers answer and
however many retries it makes, every proposal is sent under the coordinator's
id, and each proposal issued is, compared with every proposal issued before it
in the call, of a later version, or of the same version and of a round greater
than or equal: the round never decreases as long as the version stays the
same. The first proposal of the call (there is one when the peer list is not
empty) is of the version asked for and has the round of the coordinator's
counter plus one, and no proposal of that version has a smaller round. -/
theorem rounds_climb_within_version {σ : Type} (env : {β : Type} → Req β → σ → β × σ)
    (fuel : Nat) (c : Client) (version : Int) (value : Value) (s : σ) :
    List.Pairwise
        (fun a b : Proposal =>
          a.version < b.version ∨ (a.version = b.version ∧ a.round ≤ b.round))
        (proposals_of ((c.choose fuel version value).observe env s)) ∧
      (∀ x ∈ proposals_of ((c.choose fuel version value).observe env s),
        x.sender = c.id ∧
          (version < x.version ∨ (version = x.version ∧ c.round + 1 ≤ x.round))) ∧
      (c.peers ≠ [] →
        (proposals_of ((c.choose (fuel + 1) version value).observe env s)).head?
          = some ⟨version, c.round + 1, c.id⟩) := by
  have h := choose_loop_climbs env (Client.quorum c.peers) value fuel c version 1 none s
  refine ⟨h.1, fun x hx => ⟨(h.2 x hx).2, (h.2 x hx).1⟩, ?_⟩
  intro hpeers
  obtain ⟨id, peers, cb, round⟩ := c
  cases peers with
  | nil => exact absurd rfl hpeers
  | cons elt rest =>
    simp only [Client.choose, Client.choose_loop, for_each_parallel, Client.propose_task,
      Prog.bind, Prog.observe, Req.event, proposals_of, List.filterMap_cons, Event.proposal,
      List.head?_cons]

/-- The theorem `rounds_climb_within_version` at work on the third call of
coordinator 1, alone with the replicas: its first proposal is `2:3:1`. -/
theorem rounds_climb_within_version_witness :
    (proposals_of ((rounds_reused.1.1.choose (1 + 1) 2 (.data 5)).observe exec
      rounds_world)).head? = some ⟨2, rounds_reused.1.1.round + 1, rounds_reused.1.1.id⟩ :=
  (rounds_climb_within_version exec 1 rounds_reused.1.1 2 (.data 5) rounds_world).2.2
    (by decide)

/-! ## The delays of the backoff (C29) -/

theorem paced_nil (b : Int) : paced b [] := by
  intro k
  simp [delays_of, draws_of]

theorem paced_phase (b : Int) (p : Proposal) (l1 l2 : List Event)
    (h1 : ∀ e ∈ l1, e.proposal = some p ∧ e.delay = none ∧ e.draw = none)
    (h2 : paced b l2) : paced b (l1 ++ l2) := by
  obtain ⟨_, hd, hr⟩ := phase_lists p l1 h1
  intro k
  rw [delays_of_append, draws_of_append, hd, hr]
  exact h2 k

theorem paced_conflict (b : Int) (lo hi rn : Nat) (l : List Event)
    (h : paced (min (b * 2) 64) l) :
    paced b (Event.random lo hi rn :: Event.sleep (100 * rn * b) :: l) := by
  intro k
  cases k with
  | zero => simp [delays_of, draws_of, Event.delay, Event.draw]
  | succ k =>
    have hk := h k
    simp only [delays_of, draws_of] at hk
    simp only [delays_of, draws_of, List.filterMap_cons, Event.delay, Event.draw,
      List.getElem?_cons_succ, Function.iterate_succ, Function.comp_apply]
    exact hk

theorem choose_confirm_paced {σ : Type} (env : {β : Type} → Req β → σ → β × σ)
    (q : Quorum) (c : Client) (p : Proposal) (previous : Option Accepted) (b : Int) (s : σ) :
    paced b ((Client.choose_confirm q c p previous).observe env s) := by
  unfold Client.choose_confirm
  rw [Prog.observe_bind]
  apply paced_phase b p _ _ (for_each_parallel_events env _ _
    (fun peer x s => confirm_task_events env q p peer x s) c.peers 0 s)
  generalize ((for_each_parallel (Client.confirm_task q p) c.peers 0).finish env s) = r
  obtain ⟨res, s1⟩ := r
  cases res with
  | error e => exact paced_nil b
  | ok reached =>
    simp only
    cases Client._check_headcount q reached false <;> exact paced_nil b

theorem choose_accept_paced {σ : Type} (env : {β : Type} → Req β → σ → β × σ)
    (q : Quorum) (value : Value)
    (retry : Client → Int → Int → Option Accepted → Prog (Client × Outcome (Option Accepted)))
    (c : Client) (p : Proposal) (backoff : Int) (previous : Option Accepted) (s : σ)
    (hcb : c.conflict_backoff = true)
    (hretry : ∀ (c2 : Client) (v2 : Int) (s2 : σ), c2.conflict_backoff = true →
      paced (min (backoff * 2) 64) ((retry c2 v2 (min (backoff * 2) 64) previous).observe env s2)) :
    paced backoff ((Client.choose_accept q value retry c p backoff previous).observe env s) := by
  unfold Client.choose_accept
  rw [Prog.observe_bind]
  apply paced_phase backoff p _ _ (for_each_parallel_events env _ _
    (fun peer x s => accept_task_events env q p _ peer x s) c.peers (none, 0) s)
  generalize ((for_each_parallel (Client.accept_task q p (Client.sent value previous))
    c.peers (none, 0)).finish env s) = r
  obtain ⟨res, s1⟩ := r
  cases res with
  | error e => exact paced_nil backoff
  | ok x =>
    obtain ⟨conflict, reached⟩ := x
    cases conflict with
    | some minimum =>
      simp only [Prog.observe, Req.event, hcb, if_true]
      exact paced_conflict backoff 1 8 _ _ (hretry _ _ _ rfl)
    | none =>
      simp only
      cases Client._check_headcount q reached false with
      | error e => exact paced_nil backoff
      | ok u => exact choose_confirm_paced env q c p previous backoff s1

theorem choose_loop_paced {σ : Type} (env : {β : Type} → Req β → σ → β × σ)
    (q : Quorum) (value : Value) :
    ∀ (fuel : Nat) (c : Client) (version backoff : Int) (previous : Option Accepted) (s : σ),
      c.conflict_backoff = true →
      paced backoff
        ((Client.choose_loop q value fuel c version backoff previous).observe env s) := by
  intro fuel
  induction fuel with
  | zero =>
    intro c version backoff previous s _
    exact paced_nil _
  | succ fuel ih =>
    intro c version backoff previous s hcb
    unfold Client.choose_loop
    simp only
    rw [Prog.observe_bind]
    apply paced_phase backoff ⟨version, c.round + 1, c.id⟩ _ _
      (for_each_parallel_events env _ _
        (fun peer x s => propose_task_events env q _ peer x s) c.peers (previous, 0) s)
    generalize ((for_each_parallel (Client.propose_task q ⟨version, c.round + 1, c.id⟩)
      c.peers (previous, 0)).finish env s) = r
    obtain ⟨res, s1⟩ := r
    cases res with
    | error e => exact paced_nil _
    | ok x =>
      obtain ⟨prev, reached⟩ := x
      simp only
      have hacc : ∀ pv : Option Accepted,
          paced backoff
            ((Client.choose_accept q value (Client.choose_loop q value fuel)
              { c with round := c.round + 1 } ⟨version, c.round + 1, c.id⟩
              backoff pv).observe env s1) := by
        intro pv
        exact choose_accept_paced env q value _ { c with round := c.round + 1 } _ backoff pv
          s1 hcb (fun c2 v2 s2 hc2 => ih c2 v2 _ pv s2 hc2)
      cases prev with
      | none =>
        simp only [Bool.false_eq_true, if_false]
        cases Client._check_headcount q reached false with
        | error e => exact paced_nil _
        | ok u => exact hacc none
      | some a =>
        by_cases hconf : a.confirmed = true
        · simp only [hconf, if_true]
          exact paced_nil _
        · simp only [hconf, Bool.false_eq_true, if_false]
          cases Client._check_headcount q reached false with
          | error e => exact paced_nil _
          | ok u =>
            simp only
            split
            · exact ih { c with round := a.proposal.round } _ _ _ _ hcb
            · exact hacc (some a)

/-- The factor after `k` conflicts, starting from 1. -/
theorem backoff_iterate (k : Nat) :
    (fun b : Int => min (b * 2) 64)^[k] 1 = min (2 ^ k) 64 := by
  have h : ∀ (k : Nat) (b : Int), 1 ≤ b → b ≤ 64 →
      (fun b : Int => min (b * 2) 64)^[k] b = min (b * 2 ^ k) 64 := by
    intro k
    induction k with
    | zero =>
      intro b _ h2
      simp only [Function.iterate_zero, id_eq, pow_zero, mul_one]
      omega
    | succ k ih =>
      intro b h1 h2
      rw [Function.iterate_succ_apply, ih (min (b * 2) 64) (by omega) (by omega)]
      have hpow : (1 : Int) ≤ 2 ^ k := one_le_pow₀ (by norm_num)
      rw [pow_succ]
      by_cases hb : b * 2 ≤ 64
      · rw [min_eq_left hb]
        congr 1
        ring
      · have hb' : (64 : Int) < b * 2 := by omega
        rw [min_eq_right (le_of_lt hb')]
        have h64 : (64 : Int) ≤ 64 * 2 ^ k := by nlinarith
        have hbig : (64 : Int) ≤ b * (2 ^ k * 2) := by nlinarith
        rw [min_eq_right h64, min_eq_right hbig]
  have := h k 1 (le_refl _) (by norm_num)
  simpa using this

set_option maxRecDepth 16000 in
theorem six_draws :
    draws_of (((Client.new 1 (peers_six fun _ => true)).choose 6 0 (.data 0)).observe exec
      six_promised) = [8, 8, 8, 8, 8] := by
  decide

set_option maxRecDepth 16000 in
theorem six_delays :
    delays_of (((Client.new 1 (peers_six fun _ => true)).choose 6 0 (.data 0)).observe exec
      six_promised) = [800, 1600, 3200, 6400, 12800] := by
  decide

/-- C29, the claim as stated fails: coordinator 1 calls `choose(0, 0)` on
six replicas of which five hold promises for the versions 1 to 5; its accept
conflicts five times, every draw gives 8, and it sleeps 800, 1600, 3200, 6400
and then 12800 ms: the fifth delay is `8 * 100 * 2^4`, above 6400 ms. -/
theorem fifth_delay_exceeds_cap :
    draws_of (((Client.new 1 (peers_six fun _ => true)).choose 6 0 (.data 0)).observe exec
        six_promised) = [8, 8, 8, 8, 8] ∧
      delays_of (((Client.new 1 (peers_six fun _ => true)).choose 6 0 (.data 0)).observe exec
        six_promised) = [800, 1600, 3200, 6400, 12800] :=
  ⟨six_draws, six_delays⟩

/-- C29, amended: in every `choose` call of a coordinator with backoff
enabled, whatever the peers answer and whatever is drawn, the `k`-th sleep of
the call (`k` counted from 0, one sleep for each conflict) lasts
`draw * 100 ms * min(2^k, 64)`, where `draw` is the `k`-th number drawn: the
doubling factor is capped at 64, not the delay. With draws in 1..8 a delay is
at least 100 ms and never exceeds 51200 ms. -/
theorem backoff_delays {σ : Type} (env : {β : Type} → Req β → σ → β × σ)
    (fuel : Nat) (c : Client) (version : Int) (value : Value) (s : σ)
    (hcb : c.conflict_backoff = true) :
    (∀ k : Nat, (delays_of ((c.choose fuel version value).observe env s))[k]? =
      ((draws_of ((c.choose fuel version value).observe env s))[k]?).map fun rn =>
        100 * (rn : Int) * min ((2 : Int) ^ k) 64) ∧
    ((∀ rn ∈ draws_of ((c.choose fuel version value).observe env s), 1 ≤ rn ∧ rn ≤ 8) →
      ∀ d ∈ delays_of ((c.choose fuel version value).observe env s),
        100 ≤ d ∧ d ≤ 51200) := by
  have h := choose_loop_paced env (Client.quorum c.peers) value fuel c version 1 none s hcb
  have h1 : ∀ k : Nat, (delays_of ((c.choose fuel version value).observe env s))[k]? =
      ((draws_of ((c.choose fuel version value).observe env s))[k]?).map fun rn =>
        100 * (rn : Int) * min ((2 : Int) ^ k) 64 := by
    intro k
    have hk := h k
    rw [backoff_iterate] at hk
    exact hk
  refine ⟨h1, ?_⟩
  intro hdraws d hd
  obtain ⟨k, hk⟩ := List.getElem?_of_mem hd
  have hk1 := h1 k
  rw [hk] at hk1
  cases hr : (draws_of ((c.choose fuel version value).observe env s))[k]? with
  | none =>
    rw [hr] at hk1
    cases hk1
  | some rn =>
    rw [hr] at hk1
    have hk2 : d = 100 * (rn : Int) * min ((2 : Int) ^ k) 64 := Option.some.inj hk1
    have hmem := hdraws rn (List.getElem?_mem hr)
    have hrn1 : (1 : Int) ≤ rn := by exact_mod_cast hmem.1
    have hrn8 : (rn : Int) ≤ 8 := by exact_mod_cast hmem.2
    have hpow : (1 : Int) ≤ 2 ^ k := one_le_pow₀ (by norm_num)
    have hm1 : (1 : Int) ≤ min (2 ^ k) 64 := le_min hpow (by norm_num)
    have hm2 : min ((2 : Int) ^ k) 64 ≤ 64 := min_le_right _ _
    rw [hk2]
    constructor
    · nlinarith
    · nlinarith

/-- The theorem `backoff_delays` at work on the call of coordinator 1 on the
six replicas, where every draw is 8: the delay of 12800 ms that it sleeps is
within the bounds. -/
theorem backoff_delays_witness :
    (12800 : Int) ∈ delays_of (((Client.new 1 (peers_six fun _ => true)).choose 6 0
        (.data 0)).observe exec six_promised) ∧
      (100 : Int) ≤ 12800 ∧ (12800 : Int) ≤ 51200 :=
  have hmem : (12800 : Int) ∈ delays_of (((Client.new 1 (peers_six fun _ => true)).choose 6 0
      (.data 0)).observe exec six_promised) := by
    rw [six_delays]
    decide
  ⟨hmem,
    (backoff_delays exec 6 (Client.new 1 (peers_six fun _ => true)) 0 (.data 0) six_promised
      rfl).2
      (by
        intro rn hrn
        rw [six_draws] at hrn
        simp only [List.mem_cons, List.mem_singleton, or_self, List.not_mem_nil,
          or_false] at hrn
        subst hrn
        decide)
      12800 hmem⟩

/-! ## The headcount check (C32) -/

/-- C32 (headcount check): for every quorum `q` with `|q| >= 1` and every
count `reached`, `_check_headcount(q, reached, reading)` raises
`TooFewPeers(reached, |q|)` if and only if
`reached <= floor((|q| - r) / 2)`, with `r = 1` when reading and `0`
otherwise; otherwise it returns, and it does nothing else. -/
theorem headcount_check (q : Quorum) (reached : Int) (reading : Bool) (hq : 1 ≤ q.card) :
    (Client._check_headcount q reached reading = .error (.TooFewPeers reached q.card) ↔
      reached ≤ ((q.card : Int) - (if reading then 1 else 0)) / 2) ∧
    (Client._check_headcount q reached reading = .ok () ↔
      ¬ reached ≤ ((q.card : Int) - (if reading then 1 else 0)) / 2) ∧
    (∀ e, Client._check_headcount q reached reading = .error e →
      e = .TooFewPeers reached q.card) := by
  rw [check_headcount_eq q reached reading hq]
  by_cases h : reached ≤ ((q.card : Int) - (if reading then 1 else 0)) / 2
  · rw [if_pos h]
    refine ⟨⟨fun _ => h, fun _ => rfl⟩, ⟨fun h' => (by cases h'), fun h' => absurd h h'⟩, ?_⟩
    intro e he
    cases he
    rfl
  · rw [if_neg h]
    refine ⟨⟨fun h' => (by cases h'), fun h' => absurd h' h⟩, ⟨fun _ => h, fun _ => rfl⟩, ?_⟩
    intro e he
    cases he

/-- The theorem `headcount_check` at work on the quorum `{11, 12, 13}`: one
peer reached is too few to write. -/
theorem headcount_check_witness :
    Client._check_headcount q123 1 false = .error (.TooFewPeers 1 q123.card) :=
  (headcount_check q123 1 false (by decide)).1.mpr (by decide)

/-! ## The advance step of `propose` (C37, C38) -/

/-- C38 (the assertion of the advance step): on a replica at wire version
0.1.0 or later, in any state, whenever `propose` reaches the advance step
(the caller is judged not to skip a version, `check_confirmed`, and
`p.version` is greater than the slot's version) the slot's accepted entry is
present, and confirmed; so `propose` never fails the assertion that guards the
collapse. -/
theorem advance_finds_entry (s : Server) (q : Quorum) (p : Proposal)
    (hver : s.version.lt ⟨0, 1, 0⟩ = false) :
    (∀ st, s.state = some st → check_confirmed s p = true →
      st.proposal.version < p.version →
      ∃ a, st.accepted = some a ∧ a.confirmed = true) ∧
    (s.propose q p).2 ≠ .error .AssertionFailed := by
  have h1 : ∀ st, s.state = some st → check_confirmed s p = true →
      st.proposal.version < p.version →
      ∃ a, st.accepted = some a ∧ a.confirmed = true := by
    intro st hs hcc hv
    rw [check_confirmed_eq s p st hs hv, hver] at hcc
    cases hacc : st.accepted with
    | none =>
      rw [hacc] at hcc
      simp at hcc
    | some a =>
      rw [hacc] at hcc
      simp only [Bool.false_or, Bool.and_eq_true, decide_eq_true_eq] at hcc
      exact ⟨a, rfl, hcc.2⟩
  refine ⟨h1, ?_⟩
  intro herr
  -- only the advance step on a slot without entry fails the assertion
  obtain ⟨id, qi, val, ver, state⟩ := s
  have hcase : ∀ sp, state = some ⟨sp, none⟩ →
      check_confirmed ⟨id, qi, val, ver, state⟩ p = true → sp.version < p.version →
      False := by
    intro sp hs hcc hv
    obtain ⟨a, ha, _⟩ := h1 ⟨sp, none⟩ hs hcc hv
    cases ha
  revert herr
  unfold Server.propose
  cases hcc : check_confirmed ⟨id, qi, val, ver, state⟩ p with
  | false =>
    rcases state with _ | ⟨sp, _ | ⟨ap, av, ac⟩⟩
    · simp
    · simp
    · by_cases hb : ap.version > p.version <;> simp [hb]
  | true =>
    rcases state with _ | ⟨sp, _ | ⟨ap, av, ac⟩⟩
    · by_cases hq : q = qi <;> simp [check_quorum, hq]
    · by_cases hv : p.version > sp.version
      · exact False.elim (hcase sp rfl hcc (by simpa using hv))
      · by_cases hq : q = qi
        · by_cases hl : sp.lt p = true <;> simp [check_quorum, hv, hq, hl]
        · simp [check_quorum, hv, hq]
    · by_cases hb : ap.version > p.version
      · simp [hb]
      · by_cases hv : p.version > sp.version
        · cases av with
          | data t => by_cases hq : q = qi <;> simp [check_quorum, hb, hv, hq]
          | quorum q' => by_cases hq : q = q' <;> simp [check_quorum, hb, hv, hq]
        · by_cases hq : q = qi
          · by_cases hl : sp.lt p = true <;> simp [check_quorum, hb, hv, hq, hl]
          · simp [check_quorum, hb, hv, hq]

/-- The theorem `advance_finds_entry` at work: replica 11, at wire version
0.1.0, holds the data `42` confirmed for version 0; the proposal `1:1:1`
reaches the advance step and does not fail the assertion. -/
theorem advance_finds_entry_witness :
    (replica_confirmed.propose q123 ⟨1, 1, 1⟩).2 ≠ .error .AssertionFailed :=
  (advance_finds_entry replica_confirmed q123 ⟨1, 1, 1⟩ (by decide)).2

/-! ## Calls that raise -/

theorem accept_failure_unchanged (s : Server) (q : Quorum) (p : Proposal) (value : Value)
    (e : Error) (h : (s.accept q p value).2 = .error e) : (s.accept q p value).1 = s := by
  obtain ⟨id, qi, val, ver, state⟩ := s
  revert h
  unfold Server.accept
  by_cases hq : q = qi
  · rcases state with _ | ⟨sp, sa⟩
    · simp [check_quorum, hq]
    · by_cases hl : sp.lt p = true
      · simp [check_quorum, hq, hl]
      · by_cases hl2 : p.lt sp = true <;> simp [check_quorum, hq, hl, hl2]
  · simp [check_quorum, hq]

theorem confirm_failure_unchanged (s : Server) (q : Quorum) (p : Proposal) (e : Error)
    (h : (s.confirm q p).2 = .error e) : (s.confirm q p).1 = s := by
  obtain ⟨id, qi, val, ver, state⟩ := s
  revert h
  unfold Server.confirm
  by_cases hq : q = qi
  · rcases state with _ | ⟨sp, _ | ⟨ap, av, ac⟩⟩
    · simp [check_quorum, hq]
    · by_cases hl : sp.lt p = true <;> simp [check_quorum, hq, hl]
    · by_cases hl : sp.lt p = true
      · simp [check_quorum, hq, hl]
      · by_cases hl2 : p.lt sp = true
        · simp [check_quorum, hq, hl, hl2]
        · cases ac <;> simp [check_quorum, hq, hl, hl2]
  · simp [check_quorum, hq]

/-! ## A `propose` that raises `WrongQuorum` (C37) -/

/-- C37, the claim as stated fails: replica 11 holds the data `42` confirmed
for version 0 and no collapsed value; the proposal `1:1:1` with the quorum
`{11, 12}` raises `WrongQuorum` and leaves `value = Some(42)` and no live
slot. -/
theorem wrong_quorum_after_collapse :
    (replica_confirmed.propose {11, 12} ⟨1, 1, 1⟩).2
        = .error (.WrongQuorum q123 {11, 12}) ∧
      replica_confirmed.value = none ∧
      (replica_confirmed.propose {11, 12} ⟨1, 1, 1⟩).1.value = some 42 ∧
      replica_confirmed.state = some ⟨⟨0, 1, 1⟩, some ⟨⟨0, 1, 1⟩, .data 42, true⟩⟩ ∧
      (replica_confirmed.propose {11, 12} ⟨1, 1, 1⟩).1.state = none := by
  decide

/-- The quorums that a `WrongQuorum` of `propose` carries. -/
theorem propose_wrong_quorum_args (s : Server) (q : Quorum) (p : Proposal)
    (expected effective : Quorum)
    (h : (s.propose q p).2 = .error (.WrongQuorum expected effective)) :
    expected = (s.propose q p).1.quorum_initial ∧ effective = q := by
  obtain ⟨id, qi, val, ver, state⟩ := s
  revert h
  unfold Server.propose
  generalize check_confirmed ⟨id, qi, val, ver, state⟩ p = cc
  rcases state with _ | ⟨sp, _ | ⟨ap, av, ac⟩⟩
  · cases cc
    · simp
    · by_cases hq : q = qi
      · simp [check_quorum, hq]
      · simp [check_quorum, hq]
        intro h1 h2
        exact ⟨h1.symm, h2.symm⟩
  · cases cc
    · simp
    · by_cases hv : p.version > sp.version
      · simp [hv]
      · by_cases hq : q = qi
        · by_cases hl : sp.lt p = true <;> simp [check_quorum, hv, hq, hl]
        · simp [check_quorum, hv, hq]
          intro h1 h2
          exact ⟨h1.symm, h2.symm⟩
  · by_cases hb : ap.version > p.version
    · simp [hb]
    · cases cc
      · simp [hb]
      · by_cases hv : p.version > sp.version
        · cases av with
          | data t =>
            by_cases hq : q = qi
            · simp [check_quorum, hb, hv, hq]
            · simp [check_quorum, hb, hv, hq]
              intro h1 h2
              exact ⟨h1.symm, h2.symm⟩
          | quorum q' =>
            by_cases hq : q = q'
            · simp [check_quorum, hb, hv, hq]
            · simp [check_quorum, hb, hv, hq]
              intro h1 h2
              exact ⟨h1.symm, h2.symm⟩
        · by_cases hq : q = qi
          · by_cases hl : sp.lt p = true <;> simp [check_quorum, hb, hv, hq, hl]
          · simp [check_quorum, hb, hv, hq]
            intro h1 h2
            exact ⟨h1.symm, h2.symm⟩

/-- C37, amended: a `propose` call that raises `WrongQuorum` carries the
replica's `quorum_initial` as it is after the call and the caller's quorum;
if the replica had no live slot, or a live slot of a version `>= p.version`,
the call leaves the replica exactly as it was; if the live slot was of an
earlier version, the call has first collapsed the slot's entry (`Data(t)`:
`value = Some(t)`, `quorum_initial` unchanged; `QuorumChange(Q')`:
`quorum_initial = Q'`, `value` unchanged) and leaves the replica without live
slot. -/
theorem propose_wrong_quorum (s : Server) (q : Quorum) (p : Proposal)
    (expected effective : Quorum)
    (h : (s.propose q p).2 = .error (.WrongQuorum expected effective)) :
    expected = (s.propose q p).1.quorum_initial ∧ effective = q ∧
    ((s.state = none ∨ ∃ st, s.state = some st ∧ p.version ≤ st.proposal.version) →
      (s.propose q p).1 = s) ∧
    (∀ st, s.state = some st → st.proposal.version < p.version →
      ∃ a, st.accepted = some a ∧ (s.propose q p).1.state = none ∧
        match a.value with
        | .data t =>
          (s.propose q p).1.value = some t ∧
            (s.propose q p).1.quorum_initial = s.quorum_initial
        | .quorum q' =>
          (s.propose q p).1.quorum_initial = q' ∧ (s.propose q p).1.value = s.value) := by
  have hunch := propose_error_unchanged s q p _ h
  -- what the call leaves when it had to advance
  have hadv : ∀ st, s.state = some st → st.proposal.version < p.version →
      ∃ a, st.accepted = some a ∧ a.proposal.version ≤ p.version ∧
        check_confirmed s p = true := by
    intro st hs hv
    cases hacc : st.accepted with
    | none =>
      cases hcc : check_confirmed s p with
      | false =>
        rw [propose_abandon s q p (by
          intro st' a hs' ha'
          rw [hs] at hs'
          cases hs'
          rw [hacc] at ha'
          cases ha') hcc] at h
        cases h
      | true =>
        rw [propose_advance_no_entry s q p st hs hacc hcc hv] at h
        cases h
    | some a =>
      by_cases hb : a.proposal.version ≤ p.version
      · cases hcc : check_confirmed s p with
        | false =>
          rw [propose_abandon s q p (by
            intro st' a' hs' ha'
            rw [hs] at hs'
            cases hs'
            rw [hacc] at ha'
            cases ha'
            exact hb) hcc] at h
          cases h
        | true => exact ⟨a, rfl, hb, rfl⟩
      · rw [propose_behind s q p st a hs hacc (by omega)] at h
        cases h
  refine ⟨(propose_wrong_quorum_args s q p _ _ h).1,
    (propose_wrong_quorum_args s q p _ _ h).2, ?_, ?_⟩
  · intro h0
    exact hunch (h0.elim Or.inl (fun h1 => Or.inr (Or.inl h1)))
  · intro st hs hv
    obtain ⟨a, ha, hb, hcc⟩ := hadv st hs hv
    refine ⟨a, ha, ?_⟩
    have heq := propose_advance s q p st a hs ha hb hcc hv
    rw [heq] at h ⊢
    cases hval : a.value with
    | data t =>
      rw [hval] at h
      simp only
      by_cases hq : q = s.quorum_initial
      · simp [hq] at h
      · simp [hq]
    | quorum q' =>
      rw [hval] at h
      simp only
      by_cases hq : q = q'
      · simp [hq] at h
      · simp [hq]

/-- The theorem `propose_wrong_quorum` at work: on the replica 11 as
constructed, the proposal `3:1:1` with the quorum `{11}` raises `WrongQuorum`
and leaves the replica as it was. -/
theorem propose_wrong_quorum_witness :
    ((Server.fresh 11 q123 v010).propose {11} ⟨3, 1, 1⟩).1 = Server.fresh 11 q123 v010 :=
  (propose_wrong_quorum (Server.fresh 11 q123 v010) {11} ⟨3, 1, 1⟩ q123 {11}
    (by decide)).2.2.1 (Or.inl rfl)

/-! ## The promise from call to call (C35) -/

/-- A call that leaves a live slot on a replica that had one does not lower
`state.proposal`. -/
theorem call_promise (s : Server) (c : Rpc) (st st' : VersionState)
    (hs : s.state = some st) (hs' : (s.call c).state = some st') :
    st'.proposal.lt st.proposal = false := by
  cases c with
  | propose q p =>
    simp only [Server.call] at hs'
    by_cases hb : ∀ a, st.accepted = some a → a.proposal.version ≤ p.version
    · by_cases hv : p.version ≤ st.proposal.version
      · rw [propose_same_slot s q p st hs hb hv] at hs'
        by_cases hq : q = s.quorum_initial
        · by_cases hl : st.proposal.lt p = true
          · simp only [hq, hl, if_true] at hs'
            cases hs'
            rw [Proposal.lt_iff] at hl
            rw [Proposal.lt_false_iff]
            simp only
            omega
          · simp only [hq, hl, if_true, Bool.false_eq_true, if_false] at hs'
            rw [hs] at hs'
            cases hs'
            exact Proposal.lt_irrefl _
        · simp only [hq, if_false] at hs'
          rw [hs] at hs'
          cases hs'
          exact Proposal.lt_irrefl _
      · have hlt : st.proposal.version < p.version := by omega
        have hnew : st'.proposal = p ∨ st' = st := by
          cases hcc : check_confirmed s p with
          | false =>
            rw [propose_abandon s q p (by
              intro st0 a hs0 ha
              rw [hs] at hs0
              cases hs0
              exact hb a ha) hcc] at hs'
            cases hs'
            exact Or.inl rfl
          | true =>
            cases hacc : st.accepted with
            | none =>
              rw [propose_advance_no_entry s q p st hs hacc hcc hlt, hs] at hs'
              cases hs'
              exact Or.inr rfl
            | some a =>
              rw [propose_advance s q p st a hs hacc (hb a hacc) hcc hlt] at hs'
              cases hval : a.value with
              | data t =>
                rw [hval] at hs'
                by_cases hq : q = s.quorum_initial
                · simp only [hq, if_true] at hs'
                  cases hs'
                  exact Or.inl rfl
                · simp [hq] at hs'
              | quorum q' =>
                rw [hval] at hs'
                by_cases hq : q = q'
                · simp only [hq, if_true] at hs'
                  cases hs'
                  exact Or.inl rfl
                · simp [hq] at hs'
        rcases hnew with hnew | hnew
        · rw [hnew, Proposal.lt_false_iff]
          omega
        · rw [hnew]
          exact Proposal.lt_irrefl _
    · have hb' : ∃ a, st.accepted = some a ∧ a.proposal.version > p.version := by
        by_contra hcon
        apply hb
        intro a ha
        by_contra hgt
        exact hcon ⟨a, ha, by omega⟩
      obtain ⟨a, ha, hgt⟩ := hb'
      rw [propose_behind s q p st a hs ha hgt, hs] at hs'
      cases hs'
      exact Proposal.lt_irrefl _
  | accept q p value =>
    simp only [Server.call] at hs'
    cases hres : (s.accept q p value).2 with
    | error e =>
      have hu := (accept_failure_unchanged s q p value e hres)
      rw [hu, hs] at hs'
      cases hs'
      exact Proposal.lt_irrefl _
    | ok r =>
      obtain ⟨hq, st0, hs0, hl⟩ := accept_returned s q p value r hres
      rw [hs] at hs0
      cases hs0
      subst hq
      cases hl2 : p.lt st.proposal with
      | true =>
        rw [accept_stale s p value st hs hl2, hs] at hs'
        cases hs'
        exact Proposal.lt_irrefl _
      | false =>
        rw [accept_current s p value st hs hl hl2] at hs'
        cases hs'
        exact Proposal.lt_irrefl _
  | confirm q p =>
    simp only [Server.call] at hs'
    cases hres : (s.confirm q p).2 with
    | error e =>
      have hu := confirm_failure_unchanged s q p e hres
      rw [hu, hs] at hs'
      cases hs'
      exact Proposal.lt_irrefl _
    | ok u =>
      obtain ⟨hq, st0, a, hs0, ha, hl⟩ := confirm_returned s q p hres
      rw [hs] at hs0
      cases hs0
      subst hq
      cases hl2 : p.lt st.proposal with
      | true =>
        rw [confirm_stale s p st a hs ha hl2, hs] at hs'
        cases hs'
        exact Proposal.lt_irrefl _
      | false =>
        rw [confirm_current s p st a hs ha hl hl2] at hs'
        cases hs'
        exact Proposal.lt_irrefl _
  | get q =>
    simp only [Server.call, get_unchanged] at hs'
    rw [hs] at hs'
    cases hs'
    exact Proposal.lt_irrefl _

theorem Server.calls_cons (s : Server) (c : Rpc) (rest : List Rpc) :
    s.calls (c :: rest) = (s.call c).calls rest := rfl

theorem promise_along_calls (calls : List Rpc) :
    ∀ (s : Server) (st st' : VersionState), s.state = some st →
      (∀ n, (s.calls (calls.take n)).state ≠ none) →
      (s.calls calls).state = some st' → st'.proposal.lt st.proposal = false := by
  induction calls with
  | nil =>
    intro s st st' hs _ hs'
    simp only [Server.calls, List.foldl_nil] at hs'
    rw [hs] at hs'
    cases hs'
    exact Proposal.lt_irrefl _
  | cons c rest ih =>
    intro s st st' hs hlive hs'
    rw [Server.calls_cons] at hs'
    have h1 := hlive 1
    simp only [List.take_succ_cons, List.take_zero, Server.calls, List.foldl_cons,
      List.foldl_nil] at h1
    cases hmid : (s.call c).state with
    | none => exact absurd hmid h1
    | some st1 =>
      have hstep := call_promise s c st st1 hs hmid
      have hrest := ih (s.call c) st1 st' hmid
        (by
          intro n
          have := hlive (n + 1)
          rw [List.take_succ_cons, Server.calls_cons] at this
          exact this)
        hs'
      rw [Proposal.lt_false_iff] at hstep hrest ⊢
      omega

/-- C35, the claim as stated fails: replica 11 holds the promise `5:1:1`
after the first three calls of `calls_regress`; the proposal `6:1:1` with the
quorum `{11}` raises `WrongQuorum` and leaves it without live slot; the
proposal `0:1:1` is then adopted, and `0:1:1 < 5:1:1`. -/
theorem promise_regresses_after_wrong_quorum :
    (((Server.fresh 11 q123 v010).calls (calls_regress.take 3)).state.map
        VersionState.proposal) = some ⟨5, 1, 1⟩ ∧
      (((Server.fresh 11 q123 v010).calls calls_regress).state.map
        VersionState.proposal) = some ⟨0, 1, 1⟩ ∧
      Proposal.lt ⟨0, 1, 1⟩ ⟨5, 1, 1⟩ = true := by
  decide

/-- C35, amended: for every sequence of propose, accept, confirm and get
calls on a replica, returning or raising, once the replica has held
`state.proposal = m`, no later state holds a smaller `state.proposal`, as long
as the replica has had a live slot after every call in between. (A `propose`
that raises `WrongQuorum` after the advance step leaves no live slot, and the
next proposal is then adopted whatever it is.) -/
theorem promise_never_regresses (s : Server) (calls : List Rpc) (st st' : VersionState)
    (hs : s.state = some st)
    (hlive : ∀ n, (s.calls (calls.take n)).state ≠ none)
    (hs' : (s.calls calls).state = some st') :
    st'.proposal.lt st.proposal = false :=
  promise_along_calls calls s st st' hs hlive hs'

/-- The theorem `promise_never_regresses` at work: replica 11 holds the
promise `0:1:1` and the data `42` accepted; after a stale proposal `0:0:5` and
the proposal `0:2:1` its promise is `0:2:1`, not smaller than `0:1:1`. -/
theorem promise_never_regresses_witness :
    Proposal.lt ⟨0, 2, 1⟩ ⟨0, 1, 1⟩ = false :=
  promise_never_regresses replica_accepted
    [.propose q123 ⟨0, 0, 5⟩, .propose q123 ⟨0, 2, 1⟩]
    ⟨⟨0, 1, 1⟩, some ⟨⟨0, 1, 1⟩, .data 42, false⟩⟩
    ⟨⟨0, 2, 1⟩, some ⟨⟨0, 1, 1⟩, .data 42, false⟩⟩
    replica_accepted_state
    (by
      intro n
      match n with
      | 0 => decide
      | 1 => decide
      | n + 2 =>
        simp only [List.take_succ_cons, List.take_nil]
        decide)
    (by decide)

/-! ## What `confirm` marks as confirmed (C36) -/

/-- C36, the code at the failing input: replica 12 holds the data `7`
accepted under `0:1:1` and has then promised `0:3:3`; `confirm(q, 0:3:3)`
returns normally and marks as confirmed the entry accepted under `0:1:1`. -/
theorem confirm_marks_entry_of_other_proposal :
    ((Server.fresh 12 q123 v010).calls (calls_confirm_other.take 3)).state
        = some ⟨⟨0, 3, 3⟩, some ⟨⟨0, 1, 1⟩, .data 7, false⟩⟩ ∧
      (((Server.fresh 12 q123 v010).calls (calls_confirm_other.take 3)).confirm q123
        ⟨0, 3, 3⟩).2 = .ok () ∧
      ((Server.fresh 12 q123 v010).calls calls_confirm_other).state
        = some ⟨⟨0, 3, 3⟩, some ⟨⟨0, 1, 1⟩, .data 7, true⟩⟩ := by
  decide

set_option maxRecDepth 8000 in
/-- The same in a history of three coordinators: coordinator 3 adopts the
data `8`, held by replica 13 under `0:1:2`, and gets it accepted by 11 and 13
under `0:1:3`; its `accept` to 12 is lost, and its `confirm` makes replica 12
mark as confirmed the data `7`, accepted under `0:1:1`. The replicas then
hold two different confirmed values for version 0. -/
theorem confirm_of_other_proposal_in_history :
    (system_confirm_other.run history_confirm_other).outcome 2
        = some (.returned (some ⟨⟨0, 1, 2⟩, .data 8, false⟩)) ∧
      ((system_confirm_other.run history_confirm_other).world.servers 0).state
        = some ⟨⟨0, 1, 3⟩, some ⟨⟨0, 1, 3⟩, .data 8, true⟩⟩ ∧
      ((system_confirm_other.run history_confirm_other).world.servers 1).state
        = some ⟨⟨0, 1, 3⟩, some ⟨⟨0, 1, 1⟩, .data 7, true⟩⟩ ∧
      ((system_confirm_other.run history_confirm_other).world.servers 2).state
        = some ⟨⟨0, 1, 3⟩, some ⟨⟨0, 1, 3⟩, .data 8, true⟩⟩ := by
  decide

/-! ## What `get` returns (C39) -/

theorem current_value_data (s : Server) (a : Accepted) (h : s.current_value = some a) :
    a.confirmed = true ∧ ∃ t, a.value = .data t := by
  unfold Server.current_value at h
  split at h
  · cases h
  · split at h
    · cases h
      exact ⟨rfl, _, rfl⟩
    · split at h
      · cases h
        exact ⟨rfl, _, rfl⟩
      · cases h

theorem get_answer_data (s : Server) (q : Quorum) (a : Accepted)
    (h : (s.get q).2 = .ok (some a)) : a.confirmed = true ∧ ∃ t, a.value = .data t := by
  unfold Server.get at h
  split at h
  · cases h
  · simp only [Except.ok.injEq] at h
    exact current_value_data s a h

theorem exec_get_data (peer : Peer) (q : Quorum) (w : World) (a : Accepted)
    (h : (exec (.get peer q) w).1 = .ok (some a)) :
    a.confirmed = true ∧ ∃ t, a.value = .data t := by
  obtain ⟨pid, kind⟩ := peer
  cases kind with
  | replica i => exact get_answer_data (w.servers i) q a h
  | unavailable => cases h
  | proposeOnly i => exact get_answer_data (w.servers i) q a h

/-- The reply selected by the tasks of `get_quorum` holds data when every
reply of a peer does, and the tasks raise `BadAccess` only if a peer does. -/
theorem get_phase_data {σ : Type} (env : {β : Type} → Req β → σ → β × σ) (q : Quorum)
    (henv : ∀ peer s a, (env (.get peer q) s).1 = .ok (some a) → ∃ t, a.value = .data t)
    (herr : ∀ peer s, (env (.get peer q) s).1 ≠ .error .BadAccess) :
    ∀ (ps : List Peer) (x : Option Accepted × Int) (s : σ),
      (∀ a, x.1 = some a → ∃ t, a.value = .data t) →
      (∀ res n,
        ((for_each_parallel (Client.get_task q) ps x).finish env s).1 = .ok (some res, n) →
        ∃ t, res.value = .data t) ∧
      ((for_each_parallel (Client.get_task q) ps x).finish env s).1 ≠ .error .BadAccess := by
  intro ps
  induction ps with
  | nil =>
    intro x s hx
    refine ⟨?_, by simp [for_each_parallel, Prog.finish]⟩
    intro res n h
    simp only [for_each_parallel, Prog.finish, Except.ok.injEq] at h
    exact hx res (by rw [h])
  | cons elt c ih =>
    intro x s hx
    rw [for_each_parallel, Prog.finish_bind]
    simp only [Client.get_task, Prog.finish]
    have hans := henv elt s
    have hne := herr elt s
    generalize (env (Req.get elt q) s).1 = ans at hans hne
    generalize (env (Req.get elt q) s).2 = s1
    obtain ⟨prev, m⟩ := x
    cases ans with
    | error e =>
      cases e <;> simp only [Prog.finish]
      all_goals first
        | exact ih (prev, m) s1 hx
        | exact absurd rfl hne
        | simp
    | ok o =>
      cases o with
      | none =>
        simp only [Prog.finish]
        exact ih (prev, m + 1) s1 hx
      | some a =>
        have ha := hans a rfl
        cases prev with
        | none =>
          simp only [Prog.finish]
          exact ih (some a, m + 1) s1 (fun b hb => by cases hb; exact ha)
        | some pv =>
          simp only
          by_cases hlt : pv.proposal.lt a.proposal = true
          · simp only [hlt, if_true, Prog.finish]
            exact ih (some a, m + 1) s1 (fun b hb => by cases hb; exact ha)
          · simp only [hlt, Bool.false_eq_true, if_false, Prog.finish]
            exact ih (some pv, m + 1) s1 hx

theorem check_headcount_error (q : Quorum) (reached : Int) (reading : Bool) (e : Error)
    (h : Client._check_headcount q reached reading = .error e) :
    e = .TooFewPeers reached q.card := by
  unfold Client._check_headcount at h
  simp only at h
  by_cases hc : reached ≤ Int.tdiv ((q.card : Int) - (if reading then 1 else 0)) 2
  · rw [if_pos hc] at h
    exact (Except.error.inj h).symm
  · rw [if_neg hc] at h
    cases h

theorem get_quorum_no_bad_access {σ : Type} (env : {β : Type} → Req β → σ → β × σ)
    (c : Client)
    (henv : ∀ peer s a, (env (.get peer (Client.quorum c.peers)) s).1 = .ok (some a) →
      ∃ t, a.value = .data t)
    (herr : ∀ peer s, (env (.get peer (Client.quorum c.peers)) s).1 ≠ .error .BadAccess)
    (s : σ) :
    (c.get_quorum.finish env s).1 ≠ .raised .BadAccess := by
  unfold Client.get_quorum
  simp only
  rw [Prog.finish_bind]
  have hph := get_phase_data env (Client.quorum c.peers) henv herr c.peers (none, 0) s
    (fun a ha => by cases ha)
  generalize ((for_each_parallel (Client.get_task (Client.quorum c.peers)) c.peers
    (none, 0)).finish env s) = r at hph
  obtain ⟨res, s1⟩ := r
  cases res with
  | error e =>
    simp only [Prog.finish, ne_eq, Outcome.raised.injEq]
    intro he
    exact hph.2 (by rw [he])
  | ok x =>
    obtain ⟨sel, reached⟩ := x
    simp only
    cases hh : Client._check_headcount (Client.quorum c.peers) reached true with
    | error e =>
      rw [check_headcount_error _ _ _ e hh]
      simp [Prog.finish]
    | ok u =>
      cases sel with
      | none => simp [Prog.finish]
      | some a =>
        obtain ⟨t, ht⟩ := hph.1 a reached rfl
        simp [ht, Prog.finish]

theorem get_error (s : Server) (q : Quorum) : (s.get q).2 ≠ .error .BadAccess := by
  unfold Server.get check_quorum
  by_cases hq : q ≠ s.quorum_initial
  · simp [hq]
  · simp [hq]

theorem exec_get_error (peer : Peer) (q : Quorum) (w : World) :
    (exec (.get peer q) w).1 ≠ .error .BadAccess := by
  obtain ⟨pid, kind⟩ := peer
  cases kind with
  | replica i => exact get_error (w.servers i) q
  | unavailable => simp [exec, Peer.get]
  | proposeOnly i => exact get_error (w.servers i) q

/-- C39 (what a read returns): for every replica state, `current_value`, and
so `get` whenever it returns, gives `None` or an `Accepted` with
`confirmed = true` whose value is data, never a quorum change; consequently,
for every coordinator and every state of the replicas behind its peer
handles, `get_quorum` and `get` do not fail on the extraction of the data from
the selected reply (`BadAccess`). -/
theorem get_returns_confirmed_data :
    (∀ (s : Server) (a : Accepted), s.current_value = some a →
      a.confirmed = true ∧ ∃ t, a.value = .data t) ∧
    (∀ (s : Server) (q : Quorum) (a : Accepted), (s.get q).2 = .ok (some a) →
      a.confirmed = true ∧ ∃ t, a.value = .data t) ∧
    (∀ (c : Client) (w : World), (c.get_quorum.run w).1 ≠ .raised .BadAccess) ∧
    (∀ (c : Client) (w : World), (c.get.run w).1 ≠ .raised .BadAccess) := by
  have hq : ∀ (c : Client) (w : World), (c.get_quorum.run w).1 ≠ .raised .BadAccess := by
    intro c w
    rw [← Prog.finish_exec]
    exact get_quorum_no_bad_access _ c
      (fun peer s a h => (exec_get_data peer _ s a h).2)
      (fun peer s => exec_get_error peer _ s) w
  refine ⟨current_value_data, get_answer_data, hq, ?_⟩
  intro c w
  unfold Client.get
  rw [Prog.run_bind]
  have h := hq c w
  generalize (c.get_quorum.run w) = r at h
  obtain ⟨o, w1⟩ := r
  cases o with
  | returned x => simp [Prog.run]
  | raised e =>
    simp only [Prog.run, ne_eq, Outcome.raised.injEq]
    intro he
    exact h (by rw [he])
  | unfinished => simp [Prog.run]

/-- The theorem `get_returns_confirmed_data` at work on replica 11 holding the
data `42` confirmed under `0:1:1`. -/
theorem get_returns_confirmed_data_witness :
    replica_confirmed.current_value = some ⟨⟨0, 1, 1⟩, .data 42, true⟩ ∧
      (replica_confirmed.get q123).2 = .ok (some ⟨⟨0, 1, 1⟩, .data 42, true⟩) ∧
      (⟨⟨0, 1, 1⟩, .data 42, true⟩ : Accepted).confirmed = true :=
  ⟨by decide, by decide,
    (get_returns_confirmed_data.1 replica_confirmed ⟨⟨0, 1, 1⟩, .data 42, true⟩
      (by decide)).1⟩

/-! ## Channel ids (C31) -/

theorem master_ids (n k : Nat) :
    ChanneledStream.ids n ⟨true, ((k % 2147483647 : Nat) : Int) + 1⟩ =
      (List.range' k n).map fun j => ((j % 2147483647 : Nat) : Int) + 1 := by
  induction n generalizing k with
  | zero => rfl
  | succ n ih =>
    have hstep : (ChanneledStream._id_generate ⟨true, ((k % 2147483647 : Nat) : Int) + 1⟩)
        = (((k % 2147483647 : Nat) : Int) + 1,
            ⟨true, (((k + 1) % 2147483647 : Nat) : Int) + 1⟩) := by
      simp only [ChanneledStream._id_generate, int32, if_true, Prod.mk.injEq,
        ChanneledStream.mk.injEq, true_and]
      split <;> omega
    rw [ChanneledStream.ids, hstep, ih (k + 1)]
    rfl

theorem slave_ids (n k : Nat) :
    ChanneledStream.ids n ⟨false, -(((k % 2147483648 : Nat) : Int) + 1)⟩ =
      (List.range' k n).map fun j => -(((j % 2147483648 : Nat) : Int) + 1) := by
  induction n generalizing k with
  | zero => rfl
  | succ n ih =>
    have hstep : (ChanneledStream._id_generate ⟨false, -(((k % 2147483648 : Nat) : Int) + 1)⟩)
        = (-(((k % 2147483648 : Nat) : Int) + 1),
            ⟨false, -((((k + 1) % 2147483648 : Nat) : Int) + 1)⟩) := by
      simp only [ChanneledStream._id_generate, int32, Bool.false_eq_true, if_false,
        Prod.mk.injEq, ChanneledStream.mk.injEq, true_and]
      split <;> omega
    rw [ChanneledStream.ids, hstep, ih (k + 1)]
    rfl

/-- C31, the claim as stated fails: the counter is constructed at 0 and
`_id_generate` returns the counter as it was before the update, so the first
id returned is 0 on a master and on a slave alike: it is neither positive nor
negative, and both ends allocate it. The sequences are 0, 1, 2, ... and
0, -1, -2, ... -/
theorem first_channel_id_is_zero :
    (ChanneledStream.new true)._id_generate.1 = 0 ∧
      (ChanneledStream.new false)._id_generate.1 = 0 ∧
      ChanneledStream.ids 4 (ChanneledStream.new true) = [0, 1, 2, 3] ∧
      ChanneledStream.ids 4 (ChanneledStream.new false) = [0, -1, -2, -3] := by
  decide

/-- C31, amended: the first id returned after construction is 0 on either
end. From the second call on, the ids of a master are 1, 2, ...,
2147483647 and then 1 again (the `k`-th of them, `k` from 0, is
`k mod 2147483647 + 1`), and the ids of a slave are -1, -2, ..., -2147483648
and then -1 again (`-(k mod 2147483648 + 1)`): the increment of the 32-bit
counter at 2147483647 and its decrement at -2147483648 wrap around and are
reset to 1 and to -1. Hence every id returned after the first is strictly
positive on a master and strictly negative on a slave, and none returned after
the first by one end equals one returned after the first by the other. -/
theorem channel_ids (n m : Nat) :
    ChanneledStream.ids (n + 1) (ChanneledStream.new true)
        = 0 :: (List.range n).map (fun k => ((k % 2147483647 : Nat) : Int) + 1) ∧
      ChanneledStream.ids (m + 1) (ChanneledStream.new false)
        = 0 :: (List.range m).map (fun k => -(((k % 2147483648 : Nat) : Int) + 1)) ∧
      (ChanneledStream._id_generate ⟨true, 2147483647⟩).2.id_current = 1 ∧
      (ChanneledStream._id_generate ⟨false, -2147483648⟩).2.id_current = -1 ∧
      (∀ x ∈ (ChanneledStream.ids (n + 1) (ChanneledStream.new true)).tail,
        ∀ y ∈ (ChanneledStream.ids (m + 1) (ChanneledStream.new false)).tail,
          0 < x ∧ x ≤ 2147483647 ∧ -2147483648 ≤ y ∧ y < 0 ∧ x ≠ y) := by
  have h1 : ChanneledStream.ids (n + 1) (ChanneledStream.new true)
      = 0 :: (List.range n).map (fun k => ((k % 2147483647 : Nat) : Int) + 1) := by
    have hstep : (ChanneledStream.new true)._id_generate = (0, ⟨true, ((0 % 2147483647 : Nat) : Int) + 1⟩) := by
      decide
    rw [ChanneledStream.ids, hstep, master_ids n 0, List.range_eq_range']
  have h2 : ChanneledStream.ids (m + 1) (ChanneledStream.new false)
      = 0 :: (List.range m).map (fun k => -(((k % 2147483648 : Nat) : Int) + 1)) := by
    have hstep : (ChanneledStream.new false)._id_generate = (0, ⟨false, -(((0 % 2147483648 : Nat) : Int) + 1)⟩) := by
      decide
    rw [ChanneledStream.ids, hstep, slave_ids m 0, List.range_eq_range']
  refine ⟨h1, h2, by decide, by decide, ?_⟩
  intro x hx y hy
  rw [h1, List.tail_cons, List.mem_map] at hx
  rw [h2, List.tail_cons, List.mem_map] at hy
  obtain ⟨i, _, hi⟩ := hx
  obtain ⟨j, _, hj⟩ := hy
  omega

/-- The theorem `channel_ids` at work on the first four ids of each end. -/
theorem channel_ids_witness :
    ChanneledStream.ids (3 + 1) (ChanneledStream.new true) = [0, 1, 2, 3] ∧
      ChanneledStream.ids (3 + 1) (ChanneledStream.new false) = [0, -1, -2, -3] ∧
      ((0 : Int) < 2 ∧ (2 : Int) ≤ 2147483647 ∧ (-2147483648 : Int) ≤ -3 ∧ (-3 : Int) < 0 ∧
        (2 : Int) ≠ -3) :=
  ⟨(channel_ids 3 3).1.trans (by decide), (channel_ids 3 3).2.1.trans (by decide),
    (channel_ids 3 3).2.2.2.2 2 (by decide) (-3) (by decide)⟩

/-! ## One iteration of the loop of `choose`, case by case -/

theorem propose_task_is_propose {σ : Type} (env : {β : Type} → Req β → σ → β × σ)
    (q : Quorum) (p : Proposal) (peer : Peer) (x : Option Accepted × Int) (s : σ) :
    ∀ e ∈ (Client.propose_task q p peer x).observe env s, e.is_propose = true := by
  intro e he
  simp only [Client.propose_task, Prog.observe, List.mem_cons] at he
  rcases he with he | he
  · subst he
    rfl
  · generalize (env (Req.propose peer q p) s).1 = b at he
    obtain ⟨prev, n⟩ := x
    cases b with
    | error err => cases err <;> simp [Prog.observe] at he
    | ok o =>
      cases o with
      | none => simp [Prog.observe] at he
      | some a =>
        cases prev with
        | none => simp [Prog.observe] at he
        | some pv =>
          simp only at he
          split at he <;> simp [Prog.observe] at he

/-- The propose phase issues `propose` requests only. -/
theorem propose_phase_is_propose {σ : Type} (env : {β : Type} → Req β → σ → β × σ)
    (q : Quorum) (p : Proposal) (ps : List Peer) (x : Option Accepted × Int) (s : σ) :
    ∀ e ∈ (for_each_parallel (Client.propose_task q p) ps x).observe env s,
      e.is_propose = true :=
  for_each_parallel_events env _ _
    (fun peer x s => propose_task_is_propose env q p peer x s) ps x s

/-- The iteration whose propose phase ends with a confirmed `previous`: the
call returns it, and its requests are those of the propose phase. -/
theorem choose_loop_confirmed {σ : Type} (env : {β : Type} → Req β → σ → β × σ)
    (q : Quorum) (value : Value) (fuel : Nat) (c : Client) (version backoff : Int)
    (previous : Option Accepted) (s : σ) (a : Accepted) (reached : Int)
    (hphase : ((for_each_parallel (Client.propose_task q ⟨version, c.round + 1, c.id⟩)
      c.peers (previous, 0)).finish env s).1 = .ok (some a, reached))
    (hconf : a.confirmed = true) :
    (Client.choose_loop q value (fuel + 1) c version backoff previous).observe env s =
        (for_each_parallel (Client.propose_task q ⟨version, c.round + 1, c.id⟩)
          c.peers (previous, 0)).observe env s ∧
      ((Client.choose_loop q value (fuel + 1) c version backoff previous).finish env s).1 =
        ({ c with round := c.round + 1 }, .returned (some a)) := by
  rw [Client.choose_loop.eq_2]
  simp only
  rw [Prog.observe_bind, Prog.finish_bind]
  generalize ((for_each_parallel (Client.propose_task q ⟨version, c.round + 1, c.id⟩)
    c.peers (previous, 0)).finish env s) = r at hphase
  obtain ⟨res, s1⟩ := r
  simp only at hphase
  subst hphase
  simp [hconf, Prog.observe, Prog.finish]

/-- The iteration whose propose phase ends with an unconfirmed `previous` of
a proposal greater than its own: the loop starts over with the version and
the round of that proposal. -/
theorem choose_loop_restart {σ : Type} (env : {β : Type} → Req β → σ → β × σ)
    (q : Quorum) (value : Value) (fuel : Nat) (c : Client) (version backoff : Int)
    (previous : Option Accepted) (s : σ) (a : Accepted) (reached : Int)
    (hphase : ((for_each_parallel (Client.propose_task q ⟨version, c.round + 1, c.id⟩)
      c.peers (previous, 0)).finish env s).1 = .ok (some a, reached))
    (hconf : a.confirmed = false)
    (hcount : Client._check_headcount q reached false = .ok ())
    (hlt : Proposal.lt ⟨version, c.round + 1, c.id⟩ a.proposal = true) :
    (Client.choose_loop q value (fuel + 1) c version backoff previous).observe env s =
      (for_each_parallel (Client.propose_task q ⟨version, c.round + 1, c.id⟩)
          c.peers (previous, 0)).observe env s ++
        (Client.choose_loop q value fuel { c with round := a.proposal.round }
          a.proposal.version backoff (some a)).observe env
          ((for_each_parallel (Client.propose_task q ⟨version, c.round + 1, c.id⟩)
            c.peers (previous, 0)).finish env s).2 := by
  rw [Client.choose_loop.eq_2]
  simp only
  rw [Prog.observe_bind]
  generalize ((for_each_parallel (Client.propose_task q ⟨version, c.round + 1, c.id⟩)
    c.peers (previous, 0)).finish env s) = r at hphase
  obtain ⟨res, s1⟩ := r
  simp only at hphase
  subst hphase
  simp [hconf, hcount, hlt]

/-- The iteration whose propose phase ends with no `previous`, or with an
unconfirmed one of a proposal not greater than its own: the accept phase
follows. -/
theorem choose_loop_accepts {σ : Type} (env : {β : Type} → Req β → σ → β × σ)
    (q : Quorum) (value : Value) (fuel : Nat) (c : Client) (version backoff : Int)
    (previous : Option Accepted) (s : σ) (prev : Option Accepted) (reached : Int)
    (hphase : ((for_each_parallel (Client.propose_task q ⟨version, c.round + 1, c.id⟩)
      c.peers (previous, 0)).finish env s).1 = .ok (prev, reached))
    (hprev : ∀ a, prev = some a →
      a.confirmed = false ∧ Proposal.lt ⟨version, c.round + 1, c.id⟩ a.proposal = false)
    (hcount : Client._check_headcount q reached false = .ok ()) :
    (Client.choose_loop q value (fuel + 1) c version backoff previous).observe env s =
      (for_each_parallel (Client.propose_task q ⟨version, c.round + 1, c.id⟩)
          c.peers (previous, 0)).observe env s ++
        (Client.choose_accept q value (Client.choose_loop q value fuel)
          { c with round := c.round + 1 } ⟨version, c.round + 1, c.id⟩ backoff
          prev).observe env
          ((for_each_parallel (Client.propose_task q ⟨version, c.round + 1, c.id⟩)
            c.peers (previous, 0)).finish env s).2 := by
  rw [Client.choose_loop.eq_2]
  simp only
  rw [Prog.observe_bind]
  generalize ((for_each_parallel (Client.propose_task q ⟨version, c.round + 1, c.id⟩)
    c.peers (previous, 0)).finish env s) = r at hphase
  obtain ⟨res, s1⟩ := r
  simp only at hphase
  subst hphase
  cases prev with
  | none => simp [hcount]
  | some a =>
    obtain ⟨h1, h2⟩ := hprev a rfl
    simp [h1, h2, hcount]

/-- The accept phase that ends on a conflict with `m`: a draw, a sleep when
the coordinator backs off, and the retry with the version and the round of
`m` and the factor doubled under 64. -/
theorem choose_accept_conflict {σ : Type} (env : {β : Type} → Req β → σ → β × σ)
    (q : Quorum) (value : Value)
    (retry : Client → Int → Int → Option Accepted → Prog (Client × Outcome (Option Accepted)))
    (c : Client) (p : Proposal) (backoff : Int) (previous : Option Accepted) (s : σ)
    (m : Proposal) (reached : Int)
    (hphase : ((for_each_parallel (Client.accept_task q p (Client.sent value previous))
      c.peers (none, 0)).finish env s).1 = .ok (some m, reached)) :
    ∃ (rn : Nat) (s2 : σ),
      (Client.choose_accept q value retry c p backoff previous).observe env s =
        (for_each_parallel (Client.accept_task q p (Client.sent value previous))
            c.peers (none, 0)).observe env s ++
          (Event.random 1 8 rn ::
            (if c.conflict_backoff then [Event.sleep (100 * rn * backoff)] else [])) ++
          (retry { c with round := m.round } m.version (min (backoff * 2) 64)
            previous).observe env s2 := by
  unfold Client.choose_accept
  rw [Prog.observe_bind]
  generalize ((for_each_parallel (Client.accept_task q p (Client.sent value previous))
    c.peers (none, 0)).finish env s) = r at hphase
  obtain ⟨res, s1⟩ := r
  simp only at hphase
  subst hphase
  simp only [Prog.observe, Req.event]
  split
  · rename_i hcb
    refine ⟨(env (Req.random 1 8) s1).1,
      (env (Req.sleep (100 * ((env (Req.random 1 8) s1).1 : Int) * backoff))
        (env (Req.random 1 8) s1).2).2, ?_⟩
    simp [hcb, Prog.observe, Req.event]
  · rename_i hcb
    refine ⟨(env (Req.random 1 8) s1).1, (env (Req.random 1 8) s1).2, ?_⟩
    simp [hcb]

/-- What the accept phase sends: an `accept` of `p` with `value`, to the
peers in the order of the list, one each; to all of them when the phase ends
without a conflict and without an error. -/
theorem accept_phase_requests {σ : Type} (env : {β : Type} → Req β → σ → β × σ)
    (q : Quorum) (p : Proposal) (value : Value) :
    ∀ (ps : List Peer) (x : Option Proposal × Int) (s : σ),
      List.Forall₂ (fun e peer => ∃ answer, e = Event.accept peer q p value answer)
          ((for_each_parallel (Client.accept_task q p value) ps x).observe env s)
          (ps.take ((for_each_parallel (Client.accept_task q p value) ps x).observe
            env s).length) ∧
        (∀ reached,
          ((for_each_parallel (Client.accept_task q p value) ps x).finish env s).1
              = .ok (none, reached) →
            ((for_each_parallel (Client.accept_task q p value) ps x).observe env s).length
              = ps.length) := by
  intro ps
  induction ps with
  | nil =>
    intro x s
    simp [for_each_parallel, Prog.observe]
  | cons elt c ih =>
    intro x s
    rw [for_each_parallel, Prog.observe_bind, Prog.finish_bind]
    simp only [Client.accept_task, Prog.observe, Prog.finish, Req.event]
    generalize (env (Req.accept elt q p value) s).1 = ans
    generalize (env (Req.accept elt q p value) s).2 = s1
    obtain ⟨conflict, n⟩ := x
    have hdone : ∀ x2 : Option Proposal × Int,
        List.Forall₂ (fun e peer => ∃ answer, e = Event.accept peer q p value answer)
          (Event.accept elt q p value ans ::
            (for_each_parallel (Client.accept_task q p value) c x2).observe env s1)
          ((elt :: c).take (Event.accept elt q p value ans ::
            (for_each_parallel (Client.accept_task q p value) c x2).observe env s1).length) ∧
        (∀ reached,
          ((for_each_parallel (Client.accept_task q p value) c x2).finish env s1).1
              = .ok (none, reached) →
            (Event.accept elt q p value ans ::
              (for_each_parallel (Client.accept_task q p value) c x2).observe env s1).length
              = (elt :: c).length) := by
      intro x2
      obtain ⟨h1, h2⟩ := ih x2 s1
      refine ⟨?_, ?_⟩
      · simp only [List.length_cons, List.take_succ_cons]
        exact List.Forall₂.cons ⟨ans, rfl⟩ h1
      · intro reached hr
        simp only [List.length_cons, h2 reached hr]
    have hstop : List.Forall₂ (fun e peer => ∃ answer, e = Event.accept peer q p value answer)
        [Event.accept elt q p value ans]
        ((elt :: c).take [Event.accept elt q p value ans].length) := by
      simp only [List.length_singleton, List.take_succ_cons, List.take_zero]
      exact List.Forall₂.cons ⟨ans, rfl⟩ List.Forall₂.nil
    cases ans with
    | error e =>
      cases e <;> simp only [Prog.observe, Prog.finish, List.append_nil, List.singleton_append]
      all_goals first
        | exact hdone (conflict, n)
        | exact ⟨hstop, fun reached hr => by simp at hr⟩
    | ok m =>
      by_cases hm : p.lt m = true
      · simp only [hm, if_true, Prog.observe, Prog.finish, List.append_nil]
        exact ⟨hstop, fun reached hr => by simp at hr⟩
      · simp only [hm, Bool.false_eq_true, if_false, Prog.observe, Prog.finish,
          List.singleton_append]
        exact hdone (conflict, n + 1)

/-! ## The proposals of the retries of `choose` (C40) -/

/-- A retry that adopts the version and the round of a greater proposal `m`
issues a proposal greater than `p`. -/
theorem Proposal.lt_retry {p m : Proposal} (sender : Int) (h : p.lt m = true) :
    p.lt ⟨m.version, m.round + 1, sender⟩ = true := by
  rw [Proposal.lt_iff] at h ⊢
  simp only
  omega

theorem Proposal.lt_of_lt_of_precedes {p p2 x : Proposal} (h : p.lt p2 = true)
    (hx : p2.precedes x) (hs : x.sender = p2.sender) : p.lt x = true := by
  rw [Proposal.lt_iff] at h ⊢
  unfold Proposal.precedes at hx
  omega

theorem Proposal.eq_or_lt_of_precedes {p x : Proposal} (hx : p.precedes x)
    (hs : x.sender = p.sender) : x = p ∨ p.lt x = true := by
  obtain ⟨pv, pr, ps⟩ := p
  obtain ⟨xv, xr, xs⟩ := x
  rw [Proposal.lt_iff]
  unfold Proposal.precedes at hx
  simp only at hx hs ⊢
  simp only [Proposal.mk.injEq]
  omega

/-- The first proposal that an iteration of the loop issues. -/
theorem choose_loop_first {σ : Type} (env : {β : Type} → Req β → σ → β × σ)
    (q : Quorum) (value : Value) (fuel : Nat) (c : Client) (version backoff : Int)
    (previous : Option Accepted) (s : σ) (hpeers : c.peers ≠ []) :
    (proposals_of
      ((Client.choose_loop q value (fuel + 1) c version backoff previous).observe env s)).head?
      = some ⟨version, c.round + 1, c.id⟩ := by
  obtain ⟨id, peers, cb, round⟩ := c
  cases peers with
  | nil => exact absurd rfl hpeers
  | cons elt rest =>
    simp only [Client.choose_loop, for_each_parallel, Client.propose_task,
      Prog.bind, Prog.observe, Req.event, proposals_of, List.filterMap_cons, Event.proposal,
      List.head?_cons]

/-- C40 (retries issue strictly greater proposals): take the loop of `choose`
at any iteration, with any values of its locals and whatever the peers
answer, and let `p = (version, round + 1, id)` be the proposal of the attempt
that this iteration makes. (1) When the propose phase ends on an unconfirmed
`Accepted` of a proposal greater than `p` and the headcount passes, the
requests of the call from there on are those of the propose phase followed by
those of the loop started over with the version and the round of that
proposal, which issues `(version', round' + 1, id)`, strictly greater than
`p`. (2) When the accept phase ends on a conflict with a minimum `m`, then
`p < m`, and the requests after the two phases are a draw, a sleep when the
coordinator backs off, and those of the loop started over with the version
and the round of `m`, which issues `(m.version, m.round + 1, id)`, strictly
greater than `p`. In both cases every proposal issued by the retry and by the
retries after it is strictly greater than `p`. (3) Every proposal issued
from this iteration on is `p` or strictly greater than `p`, and with a peer
list that is not empty the first one is `p`. -/
theorem retries_strictly_greater {σ : Type} (env : {β : Type} → Req β → σ → β × σ)
    (q : Quorum) (value : Value) (fuel : Nat) (c : Client) (version backoff : Int)
    (previous : Option Accepted) (s : σ) :
    (∀ (a : Accepted) (reached : Int),
      ((for_each_parallel (Client.propose_task q ⟨version, c.round + 1, c.id⟩)
        c.peers (previous, 0)).finish env s).1 = .ok (some a, reached) →
      a.confirmed = false →
      Client._check_headcount q reached false = .ok () →
      Proposal.lt ⟨version, c.round + 1, c.id⟩ a.proposal = true →
      (Client.choose_loop q value (fuel + 1) c version backoff previous).observe env s =
          (for_each_parallel (Client.propose_task q ⟨version, c.round + 1, c.id⟩)
            c.peers (previous, 0)).observe env s ++
          (Client.choose_loop q value fuel { c with round := a.proposal.round }
            a.proposal.version backoff (some a)).observe env
            ((for_each_parallel (Client.propose_task q ⟨version, c.round + 1, c.id⟩)
              c.peers (previous, 0)).finish env s).2 ∧
        Proposal.lt ⟨version, c.round + 1, c.id⟩
          ⟨a.proposal.version, a.proposal.round + 1, c.id⟩ = true ∧
        ∀ x ∈ proposals_of
            ((Client.choose_loop q value fuel { c with round := a.proposal.round }
              a.proposal.version backoff (some a)).observe env
              ((for_each_parallel (Client.propose_task q ⟨version, c.round + 1, c.id⟩)
                c.peers (previous, 0)).finish env s).2),
          Proposal.lt ⟨version, c.round + 1, c.id⟩ x = true) ∧
    (∀ (prev : Option Accepted) (reached : Int) (m : Proposal) (count : Int),
      ((for_each_parallel (Client.propose_task q ⟨version, c.round + 1, c.id⟩)
        c.peers (previous, 0)).finish env s).1 = .ok (prev, reached) →
      (∀ a, prev = some a →
        a.confirmed = false ∧
          Proposal.lt ⟨version, c.round + 1, c.id⟩ a.proposal = false) →
      Client._check_headcount q reached false = .ok () →
      ((for_each_parallel
          (Client.accept_task q ⟨version, c.round + 1, c.id⟩ (Client.sent value prev))
          c.peers (none, 0)).finish env
          ((for_each_parallel (Client.propose_task q ⟨version, c.round + 1, c.id⟩)
            c.peers (previous, 0)).finish env s).2).1 = .ok (some m, count) →
      Proposal.lt ⟨version, c.round + 1, c.id⟩ m = true ∧
        Proposal.lt ⟨version, c.round + 1, c.id⟩ ⟨m.version, m.round + 1, c.id⟩ = true ∧
        ∃ (rn : Nat) (s2 : σ),
          (Client.choose_loop q value (fuel + 1) c version backoff previous).observe env s =
              (for_each_parallel (Client.propose_task q ⟨version, c.round + 1, c.id⟩)
                c.peers (previous, 0)).observe env s ++
              ((for_each_parallel
                  (Client.accept_task q ⟨version, c.round + 1, c.id⟩
                    (Client.sent value prev))
                  c.peers (none, 0)).observe env
                  ((for_each_parallel (Client.propose_task q ⟨version, c.round + 1, c.id⟩)
                    c.peers (previous, 0)).finish env s).2 ++
                (Event.random 1 8 rn ::
                  (if c.conflict_backoff then [Event.sleep (100 * rn * backoff)] else [])) ++
                (Client.choose_loop q value fuel { c with round := m.round } m.version
                  (min (backoff * 2) 64) prev).observe env s2) ∧
            ∀ x ∈ proposals_of
                ((Client.choose_loop q value fuel { c with round := m.round } m.version
                  (min (backoff * 2) 64) prev).observe env s2),
              Proposal.lt ⟨version, c.round + 1, c.id⟩ x = true) ∧
    (∀ x ∈ proposals_of
        ((Client.choose_loop q value (fuel + 1) c version backoff previous).observe env s),
      x = ⟨version, c.round + 1, c.id⟩ ∨
        Proposal.lt ⟨version, c.round + 1, c.id⟩ x = true) ∧
    (c.peers ≠ [] →
      (proposals_of
        ((Client.choose_loop q value (fuel + 1) c version backoff previous).observe
          env s)).head? = some ⟨version, c.round + 1, c.id⟩) := by
  have hlater : ∀ (m : Proposal) (b2 : Int) (pv2 : Option Accepted) (s2 : σ),
      Proposal.lt ⟨version, c.round + 1, c.id⟩ m = true →
      ∀ x ∈ proposals_of
          ((Client.choose_loop q value fuel { c with round := m.round } m.version b2
            pv2).observe env s2),
        Proposal.lt ⟨version, c.round + 1, c.id⟩ x = true := by
    intro m b2 pv2 s2 hlt x hx
    have hcl := (choose_loop_climbs env q value fuel { c with round := m.round } m.version b2
      pv2 s2).2 x hx
    exact Proposal.lt_of_lt_of_precedes (Proposal.lt_retry c.id hlt) hcl.1 hcl.2
  refine ⟨?_, ?_, ?_, ?_⟩
  · intro a reached hphase hconf hcount hlt
    exact ⟨choose_loop_restart env q value fuel c version backoff previous s a reached hphase
        hconf hcount hlt,
      Proposal.lt_retry c.id hlt, hlater a.proposal backoff (some a) _ hlt⟩
  · intro prev reached m count hphase hprev hcount hacc
    have hlt := accept_phase_conflict_env env q ⟨version, c.round + 1, c.id⟩
      (Client.sent value prev) c.peers 0 count m _ hacc
    refine ⟨hlt, Proposal.lt_retry c.id hlt, ?_⟩
    obtain ⟨rn, s2, hobs⟩ := choose_accept_conflict env q value (Client.choose_loop q value fuel)
      { c with round := c.round + 1 } ⟨version, c.round + 1, c.id⟩ backoff prev _ m count hacc
    refine ⟨rn, s2, ?_, hlater m _ prev s2 hlt⟩
    rw [choose_loop_accepts env q value fuel c version backoff previous s prev reached hphase
      hprev hcount, hobs]
  · intro x hx
    have hcl := (choose_loop_climbs env q value (fuel + 1) c version backoff previous s).2 x hx
    exact Proposal.eq_or_lt_of_precedes hcl.1 hcl.2
  · exact choose_loop_first env q value fuel c version backoff previous s

set_option maxRecDepth 16000 in
/-- The theorem `retries_strictly_greater` at work. Coordinator 3 calls
`choose(1, 1)` while replica 11 holds the data `2` accepted under `2:1:1`:
its propose phase under `1:1:3` ends on that entry and the retry issues
`2:2:3`. Coordinator 1, its round counter at 2, calls `choose(2, 5)` while
replica 11 has promised `3:1:2`: its `accept` under `2:3:1` conflicts and the
retry issues `3:2:1`. -/
theorem retries_strictly_greater_witness :
    ((for_each_parallel
        (Client.propose_task (Client.quorum (make_peers true true true)) ⟨1, 1, 3⟩)
        (make_peers true true true) (none, 0)).finish exec world_midway).1
        = .ok (some ⟨⟨2, 1, 1⟩, .data 2, false⟩, 3) ∧
      Proposal.lt ⟨1, 1, 3⟩ ⟨2, 2, 3⟩ = true ∧
      Proposal.lt ⟨2, 3, 1⟩ ⟨3, 1, 2⟩ = true ∧
      Proposal.lt ⟨2, 3, 1⟩ ⟨3, 2, 1⟩ = true :=
  ⟨by decide,
    ((retries_strictly_greater exec (Client.quorum (make_peers true true true)) (.data 1) 1
      (Client.new 3 (make_peers true true true)) 1 1 none world_midway).1
      ⟨⟨2, 1, 1⟩, .data 2, false⟩ 3 (by decide) rfl (by decide) (by decide)).2.1,
    ((retries_strictly_greater exec (Client.quorum (make_peers true true true)) (.data 5) 1
      rounds_reused.1.1 2 1 none rounds_world).2.1 none 3 ⟨3, 1, 2⟩ 1
      (by decide) (fun a h => by cases h) (by decide) (by decide)).1,
    ((retries_strictly_greater exec (Client.quorum (make_peers true true true)) (.data 5) 1
      rounds_reused.1.1 2 1 none rounds_world).2.1 none 3 ⟨3, 1, 2⟩ 1
      (by decide) (fun a h => by cases h) (by decide) (by decide)).2.1⟩

/-! ## The propose phase of `choose`: short-circuit and adoption (C33, C34) -/

set_option maxRecDepth 16000 in
/-- C33, the claim as stated fails: replica 11 holds the quorum change
`{11, 12}` confirmed under `1:2:1` and replica 12 was created with the quorum
`{11, 12}`. Coordinator 2, whose peer list is 11, 12 and an unavailable 13,
calls `choose(0, 5)`: replica 11 replies to its `propose` with that confirmed
`Accepted`, replica 12 raises `WrongQuorum`, and `choose` raises it too
instead of returning a confirmed `Accepted`. -/
theorem choose_raises_after_confirmed_reply :
    Client.quorum (make_peers true true false) = {11, 12, 13} ∧
      (exec (.propose ⟨11, .replica 0⟩ (Client.quorum (make_peers true true false))
          ⟨0, 1, 2⟩) extend_changed.2).1
        = .ok (some ⟨⟨1, 2, 1⟩, .quorum {11, 12}, true⟩) ∧
      ((for_each_parallel
          (Client.propose_task (Client.quorum (make_peers true true false)) ⟨0, 1, 2⟩)
          (make_peers true true false) (none, 0)).finish exec extend_changed.2).1
        = .error (.WrongQuorum {11, 12} {11, 12, 13}) ∧
      (((Client.new 2 (make_peers true true false)).choose 1 0 (.data 5)).run
          extend_changed.2).1.2
        = .raised (.WrongQuorum {11, 12} (Client.quorum (make_peers true true false))) := by
  decide

/-- C33, amended: at every iteration of the loop of `choose`, for every list
of peers and whatever they answer, if the propose phase comes to its end (no
peer raises anything but `Unavailable`) and the `Accepted` it retains, the one
of the highest proposal among the replies and the `previous` of the iteration
before, is confirmed, then `choose` returns that `Accepted` at once: the
requests of the iteration are those of its propose phase, all of them
`propose`, and no `accept` or `confirm` follows. -/
theorem short_circuit_on_confirmed_previous {σ : Type}
    (env : {β : Type} → Req β → σ → β × σ)
    (q : Quorum) (value : Value) (fuel : Nat) (c : Client) (version backoff : Int)
    (previous : Option Accepted) (s : σ) (a : Accepted) (reached : Int)
    (hphase : ((for_each_parallel (Client.propose_task q ⟨version, c.round + 1, c.id⟩)
      c.peers (previous, 0)).finish env s).1 = .ok (some a, reached))
    (hconf : a.confirmed = true) :
    ((Client.choose_loop q value (fuel + 1) c version backoff previous).finish env s).1.2
        = .returned (some a) ∧
      (Client.choose_loop q value (fuel + 1) c version backoff previous).observe env s =
        (for_each_parallel (Client.propose_task q ⟨version, c.round + 1, c.id⟩)
          c.peers (previous, 0)).observe env s ∧
      ∀ e ∈ (Client.choose_loop q value (fuel + 1) c version backoff previous).observe env s,
        e.is_propose = true := by
  obtain ⟨hobs, hfin⟩ := choose_loop_confirmed env q value fuel c version backoff previous s a
    reached hphase hconf
  refine ⟨by rw [hfin], hobs, ?_⟩
  rw [hobs]
  exact propose_phase_is_propose env q _ c.peers (previous, 0) s

set_option maxRecDepth 16000 in
/-- The theorem `short_circuit_on_confirmed_previous` at work: the replicas
11, 12, 13 hold the data `1` confirmed under `1:2:1`, and coordinator 2, alone
with them, calls `choose(1, 9)`. -/
theorem short_circuit_on_confirmed_previous_witness :
    ((for_each_parallel
        (Client.propose_task (Client.quorum (make_peers true true true)) ⟨1, 1, 2⟩)
        (make_peers true true true) (none, 0)).finish exec rounds_reused.2).1
        = .ok (some ⟨⟨1, 2, 1⟩, .data 1, true⟩, 3) ∧
      ((Client.choose_loop (Client.quorum (make_peers true true true)) (.data 9) (0 + 1)
        (Client.new 2 (make_peers true true true)) 1 1 none).finish exec rounds_reused.2).1.2
        = .returned (some ⟨⟨1, 2, 1⟩, .data 1, true⟩) :=
  ⟨by decide,
    (short_circuit_on_confirmed_previous exec (Client.quorum (make_peers true true true))
      (.data 9) 0 (Client.new 2 (make_peers true true true)) 1 1 none rounds_reused.2
      ⟨⟨1, 2, 1⟩, .data 1, true⟩ 3 (by decide) rfl).1⟩

/-- C34 (value adoption): at every iteration of the loop of `choose`, whatever
the peers answer, let `p = (version, round + 1, id)` be its proposal and
suppose that the propose phase ends with `previous = a`, not confirmed, and
that the headcount passes; the requests of the propose phase are all
`propose`. If `p < a.proposal`, these are all the requests of the attempt (no
`accept` is sent) and what follows is the loop started over with the version
and the round of `a.proposal`, whose first proposal, with a peer list that is
not empty, is `(a.proposal.version, a.proposal.round + 1, id)`. Otherwise the
accept phase follows at once, and its requests are `accept` of `p` with the
value `a.value`, not the caller's, sent to the peers in the order of the
list, one each: to every peer when the phase ends without a conflict and
without an error. -/
theorem value_adoption {σ : Type} (env : {β : Type} → Req β → σ → β × σ)
    (q : Quorum) (value : Value) (fuel : Nat) (c : Client) (version backoff : Int)
    (previous : Option Accepted) (s : σ) (a : Accepted) (reached : Int)
    (hphase : ((for_each_parallel (Client.propose_task q ⟨version, c.round + 1, c.id⟩)
      c.peers (previous, 0)).finish env s).1 = .ok (some a, reached))
    (hconf : a.confirmed = false)
    (hcount : Client._check_headcount q reached false = .ok ()) :
    (∀ e ∈ (for_each_parallel (Client.propose_task q ⟨version, c.round + 1, c.id⟩)
        c.peers (previous, 0)).observe env s, e.is_propose = true) ∧
    (Proposal.lt ⟨version, c.round + 1, c.id⟩ a.proposal = true →
      (Client.choose_loop q value (fuel + 2) c version backoff previous).observe env s =
          (for_each_parallel (Client.propose_task q ⟨version, c.round + 1, c.id⟩)
            c.peers (previous, 0)).observe env s ++
          (Client.choose_loop q value (fuel + 1) { c with round := a.proposal.round }
            a.proposal.version backoff (some a)).observe env
            ((for_each_parallel (Client.propose_task q ⟨version, c.round + 1, c.id⟩)
              c.peers (previous, 0)).finish env s).2 ∧
        (c.peers ≠ [] →
          (proposals_of
            ((Client.choose_loop q value (fuel + 1) { c with round := a.proposal.round }
              a.proposal.version backoff (some a)).observe env
              ((for_each_parallel (Client.propose_task q ⟨version, c.round + 1, c.id⟩)
                c.peers (previous, 0)).finish env s).2)).head?
            = some ⟨a.proposal.version, a.proposal.round + 1, c.id⟩)) ∧
    (Proposal.lt ⟨version, c.round + 1, c.id⟩ a.proposal = false →
      (∃ rest,
        (Client.choose_loop q value (fuel + 1) c version backoff previous).observe env s =
          (for_each_parallel (Client.propose_task q ⟨version, c.round + 1, c.id⟩)
            c.peers (previous, 0)).observe env s ++
          ((for_each_parallel
              (Client.accept_task q ⟨version, c.round + 1, c.id⟩ a.value)
              c.peers (none, 0)).observe env
              ((for_each_parallel (Client.propose_task q ⟨version, c.round + 1, c.id⟩)
                c.peers (previous, 0)).finish env s).2 ++ rest)) ∧
        List.Forall₂
          (fun e peer =>
            ∃ answer, e = Event.accept peer q ⟨version, c.round + 1, c.id⟩ a.value answer)
          ((for_each_parallel
            (Client.accept_task q ⟨version, c.round + 1, c.id⟩ a.value)
            c.peers (none, 0)).observe env
            ((for_each_parallel (Client.propose_task q ⟨version, c.round + 1, c.id⟩)
              c.peers (previous, 0)).finish env s).2)
          (c.peers.take
            ((for_each_parallel
              (Client.accept_task q ⟨version, c.round + 1, c.id⟩ a.value)
              c.peers (none, 0)).observe env
              ((for_each_parallel (Client.propose_task q ⟨version, c.round + 1, c.id⟩)
                c.peers (previous, 0)).finish env s).2).length) ∧
        (∀ count,
          ((for_each_parallel
            (Client.accept_task q ⟨version, c.round + 1, c.id⟩ a.value)
            c.peers (none, 0)).finish env
            ((for_each_parallel (Client.propose_task q ⟨version, c.round + 1, c.id⟩)
              c.peers (previous, 0)).finish env s).2).1 = .ok (none, count) →
          ((for_each_parallel
            (Client.accept_task q ⟨version, c.round + 1, c.id⟩ a.value)
            c.peers (none, 0)).observe env
            ((for_each_parallel (Client.propose_task q ⟨version, c.round + 1, c.id⟩)
              c.peers (previous, 0)).finish env s).2).length = c.peers.length)) := by
  refine ⟨propose_phase_is_propose env q _ c.peers (previous, 0) s, ?_, ?_⟩
  · intro hlt
    refine ⟨choose_loop_restart env q value (fuel + 1) c version backoff previous s a reached
      hphase hconf hcount hlt, ?_⟩
    intro hpeers
    exact choose_loop_first env q value fuel { c with round := a.proposal.round }
      a.proposal.version backoff (some a) _ hpeers
  · intro hlt
    have hreq := accept_phase_requests env q ⟨version, c.round + 1, c.id⟩ a.value c.peers
      (none, 0)
      ((for_each_parallel (Client.propose_task q ⟨version, c.round + 1, c.id⟩)
        c.peers (previous, 0)).finish env s).2
    refine ⟨?_, hreq.1, hreq.2⟩
    rw [choose_loop_accepts env q value fuel c version backoff previous s (some a) reached
      hphase (fun b hb => by cases hb; exact ⟨hconf, hlt⟩) hcount]
    unfold Client.choose_accept
    rw [Prog.observe_bind]
    exact ⟨_, rfl⟩

set_option maxRecDepth 16000 in
/-- The theorem `value_adoption` at work on the replicas of the test
`versions_partial`, where replica 11 holds the data `2` accepted under
`2:1:1`: coordinator 3 calling `choose(1, 1)` starts over and issues `2:2:3`;
coordinator 3 calling `choose(2, 9)` sends an `accept` to each of its three
peers. -/
theorem value_adoption_witness :
    (proposals_of
        ((Client.choose_loop (Client.quorum (make_peers true true true)) (.data 1) (0 + 1)
          { Client.new 3 (make_peers true true true) with round := 1 } 2 1
          (some ⟨⟨2, 1, 1⟩, .data 2, false⟩)).observe exec
          ((for_each_parallel
            (Client.propose_task (Client.quorum (make_peers true true true)) ⟨1, 1, 3⟩)
            (make_peers true true true) (none, 0)).finish exec world_midway).2)).head?
        = some ⟨2, 2, 3⟩ ∧
      ((for_each_parallel
        (Client.accept_task (Client.quorum (make_peers true true true)) ⟨2, 1, 3⟩ (.data 2))
        (make_peers true true true) (none, 0)).observe exec
        ((for_each_parallel
          (Client.propose_task (Client.quorum (make_peers true true true)) ⟨2, 1, 3⟩)
          (make_peers true true true) (none, 0)).finish exec world_midway).2).length = 3 :=
  ⟨((value_adoption exec (Client.quorum (make_peers true true true)) (.data 1) 0
      (Client.new 3 (make_peers true true true)) 1 1 none world_midway
      ⟨⟨2, 1, 1⟩, .data 2, false⟩ 3 (by decide) rfl (by decide)).2.1 (by decide)).2
      (by decide),
    (value_adoption exec (Client.quorum (make_peers true true true)) (.data 9) 0
      (Client.new 3 (make_peers true true true)) 2 1 none world_midway
      ⟨⟨2, 1, 1⟩, .data 2, false⟩ 3 (by decide) rfl (by decide)).2.2 (by decide) |>.2.2 3
      (by decide)⟩

end Athena
